import Mathlib

/-!
# Ratchet tree of `bifurcation/mls`: a shallow embedding

The development follows `ratchet-tree.go`.  Index arithmetic (`tree-math.go`), the
key types and the cipher-suite backend are not among the sources read here; they
are modelled from the design specification and marked as such.

Conventions of the embedding:

* node and leaf indices are natural numbers (the specification fixes no width);
* Go slices are lists, a `nil` slice being the empty list;
* a Go pointer that may be `nil` is an `Option`;
* a run-time panic (index out of range, `nil` dereference, explicit `panic`) is a
  distinguished outcome, never an error value;
* a method that mutates the tree in place returns the tree as the call left it,
  also when the call returns an error.
-/

namespace MLS

abbrev Bytes := List Nat

/-! ## Tree math -/

/-- Modelled from the spec: `toNodeIndex(l) = 2·l` (tree-math.go is not among the sources). -/
def toNodeIndex (l : Nat) : Nat := 2 * l

/-- Modelled from the spec: `toLeafIndex(n)` is defined only for even `n` and fails
otherwise (tree-math.go is not among the sources).  `none` is the failure. -/
def toLeafIndex (n : Nat) : Option Nat :=
  if n % 2 = 0 then some (n / 2) else none

/-- Modelled from the spec: `nodeWidth(n) = max(0, 2n − 1)`, width 0 for `n = 0`
(tree-math.go is not among the sources). -/
def nodeWidth (n : Nat) : Nat := 2 * n - 1

/-- Modelled from the spec: `leafWidth(w) = (w+1)/2` (tree-math.go is not among the sources). -/
def leafWidth (w : Nat) : Nat := (w + 1) / 2

/-- Halves `x` until it is below 2, counting the halvings, at most `fuel` of them. -/
def log2Aux : Nat → Nat → Nat
  | 0, _ => 0
  | fuel + 1, x => if 2 ≤ x then log2Aux fuel (x / 2) + 1 else 0

/-- Modelled from the spec: `log2(x)` is the floor base-two logarithm, `log2(0) = 0`
(tree-math.go is not among the sources).  Fewer than `x` halvings bring `x` below 2. -/
def log2 (x : Nat) : Nat := log2Aux x x

/-- Counts the trailing one bits of `x`, looking at no more than `fuel` bits. -/
def levelAux : Nat → Nat → Nat
  | 0, _ => 0
  | fuel + 1, x => if x % 2 = 1 then levelAux fuel (x / 2) + 1 else 0

/-- Modelled from the spec: `level(n)` is the number of trailing 1-bits of `n`; leaves
have level 0 (tree-math.go is not among the sources).  A number `x` has fewer than
`x + 1` bits, so the bound on the bits looked at never cuts the count short. -/
def level (x : Nat) : Nat := levelAux (x + 1) x

/-- Modelled from the spec: `root(n)` is `(1 << log2(n−1)+1) − 1` for `n ≥ 1`, and 0 for
`n = 0` and `n = 1` (tree-math.go is not among the sources). -/
def root (n : Nat) : Nat :=
  if n ≤ 1 then 0 else (1 <<< (log2 (n - 1) + 1)) - 1

/-- Modelled from the spec: `left(n)` returns `n` for a leaf, otherwise
`n XOR (1 << (level(n)−1))` (tree-math.go is not among the sources). -/
def left (x : Nat) : Nat :=
  if level x = 0 then x else x ^^^ (1 <<< (level x - 1))

/-- The walk of `right`: while the candidate is outside the node range, go to its left
child.  The candidate is a leaf after fewer than `fuel = level x` steps and `left` is
the identity on leaves, so a walk that exhausts its fuel is one that would never end;
the candidate is then returned as it is. -/
def rightLoop (w : Nat) : Nat → Nat → Nat
  | 0, r => r
  | fuel + 1, r => if r ≥ w then rightLoop w fuel (left r) else r

/-- Modelled from the spec: `right(n, size)` returns `n` for a leaf; otherwise the deepest
right descendant that still falls within `nodeWidth(size)`, computed by starting from the
naive right child and walking to its left child until the result is within the valid
range (tree-math.go is not among the sources). -/
def right (x n : Nat) : Nat :=
  if level x = 0 then x
  else rightLoop (nodeWidth n) (level x) (x ^^^ (3 <<< (level x - 1)))

/-- One step towards the root in the complete tree: set bit `level x`, and clear the
bit above it. -/
def parentStep (x : Nat) : Nat :=
  let k := level x
  let b := (x >>> (k + 1)) &&& 1
  (x ||| (1 <<< k)) ^^^ (b <<< (k + 1))

/-- The walk of `parent`: while the candidate is outside the node range, step up again. -/
def parentLoop (w : Nat) : Nat → Nat → Nat
  | 0, p => p
  | fuel + 1, p => if p ≥ w then parentLoop w fuel (parentStep p) else p

/-- Modelled from the spec: `parent(n, size)` flips the lowest level-boundary bit above
`n`, clamped by the left-balanced convention so that `parent(root, _) = root`
(tree-math.go is not among the sources).  Every step raises the level, and a node of
the range has level at most `log2 (nodeWidth size)`, which bounds the walk. -/
def parent (x n : Nat) : Nat :=
  if x = root n then x
  else parentLoop (nodeWidth n) (nodeWidth n) (parentStep x)

/-- Modelled from the spec: `sibling(n, size) = left(parent) if n > parent else
right(parent)`; the root, its own parent, is its own sibling
(tree-math.go is not among the sources). -/
def sibling (x n : Nat) : Nat :=
  let p := parent x n
  if x < p then right p n
  else if x > p then left p
  else p

/-- The walk of `dirpath` from the node `p` up to the root. -/
def dirpathLoop (n : Nat) : Nat → Nat → List Nat
  | 0, p => [p]
  | fuel + 1, p => if p = root n then [p] else p :: dirpathLoop n fuel (parent p n)

/-- Modelled from the spec: `dirpath(n, size)` is the sequence from `parent(n)` up to and
including `root(size)`; empty when `n == root` (tree-math.go is not among the sources). -/
def dirpath (x n : Nat) : List Nat :=
  if x = root n then [] else dirpathLoop n (nodeWidth n) (parent x n)

/-- Modelled from the spec: `copath(n, size)` is the sibling of each node on
`[n] ++ dirpath(n)` except the root; same length as `dirpath(n)`
(tree-math.go is not among the sources). -/
def copath (x n : Nat) : List Nat :=
  ((x :: dirpath x n).take (dirpath x n).length).map (fun y => sibling y n)

/-! ### Coordinates in the complete tree, used in the proofs -/

/-- The node at level `k` and position `m` of the complete tree: `k` trailing one
bits, a zero bit, and the bits of `m` above it. -/
def nodeAt (m k : Nat) : Nat := 2 ^ (k + 1) * m + (2 ^ k - 1)

/-- The level of the root of a tree of `n` leaves. -/
def rootLevel (n : Nat) : Nat := if n ≤ 1 then 0 else log2 (n - 1) + 1

/-! ## Keys, errors and the cipher suite -/

/-- Modelled from the spec: an HPKE public key is a byte string; the declaration is
not among the sources (`dump` and the tests read its `Data`). -/
structure HPKEPublicKey where
  Data : Bytes
deriving DecidableEq, Repr

/-- Modelled from the spec: `HPKEPublicKey.Equals`, equality of the key bytes. -/
def HPKEPublicKey.Equals (a b : HPKEPublicKey) : Bool := decide (a.Data = b.Data)

/-- Modelled from the spec: an HPKE private key carries its public key (the source
reads `priv.PublicKey`); the declaration is not among the sources. -/
structure HPKEPrivateKey where
  Data : Bytes
  PublicKey : HPKEPublicKey
deriving DecidableEq, Repr

/-- Modelled from the spec: an HPKE ciphertext, kept as its bytes; the declaration is
not among the sources. -/
abbrev HPKECiphertext := Bytes

/-- The error values of `ratchet-tree.go`, one constructor for each message;
`backend` wraps an error handed up from HPKE and `marshal` one handed up from the
encoder, each with the code the external function gave. -/
inductive Err where
  | updateUnoccupied
  | privateKeyForBlank
  | implantInvalidNode (curr : Nat)
  | incorrectSecret
  | malformedCopath
  | malformedRatchetNode
  | decryptionFailure (v : Nat)
  | noPrivateKey
  | malformedDirectPath
  | leafHashOnNonLeaf
  | parentHashOnNonParent
  | backend (code : Nat)
  | marshal (code : Nat)
deriving DecidableEq, Repr

/-- The ways a call can end: it returns (`done`), it panics, or it never returns.
`hang` is what a loop of the embedding yields when its fuel is spent. -/
inductive Run (α : Type) where
  | done (a : α)
  | panic
  | hang
deriving DecidableEq, Repr

/-- Modelled from the spec: the leaf payload, with the fields the design lists
(identity credential, supported version and suite, HPKE public init key, extensions,
signature) and the held private init key, which is never serialized.  The declaration
is not among the sources. -/
structure KeyPackage where
  SupportedVersion : Nat
  CipherSuite : Nat
  InitKey : HPKEPublicKey
  Credential : Bytes
  Extensions : Bytes
  Signature : Bytes
  privateKey : Option HPKEPrivateKey
deriving DecidableEq, Repr

/-- Modelled from the spec: `KeyPackage.Equals` is structural equality of the
serialized form, which leaves the private key out. -/
def KeyPackage.Equals (a b : KeyPackage) : Bool :=
  decide (a.SupportedVersion = b.SupportedVersion ∧ a.CipherSuite = b.CipherSuite ∧
    a.InitKey = b.InitKey ∧ a.Credential = b.Credential ∧ a.Extensions = b.Extensions ∧
    a.Signature = b.Signature)

/-- Modelled from the spec: `KeyPackage.Clone` is a deep copy. -/
def KeyPackage.Clone (kp : KeyPackage) : KeyPackage := kp

/-- Modelled from the spec: `KeyPackage.SetPrivateKey` attaches the private key. -/
def KeyPackage.SetPrivateKey (kp : KeyPackage) (priv : HPKEPrivateKey) : KeyPackage :=
  { kp with privateKey := some priv }

/-! ## ParentNode -/

structure ParentNode where
  PublicKey : HPKEPublicKey
  UnmergedLeaves : List Nat
  ParentHash : Bytes
  PrivateKey : Option HPKEPrivateKey
deriving DecidableEq, Repr

def ParentNode.Clone (n : ParentNode) : ParentNode :=
  { PublicKey := n.PublicKey, UnmergedLeaves := n.UnmergedLeaves,
    ParentHash := n.ParentHash, PrivateKey := n.PrivateKey }

def ParentNode.AddUnmerged (n : ParentNode) (l : Nat) : ParentNode :=
  { n with UnmergedLeaves := n.UnmergedLeaves ++ [l] }

def ParentNode.SetPublicKey (n : ParentNode) (pub : HPKEPublicKey) : ParentNode :=
  { n with PublicKey := pub, UnmergedLeaves := [] }

def ParentNode.SetPrivateKey (n : ParentNode) (priv : HPKEPrivateKey) : ParentNode :=
  ({ n with PrivateKey := some priv } : ParentNode).SetPublicKey priv.PublicKey

/-! ## Node -/

inductive NodeType where
  | NodeTypeLeaf
  | NodeTypeParent
deriving DecidableEq, Repr

/-- The struct `Node`.  Its `Hash` field is `none` for a `nil` slice and `some bs` for a
slice that is not `nil`, also an empty one: a node is made with a `nil` `Hash`, no
method writes the field, and `reflect.DeepEqual` tells `nil` from an empty slice. -/
structure Node where
  Leaf : Option KeyPackage
  Parent : Option ParentNode
  Hash : Option Bytes
deriving DecidableEq, Repr

/-- The kind of a node; `none` is the panic "Malformed node". -/
def Node.Type (n : Node) : Option NodeType :=
  match n.Leaf, n.Parent with
  | some _, _ => some .NodeTypeLeaf
  | none, some _ => some .NodeTypeParent
  | none, none => none

/-- The public key of a node; `none` is the panic of `Type`. -/
def Node.PublicKey (n : Node) : Option HPKEPublicKey :=
  match n.Leaf, n.Parent with
  | some kp, _ => some kp.InitKey
  | none, some p => some p.PublicKey
  | none, none => none

/-- Attaches a private key to the payload; `none` is the panic of `Type`. -/
def Node.SetPrivateKey (n : Node) (priv : HPKEPrivateKey) : Option Node :=
  match n.Leaf, n.Parent with
  | some kp, _ => some { n with Leaf := some (kp.SetPrivateKey priv) }
  | none, some p => some { n with Parent := some (p.SetPrivateKey priv) }
  | none, none => none

/-- The held private key: `some none` is the source's `(HPKEPrivateKey{}, false)`,
`some (some priv)` its `(priv, true)`, and `none` the panic of `Type`. -/
def Node.PrivateKey (n : Node) : Option (Option HPKEPrivateKey) :=
  match n.Leaf, n.Parent with
  | some kp, _ => some kp.privateKey
  | none, some p => some p.PrivateKey
  | none, none => none

/-- A copy of the payload; the node's own `Hash` field is not copied.  `none` is the
panic of `Type`. -/
def Node.Clone (n : Node) : Option Node :=
  match n.Leaf, n.Parent with
  | some kp, _ => some { Leaf := some kp.Clone, Parent := none, Hash := none }
  | none, some p => some { Leaf := none, Parent := some p.Clone, Hash := none }
  | none, none => none

/-! ## Hash inputs and the cipher suite -/

structure LeafNodeHashInput where
  LeafIndex : Nat
  KeyPackage : Option KeyPackage
deriving DecidableEq, Repr

structure ParentNodeHashInput where
  NodeIndex : Nat
  ParentNode : Option ParentNode
  LeftHash : Bytes
  RightHash : Bytes
deriving DecidableEq, Repr

/-- The two values that `OptionalNode.setHash` hands to the encoder. -/
inductive HashInput where
  | leaf (input : LeafNodeHashInput)
  | parent (input : ParentNodeHashInput)
deriving DecidableEq, Repr

/-- Modelled from the spec: the suite façade over the externally provided primitives
(`hpke().Derive`, `hpke().Encrypt`, `hpke().Decrypt`, `hkdfExpandLabel`, `digest`,
`constants().SecretSize`); the declaration is not among the sources.  `Encrypt` is a
function of its arguments, that is, of one fixed tape of encryption randomness.
`Marshal` is the external encoder `syntax.Marshal` on the two hash inputs, carried here
with the other external functions.  An external function that fails gives an error
code. -/
structure CipherSuite where
  Derive : Bytes → Except Nat HPKEPrivateKey
  Encrypt : HPKEPublicKey → Bytes → Bytes → Except Nat HPKECiphertext
  Decrypt : HPKEPrivateKey → Bytes → HPKECiphertext → Except Nat Bytes
  hkdfExpandLabel : Bytes → String → Bytes → Nat → Bytes
  digest : Bytes → Bytes
  SecretSize : Nat
  Marshal : HashInput → Except Nat Bytes

def ParentNode.SetSecret (n : ParentNode) (suite : CipherSuite) (pathSecret : Bytes) :
    Except Err ParentNode :=
  match suite.Derive pathSecret with
  | .error e => .error (.backend e)
  | .ok priv => .ok (n.SetPrivateKey priv)

/-! ## OptionalNode -/

structure OptionalNode where
  Node : Option Node
  Hash : Bytes
deriving DecidableEq, Repr

def newLeafNode (keyPkg : KeyPackage) : OptionalNode :=
  { Node := some { Leaf := some keyPkg, Parent := none, Hash := none }, Hash := [] }

def newParentNode (suite : CipherSuite) (pathSecret : Bytes) : Except Err OptionalNode :=
  let parent : ParentNode :=
    { PublicKey := { Data := [] }, UnmergedLeaves := [], ParentHash := [], PrivateKey := none }
  match parent.SetSecret suite pathSecret with
  | .error e => .error e
  | .ok p => .ok { Node := some { Leaf := none, Parent := some p, Hash := none }, Hash := [] }

/-- A copy of the slot; `none` is the panic of `Node.Clone` on a malformed node. -/
def OptionalNode.Clone (n : OptionalNode) : Option OptionalNode :=
  match n.Node with
  | none => some { Node := none, Hash := n.Hash }
  | some nd =>
    match nd.Clone with
    | none => none
    | some c => some { Node := some c, Hash := n.Hash }

def OptionalNode.Blank (n : OptionalNode) : Bool := n.Node.isNone

def OptionalNode.SetToBlank (n : OptionalNode) : OptionalNode := { n with Node := none }

/-- Sets the public key of a parent slot, occupying it first when it is blank; `none`
is the panic "MergePublic on leaf node" (or that of `Type`). -/
def OptionalNode.MergePublic (n : OptionalNode) (pub : HPKEPublicKey) : Option OptionalNode :=
  match n.Node with
  | none =>
    let p : ParentNode :=
      { PublicKey := { Data := [] }, UnmergedLeaves := [], ParentHash := [], PrivateKey := none }
    some { n with Node := some { Leaf := none, Parent := some (p.SetPublicKey pub), Hash := none } }
  | some nd =>
    match nd.Leaf, nd.Parent with
    | none, some p => some { n with Node := some { nd with Parent := some (p.SetPublicKey pub) } }
    | _, _ => none

/-- Stores the digest of the encoded input; the slot is untouched when encoding fails. -/
def OptionalNode.setHash (n : OptionalNode) (suite : CipherSuite) (input : HashInput) :
    OptionalNode × Option Err :=
  match suite.Marshal input with
  | .error e => (n, some (.marshal e))
  | .ok data => ({ n with Hash := suite.digest data }, none)

/-- The leaf hash of a slot; `none` is the panic of `Type` on a malformed node. -/
def OptionalNode.SetLeafHash (n : OptionalNode) (suite : CipherSuite) (index : Nat) :
    Option (OptionalNode × Option Err) :=
  match n.Node with
  | none => some (n.setHash suite (.leaf { LeafIndex := index, KeyPackage := none }))
  | some nd =>
    match nd.Type with
    | none => none
    | some .NodeTypeParent => some (n, some .leafHashOnNonLeaf)
    | some .NodeTypeLeaf =>
      some (n.setHash suite (.leaf { LeafIndex := index, KeyPackage := nd.Leaf }))

/-- The parent hash of a slot; `none` is the panic of `Type` on a malformed node. -/
def OptionalNode.SetParentHash (n : OptionalNode) (suite : CipherSuite) (index : Nat)
    (lh rh : Bytes) : Option (OptionalNode × Option Err) :=
  match n.Node with
  | none =>
    some (n.setHash suite
      (.parent { NodeIndex := index, ParentNode := none, LeftHash := lh, RightHash := rh }))
  | some nd =>
    match nd.Type with
    | none => none
    | some .NodeTypeLeaf => some (n, some .parentHashOnNonParent)
    | some .NodeTypeParent =>
      some (n.setHash suite
        (.parent { NodeIndex := index, ParentNode := nd.Parent, LeftHash := lh, RightHash := rh }))

/-! ## RatchetTree -/

structure RatchetTree where
  Suite : CipherSuite
  Nodes : List OptionalNode

structure DirectPathNode where
  PublicKey : HPKEPublicKey
  EncryptedPathSecrets : List HPKECiphertext
deriving DecidableEq, Repr

structure DirectPath where
  Nodes : List DirectPathNode
deriving DecidableEq, Repr

def NewRatchetTree (suite : CipherSuite) : RatchetTree := { Suite := suite, Nodes := [] }

namespace RatchetTree

def size (t : RatchetTree) : Nat := leafWidth t.Nodes.length

def rootIndex (t : RatchetTree) : Nat := root t.size

def pathStep (t : RatchetTree) (pathSecret : Bytes) : Bytes :=
  t.Suite.hkdfExpandLabel pathSecret "path" [] t.Suite.SecretSize

/-- The tree with slot `i` replaced (`t.Nodes[i] = n` for an index in range). -/
def setSlot (t : RatchetTree) (i : Nat) (n : OptionalNode) : RatchetTree :=
  { t with Nodes := t.Nodes.set i n }

/-- Recomputes the stored hash of one slot from its content and, for a parent, from the
stored hashes of its two children.  `panic` is an index out of range or a malformed
node. -/
def setHash (t : RatchetTree) (index : Nat) : Run (RatchetTree × Option Err) :=
  if level index = 0 then
    match t.Nodes[index]?, toLeafIndex index with
    | some slot, some l =>
      match slot.SetLeafHash t.Suite l with
      | none => .panic
      | some (slot', e) => .done (t.setSlot index slot', e)
    | _, _ => .panic
  else
    match t.Nodes[left index]?, t.Nodes[right index t.size]?, t.Nodes[index]? with
    | some l, some r, some slot =>
      match slot.SetParentHash t.Suite index l.Hash r.Hash with
      | none => .panic
      | some (slot', e) => .done (t.setSlot index slot', e)
    | _, _, _ => .panic

/-- The loop of `setHashPath`: hash `curr`, stop at the root `r`, else go to the parent. -/
def setHashPathLoop (size r : Nat) : Nat → RatchetTree → Nat → Run (RatchetTree × Option Err)
  | 0, _, _ => .hang
  | fuel + 1, t, curr =>
    match t.setHash curr with
    | .done (t', none) =>
      if curr = r then .done (t', none) else setHashPathLoop size r fuel t' (parent curr size)
    | other => other

/-- Recomputes the hashes from a leaf to the root.  A walk that stays inside the node
vector visits nodes of rising level, fewer than `len(Nodes) + 1` of them. -/
def setHashPath (t : RatchetTree) (index : Nat) : Run (RatchetTree × Option Err) :=
  setHashPathLoop t.size (root t.size) (t.Nodes.length + 1) t (toNodeIndex index)

/-- The recursion of `setHashSubtree`; the children of a node have a smaller level, so
`fuel = level index + 1` is never spent. -/
def setHashSubtreeAux : Nat → RatchetTree → Nat → Run (RatchetTree × Option Err)
  | 0, _, _ => .hang
  | fuel + 1, t, index =>
    if t.Nodes.length = 0 then .done (t, none)
    else if level index = 0 then t.setHash index
    else
      match setHashSubtreeAux fuel t (left index) with
      | .done (t1, none) =>
        match setHashSubtreeAux fuel t1 (right index t1.size) with
        | .done (t2, none) => t2.setHash index
        | other => other
      | other => other

def setHashSubtree (t : RatchetTree) (index : Nat) : Run (RatchetTree × Option Err) :=
  setHashSubtreeAux (level index + 1) t index

def SetHashAll (t : RatchetTree) : Run (RatchetTree × Option Err) :=
  t.setHashSubtree (root t.size)

/-- The recursion of `resolve`; the children of a node have a smaller level, so
`fuel = level index + 1` is never spent.  `panic` is an index out of range or the
`nil` parent payload of an occupied slot of positive level. -/
def resolveAux (t : RatchetTree) : Nat → Nat → Run (List Nat)
  | 0, _ => .hang
  | fuel + 1, index =>
    match t.Nodes[index]? with
    | none => .panic
    | some slot =>
      match slot.Node with
      | some nd =>
        if level index > 0 then
          match nd.Parent with
          | none => .panic
          | some p => .done (index :: p.UnmergedLeaves)
        else .done [index]
      | none =>
        if level index = 0 then .done []
        else
          match resolveAux t fuel (left index) with
          | .done l =>
            match resolveAux t fuel (right index t.size) with
            | .done r => .done (l ++ r)
            | other => other
          | other => other

/-- The resolution of a node.  An unmerged leaf `v` is listed as `nodeIndex(v)`, the
number `v` itself. -/
def resolve (t : RatchetTree) (index : Nat) : Run (List Nat) :=
  resolveAux t (level index + 1) index

def SetLeaf (t : RatchetTree) (index : Nat) (keyPkg : KeyPackage) : Run RatchetTree :=
  let n := toNodeIndex index
  match t.Nodes[n]? with
  | none => .panic
  | some slot =>
    match slot.Node with
    | none => .panic
    | some nd => .done (t.setSlot n { slot with Node := some { nd with Leaf := some keyPkg } })

/-- One round of the unmerged-list loop of `AddLeaf`; `none` is a panic. -/
def addUnmergedStep (index : Nat) (t : RatchetTree) (v : Nat) : Option RatchetTree :=
  if v = toNodeIndex index then some t
  else
    match t.Nodes[v]? with
    | none => none
    | some slot =>
      match slot.Node with
      | none => some t
      | some nd =>
        match nd.Parent with
        | none => none
        | some p =>
          some (t.setSlot v { slot with Node := some { nd with Parent := some (p.AddUnmerged index) } })

def addUnmergedLoop (index : Nat) : List Nat → RatchetTree → Option RatchetTree
  | [], t => some t
  | v :: vs, t =>
    match addUnmergedStep index t v with
    | none => none
    | some t' => addUnmergedLoop index vs t'

/-- The node vector after the growing loop of `AddLeaf`: blank slots are appended while
the length is below `len`. -/
def grow (t : RatchetTree) (len : Nat) : RatchetTree :=
  { t with Nodes := t.Nodes ++ List.replicate (len - t.Nodes.length) { Node := none, Hash := [] } }

def AddLeaf (t : RatchetTree) (index : Nat) (keyPkg : KeyPackage) :
    Run (RatchetTree × Option Err) :=
  let n := toNodeIndex index
  let t1 := (t.grow (n + 1)).setSlot n (newLeafNode keyPkg)
  let dp := dirpath n t1.size
  match addUnmergedLoop index dp t1 with
  | none => .panic
  | some t2 => t2.setHashPath index

/-- The blanking loop of `BlankPath`, from `curr` up to, not including, the root `r`. -/
def blankLoop (lc r : Nat) : Nat → RatchetTree → Nat → Run RatchetTree
  | 0, _, _ => .hang
  | fuel + 1, t, curr =>
    if curr = r then .done t
    else
      match t.Nodes[curr]? with
      | none => .panic
      | some slot => blankLoop lc r fuel (t.setSlot curr slot.SetToBlank) (parent curr lc)

def BlankPath (t : RatchetTree) (index : Nat) : Run (RatchetTree × Option Err) :=
  if t.Nodes.length = 0 then .done (t, none)
  else
    let lc := t.size
    let r := t.rootIndex
    match blankLoop lc r (t.Nodes.length + 1) t (toNodeIndex index) with
    | .done t1 =>
      match t1.Nodes[r]? with
      | none => .panic
      | some slot => (t1.setSlot r slot.SetToBlank).setHashPath index
    | .panic => .panic
    | .hang => .hang

def UpdateLeaf (t : RatchetTree) (index : Nat) (keyPkg : KeyPackage) :
    Run (RatchetTree × Option Err) :=
  let n := toNodeIndex index
  match t.Nodes[n]? with
  | none => .panic
  | some slot =>
    if slot.Blank then .done (t, some .updateUnoccupied)
    else
      match t.BlankPath index with
      | .done (t1, _) => (t1.setSlot n (newLeafNode keyPkg)).setHashPath index
      | .panic => .panic
      | .hang => .hang

def SetLeafPrivateKey (t : RatchetTree) (index : Nat) (priv : HPKEPrivateKey) :
    Run (RatchetTree × Option Err) :=
  let ni := toNodeIndex index
  match t.Nodes[ni]? with
  | none => .panic
  | some slot =>
    match slot.Node with
    | none => .done (t, some .privateKeyForBlank)
    | some nd =>
      match nd.Leaf with
      | none => .panic
      | some kp =>
        .done (t.setSlot ni { slot with Node := some { nd with Leaf := some (kp.SetPrivateKey priv) } },
          none)

end RatchetTree

/-- A Go map from node indices to byte strings, as its list of entries; no key occurs
twice. -/
abbrev SecretMap := List (Nat × Bytes)

/-- The value `m[k]`, the `nil` slice when the key is absent. -/
def SecretMap.get : SecretMap → Nat → Bytes
  | [], _ => []
  | (k', v) :: m, k => if k' = k then v else SecretMap.get m k

/-- The map after `m[k] = v`. -/
def SecretMap.put : SecretMap → Nat → Bytes → SecretMap
  | [], k, v => [(k, v)]
  | (k', v') :: m, k, v => if k' = k then (k, v) :: m else (k', v') :: SecretMap.put m k v

namespace RatchetTree

/-- The loop of `PathSecrets`: from `curr` up to the root, each parent gets the next
value of the chain. -/
def pathSecretsLoop (t : RatchetTree) : Nat → SecretMap → Nat → Run SecretMap
  | 0, _, _ => .hang
  | fuel + 1, secrets, curr =>
    if curr = t.rootIndex then .done secrets
    else
      let next := parent curr t.size
      pathSecretsLoop t fuel (secrets.put next (t.pathStep (secrets.get curr))) next

def PathSecrets (t : RatchetTree) (start : Nat) (pathSecret : Bytes) : Run SecretMap :=
  pathSecretsLoop t (t.Nodes.length + 1) (SecretMap.put [] start pathSecret) start

/-- The encryption loop of `Encap` over the resolution of one co-path node.  `panic` is
a resolution entry that is out of range, blank or malformed. -/
def encryptLoop (t : RatchetTree) (context pathSecret : Bytes) :
    List Nat → List HPKECiphertext → Run (Except Err (List HPKECiphertext))
  | [], acc => .done (.ok acc)
  | rnode :: rest, acc =>
    match t.Nodes[rnode]? with
    | none => .panic
    | some slot =>
      match slot.Node with
      | none => .panic
      | some nd =>
        match nd.PublicKey with
        | none => .panic
        | some pk =>
          match t.Suite.Encrypt pk context pathSecret with
          | .error e => .done (.error (.backend e))
          | .ok ct => encryptLoop t context pathSecret rest (acc ++ [ct])

/-- The public key `n.Node.Parent.PublicKey` of a slot; `none` is a `nil` dereference. -/
def parentPublicKey (n : OptionalNode) : Option HPKEPublicKey :=
  match n.Node with
  | none => none
  | some nd =>
    match nd.Parent with
    | none => none
    | some p => some p.PublicKey

/-- The loop of `Encap` over the co-path. -/
def encapLoop (leafNode : Nat) (context : Bytes) (secrets : SecretMap) :
    List Nat → RatchetTree → List DirectPathNode →
      Run (RatchetTree × Except Err (List DirectPathNode))
  | [], t, dp => .done (t, .ok dp)
  | v :: vs, t, dp =>
    let parent := parent v t.size
    if parent = leafNode then encapLoop leafNode context secrets vs t dp
    else
      let pathSecret := secrets.get parent
      match newParentNode t.Suite pathSecret with
      | .error e => .done (t, .error e)
      | .ok n =>
        if parent < t.Nodes.length then
          let t1 := t.setSlot parent n
          match parentPublicKey n with
          | none => .panic
          | some pk =>
            match t1.resolve v with
            | .done res =>
              match encryptLoop t1 context pathSecret res [] with
              | .done (.ok cts) =>
                encapLoop leafNode context secrets vs t1
                  (dp ++ [{ PublicKey := pk, EncryptedPathSecrets := cts }])
              | .done (.error e) => .done (t1, .error e)
              | .panic => .panic
              | .hang => .hang
            | .panic => .panic
            | .hang => .hang
        else .panic

def Encap (t : RatchetTree) (fromLeaf : Nat) (context leafSecret : Bytes) :
    Run (RatchetTree × Except Err (DirectPath × Bytes)) :=
  let leafNode := toNodeIndex fromLeaf
  match t.PathSecrets leafNode leafSecret with
  | .panic => .panic
  | .hang => .hang
  | .done secrets =>
    let cp := copath leafNode t.size
    match encapLoop leafNode context secrets cp t [] with
    | .panic => .panic
    | .hang => .hang
    | .done (t1, .error e) => .done (t1, .error e)
    | .done (t1, .ok nodes) =>
      match t1.setHashPath fromLeaf with
      | .panic => .panic
      | .hang => .hang
      | .done (t2, some e) => .done (t2, .error e)
      | .done (t2, none) => .done (t2, .ok ({ Nodes := nodes }, secrets.get t2.rootIndex))

/-- The loop of `Implant` over the entries of the secrets map, in the order given. -/
def implantLoop : List (Nat × Bytes) → RatchetTree → Run (RatchetTree × Option Err)
  | [], t => .done (t, none)
  | (curr, secret) :: rest, t =>
    match newParentNode t.Suite secret with
    | .error e => .done (t, some e)
    | .ok node =>
      match t.Nodes[curr]? with
      | none => .panic
      | some slot =>
        match slot.Node with
        | none => .done (t, some (.implantInvalidNode curr))
        | some nd =>
          match nd.Type with
          | none => .panic
          | some .NodeTypeLeaf => .done (t, some (.implantInvalidNode curr))
          | some .NodeTypeParent =>
            match nd.Parent, node.Node with
            | some p, some derived =>
              match derived.Parent with
              | none => .panic
              | some dparent =>
                if p.PublicKey.Equals dparent.PublicKey then
                  match dparent.PrivateKey with
                  | none => .panic
                  | some priv =>
                    implantLoop rest
                      (t.setSlot curr { slot with Node := some { nd with Parent := some (p.SetPrivateKey priv) } })
                else .done (t, some .incorrectSecret)
            | _, _ => .panic

/-- The method `Implant`.  A Go map is ranged over in no specified order: `order`
rearranges the entries of the secrets map into the order of one run. -/
def Implant (t : RatchetTree) (order : SecretMap → SecretMap) (start : Nat) (pathSecret : Bytes) :
    Run (RatchetTree × Except Err Bytes) :=
  match t.PathSecrets start pathSecret with
  | .panic => .panic
  | .hang => .hang
  | .done secrets =>
    match implantLoop (order secrets) t with
    | .panic => .panic
    | .hang => .hang
    | .done (t1, some e) => .done (t1, .error e)
    | .done (t1, none) => .done (t1, .ok (secrets.get t1.rootIndex))

/-- The search of `decryptPathSecret` through the resolution of one co-path node: the
first entry that holds a private key decides.  `none` inside `done` means no entry
holds one. -/
def decryptScan (t : RatchetTree) (context : Bytes) (cts : List HPKECiphertext) :
    List Nat → Nat → Run (Option (Except Err Bytes))
  | [], _ => .done none
  | v :: rest, idx =>
    match t.Nodes[v]? with
    | none => .panic
    | some slot =>
      match slot.Node with
      | none => decryptScan t context cts rest (idx + 1)
      | some nd =>
        match nd.PrivateKey with
        | none => .panic
        | some none => decryptScan t context cts rest (idx + 1)
        | some (some priv) =>
          match cts[idx]? with
          | none => .panic
          | some encryptedSecret =>
            match t.Suite.Decrypt priv context encryptedSecret with
            | .error _ => .done (some (.error (.decryptionFailure v)))
            | .ok pathSecret => .done (some (.ok pathSecret))

/-- The loop of `decryptPathSecret` over the co-path and the path nodes side by side. -/
def decryptLoop (t : RatchetTree) (context : Bytes) :
    List Nat → List DirectPathNode → Run (Except Err (Nat × Bytes))
  | [], _ => .done (.error .noPrivateKey)
  | _ :: _, [] => .panic
  | curr :: cp, pathNode :: nodes =>
    match t.resolve curr with
    | .panic => .panic
    | .hang => .hang
    | .done res =>
      if pathNode.EncryptedPathSecrets.length ≠ res.length then .done (.error .malformedRatchetNode)
      else
        match decryptScan t context pathNode.EncryptedPathSecrets res 0 with
        | .panic => .panic
        | .hang => .hang
        | .done (some (.error e)) => .done (.error e)
        | .done (some (.ok pathSecret)) => .done (.ok (parent curr t.size, pathSecret))
        | .done none => decryptLoop t context cp nodes

def decryptPathSecret (t : RatchetTree) (fromLeaf : Nat) (context : Bytes) (path : DirectPath) :
    Run (Except Err (Nat × Bytes)) :=
  let cp := copath (toNodeIndex fromLeaf) t.size
  if path.Nodes.length ≠ cp.length then .done (.error .malformedCopath)
  else decryptLoop t context cp path.Nodes

/-- The loop of `Decap` that merges the public keys of the path into the direct path. -/
def mergeLoop : List Nat → List DirectPathNode → RatchetTree → Run RatchetTree
  | [], _, t => .done t
  | _ :: _, [], _ => .panic
  | node :: dp, pathNode :: nodes, t =>
    match t.Nodes[node]? with
    | none => .panic
    | some slot =>
      match slot.MergePublic pathNode.PublicKey with
      | none => .panic
      | some slot' => mergeLoop dp nodes (t.setSlot node slot')

def Decap (t : RatchetTree) (order : SecretMap → SecretMap) (fromLeaf : Nat) (context : Bytes)
    (path : DirectPath) : Run (RatchetTree × Except Err Bytes) :=
  let dp := dirpath (toNodeIndex fromLeaf) t.size
  if path.Nodes.length ≠ dp.length then .done (t, .error .malformedDirectPath)
  else
    match mergeLoop dp path.Nodes t with
    | .panic => .panic
    | .hang => .hang
    | .done t1 =>
      match t1.decryptPathSecret fromLeaf context path with
      | .panic => .panic
      | .hang => .hang
      | .done (.error e) => .done (t1, .error e)
      | .done (.ok (overlap, pathSecret)) =>
        match t1.Implant order overlap pathSecret with
        | .panic => .panic
        | .hang => .hang
        | .done (t2, .error e) => .done (t2, .error e)
        | .done (t2, .ok rootSecret) =>
          match t2.setHashPath fromLeaf with
          | .panic => .panic
          | .hang => .hang
          | .done (t3, some e) => .done (t3, .error e)
          | .done (t3, none) => .done (t3, .ok rootSecret)

/-- The key package of a leaf: `some (kp, true)`, or `some (none, false)` for a blank
slot; `none` is a panic (index out of range, or no leaf payload). -/
def KeyPackage (t : RatchetTree) (index : Nat) : Option (Option MLS.KeyPackage × Bool) :=
  match t.Nodes[toNodeIndex index]? with
  | none => none
  | some slot =>
    match slot.Node with
    | none => some (none, false)
    | some nd =>
      match nd.Leaf with
      | none => none
      | some kp => some (some kp, true)

/-- The stored hash of the root slot; `none` is the index out of range. -/
def RootHash (t : RatchetTree) : Option Bytes :=
  match t.Nodes[root t.size]? with
  | none => none
  | some slot => some slot.Hash

def cloneNodes : List OptionalNode → Option (List OptionalNode)
  | [] => some []
  | n :: ns =>
    match n.Clone, cloneNodes ns with
    | some c, some cs => some (c :: cs)
    | _, _ => none

/-- A deep copy of the tree; `none` is the panic of `Node.Clone` on a malformed node. -/
def Clone (t : RatchetTree) : Option RatchetTree :=
  match cloneNodes t.Nodes with
  | none => none
  | some ns => some { Suite := t.Suite, Nodes := ns }

/-- The loop of `LeftmostFree` from `curr`, with `fuel = size - curr` rounds left. -/
def leftmostFreeFrom (t : RatchetTree) : Nat → Nat → Nat
  | 0, curr => curr
  | fuel + 1, curr =>
    match t.Nodes[toNodeIndex curr]? with
    | some slot => if !slot.Blank then leftmostFreeFrom t fuel (curr + 1) else curr
    | none => curr

def LeftmostFree (t : RatchetTree) : Nat := leftmostFreeFrom t t.size 0

/-- The loop of `Find` from leaf `i`, with `fuel = size - i` rounds left; `none` is a
panic (an occupied slot without a leaf payload). -/
def findFrom (t : RatchetTree) (kp : MLS.KeyPackage) : Nat → Nat → Option (Nat × Bool)
  | 0, _ => some (0, false)
  | fuel + 1, i =>
    match t.Nodes[toNodeIndex i]? with
    | none => none
    | some n =>
      match n.Node with
      | none => findFrom t kp fuel (i + 1)
      | some nd =>
        match nd.Leaf with
        | none => none
        | some leaf => if leaf.Equals kp then some (i, true) else findFrom t kp fuel (i + 1)

def Find (t : RatchetTree) (kp : MLS.KeyPackage) : Option (Nat × Bool) := findFrom t kp t.size 0

end RatchetTree

/-- The exported private keys, a Go map given as its list of entries. -/
structure TreeSecrets where
  PrivateKeys : List (Nat × HPKEPrivateKey)
deriving DecidableEq, Repr

namespace RatchetTree

/-- The loop of `SetSecrets` over the entries in the order given; `none` is a panic. -/
def setSecretsLoop : List (Nat × HPKEPrivateKey) → RatchetTree → Option RatchetTree
  | [], t => some t
  | (ix, priv) :: rest, t =>
    match t.Nodes[ix]? with
    | none => none
    | some slot =>
      match slot.Node with
      | none => none
      | some nd =>
        match nd.SetPrivateKey priv with
        | none => none
        | some nd' => setSecretsLoop rest (t.setSlot ix { slot with Node := some nd' })

def SetSecrets (t : RatchetTree) (ts : TreeSecrets) : Option RatchetTree :=
  setSecretsLoop ts.PrivateKeys t

/-- The loop of `GetSecrets` over the slots from index `i` on; `none` is a panic. -/
def getSecretsFrom : List OptionalNode → Nat → Option (List (Nat × HPKEPrivateKey))
  | [], _ => some []
  | n :: ns, i =>
    match n.Node with
    | none => getSecretsFrom ns (i + 1)
    | some nd =>
      match nd.PrivateKey with
      | none => none
      | some none => getSecretsFrom ns (i + 1)
      | some (some priv) =>
        match getSecretsFrom ns (i + 1) with
        | none => none
        | some rest => some ((i, priv) :: rest)

def GetSecrets (t : RatchetTree) : Option TreeSecrets :=
  match getSecretsFrom t.Nodes 0 with
  | none => none
  | some keys => some { PrivateKeys := keys }

end RatchetTree

/-! ## Notions used in the statements and proofs -/

namespace RatchetTree

/-- The node of slot `i` (`none` inside for a blank slot), when the index is in range. -/
def contentAt (t : RatchetTree) (i : Nat) : Option (Option Node) :=
  (t.Nodes[i]?).map (fun s => s.Node)

/-- A kind mismatch that makes hashing slot `i` return an error: a parent payload in a
leaf position, or a leaf payload in a parent position. -/
def kindClash (t : RatchetTree) (i : Nat) : Prop :=
  ∃ s nd, t.Nodes[i]? = some s ∧ s.Node = some nd ∧
    (nd.Type = some .NodeTypeParent ∧ level i = 0 ∨ nd.Type = some .NodeTypeLeaf ∧ level i ≠ 0)

/-- Slot `i` holds no node without a payload. -/
def typedAt (t : RatchetTree) (i : Nat) : Prop :=
  ∀ s nd, t.Nodes[i]? = some s → s.Node = some nd → nd.Type ≠ none

/-- The stored hashes of the two children that hashing slot `c` reads; none are read
for a leaf.  `none` is an index out of range. -/
def childHashes (t : RatchetTree) (c : Nat) : Option (Bytes × Bytes) :=
  if level c = 0 then some ([], [])
  else
    match t.Nodes[left c]?, t.Nodes[right c t.size]? with
    | some l, some r => some (l.Hash, r.Hash)
    | _, _ => none

end RatchetTree

/-- Encoding followed by the digest, as in `OptionalNode.setHash`. -/
def marshalDigest (suite : CipherSuite) (input : HashInput) : Except Err Bytes :=
  match suite.Marshal input with
  | .error e => .error (.marshal e)
  | .ok data => .ok (suite.digest data)

/-- The hash that `setHash` computes for slot `c` from the node of the slot and the
hashes of its children: `some (.ok h)` is the new hash, `some (.error e)` the error
returned, `none` a panic. -/
def nodeHash (suite : CipherSuite) (c : Nat) (node : Option Node) (lh rh : Bytes) :
    Option (Except Err Bytes) :=
  if level c = 0 then
    match toLeafIndex c with
    | none => none
    | some l =>
      match node with
      | none => some (marshalDigest suite (.leaf { LeafIndex := l, KeyPackage := none }))
      | some nd =>
        match nd.Type with
        | none => none
        | some .NodeTypeParent => some (.error .leafHashOnNonLeaf)
        | some .NodeTypeLeaf =>
          some (marshalDigest suite (.leaf { LeafIndex := l, KeyPackage := nd.Leaf }))
  else
    match node with
    | none =>
      some (marshalDigest suite
        (.parent { NodeIndex := c, ParentNode := none, LeftHash := lh, RightHash := rh }))
    | some nd =>
      match nd.Type with
      | none => none
      | some .NodeTypeLeaf => some (.error .parentHashOnNonParent)
      | some .NodeTypeParent =>
        some (marshalDigest suite
          (.parent { NodeIndex := c, ParentNode := nd.Parent, LeftHash := lh, RightHash := rh }))

/-- The slot after `AddUnmerged(l)` on its parent payload; a slot without one is left
as it is. -/
def unmergedAdded (l : Nat) (slot : OptionalNode) : OptionalNode :=
  match slot.Node with
  | none => slot
  | some nd =>
    match nd.Parent with
    | none => slot
    | some p => { slot with Node := some { nd with Parent := some (p.AddUnmerged l) } }

/-- Slot `i` is on the path from leaf `l` to the root of a tree of `n` leaves. -/
def onLeafPath (n l i : Nat) : Prop := i = toNodeIndex l ∨ i ∈ dirpath (toNodeIndex l) n

instance (n l i : Nat) : Decidable (onLeafPath n l i) := by
  unfold onLeafPath; infer_instance

/-- Node `d` is `v` itself or is reached from `v` by going down to children, in a tree
of `n` leaves. -/
inductive Desc (n v : Nat) : Nat → Prop where
  | refl : Desc n v v
  | left {d : Nat} : Desc n v d → 0 < level d → Desc n v (left d)
  | right {d : Nat} : Desc n v d → 0 < level d → Desc n v (right d n)

/-! ### The public part of the content -/

/-- The key package without the held private key. -/
def KeyPackage.pub (kp : KeyPackage) : KeyPackage := { kp with privateKey := none }

/-- The parent node without the held private key. -/
def ParentNode.pub (p : ParentNode) : ParentNode := { p with PrivateKey := none }

/-- The payloads of a node without the held private keys (and without the node's own
`Hash` field, which nothing reads). -/
def Node.pub (n : Node) : Node :=
  { Leaf := n.Leaf.map KeyPackage.pub, Parent := n.Parent.map ParentNode.pub, Hash := none }

/-- A hash input without the held private keys. -/
def HashInput.pub : HashInput → HashInput
  | .leaf i => .leaf { i with KeyPackage := i.KeyPackage.map KeyPackage.pub }
  | .parent i => .parent { i with ParentNode := i.ParentNode.map ParentNode.pub }

/-- The encoder does not look at the held private keys, the fields tagged `tls:"omit"`. -/
def CipherSuite.omitsPrivateKeys (suite : CipherSuite) : Prop :=
  ∀ a b : HashInput, a.pub = b.pub → suite.Marshal a = suite.Marshal b

namespace RatchetTree

/-- The public content of slot `i`: blank or occupied, and the payloads without the
held private keys. -/
def publicAt (t : RatchetTree) (i : Nat) : Option (Option Node) :=
  (t.contentAt i).map (fun n => n.map Node.pub)

/-- The stored hash of slot `i`, when the index is in range. -/
def hashAt (t : RatchetTree) (i : Nat) : Option Bytes := (t.Nodes[i]?).map (fun s => s.Hash)

/-- Two trees with the same suite, width and public content, whose stored hashes agree
on the slots in `P`. -/
def hashAgree (t u : RatchetTree) (P : Nat → Prop) : Prop :=
  u.Suite = t.Suite ∧ u.Nodes.length = t.Nodes.length ∧
    (∀ i, u.publicAt i = t.publicAt i) ∧ ∀ i, P i → u.hashAt i = t.hashAt i

/-- Two runs of a hashing method end the same way: both panic, both never return,
both return the same error, or both succeed and leave trees that agree on `P`. -/
def sameOutcome (P : Nat → Prop) :
    Run (RatchetTree × Option Err) → Run (RatchetTree × Option Err) → Prop
  | .done (t, none), .done (u, none) => hashAgree t u P
  | .done (_, some e), .done (_, some e') => e = e'
  | .panic, .panic => True
  | .hang, .hang => True
  | _, _ => False

end RatchetTree

/-! ### Notions for the agreement of Encap and Decap -/

namespace RatchetTree

/-- The tree holds a private key at slot `i`. -/
def holdsKey (t : RatchetTree) (i : Nat) : Prop :=
  ∃ nd priv, t.contentAt i = some (some nd) ∧ nd.PrivateKey = some (some priv)

/-- The ciphertexts `cts` are the encryptions of `secret` to the public keys that the
tree holds at the slots `res`, one for one and in order. -/
def encryptsTo (t : RatchetTree) (context secret : Bytes) (res : List Nat)
    (cts : List HPKECiphertext) : Prop :=
  List.Forall₂ (fun r ct => ∃ nd pk, t.contentAt r = some (some nd) ∧ nd.PublicKey = some pk ∧
    t.Suite.Encrypt pk context secret = .ok ct) res cts

/-- The path nodes are what `Encap` produces along the co-path `cp` from the secrets
map: each carries the public key derived from the secret of the parent of its co-path
node and the encryptions of that secret to the resolution of the co-path node. -/
def pathMatches (t : RatchetTree) (context : Bytes) (secrets : SecretMap) :
    List Nat → List DirectPathNode → Prop
  | [], [] => True
  | v :: cp, pn :: nodes =>
    (∃ priv res, t.Suite.Derive (secrets.get (parent v t.size)) = .ok priv ∧
      pn.PublicKey = priv.PublicKey ∧ t.resolve v = .done res ∧
      encryptsTo t context (secrets.get (parent v t.size)) res pn.EncryptedPathSecrets) ∧
    pathMatches t context secrets cp nodes
  | _, _ => False

end RatchetTree

/-! ## Concrete instances, used to evaluate the code -/

/-- A small encoder: the index, a presence tag and the public fields, then the child
hashes.  It does not look at a private key. -/
def demoMarshal : HashInput → Except Nat Bytes
  | .leaf i =>
    .ok (0 :: i.LeafIndex ::
      (match i.KeyPackage with
       | none => [0]
       | some kp => 1 :: kp.InitKey.Data ++ kp.Credential))
  | .parent i =>
    .ok (1 :: i.NodeIndex ::
      (match i.ParentNode with
       | none => [0]
       | some p => 1 :: p.PublicKey.Data ++ p.UnmergedLeaves ++ p.ParentHash) ++
      i.LeftHash ++ i.RightHash)

/-- A small backend.  The public key of a derived key is the seed behind a marker byte;
a ciphertext is the recipient's public key, length first, followed by the plaintext, and
decryption checks that the key is the recipient's. -/
def demoSuite : CipherSuite where
  Derive s := .ok { Data := s, PublicKey := { Data := 9 :: s } }
  Encrypt pk _ pt := .ok (pk.Data.length :: pk.Data ++ pt)
  Decrypt priv _ ct :=
    match ct with
    | [] => .error 1
    | n :: rest => if rest.take n = priv.PublicKey.Data then .ok (rest.drop n) else .error 2
  hkdfExpandLabel s _ _ _ := 7 :: s
  digest d := [d.foldl (fun a b => (31 * a + b) % 65521) 7]
  SecretSize := 32
  Marshal := demoMarshal

def demoKeyPackage (n : Nat) : KeyPackage :=
  { SupportedVersion := 0, CipherSuite := 1, InitKey := { Data := [100 + n] },
    Credential := [n], Extensions := [], Signature := [], privateKey := none }

/-- An occupied parent slot with the public key `[5]` and the given unmerged leaves. -/
def demoParent (u : List Nat) : OptionalNode :=
  { Node := some { Leaf := none, Hash := none,
                   Parent := some { PublicKey := { Data := [5] }, UnmergedLeaves := u,
                                    ParentHash := [], PrivateKey := none } },
    Hash := [] }

/-- Two leaves under a parent whose unmerged list names leaf 1. -/
def demoTree3 : RatchetTree :=
  { Suite := demoSuite,
    Nodes := [newLeafNode (demoKeyPackage 0), demoParent [1], newLeafNode (demoKeyPackage 1)] }

/-- The tree that a call left: the first component of what it returned, and the tree
given when the call did not return. -/
def Run.tree {α : Type} (t : RatchetTree) : Run (RatchetTree × α) → RatchetTree
  | .done (t', _) => t'
  | _ => t

/-- The fresh tree of the demo suite. -/
def demoFresh : RatchetTree := NewRatchetTree demoSuite

/-- Three members join one by one. -/
def demoJoined3 : RatchetTree :=
  let t1 := Run.tree demoFresh (demoFresh.AddLeaf 0 (demoKeyPackage 0))
  let t2 := Run.tree t1 (t1.AddLeaf 1 (demoKeyPackage 1))
  Run.tree t2 (t2.AddLeaf 2 (demoKeyPackage 2))

/-- Member 0 then sends a path, which occupies its parents 1 and 3. -/
def demoSent : RatchetTree := Run.tree demoJoined3 (demoJoined3.Encap 0 [] [1, 1])

/-- A fourth member then joins in the leftmost free leaf, leaf 3. -/
def demoGrown : RatchetTree := Run.tree demoSent (demoSent.AddLeaf 3 (demoKeyPackage 3))

/-- Leaf 0 is written twice: `AddLeaf` with one key package, then `SetLeaf` with
another. -/
def demoRewritten : RatchetTree :=
  let t1 := Run.tree demoFresh (demoFresh.AddLeaf 0 (demoKeyPackage 1))
  match t1.SetLeaf 0 (demoKeyPackage 0) with
  | .done t2 => t2
  | _ => t1

/-- Leaf 0 is written once, with the key package that `demoRewritten` ends with. -/
def demoWritten : RatchetTree := Run.tree demoFresh (demoFresh.AddLeaf 0 (demoKeyPackage 0))

/-- The one-leaf tree `demoWritten` with a private key held at the leaf and a stale
stored hash. -/
def demoWrittenHeld : RatchetTree :=
  { Suite := demoSuite,
    Nodes := [{ Node := some { Leaf := some { demoKeyPackage 0 with
                                 privateKey := some { Data := [1], PublicKey := { Data := [100] } } },
                               Parent := none, Hash := none },
                Hash := [0, 0] }] }

/-- A path for `Decap` at `demoTree3`, sender 0: one node, one ciphertext. -/
def demoPath : DirectPath :=
  { Nodes := [{ PublicKey := { Data := [42] }, EncryptedPathSecrets := [[0]] }] }

/-- A tree of width 3 with leaf 0 blank and leaf 1 occupied. -/
def demoGap : RatchetTree :=
  { Suite := demoSuite,
    Nodes := [{ Node := none, Hash := [] }, { Node := none, Hash := [] },
              newLeafNode (demoKeyPackage 1)] }

/-- Four occupied leaves under three blank parents. -/
def demoFour : RatchetTree :=
  { Suite := demoSuite,
    Nodes := [newLeafNode (demoKeyPackage 0), { Node := none, Hash := [] },
              newLeafNode (demoKeyPackage 1), { Node := none, Hash := [] },
              newLeafNode (demoKeyPackage 2), { Node := none, Hash := [] },
              newLeafNode (demoKeyPackage 3)] }

/-- The private key of the key package `demoKeyPackage 2`. -/
def demoPrivate2 : HPKEPrivateKey := { Data := [2], PublicKey := { Data := [102] } }

/-- The tree `demoFour` as member 2 holds it, with the private key of its own leaf. -/
def demoFourHeld : RatchetTree :=
  Run.tree demoFour (demoFour.SetLeafPrivateKey 2 demoPrivate2)

/-- The path that `Encap(0, [], [1, 1])` returns on `demoFour`: the second node carries
one ciphertext for each of the leaves 2 and 3. -/
def demoFourPath : DirectPath :=
  { Nodes := [{ PublicKey := { Data := [9, 7, 1, 1] },
                EncryptedPathSecrets := [[1, 101, 7, 1, 1]] },
              { PublicKey := { Data := [9, 7, 7, 1, 1] },
                EncryptedPathSecrets := [[1, 102, 7, 7, 1, 1], [1, 103, 7, 7, 1, 1]] }] }

end MLS

namespace MLS

/-! ## The encoding of a node -/

/-- The errors of `Node.MarshalTLS` and `Node.UnmarshalTLS`: the message
"Invalid node type", an error handed up from the stream when a payload is written or
read (with the code the codec gave), and the read of the type byte from an empty
input. -/
inductive CodecErr where
  | invalidNodeType
  | payload (code : Nat)
  | shortRead
deriving DecidableEq, Repr

/-- Modelled from the spec: the codecs of the two payloads, which the stream calls when
a key package or a parent node is written or read.  An encoder gives the bytes written;
a decoder reads from the front of its input and gives the value and the number of bytes
it read.  Neither declaration is among the sources. -/
structure PayloadCodec where
  encodeLeaf : KeyPackage → Except Nat Bytes
  decodeLeaf : Bytes → Except Nat (KeyPackage × Nat)
  encodeParent : ParentNode → Except Nat Bytes
  decodeParent : Bytes → Except Nat (ParentNode × Nat)

/-- The byte of a node type: `NodeTypeLeaf = 0x00`, `NodeTypeParent = 0x01`. -/
def NodeType.byte : NodeType → Nat
  | .NodeTypeLeaf => 0x00
  | .NodeTypeParent => 0x01

/-- The method `Node.MarshalTLS`: the type byte, then the payload.  `none` is the panic
of `Type` on a node without a payload.  Modelled from the spec: a write stream appends
what is written to it, a `uint8` as one byte (stream.go is not among the sources). -/
def Node.MarshalTLS (c : PayloadCodec) (n : Node) : Option (Except CodecErr Bytes) :=
  match n.Type with
  | none => none
  | some .NodeTypeLeaf =>
    match n.Leaf with
    | none => none
    | some kp =>
      match c.encodeLeaf kp with
      | .error e => some (.error (.payload e))
      | .ok bs => some (.ok (NodeType.byte .NodeTypeLeaf :: bs))
  | some .NodeTypeParent =>
    match n.Parent with
    | none => none
    | some p =>
      match c.encodeParent p with
      | .error e => some (.error (.payload e))
      | .ok bs => some (.ok (NodeType.byte .NodeTypeParent :: bs))

/-- The method `Node.UnmarshalTLS` on the node `n`: the node after a successful call and
the position of the stream, the number of bytes read.  After an error the source
returns 0 and leaves in `n` whatever the failed read wrote; that state is not modelled.
Modelled from the spec: a read stream reads from the front of the data, a `uint8` as one
byte, and fails on an empty input (stream.go is not among the sources). -/
def Node.UnmarshalTLS (c : PayloadCodec) (n : Node) (data : Bytes) : Except CodecErr (Node × Nat) :=
  match data with
  | [] => .error .shortRead
  | tag :: rest =>
    if tag = NodeType.byte .NodeTypeLeaf then
      match c.decodeLeaf rest with
      | .error e => .error (.payload e)
      | .ok (kp, k) => .ok ({ n with Leaf := some kp }, 1 + k)
    else if tag = NodeType.byte .NodeTypeParent then
      match c.decodeParent rest with
      | .error e => .error (.payload e)
      | .ok (p, k) => .ok ({ n with Parent := some p }, 1 + k)
    else .error .invalidNodeType

/-- A fresh node, `Node{}`: no payload and a `nil` `Hash`. -/
def Node.fresh : Node := { Leaf := none, Parent := none, Hash := none }

/-! ## Notions for the statements about Decap and Encap -/

namespace RatchetTree

/-- What the search of `decryptPathSecret` finds at slot `i`: `some none` for a blank
slot or a node without a private key, `some (some priv)` for a held key, and `none`
where reading the slot panics (index out of range, or a node without a payload). -/
def heldKey (t : RatchetTree) (i : Nat) : Option (Option HPKEPrivateKey) :=
  match t.Nodes[i]? with
  | none => none
  | some slot =>
    match slot.Node with
    | none => some none
    | some nd => nd.PrivateKey

/-- The public key of slot `i` when it holds a parent payload and no leaf payload. -/
def parentKeyAt (t : RatchetTree) (i : Nat) : Option HPKEPublicKey :=
  match t.Nodes[i]? with
  | none => none
  | some slot =>
    match slot.Node with
    | none => none
    | some nd =>
      match nd.Leaf, nd.Parent with
      | none, some p => some p.PublicKey
      | _, _ => none

/-- The entry `(curr, secret)` of a secrets map passes the check of `Implant`: the key
derived from the secret has the public key of the parent at slot `curr`. -/
def passes (t : RatchetTree) (e : Nat × Bytes) : Prop :=
  ∃ priv, t.Suite.Derive e.2 = .ok priv ∧ t.parentKeyAt e.1 = some priv.PublicKey

/-- The tree with another `Decrypt` in its backend. -/
def withDecrypt (t : RatchetTree)
    (dec : HPKEPrivateKey → Bytes → HPKECiphertext → Except Nat Bytes) : RatchetTree :=
  { t with Suite := { t.Suite with Decrypt := dec } }

end RatchetTree

/-- The path nodes with the public key of entry `i` replaced by `k`. -/
def setPublicKeyAt : List DirectPathNode → Nat → HPKEPublicKey → List DirectPathNode
  | [], _, _ => []
  | pn :: rest, 0, k => { pn with PublicKey := k } :: rest
  | pn :: rest, i + 1, k => pn :: setPublicKeyAt rest i k

/-- The path with the public key of entry `i` replaced by `k`. -/
def DirectPath.withPublicKey (path : DirectPath) (i : Nat) (k : HPKEPublicKey) : DirectPath :=
  { Nodes := setPublicKeyAt path.Nodes i k }

/-! ## Further concrete instances -/

/-- The backend `demoSuite` with an `Encrypt` that always fails. -/
def demoFailSuite : CipherSuite := { demoSuite with Encrypt := fun _ _ _ => .error 3 }

/-- The tree `demoFour` over the backend whose `Encrypt` fails. -/
def demoFourFailing : RatchetTree := { demoFour with Suite := demoFailSuite }

/-- The private key of the key package `demoKeyPackage 1`. -/
def demoPrivate1 : HPKEPrivateKey := { Data := [1], PublicKey := { Data := [101] } }

/-- The tree `demoFour` as member 1 holds it, with the private key of its own leaf. -/
def demoFourHeld1 : RatchetTree :=
  Run.tree demoFour (demoFour.SetLeafPrivateKey 1 demoPrivate1)

/-- The path `demoFourPath` with the ciphertexts of its second node dropped. -/
def demoShortPath : DirectPath :=
  { Nodes := [{ PublicKey := { Data := [9, 7, 1, 1] },
                EncryptedPathSecrets := [[1, 101, 7, 1, 1]] },
              { PublicKey := { Data := [9, 7, 7, 1, 1] }, EncryptedPathSecrets := [] }] }

/-- A small payload codec: a key package is written as its credential behind a length
byte and a parent node as its parent hash behind a length byte; the decoders read the
length byte and that many bytes. -/
def demoCodec : PayloadCodec where
  encodeLeaf kp := .ok (kp.Credential.length :: kp.Credential)
  decodeLeaf bs :=
    match bs with
    | [] => .error 1
    | n :: rest =>
      if n ≤ rest.length then .ok ({ demoKeyPackage 0 with Credential := rest.take n }, n + 1)
      else .error 2
  encodeParent p := .ok (p.ParentHash.length :: p.ParentHash)
  decodeParent bs :=
    match bs with
    | [] => .error 1
    | n :: rest =>
      if n ≤ rest.length then
        .ok ({ PublicKey := { Data := [5] }, UnmergedLeaves := [], ParentHash := rest.take n,
               PrivateKey := none }, n + 1)
      else .error 2

/-- A leaf node whose own `Hash` field is set. -/
def demoHashedNode : Node :=
  { Leaf := some (demoKeyPackage 0), Parent := none, Hash := some [1] }

/-- A leaf node whose own `Hash` field is `nil`. -/
def demoPlainNode : Node := { Leaf := some (demoKeyPackage 0), Parent := none, Hash := none }

/-- A leaf node whose own `Hash` field is the empty slice `[]byte{}`, not `nil`. -/
def demoEmptyHashNode : Node :=
  { Leaf := some (demoKeyPackage 0), Parent := none, Hash := some [] }

end MLS

namespace MLS

/-! ## The common ancestor of two leaves -/

/-- The number of bits to drop from `a` and `b` to make them equal: one more than the
highest bit position at which they differ, 0 when they are equal.  No more than `fuel`
bits are looked at. -/
def diffBits : Nat → Nat → Nat → Nat
  | 0, _, _ => 0
  | fuel + 1, a, b => if a = b then 0 else diffBits fuel (a / 2) (b / 2) + 1

/-- Modelled from the spec: `ancestor(l, r)` finds the highest bit position at which
`toNodeIndex(l)` and `toNodeIndex(r)` differ and returns the node whose level equals
that position and whose low bits are all ones below it, under the bits that the two
indices share above it (tree-math.go is not among the sources).  The spec leaves
`ancestor(l, l)` open; the leaf itself is returned.  The two indices have no more
than `ln + rn` bits, so the bound on the bits looked at never cuts the search short. -/
def ancestor (l r : Nat) : Nat :=
  let ln := toNodeIndex l
  let rn := toNodeIndex r
  if ln = rn then ln
  else
    let k := diffBits (ln + rn) ln rn - 1
    ((ln >>> (k + 1)) <<< (k + 1)) + ((1 <<< k) - 1)

namespace RatchetTree

/-! ## Notions for the statements about the output of Encap and the kinds of the slots -/

/-- The chain of path secrets started at `leafSecret`: entry 0 is the leaf secret and
each further entry is `pathStep` of the one before. -/
def chainAt (t : RatchetTree) (leafSecret : Bytes) : Nat → Bytes
  | 0 => leafSecret
  | k + 1 => t.pathStep (chainAt t leafSecret k)

/-- The node `nd` is of the kind that slot `i` may hold: a key package in an even slot,
a parent node and no key package in an odd slot.  With `strict`, an even slot moreover
holds no parent payload next to its key package. -/
def kindOk (strict : Bool) (i : Nat) (nd : Node) : Prop :=
  if i % 2 = 0 then nd.Leaf ≠ none ∧ (strict = true → nd.Parent = none)
  else nd.Leaf = none ∧ nd.Parent ≠ none

instance (strict : Bool) (i : Nat) (nd : Node) : Decidable (kindOk strict i nd) := by
  unfold kindOk
  infer_instance

/-- Every occupied slot holds a node of its kind. -/
def kindsOk (strict : Bool) (t : RatchetTree) : Prop :=
  ∀ i nd, t.contentAt i = some (some nd) → kindOk strict i nd

/-- The slot-kind predicate: the node vector is empty or of odd length, and every
occupied slot holds a node of its kind. -/
def slotKinds (strict : Bool) (t : RatchetTree) : Prop :=
  (t.Nodes.length = 0 ∨ t.Nodes.length % 2 = 1) ∧ kindsOk strict t

end RatchetTree

/-! ## Further concrete instances -/

/-- The tree `demoFour` after member 3 left (its path is blanked), member 2 sent a path,
which occupies the slots 5 and 3, and a new member joined in the leftmost free leaf,
leaf 3: the slots 5 and 3 hold the unmerged leaf 3. -/
def demoRejoined : RatchetTree :=
  let t1 := Run.tree demoFour (demoFour.BlankPath 3)
  let t2 := Run.tree t1 (t1.Encap 2 [] [2, 2])
  Run.tree t2 (t2.AddLeaf 3 (demoKeyPackage 3))

/-- The path that `Encap(0, [], [1, 1])` returns on `demoRejoined`: the second ciphertext
of the second node is made for the public key `[9, 7, 7, 1, 1]`. -/
def demoRejoinedPath : DirectPath :=
  { Nodes := [{ PublicKey := { Data := [9, 7, 1, 1] },
                EncryptedPathSecrets := [[1, 101, 7, 1, 1]] },
              { PublicKey := { Data := [9, 7, 7, 1, 1] },
                EncryptedPathSecrets := [[4, 9, 7, 2, 2, 7, 7, 1, 1],
                                         [5, 9, 7, 7, 1, 1, 7, 7, 1, 1]] }] }

end MLS

namespace MLS
namespace RatchetTree

/-! ## Notions for the statement on the stored hashes -/

/-- The stored hashes are current: the node vector has the width of its size, and
hashing any slot again leaves the tree as it is. -/
def hashesCurrent (t : RatchetTree) : Prop :=
  t.Nodes.length = nodeWidth t.size ∧ ∀ i, i < t.Nodes.length → t.setHash i = .done (t, none)

/-- The trees built from the fresh tree of a suite by calls that succeed of the mutators
that re-hash the path they change, `AddLeaf` (at a leaf index up to the size),
`UpdateLeaf`, `BlankPath`, `Encap` and `Decap` (at a leaf index below the size, `Decap`
ranging over its secrets map in any order), and of `SetLeafPrivateKey`. -/
inductive Built (suite : CipherSuite) : RatchetTree → Prop where
  | fresh : Built suite (NewRatchetTree suite)
  | addLeaf {t t' : RatchetTree} (l : Nat) (kp : MLS.KeyPackage) :
      Built suite t → l ≤ t.size → t.AddLeaf l kp = .done (t', none) → Built suite t'
  | updateLeaf {t t' : RatchetTree} (l : Nat) (kp : MLS.KeyPackage) :
      Built suite t → l < t.size → t.UpdateLeaf l kp = .done (t', none) → Built suite t'
  | blankPath {t t' : RatchetTree} (l : Nat) :
      Built suite t → l < t.size → t.BlankPath l = .done (t', none) → Built suite t'
  | setLeafPrivateKey {t t' : RatchetTree} (l : Nat) (priv : HPKEPrivateKey) :
      Built suite t → t.SetLeafPrivateKey l priv = .done (t', none) → Built suite t'
  | encap {t t' : RatchetTree} (l : Nat) (context s : Bytes) (path : DirectPath) (rs : Bytes) :
      Built suite t → l < t.size → t.Encap l context s = .done (t', .ok (path, rs)) →
      Built suite t'
  | decap {t t' : RatchetTree} (order : SecretMap → SecretMap) (l : Nat) (context : Bytes)
      (path : DirectPath) (rs : Bytes) :
      Built suite t → (∀ m, (order m).Perm m) → l < t.size →
      t.Decap order l context path = .done (t', .ok rs) → Built suite t'

end RatchetTree

/-! ## Further concrete instances -/

/-- Two members join one by one. -/
def demoJoined2 : RatchetTree :=
  let t1 := Run.tree demoFresh (demoFresh.AddLeaf 0 (demoKeyPackage 0))
  Run.tree t1 (t1.AddLeaf 1 (demoKeyPackage 1))

/-- Member 0 joins, leaf 1 is filled with another key package and then updated to the
key package of member 1, and member 1 stores the private key of its leaf. -/
def demoJoined2Held : RatchetTree :=
  let t1 := Run.tree demoFresh (demoFresh.AddLeaf 0 (demoKeyPackage 0))
  let t2 := Run.tree t1 (t1.AddLeaf 1 (demoKeyPackage 5))
  let t3 := Run.tree t2 (t2.UpdateLeaf 1 (demoKeyPackage 1))
  Run.tree t3 (t3.SetLeafPrivateKey 1 demoPrivate1)

/-- Member 0 joins, and a second member is put in leaf 3, beyond the size. -/
def demoSkipped : RatchetTree :=
  Run.tree demoWritten (demoWritten.AddLeaf 3 (demoKeyPackage 3))

/-- The tree `demoJoined2` over the backend whose `Encrypt` fails. -/
def demoJoined2Failing : RatchetTree :=
  let f : RatchetTree := NewRatchetTree demoFailSuite
  let t1 := Run.tree f (f.AddLeaf 0 (demoKeyPackage 0))
  Run.tree t1 (t1.AddLeaf 1 (demoKeyPackage 1))

end MLS

namespace MLS

/-! ## Tree math: lemmas -/

theorem two_pow_pos' (k : Nat) : 0 < 2 ^ k := Nat.two_pow_pos k

theorem nodeAt_zero (m : Nat) : nodeAt m 0 = 2 * m := by
  simp [nodeAt]

theorem nodeAt_succ (m k : Nat) : nodeAt m (k + 1) = 2 * nodeAt m k + 1 := by
  have h := two_pow_pos' k
  simp only [nodeAt, pow_succ]
  have : 2 ^ k * 2 * 2 * m = 2 * (2 ^ k * 2 * m) := by ring
  omega

theorem levelAux_nodeAt : ∀ (f k m : Nat), k < f → levelAux f (nodeAt m k) = k := by
  intro f
  induction f with
  | zero => intro k m h; omega
  | succ f ih =>
    intro k m h
    cases k with
    | zero => simp [levelAux, nodeAt_zero]
    | succ k =>
      have h1 : (nodeAt m (k + 1)) % 2 = 1 := by rw [nodeAt_succ]; omega
      have h2 : (nodeAt m (k + 1)) / 2 = nodeAt m k := by rw [nodeAt_succ]; omega
      simp [levelAux, h1, h2, ih k m (by omega)]

theorem lt_two_pow_self' (k : Nat) : k < 2 ^ k := Nat.lt_two_pow k

theorem le_nodeAt (m k : Nat) : 2 ^ k - 1 ≤ nodeAt m k := by
  simp [nodeAt]

theorem level_nodeAt (m k : Nat) : level (nodeAt m k) = k := by
  unfold level
  apply levelAux_nodeAt
  have := lt_two_pow_self' k
  have := le_nodeAt m k
  omega

theorem exists_nodeAt : ∀ x : Nat, ∃ m k, x = nodeAt m k := by
  intro x
  induction x using Nat.strong_induction_on with
  | _ x ih =>
    by_cases h : x % 2 = 0
    · exact ⟨x / 2, 0, by rw [nodeAt_zero]; omega⟩
    · obtain ⟨m, k, hk⟩ := ih (x / 2) (by omega)
      exact ⟨m, k + 1, by rw [nodeAt_succ, ← hk]; omega⟩

theorem nodeAt_inj {m k m' k' : Nat} (h : nodeAt m k = nodeAt m' k') : m = m' ∧ k = k' := by
  have hk : k = k' := by
    have := congrArg level h
    simpa [level_nodeAt] using this
  subst hk
  refine ⟨?_, rfl⟩
  simp only [nodeAt] at h
  have h2 : 2 ^ (k + 1) * m = 2 ^ (k + 1) * m' := by omega
  exact Nat.eq_of_mul_eq_mul_left (two_pow_pos' _) h2

/-- Bitwise XOR acts blockwise on `2^i * p + a` with `a < 2^i`. -/
theorem xor_block (i p q a b : Nat) (ha : a < 2 ^ i) (hb : b < 2 ^ i) :
    (2 ^ i * p + a) ^^^ (2 ^ i * q + b) = 2 ^ i * (p ^^^ q) + (a ^^^ b) := by
  apply Nat.eq_of_testBit_eq
  intro j
  rw [Nat.testBit_xor, Nat.testBit_mul_pow_two_add _ ha, Nat.testBit_mul_pow_two_add _ hb,
    Nat.testBit_mul_pow_two_add _ (Nat.xor_lt_two_pow ha hb)]
  by_cases h : j < i <;> simp [h]

theorem or_block (i p q a b : Nat) (ha : a < 2 ^ i) (hb : b < 2 ^ i) :
    (2 ^ i * p + a) ||| (2 ^ i * q + b) = 2 ^ i * (p ||| q) + (a ||| b) := by
  apply Nat.eq_of_testBit_eq
  intro j
  rw [Nat.testBit_or, Nat.testBit_mul_pow_two_add _ ha, Nat.testBit_mul_pow_two_add _ hb,
    Nat.testBit_mul_pow_two_add _ (Nat.or_lt_two_pow ha hb)]
  by_cases h : j < i <;> simp [h]

theorem xor_one_of_odd (q : Nat) : (2 * q + 1) ^^^ 1 = 2 * q := by
  have h1 : ((2 * q + 1) ^^^ 1) / 2 = q := by
    rw [Nat.xor_div_two]; simp; omega
  have h2 : ¬ ((2 * q + 1) ^^^ 1) % 2 = 1 := by
    rw [Nat.xor_mod_two_eq_one]; simp; omega
  omega

theorem xor_one_of_even (q : Nat) : (2 * q) ^^^ 1 = 2 * q + 1 := by
  have h1 : ((2 * q) ^^^ 1) / 2 = q := by
    rw [Nat.xor_div_two]; simp
  have h2 : ((2 * q) ^^^ 1) % 2 = 1 := by
    rw [Nat.xor_mod_two_eq_one]; simp
  omega

theorem xor_three (m : Nat) : (4 * m + 1) ^^^ 3 = 4 * m + 2 := by
  have h1 : ((4 * m + 1) ^^^ 3) / 2 = 2 * m + 1 := by
    rw [Nat.xor_div_two]
    have : (4 * m + 1) / 2 = 2 * m := by omega
    rw [this]; exact xor_one_of_even m
  have h2 : ¬ ((4 * m + 1) ^^^ 3) % 2 = 1 := by
    rw [Nat.xor_mod_two_eq_one]; simp; omega
  omega

theorem or_one_of_even (q : Nat) : (2 * q) ||| 1 = 2 * q + 1 := by
  have h1 : ((2 * q) ||| 1) / 2 = q := by
    rw [Nat.or_div_two]; simp
  have h2 : ((2 * q) ||| 1) % 2 = 1 := by
    rw [Nat.or_mod_two_eq_one]; simp
  omega

theorem xor_mod_two_self (m : Nat) : m ^^^ (m % 2) = 2 * (m / 2) := by
  rcases Nat.mod_two_eq_zero_or_one m with h | h
  · rw [h]; simp; omega
  · rw [h]
    have : m = 2 * (m / 2) + 1 := by omega
    rw [this, xor_one_of_odd]; omega

theorem left_nodeAt_succ (m k : Nat) : left (nodeAt m (k + 1)) = nodeAt (2 * m) k := by
  have hp := two_pow_pos' k
  unfold left
  rw [level_nodeAt]
  simp only [Nat.add_sub_cancel, Nat.succ_ne_zero, if_false, Nat.shiftLeft_eq, Nat.one_mul]
  have e1 : nodeAt m (k + 1) = 2 ^ k * (2 * (2 * m) + 1) + (2 ^ k - 1) := by
    simp only [nodeAt, pow_succ]; ring_nf; omega
  have e2 : (2:Nat) ^ k = 2 ^ k * 1 + 0 := by omega
  rw [e1]
  conv => lhs; rhs; rw [e2]
  rw [xor_block _ _ _ _ _ (by omega) (by omega), xor_one_of_odd]
  simp only [nodeAt, pow_succ, Nat.xor_zero]; ring_nf

theorem left_nodeAt_zero (m : Nat) : left (nodeAt m 0) = nodeAt m 0 := by
  unfold left; rw [level_nodeAt]; simp

/-- The naive right child. -/
theorem nright_nodeAt_succ (m k : Nat) :
    (nodeAt m (k + 1)) ^^^ (3 <<< k) = nodeAt (2 * m + 1) k := by
  have hp := two_pow_pos' k
  simp only [Nat.shiftLeft_eq]
  have e1 : nodeAt m (k + 1) = 2 ^ k * (4 * m + 1) + (2 ^ k - 1) := by
    simp only [nodeAt, pow_succ]; ring_nf; omega
  have e2 : 3 * (2:Nat) ^ k = 2 ^ k * 3 + 0 := by omega
  rw [e1, e2, xor_block _ _ _ _ _ (by omega) (by omega), xor_three]
  simp only [nodeAt, pow_succ, Nat.xor_zero]; ring_nf

theorem parentStep_nodeAt (m k : Nat) : parentStep (nodeAt m k) = nodeAt (m / 2) (k + 1) := by
  have hp := two_pow_pos' k
  unfold parentStep
  simp only [level_nodeAt, Nat.shiftLeft_eq, Nat.one_mul, Nat.and_one_is_mod, Nat.shiftRight_eq_div_pow]
  have hdiv : nodeAt m k / 2 ^ (k + 1) = m := by
    simp only [nodeAt]
    rw [Nat.mul_add_div (two_pow_pos' _)]
    have : (2 ^ k - 1) / 2 ^ (k + 1) = 0 := Nat.div_eq_of_lt (by rw [pow_succ]; omega)
    omega
  rw [hdiv]
  have e1 : nodeAt m k = 2 ^ k * (2 * m) + (2 ^ k - 1) := by
    simp only [nodeAt, pow_succ]; ring_nf
  have e2 : (2:Nat) ^ k = 2 ^ k * 1 + 0 := by omega
  rw [e1]
  conv => lhs; lhs; rhs; rw [e2]
  rw [or_block _ _ _ _ _ (by omega) (by omega), or_one_of_even]
  have e3 : 2 ^ k * (2 * m + 1) + (2 ^ k - 1 ||| 0) = 2 ^ (k + 1) * m + (2 ^ (k + 1) - 1) := by
    simp only [pow_succ, Nat.or_zero]; ring_nf; omega
  have e4 : m % 2 * 2 ^ (k + 1) = 2 ^ (k + 1) * (m % 2) + 0 := by ring
  have hp1 := two_pow_pos' (k + 1)
  rw [e3, e4, xor_block _ _ _ _ _ (by omega) (by omega), xor_mod_two_self]
  simp only [nodeAt, pow_succ, Nat.xor_zero]; ring_nf

theorem log2Aux_spec : ∀ (f x : Nat), x ≤ f → 1 ≤ x →
    2 ^ log2Aux f x ≤ x ∧ x < 2 ^ (log2Aux f x + 1) := by
  intro f
  induction f with
  | zero => intro x h1 h2; omega
  | succ f ih =>
    intro x h1 h2
    simp only [log2Aux]
    by_cases h : 2 ≤ x
    · simp only [h, if_true]
      obtain ⟨a, b⟩ := ih (x / 2) (by omega) (by omega)
      constructor
      · rw [pow_succ]; omega
      · rw [pow_succ]; omega
    · simp only [h, if_false]
      simp; omega

theorem log2_spec (x : Nat) (h : 1 ≤ x) : 2 ^ log2 x ≤ x ∧ x < 2 ^ (log2 x + 1) :=
  log2Aux_spec x x (Nat.le_refl _) h

theorem root_eq (n : Nat) : root n = nodeAt 0 (rootLevel n) := by
  unfold root rootLevel
  by_cases h : n ≤ 1
  · simp [h, nodeAt]
  · simp [h, nodeAt, Nat.shiftLeft_eq]

theorem level_root (n : Nat) : level (root n) = rootLevel n := by
  rw [root_eq, level_nodeAt]

theorem root_lt (n : Nat) (h : 1 ≤ n) : root n < nodeWidth n := by
  rw [root_eq]
  unfold rootLevel nodeWidth nodeAt
  by_cases h1 : n ≤ 1
  · simp [h1]; omega
  · simp only [h1, if_false]
    obtain ⟨a, b⟩ := log2_spec (n - 1) (by omega)
    rw [pow_succ]; omega

theorem nodeWidth_lt (n : Nat) : nodeWidth n < 2 ^ (rootLevel n + 1) := by
  unfold rootLevel nodeWidth
  by_cases h1 : n ≤ 1
  · simp [h1]; omega
  · simp only [h1, if_false]
    obtain ⟨a, b⟩ := log2_spec (n - 1) (by omega)
    rw [pow_succ]; omega

/-- A node of the range has at most the level of the root, and only the root has it. -/
theorem level_le_rootLevel {m k n : Nat} (h : nodeAt m k < nodeWidth n) :
    k ≤ rootLevel n ∧ (k = rootLevel n → m = 0) := by
  have hw := nodeWidth_lt n
  have hk : 2 ^ k - 1 ≤ nodeAt m k := by simp [nodeAt]
  have h1 : 2 ^ k < 2 ^ (rootLevel n + 1) := by
    have := two_pow_pos' k
    omega
  have h2 : k < rootLevel n + 1 := (Nat.pow_lt_pow_iff_right (by decide)).mp h1
  refine ⟨by omega, ?_⟩
  intro e
  subst e
  by_contra hm
  have : 1 ≤ m := by omega
  have : 2 ^ (rootLevel n + 1) * 1 ≤ 2 ^ (rootLevel n + 1) * m := Nat.mul_le_mul_left _ this
  simp only [nodeAt] at h
  omega

theorem eq_root_of_level {x n : Nat} (h : x < nodeWidth n) (hl : level x = rootLevel n) :
    x = root n := by
  obtain ⟨m, k, rfl⟩ := exists_nodeAt x
  rw [level_nodeAt] at hl
  obtain ⟨_, h2⟩ := level_le_rootLevel h
  rw [root_eq, h2 hl, hl]

theorem level_lt_rootLevel {x n : Nat} (h : x < nodeWidth n) (hr : x ≠ root n) :
    level x < rootLevel n := by
  obtain ⟨m, k, rfl⟩ := exists_nodeAt x
  rw [level_nodeAt]
  obtain ⟨h1, h2⟩ := level_le_rootLevel h
  rcases Nat.lt_or_ge k (rootLevel n) with h3 | h3
  · exact h3
  · exfalso
    apply hr
    apply eq_root_of_level h
    rw [level_nodeAt]; omega

/-- The ancestor `i` steps above a node of the complete tree. -/
theorem nodeAt_anc_lt {m k i n : Nat} (h : nodeAt m k < nodeWidth n) (hi : k + i = rootLevel n) :
    m / 2 ^ i = 0 := by
  apply Nat.div_eq_of_lt
  have hw := nodeWidth_lt n
  simp only [nodeAt] at h
  have : 2 ^ (k + 1) * m < 2 ^ (k + 1) * 2 ^ i := by
    rw [← pow_add]
    have e : k + 1 + i = rootLevel n + 1 := by omega
    rw [e]; omega
  exact Nat.lt_of_mul_lt_mul_left this

theorem parentLoop_spec (w : Nat) : ∀ (f m k : Nat),
    (∃ i, i < f ∧ nodeAt (m / 2 ^ i) (k + i) < w) →
    ∃ i, parentLoop w f (nodeAt m k) = nodeAt (m / 2 ^ i) (k + i) ∧
      nodeAt (m / 2 ^ i) (k + i) < w ∧ ∀ j, j < i → w ≤ nodeAt (m / 2 ^ j) (k + j) := by
  intro f
  induction f with
  | zero => intro m k ⟨i, hi, _⟩; omega
  | succ f ih =>
    intro m k ⟨i, hi, hlt⟩
    simp only [parentLoop]
    by_cases h : nodeAt m k ≥ w
    · simp only [h, if_true]
      have hi0 : i ≠ 0 := by
        intro e; subst e; simp at hlt; omega
      obtain ⟨i', rfl⟩ : ∃ i', i = i' + 1 := ⟨i - 1, by omega⟩
      have hex : ∃ j, j < f ∧ nodeAt (m / 2 / 2 ^ j) (k + 1 + j) < w := by
        refine ⟨i', by omega, ?_⟩
        have e1 : m / 2 / 2 ^ i' = m / 2 ^ (i' + 1) := by
          rw [Nat.div_div_eq_div_mul, pow_succ, Nat.mul_comm]
        have e2 : k + 1 + i' = k + (i' + 1) := by omega
        rw [e1, e2]; exact hlt
      rw [parentStep_nodeAt]
      obtain ⟨j, hj1, hj2, hj3⟩ := ih (m / 2) (k + 1) hex
      refine ⟨j + 1, ?_, ?_, ?_⟩
      · have e1 : m / 2 / 2 ^ j = m / 2 ^ (j + 1) := by
          rw [Nat.div_div_eq_div_mul, pow_succ, Nat.mul_comm]
        have e2 : k + 1 + j = k + (j + 1) := by omega
        rw [hj1, e1, e2]
      · have e1 : m / 2 / 2 ^ j = m / 2 ^ (j + 1) := by
          rw [Nat.div_div_eq_div_mul, pow_succ, Nat.mul_comm]
        have e2 : k + 1 + j = k + (j + 1) := by omega
        rw [← e1, ← e2]; exact hj2
      · intro j' hj'
        cases j' with
        | zero => simpa using h
        | succ j' =>
          have := hj3 j' (by omega)
          have e1 : m / 2 / 2 ^ j' = m / 2 ^ (j' + 1) := by
            rw [Nat.div_div_eq_div_mul, pow_succ, Nat.mul_comm]
          have e2 : k + 1 + j' = k + (j' + 1) := by omega
          rw [← e1, ← e2]; exact this
    · simp only [h, if_false]
      exact ⟨0, by simp, by simpa using h, by intro j hj; omega⟩

end MLS

namespace MLS

theorem div_pow_succ (m i : Nat) : m / 2 / 2 ^ i = m / 2 ^ (i + 1) := by
  rw [Nat.div_div_eq_div_mul, pow_succ, Nat.mul_comm]

theorem rootLevel_lt_nodeWidth (n : Nat) (h : 1 ≤ n) : rootLevel n < nodeWidth n := by
  have h1 := root_lt n h
  rw [root_eq] at h1
  simp only [nodeAt] at h1
  have := Nat.lt_two_pow (rootLevel n)
  omega

theorem nodeWidth_pos_of_lt {x n : Nat} (h : x < nodeWidth n) : 1 ≤ n := by
  unfold nodeWidth at h; omega

theorem parent_spec {m k n : Nat} (h : nodeAt m k < nodeWidth n) (hr : nodeAt m k ≠ root n) :
    ∃ i, parent (nodeAt m k) n = nodeAt (m / 2 ^ (i + 1)) (k + (i + 1)) ∧
      nodeAt (m / 2 ^ (i + 1)) (k + (i + 1)) < nodeWidth n ∧
      ∀ j, j < i → nodeWidth n ≤ nodeAt (m / 2 ^ (j + 1)) (k + (j + 1)) := by
  have hn := nodeWidth_pos_of_lt h
  have hk : k < rootLevel n := by
    have := level_lt_rootLevel h hr
    rwa [level_nodeAt] at this
  unfold parent
  simp only [hr, if_false, parentStep_nodeAt]
  have hex : ∃ i, i < nodeWidth n ∧ nodeAt (m / 2 / 2 ^ i) (k + 1 + i) < nodeWidth n := by
    refine ⟨rootLevel n - k - 1, ?_, ?_⟩
    · have := rootLevel_lt_nodeWidth n hn; omega
    · rw [div_pow_succ]
      have e : k + 1 + (rootLevel n - k - 1) = rootLevel n := by omega
      have e2 : rootLevel n - k - 1 + 1 = rootLevel n - k := by omega
      rw [e, e2, nodeAt_anc_lt h (by omega), ← root_eq]
      exact root_lt n hn
  obtain ⟨i, h1, h2, h3⟩ := parentLoop_spec (nodeWidth n) (nodeWidth n) (m / 2) (k + 1) hex
  refine ⟨i, ?_, ?_, ?_⟩
  · rw [h1, div_pow_succ]; congr 1; omega
  · rw [div_pow_succ] at h2
    have e : k + 1 + i = k + (i + 1) := by omega
    rwa [e] at h2
  · intro j hj
    have := h3 j hj
    rw [div_pow_succ] at this
    have e : k + 1 + j = k + (j + 1) := by omega
    rwa [e] at this

theorem parent_lt {x n : Nat} (h : x < nodeWidth n) : parent x n < nodeWidth n := by
  by_cases hr : x = root n
  · unfold parent; simp [hr]; rw [← hr]; exact h
  · obtain ⟨m, k, rfl⟩ := exists_nodeAt x
    obtain ⟨i, h1, h2, _⟩ := parent_spec h hr
    rw [h1]; exact h2

theorem level_parent_gt {x n : Nat} (h : x < nodeWidth n) (hr : x ≠ root n) :
    level x < level (parent x n) := by
  obtain ⟨m, k, rfl⟩ := exists_nodeAt x
  obtain ⟨i, h1, _, _⟩ := parent_spec h hr
  rw [h1, level_nodeAt, level_nodeAt]; omega

theorem parent_root (n : Nat) : parent (root n) n = root n := by
  unfold parent; simp

theorem parent_ne_self {x n : Nat} (h : x < nodeWidth n) (hr : x ≠ root n) : parent x n ≠ x := by
  intro e
  have := level_parent_gt h hr
  rw [e] at this; omega

/-! ### Children -/

theorem left_spec {x : Nat} (h : 0 < level x) :
    ∃ m k, x = nodeAt m (k + 1) ∧ left x = nodeAt (2 * m) k := by
  obtain ⟨m, k, rfl⟩ := exists_nodeAt x
  rw [level_nodeAt] at h
  obtain ⟨k', rfl⟩ : ∃ k', k = k' + 1 := ⟨k - 1, by omega⟩
  exact ⟨m, k', rfl, left_nodeAt_succ m k'⟩

theorem level_left {x : Nat} (h : 0 < level x) : level (left x) + 1 = level x := by
  obtain ⟨m, k, rfl, e⟩ := left_spec h
  rw [e, level_nodeAt, level_nodeAt]

theorem nodeAt_left_lt (m k : Nat) : nodeAt (2 * m) k < nodeAt m (k + 1) := by
  have := two_pow_pos' k
  simp only [nodeAt, pow_succ]
  have : 2 ^ k * 2 * (2 * m) = 2 ^ k * 2 * 2 * m := by ring
  omega

theorem left_lt {x : Nat} (h : 0 < level x) : left x < x := by
  obtain ⟨m, k, rfl, e⟩ := left_spec h
  rw [e]; exact nodeAt_left_lt m k

theorem left_leaf {x : Nat} (h : level x = 0) : left x = x := by
  unfold left; simp [h]

theorem right_leaf {x n : Nat} (h : level x = 0) : right x n = x := by
  unfold right; simp [h]

theorem rightLoop_spec (w : Nat) : ∀ (f p j : Nat), j < f → nodeAt (2 ^ j * p) 0 < w →
    ∃ i, i ≤ j ∧ rightLoop w f (nodeAt p j) = nodeAt (2 ^ i * p) (j - i) ∧
      nodeAt (2 ^ i * p) (j - i) < w ∧ ∀ i', i' < i → w ≤ nodeAt (2 ^ i' * p) (j - i') := by
  intro f
  induction f with
  | zero => intro p j h; omega
  | succ f ih =>
    intro p j hj hb
    simp only [rightLoop]
    by_cases h : nodeAt p j ≥ w
    · simp only [h, if_true]
      cases j with
      | zero => simp at hb; omega
      | succ j =>
        rw [left_nodeAt_succ]
        have hb' : nodeAt (2 ^ j * (2 * p)) 0 < w := by
          have e : 2 ^ j * (2 * p) = 2 ^ (j + 1) * p := by rw [pow_succ]; ring
          rw [e]; exact hb
        obtain ⟨i, h1, h2, h3, h4⟩ := ih (2 * p) j (by omega) hb'
        have e : ∀ i, 2 ^ i * (2 * p) = 2 ^ (i + 1) * p := by intro i; rw [pow_succ]; ring
        refine ⟨i + 1, by omega, ?_, ?_, ?_⟩
        · rw [h2, e]; congr 1; omega
        · rw [e] at h3
          have e2 : j + 1 - (i + 1) = j - i := by omega
          rw [e2]; exact h3
        · intro i' hi'
          cases i' with
          | zero => simpa using h
          | succ i' =>
            have := h4 i' (by omega)
            rw [e] at this
            have e2 : j + 1 - (i' + 1) = j - i' := by omega
            rw [e2]; exact this
    · simp only [h, if_false]
      exact ⟨0, by omega, by simp, by simpa using h, by intro i' hi'; omega⟩

theorem nodeWidth_odd {n : Nat} (h : 1 ≤ n) : nodeWidth n % 2 = 1 := by
  unfold nodeWidth; omega

theorem right_spec {m k n : Nat} (h : nodeAt m (k + 1) < nodeWidth n) :
    ∃ i, i ≤ k ∧ right (nodeAt m (k + 1)) n = nodeAt (2 ^ i * (2 * m + 1)) (k - i) ∧
      nodeAt (2 ^ i * (2 * m + 1)) (k - i) < nodeWidth n ∧
      ∀ i', i' < i → nodeWidth n ≤ nodeAt (2 ^ i' * (2 * m + 1)) (k - i') := by
  have hn := nodeWidth_pos_of_lt h
  have hodd := nodeWidth_odd hn
  unfold right
  rw [level_nodeAt]
  simp only [Nat.succ_ne_zero, if_false, Nat.add_sub_cancel, nright_nodeAt_succ]
  apply rightLoop_spec
  · omega
  · have hx : nodeAt m (k + 1) % 2 = 1 := by rw [nodeAt_succ]; omega
    have e : nodeAt (2 ^ k * (2 * m + 1)) 0 = nodeAt m (k + 1) + 1 := by
      have := two_pow_pos' k
      simp only [nodeAt, pow_succ, pow_zero]
      ring_nf; omega
    rw [e]; omega

theorem right_lt {x n : Nat} (h : x < nodeWidth n) : right x n < nodeWidth n := by
  obtain ⟨m, k, rfl⟩ := exists_nodeAt x
  cases k with
  | zero => rw [right_leaf (level_nodeAt m 0)]; exact h
  | succ k =>
    obtain ⟨i, _, h2, h3, _⟩ := right_spec h
    rw [h2]; exact h3

theorem level_right_lt {x n : Nat} (h : x < nodeWidth n) (hl : 0 < level x) :
    level (right x n) < level x := by
  obtain ⟨m, k, rfl⟩ := exists_nodeAt x
  rw [level_nodeAt] at hl
  obtain ⟨k', rfl⟩ : ∃ k', k = k' + 1 := ⟨k - 1, by omega⟩
  obtain ⟨i, _, h2, _, _⟩ := right_spec h
  rw [h2, level_nodeAt, level_nodeAt]; omega

theorem left_lt_nodeWidth {x n : Nat} (h : x < nodeWidth n) : left x < nodeWidth n := by
  by_cases hl : level x = 0
  · rw [left_leaf hl]; exact h
  · have := left_lt (Nat.pos_of_ne_zero hl); omega

theorem root_level_pos_ne {x n : Nat} (h : x < nodeWidth n) {y : Nat} (hy : level y < level x)
    : y ≠ root n := by
  intro e
  obtain ⟨m, k, rfl⟩ := exists_nodeAt x
  have h1 := (level_le_rootLevel h).1
  rw [e, level_root, level_nodeAt] at hy
  omega

theorem parent_left {x n : Nat} (h : x < nodeWidth n) (hl : 0 < level x) :
    parent (left x) n = x := by
  have hne : left x ≠ root n := root_level_pos_ne h (by have := level_left hl; omega)
  obtain ⟨m, k, rfl, e⟩ := left_spec hl
  rw [e] at hne ⊢
  have hlt : nodeAt (2 * m) k < nodeWidth n := by have := nodeAt_left_lt m k; omega
  obtain ⟨i, h1, h2, h3⟩ := parent_spec hlt hne
  have hi : i = 0 := by
    by_contra hi
    have := h3 0 (by omega)
    simp at this
    omega
  subst hi
  rw [h1]; simp

theorem parent_right {x n : Nat} (h : x < nodeWidth n) (hl : 0 < level x) :
    parent (right x n) n = x := by
  have hne : right x n ≠ root n := root_level_pos_ne h (level_right_lt h hl)
  obtain ⟨m, k, rfl⟩ := exists_nodeAt x
  rw [level_nodeAt] at hl
  obtain ⟨k', rfl⟩ : ∃ k', k = k' + 1 := ⟨k - 1, by omega⟩
  obtain ⟨i, hi, h2, h3, h4⟩ := right_spec h
  rw [h2] at hne ⊢
  obtain ⟨i2, g1, g2, g3⟩ := parent_spec h3 hne
  have key : ∀ j, j ≤ i → 2 ^ i * (2 * m + 1) / 2 ^ j = 2 ^ (i - j) * (2 * m + 1) := by
    intro j hj
    have e : 2 ^ i = 2 ^ j * 2 ^ (i - j) := by rw [← pow_add]; congr 1; omega
    rw [e, Nat.mul_assoc, Nat.mul_div_cancel_left _ (two_pow_pos' j)]
  have key2 : 2 ^ i * (2 * m + 1) / 2 ^ (i + 1) = m := by
    rw [pow_succ, ← Nat.div_div_eq_div_mul, Nat.mul_div_cancel_left _ (two_pow_pos' i)]
    omega
  have hi2 : i2 = i := by
    rcases Nat.lt_trichotomy i2 i with hlt | heq | hgt
    · exfalso
      have := h4 (i - (i2 + 1)) (by omega)
      rw [key (i2 + 1) (by omega)] at g2
      have e : k' - i + (i2 + 1) = k' - (i - (i2 + 1)) := by omega
      rw [e] at g2
      omega
    · exact heq
    · exfalso
      have := g3 i hgt
      rw [key2] at this
      have e : k' - i + (i + 1) = k' + 1 := by omega
      rw [e] at this
      omega
  subst hi2
  rw [g1, key2]; congr 1; omega

end MLS

namespace MLS

/-- Induction along the path from a node to the root. -/
theorem path_induction {n : Nat} {P : Nat → Prop} (hroot : 1 ≤ n → P (root n))
    (hstep : ∀ x, x < nodeWidth n → x ≠ root n → P (parent x n) → P x) :
    ∀ x, x < nodeWidth n → P x := by
  have key : ∀ d x, x < nodeWidth n → rootLevel n - level x ≤ d → P x := by
    intro d
    induction d with
    | zero =>
      intro x hx hd
      by_cases hr : x = root n
      · rw [hr]; exact hroot (nodeWidth_pos_of_lt hx)
      · have := level_lt_rootLevel hx hr; omega
    | succ d ih =>
      intro x hx hd
      by_cases hr : x = root n
      · rw [hr]; exact hroot (nodeWidth_pos_of_lt hx)
      · apply hstep x hx hr
        apply ih _ (parent_lt hx)
        have := level_parent_gt hx hr
        omega
  intro x hx
  exact key _ x hx (Nat.le_refl _)

theorem dirpathLoop_fuel (n : Nat) : ∀ p, p < nodeWidth n → ∀ f f',
    rootLevel n - level p < f → rootLevel n - level p < f' →
    dirpathLoop n f p = dirpathLoop n f' p := by
  apply path_induction
  · intro _ f f' h1 h2
    obtain ⟨f, rfl⟩ : ∃ g, f = g + 1 := ⟨f - 1, by omega⟩
    obtain ⟨f', rfl⟩ : ∃ g, f' = g + 1 := ⟨f' - 1, by omega⟩
    simp [dirpathLoop]
  · intro x hx hr ih f f' h1 h2
    obtain ⟨f, rfl⟩ : ∃ g, f = g + 1 := ⟨f - 1, by omega⟩
    obtain ⟨f', rfl⟩ : ∃ g, f' = g + 1 := ⟨f' - 1, by omega⟩
    simp only [dirpathLoop, hr, if_false]
    have := level_parent_gt hx hr
    have := level_lt_rootLevel hx hr
    rw [ih f f' (by omega) (by omega)]

theorem dirpath_root (n : Nat) : dirpath (root n) n = [] := by
  unfold dirpath; simp

theorem dirpath_cons {x n : Nat} (hx : x < nodeWidth n) (hr : x ≠ root n) :
    dirpath x n = parent x n :: dirpath (parent x n) n := by
  have hn := nodeWidth_pos_of_lt hx
  have hL := rootLevel_lt_nodeWidth n hn
  have hp := parent_lt hx
  have hlv := level_parent_gt hx hr
  unfold dirpath
  simp only [hr, if_false]
  obtain ⟨f, hf⟩ : ∃ g, nodeWidth n = g + 1 := ⟨nodeWidth n - 1, by omega⟩
  by_cases hpr : parent x n = root n
  · simp [hpr, hf, dirpathLoop]
  · simp only [hpr, if_false]
    conv => lhs; rw [hf]
    simp only [dirpathLoop, hpr, if_false]
    have hlv2 := level_parent_gt hp hpr
    have hlv3 := level_lt_rootLevel hp hpr
    rw [dirpathLoop_fuel n _ (parent_lt hp) f (nodeWidth n) (by omega) (by omega)]

theorem dirpath_mem_lt {n : Nat} : ∀ x, x < nodeWidth n → ∀ y, y ∈ dirpath x n → y < nodeWidth n := by
  apply path_induction
  · intro _ y hy; rw [dirpath_root] at hy; simp at hy
  · intro x hx hr ih y hy
    rw [dirpath_cons hx hr] at hy
    rcases List.mem_cons.mp hy with e | h
    · rw [e]; exact parent_lt hx
    · exact ih y h

theorem dirpath_level_gt {n : Nat} : ∀ x, x < nodeWidth n → ∀ y, y ∈ dirpath x n → level x < level y := by
  apply path_induction
  · intro _ y hy; rw [dirpath_root] at hy; simp at hy
  · intro x hx hr ih y hy
    rw [dirpath_cons hx hr] at hy
    have := level_parent_gt hx hr
    rcases List.mem_cons.mp hy with e | h
    · rw [e]; exact this
    · have := ih y h; omega

theorem dirpath_nodup {n : Nat} : ∀ x, x < nodeWidth n → (dirpath x n).Nodup := by
  apply path_induction
  · intro _; rw [dirpath_root]; exact List.nodup_nil
  · intro x hx hr ih
    rw [dirpath_cons hx hr]
    apply List.nodup_cons.mpr
    refine ⟨?_, ih⟩
    intro h
    have := dirpath_level_gt _ (parent_lt hx) _ h
    omega

theorem not_mem_dirpath_self {x n : Nat} (hx : x < nodeWidth n) : x ∉ dirpath x n := by
  intro h
  have := dirpath_level_gt x hx x h
  omega

theorem root_mem_dirpath {n : Nat} : ∀ x, x < nodeWidth n → x ≠ root n → root n ∈ dirpath x n := by
  apply path_induction
  · intro _ h; exact absurd rfl h
  · intro x hx hr ih _
    rw [dirpath_cons hx hr]
    by_cases hp : parent x n = root n
    · rw [hp]; exact List.mem_cons_self _ _
    · exact List.mem_cons_of_mem _ (ih hp)

theorem mem_dirpath_trans {n : Nat} : ∀ x, x < nodeWidth n → ∀ y, y ∈ dirpath x n →
    ∀ z, z ∈ dirpath y n → z ∈ dirpath x n := by
  apply path_induction
  · intro _ y hy; rw [dirpath_root] at hy; simp at hy
  · intro x hx hr ih y hy z hz
    rw [dirpath_cons hx hr] at hy ⊢
    rcases List.mem_cons.mp hy with e | h
    · rw [e] at hz; exact List.mem_cons_of_mem _ hz
    · exact List.mem_cons_of_mem _ (ih y h z hz)

theorem parent_mem_dirpath {x n : Nat} (hx : x < nodeWidth n) (hr : x ≠ root n) :
    parent x n ∈ dirpath x n := by
  rw [dirpath_cons hx hr]; exact List.mem_cons_self _ _

theorem toNodeIndex_lt {l n : Nat} (h : l < n) : toNodeIndex l < nodeWidth n := by
  unfold toNodeIndex nodeWidth; omega

theorem level_toNodeIndex (l : Nat) : level (toNodeIndex l) = 0 := by
  have : toNodeIndex l = nodeAt l 0 := by rw [nodeAt_zero]; rfl
  rw [this, level_nodeAt]

theorem level_pos_of_odd {x : Nat} (h : x % 2 = 1) : 0 < level x := by
  obtain ⟨m, k, rfl⟩ := exists_nodeAt x
  rw [level_nodeAt]
  cases k with
  | zero => rw [nodeAt_zero] at h; omega
  | succ k => omega

theorem level_eq_zero_iff {x : Nat} : level x = 0 ↔ x % 2 = 0 := by
  obtain ⟨m, k, rfl⟩ := exists_nodeAt x
  rw [level_nodeAt]
  cases k with
  | zero => rw [nodeAt_zero]; simp
  | succ k => rw [nodeAt_succ]; simp; omega

end MLS

namespace MLS
namespace RatchetTree

/-! ## Slots -/

@[simp] theorem setSlot_Suite (t : RatchetTree) (i : Nat) (n : OptionalNode) :
    (t.setSlot i n).Suite = t.Suite := rfl

@[simp] theorem setSlot_length (t : RatchetTree) (i : Nat) (n : OptionalNode) :
    (t.setSlot i n).Nodes.length = t.Nodes.length := by
  simp [setSlot]

@[simp] theorem setSlot_size (t : RatchetTree) (i : Nat) (n : OptionalNode) :
    (t.setSlot i n).size = t.size := by
  simp [size]

theorem setSlot_get_self {t : RatchetTree} {i : Nat} (n : OptionalNode) (h : i < t.Nodes.length) :
    (t.setSlot i n).Nodes[i]? = some n := by
  simp [setSlot, h]

theorem setSlot_get_ne {t : RatchetTree} {i j : Nat} (n : OptionalNode) (h : i ≠ j) :
    (t.setSlot i n).Nodes[j]? = t.Nodes[j]? := by
  simp [setSlot, h]

theorem list_set_self {α : Type} : ∀ (l : List α) (i : Nat) (a : α), l[i]? = some a → l.set i a = l := by
  intro l
  induction l with
  | nil => intro i a h; simp
  | cons x xs ih =>
    intro i a h
    cases i with
    | zero => simp at h; simp [h]
    | succ i => simp at h; simp [ih i a h]

theorem setSlot_self {t : RatchetTree} {i : Nat} {s : OptionalNode} (h : t.Nodes[i]? = some s) :
    t.setSlot i s = t := by
  cases t with
  | mk suite nodes => simp only [setSlot]; congr 1; exact list_set_self _ _ _ h

theorem ext_tree {t u : RatchetTree} (h1 : t.Suite = u.Suite)
    (h2 : ∀ i : Nat, t.Nodes[i]? = u.Nodes[i]?) :
    t = u := by
  cases t; cases u
  simp only at h1 h2
  subst h1
  congr 1
  exact List.ext_getElem? h2

theorem nodeWidth_size_le (t : RatchetTree) : nodeWidth t.size ≤ t.Nodes.length := by
  unfold size nodeWidth leafWidth; omega

theorem lt_length_of_lt_width {t : RatchetTree} {x : Nat} (h : x < nodeWidth t.size) :
    x < t.Nodes.length := by
  have := nodeWidth_size_le t; omega

theorem get_of_lt_width {t : RatchetTree} {x : Nat} (h : x < nodeWidth t.size) :
    ∃ s, t.Nodes[x]? = some s := by
  have := lt_length_of_lt_width h
  exact ⟨t.Nodes[x], by simp [this]⟩

/-! ## setHash -/

theorem OptionalNode_setHash_spec (n : OptionalNode) (suite : CipherSuite) (input : HashInput) :
    ∃ h, (n.setHash suite input).1 = { n with Hash := h } ∧
      (∀ err, (n.setHash suite input).2 = some err → h = n.Hash ∧ ∃ c, err = .marshal c) := by
  unfold OptionalNode.setHash
  cases suite.Marshal input with
  | error e => exact ⟨n.Hash, by simp, by intro err h; simp at h; exact ⟨rfl, e, h.symm⟩⟩
  | ok d => exact ⟨suite.digest d, by simp, by intro err h; simp at h⟩

theorem SetLeafHash_spec {n n' : OptionalNode} {suite : CipherSuite} {index : Nat} {e : Option Err}
    (h : n.SetLeafHash suite index = some (n', e)) :
    ∃ hs, n' = { n with Hash := hs } ∧ (∀ err, e = some err → hs = n.Hash ∧
      ((∃ c, err = .marshal c) ∨ (err = .leafHashOnNonLeaf ∧ ∃ nd, n.Node = some nd ∧ nd.Type = some .NodeTypeParent))) := by
  unfold OptionalNode.SetLeafHash at h
  split at h
  · simp only [Option.some.injEq] at h
    obtain ⟨hs, h1, h2⟩ := OptionalNode_setHash_spec n suite (.leaf { LeafIndex := index, KeyPackage := none })
    rw [h] at h1 h2
    simp only at h1 h2
    exact ⟨hs, h1, fun err he => ⟨(h2 err he).1, Or.inl (h2 err he).2⟩⟩
  · rename_i nd hnd
    split at h
    · simp at h
    · simp only [Option.some.injEq, Prod.mk.injEq] at h
      obtain ⟨rfl, rfl⟩ := h
      refine ⟨n.Hash, rfl, ?_⟩
      intro err he
      simp only [Option.some.injEq] at he
      exact ⟨rfl, Or.inr ⟨he.symm, nd, hnd, by assumption⟩⟩
    · simp only [Option.some.injEq] at h
      obtain ⟨hs, h1, h2⟩ := OptionalNode_setHash_spec n suite (.leaf { LeafIndex := index, KeyPackage := nd.Leaf })
      rw [h] at h1 h2
      simp only at h1 h2
      exact ⟨hs, h1, fun err he => ⟨(h2 err he).1, Or.inl (h2 err he).2⟩⟩

theorem SetParentHash_spec {n n' : OptionalNode} {suite : CipherSuite} {index : Nat} {lh rh : Bytes}
    {e : Option Err} (h : n.SetParentHash suite index lh rh = some (n', e)) :
    ∃ hs, n' = { n with Hash := hs } ∧ (∀ err, e = some err → hs = n.Hash ∧
      ((∃ c, err = .marshal c) ∨ (err = .parentHashOnNonParent ∧ ∃ nd, n.Node = some nd ∧ nd.Type = some .NodeTypeLeaf))) := by
  unfold OptionalNode.SetParentHash at h
  split at h
  · simp only [Option.some.injEq] at h
    obtain ⟨hs, h1, h2⟩ := OptionalNode_setHash_spec n suite
      (.parent { NodeIndex := index, ParentNode := none, LeftHash := lh, RightHash := rh })
    rw [h] at h1 h2
    simp only at h1 h2
    exact ⟨hs, h1, fun err he => ⟨(h2 err he).1, Or.inl (h2 err he).2⟩⟩
  · rename_i nd hnd
    split at h
    · simp at h
    · simp only [Option.some.injEq, Prod.mk.injEq] at h
      obtain ⟨rfl, rfl⟩ := h
      refine ⟨n.Hash, rfl, ?_⟩
      intro err he
      simp only [Option.some.injEq] at he
      exact ⟨rfl, Or.inr ⟨he.symm, nd, hnd, by assumption⟩⟩
    · simp only [Option.some.injEq] at h
      obtain ⟨hs, h1, h2⟩ := OptionalNode_setHash_spec n suite
        (.parent { NodeIndex := index, ParentNode := nd.Parent, LeftHash := lh, RightHash := rh })
      rw [h] at h1 h2
      simp only at h1 h2
      exact ⟨hs, h1, fun err he => ⟨(h2 err he).1, Or.inl (h2 err he).2⟩⟩

/-- What `setHash` does when it returns: the slot keeps its node and gets a hash; on an
error nothing changes. -/
theorem setHash_spec {t t' : RatchetTree} {c : Nat} {e : Option Err}
    (h : t.setHash c = .done (t', e)) :
    ∃ s hs, t.Nodes[c]? = some s ∧ t' = t.setSlot c { s with Hash := hs } ∧
      (∀ err, e = some err → hs = s.Hash ∧
        ((∃ k, err = .marshal k) ∨
         (∃ nd, s.Node = some nd ∧ (nd.Type = some .NodeTypeParent ∧ level c = 0 ∨
            nd.Type = some .NodeTypeLeaf ∧ level c ≠ 0)))) := by
  unfold setHash at h
  split at h
  · rename_i hl
    split at h
    · rename_i slot l hs hleaf
      split at h
      · simp at h
      · rename_i slot' e' hres
        simp only [Run.done.injEq, Prod.mk.injEq] at h
        obtain ⟨rfl, rfl⟩ := h
        obtain ⟨hh, h1, h2⟩ := SetLeafHash_spec hres
        refine ⟨slot, hh, hs, by rw [h1], ?_⟩
        intro err he
        obtain ⟨a, b⟩ := h2 err he
        refine ⟨a, ?_⟩
        rcases b with b | ⟨_, nd, b1, b2⟩
        · exact Or.inl b
        · exact Or.inr ⟨nd, b1, Or.inl ⟨b2, hl⟩⟩
    · simp at h
  · rename_i hl
    split at h
    · rename_i l r slot hl' hr' hs
      split at h
      · simp at h
      · rename_i slot' e' hres
        simp only [Run.done.injEq, Prod.mk.injEq] at h
        obtain ⟨rfl, rfl⟩ := h
        obtain ⟨hh, h1, h2⟩ := SetParentHash_spec hres
        refine ⟨slot, hh, hs, by rw [h1], ?_⟩
        intro err he
        obtain ⟨a, b⟩ := h2 err he
        refine ⟨a, ?_⟩
        rcases b with b | ⟨_, nd, b1, b2⟩
        · exact Or.inl b
        · exact Or.inr ⟨nd, b1, Or.inr ⟨b2, hl⟩⟩
    · simp at h

theorem setHash_error_eq {t t' : RatchetTree} {c : Nat} {err : Err}
    (h : t.setHash c = .done (t', some err)) : t' = t := by
  obtain ⟨s, hs, h1, h2, h3⟩ := setHash_spec h
  obtain ⟨a, _⟩ := h3 err rfl
  rw [h2, a]
  exact setSlot_self h1

end RatchetTree
end MLS

namespace MLS
namespace RatchetTree

theorem contentAt_setSlot_hash {t : RatchetTree} {c : Nat} {s : OptionalNode} (hs : Bytes)
    (h : t.Nodes[c]? = some s) (i : Nat) :
    (t.setSlot c { s with Hash := hs }).contentAt i = t.contentAt i := by
  unfold contentAt
  by_cases hi : c = i
  · subst hi
    have : c < t.Nodes.length := by
      rcases List.getElem?_eq_some.mp h with ⟨h1, _⟩; exact h1
    rw [setSlot_get_self _ this, h]; rfl
  · rw [setSlot_get_ne _ hi]

theorem setHash_frame {t t' : RatchetTree} {c : Nat} {e : Option Err}
    (h : t.setHash c = .done (t', e)) :
    t'.Suite = t.Suite ∧ t'.Nodes.length = t.Nodes.length ∧
      (∀ i, t'.contentAt i = t.contentAt i) ∧ (∀ i, i ≠ c → t'.Nodes[i]? = t.Nodes[i]?) := by
  obtain ⟨s, hs, h1, h2, _⟩ := setHash_spec h
  subst h2
  refine ⟨rfl, by simp, fun i => contentAt_setSlot_hash hs h1 i, ?_⟩
  intro i hi
  exact setSlot_get_ne _ (Ne.symm hi)

theorem size_eq_of_length {t t' : RatchetTree} (h : t'.Nodes.length = t.Nodes.length) :
    t'.size = t.size := by
  unfold size; rw [h]

theorem kindClash_of_content {t t' : RatchetTree} {i : Nat} (h : t'.contentAt i = t.contentAt i)
    (hc : kindClash t' i) : kindClash t i := by
  obtain ⟨s, nd, h1, h2, h3⟩ := hc
  unfold contentAt at h
  rw [h1] at h
  simp only [Option.map_some'] at h
  cases ht : t.Nodes[i]? with
  | none => rw [ht] at h; simp at h
  | some s0 =>
    rw [ht] at h
    simp only [Option.map_some', Option.some.injEq] at h
    exact ⟨s0, nd, ht, by rw [← h, h2], h3⟩

theorem setHashPathLoop_frame {n : Nat} : ∀ c, c < nodeWidth n → ∀ (f : Nat) (t t' : RatchetTree)
    (e : Option Err), setHashPathLoop n (root n) f t c = .done (t', e) →
    t'.Suite = t.Suite ∧ t'.Nodes.length = t.Nodes.length ∧
      (∀ i, t'.contentAt i = t.contentAt i) ∧
      (∀ i, i ≠ c → i ∉ dirpath c n → t'.Nodes[i]? = t.Nodes[i]?) ∧
      (∀ err, e = some err → (∃ k, err = .marshal k) ∨
        ∃ i, (i = c ∨ i ∈ dirpath c n) ∧ kindClash t i) := by
  apply path_induction
  · intro _ f t t' e h
    cases f with
    | zero => simp [setHashPathLoop] at h
    | succ f =>
      simp only [setHashPathLoop] at h
      split at h
      · rename_i t1 hsh
        simp only [if_true, Run.done.injEq, Prod.mk.injEq] at h
        obtain ⟨rfl, rfl⟩ := h
        obtain ⟨a, b, c, d⟩ := setHash_frame hsh
        exact ⟨a, b, c, fun i hi _ => d i hi, by intro err he; simp at he⟩
      · rename_i other hother
        cases e with
        | none => exact absurd h (hother t')
        | some err =>
          obtain ⟨a, b, c, d⟩ := setHash_frame h
          refine ⟨a, b, c, fun i hi _ => d i hi, ?_⟩
          intro err' he
          simp only [Option.some.injEq] at he
          subst he
          obtain ⟨s, hs, h1, _, h3⟩ := setHash_spec h
          rcases (h3 err rfl).2 with k | ⟨nd, k1, k2⟩
          · exact Or.inl k
          · exact Or.inr ⟨root n, Or.inl rfl, s, nd, h1, k1, k2⟩
  · intro x hx hr ih f t t' e h
    cases f with
    | zero => simp [setHashPathLoop] at h
    | succ f =>
      simp only [setHashPathLoop] at h
      split at h
      · rename_i t1 hsh
        simp only [hr, if_false] at h
        obtain ⟨a, b, c, d⟩ := setHash_frame hsh
        obtain ⟨a', b', c', d', e'⟩ := ih f t1 t' e h
        refine ⟨a'.trans a, b'.trans b, fun i => (c' i).trans (c i), ?_, ?_⟩
        · intro i hi hnot
          rw [dirpath_cons hx hr] at hnot
          simp only [List.mem_cons, not_or] at hnot
          rw [d' i hnot.1 hnot.2, d i hi]
        · intro err he
          rcases e' err he with k | ⟨i, k1, k2⟩
          · exact Or.inl k
          · refine Or.inr ⟨i, ?_, kindClash_of_content (c i) k2⟩
            rw [dirpath_cons hx hr]
            rcases k1 with k1 | k1
            · exact Or.inr (by rw [k1]; exact List.mem_cons_self _ _)
            · exact Or.inr (List.mem_cons_of_mem _ k1)
      · rename_i other hother
        cases e with
        | none => exact absurd h (hother t')
        | some err =>
          obtain ⟨a, b, c, d⟩ := setHash_frame h
          refine ⟨a, b, c, fun i hi _ => d i hi, ?_⟩
          intro err' he
          simp only [Option.some.injEq] at he
          subst he
          obtain ⟨s, hs, h1, _, h3⟩ := setHash_spec h
          rcases (h3 err rfl).2 with k | ⟨nd, k1, k2⟩
          · exact Or.inl k
          · exact Or.inr ⟨x, Or.inl rfl, s, nd, h1, k1, k2⟩

theorem typedAt_of_content {t t' : RatchetTree} {i : Nat} (h : t'.contentAt i = t.contentAt i)
    (hc : typedAt t i) : typedAt t' i := by
  intro s nd h1 h2
  unfold contentAt at h
  rw [h1] at h
  simp only [Option.map_some'] at h
  cases ht : t.Nodes[i]? with
  | none => rw [ht] at h; simp at h
  | some s0 =>
    rw [ht] at h
    simp only [Option.map_some', Option.some.injEq] at h
    exact hc s0 nd ht (by rw [← h, h2])

theorem toLeafIndex_of_level {c : Nat} (h : level c = 0) : toLeafIndex c = some (c / 2) := by
  unfold toLeafIndex
  rw [level_eq_zero_iff] at h
  simp [h]

theorem setHash_done {t : RatchetTree} {c : Nat} (hc : c < nodeWidth t.size) (ht : typedAt t c) :
    ∃ t' e, t.setHash c = .done (t', e) := by
  obtain ⟨s, hs⟩ := get_of_lt_width hc
  unfold setHash
  by_cases hl : level c = 0
  · simp only [hl, if_true, hs, toLeafIndex_of_level hl]
    cases hres : s.SetLeafHash t.Suite (c / 2) with
    | none =>
      exfalso
      unfold OptionalNode.SetLeafHash at hres
      split at hres
      · simp at hres
      · rename_i nd hnd
        have := ht s nd hs hnd
        split at hres
        · contradiction
        · simp at hres
        · simp at hres
    | some p => exact ⟨_, _, rfl⟩
  · simp only [hl, if_false]
    obtain ⟨l, hl'⟩ := get_of_lt_width (left_lt_nodeWidth hc)
    obtain ⟨r, hr'⟩ := get_of_lt_width (right_lt hc)
    simp only [hl', hr', hs]
    cases hres : s.SetParentHash t.Suite c l.Hash r.Hash with
    | none =>
      exfalso
      unfold OptionalNode.SetParentHash at hres
      split at hres
      · simp at hres
      · rename_i nd hnd
        have := ht s nd hs hnd
        split at hres
        · contradiction
        · simp at hres
        · simp at hres
    | some p => exact ⟨_, _, rfl⟩

theorem setHashPathLoop_done {n : Nat} : ∀ c, c < nodeWidth n → ∀ (f : Nat) (t : RatchetTree),
    rootLevel n - level c < f → t.size = n →
    (∀ i, (i = c ∨ i ∈ dirpath c n) → typedAt t i) →
    ∃ t' e, setHashPathLoop n (root n) f t c = .done (t', e) := by
  apply path_induction
  · intro hn1 f t hf hn hty
    obtain ⟨f, rfl⟩ : ∃ g, f = g + 1 := ⟨f - 1, by omega⟩
    have hlt : root n < nodeWidth t.size := by rw [hn]; exact root_lt n hn1
    obtain ⟨t1, e1, h1⟩ := setHash_done hlt (hty _ (Or.inl rfl))
    simp only [setHashPathLoop, h1]
    cases e1 with
    | none => exact ⟨t1, none, by simp⟩
    | some err => exact ⟨_, _, rfl⟩
  · intro x hx hr ih f t hf hn hty
    obtain ⟨f, rfl⟩ : ∃ g, f = g + 1 := ⟨f - 1, by omega⟩
    have hlt : x < nodeWidth t.size := by rw [hn]; exact hx
    obtain ⟨t1, e1, h1⟩ := setHash_done hlt (hty _ (Or.inl rfl))
    simp only [setHashPathLoop, h1]
    cases e1 with
    | some err => exact ⟨_, _, rfl⟩
    | none =>
      simp only [hr, if_false]
      obtain ⟨a, b, c, d⟩ := setHash_frame h1
      have h2 := level_parent_gt hx hr
      have h3 := level_lt_rootLevel hx hr
      apply ih f t1 (by omega) (by rw [size_eq_of_length b, hn])
      intro i hi
      apply typedAt_of_content (c i)
      apply hty
      rw [dirpath_cons hx hr]
      rcases hi with hi | hi
      · exact Or.inr (by rw [hi]; exact List.mem_cons_self _ _)
      · exact Or.inr (List.mem_cons_of_mem _ hi)

end RatchetTree
end MLS

namespace MLS
namespace RatchetTree

theorem SetLeafHash_eq (s : OptionalNode) (suite : CipherSuite) (c l : Nat)
    (hl : level c = 0) (hc : toLeafIndex c = some l) :
    s.SetLeafHash suite l =
      match nodeHash suite c s.Node [] [] with
      | none => none
      | some (.ok h) => some ({ s with Hash := h }, none)
      | some (.error e) => some (s, some e) := by
  unfold OptionalNode.SetLeafHash nodeHash
  simp only [hl, if_true, hc]
  obtain ⟨node, hash⟩ := s
  cases node with
  | none =>
    simp only [OptionalNode.setHash, marshalDigest]
    cases suite.Marshal (.leaf { LeafIndex := l, KeyPackage := none }) <;> rfl
  | some nd =>
    simp only
    cases ht : nd.Type with
    | none => rfl
    | some ty =>
      cases ty with
      | NodeTypeParent => rfl
      | NodeTypeLeaf =>
        simp only [OptionalNode.setHash, marshalDigest]
        cases suite.Marshal (.leaf { LeafIndex := l, KeyPackage := nd.Leaf }) <;> rfl

theorem SetParentHash_eq (s : OptionalNode) (suite : CipherSuite) (c : Nat) (lh rh : Bytes)
    (hl : level c ≠ 0) :
    s.SetParentHash suite c lh rh =
      match nodeHash suite c s.Node lh rh with
      | none => none
      | some (.ok h) => some ({ s with Hash := h }, none)
      | some (.error e) => some (s, some e) := by
  unfold OptionalNode.SetParentHash nodeHash
  simp only [hl, if_false]
  obtain ⟨node, hash⟩ := s
  cases node with
  | none =>
    simp only [OptionalNode.setHash, marshalDigest]
    cases suite.Marshal (.parent { NodeIndex := c, ParentNode := none, LeftHash := lh, RightHash := rh }) <;> rfl
  | some nd =>
    simp only
    cases ht : nd.Type with
    | none => rfl
    | some ty =>
      cases ty with
      | NodeTypeLeaf => rfl
      | NodeTypeParent =>
        simp only [OptionalNode.setHash, marshalDigest]
        cases suite.Marshal (.parent { NodeIndex := c, ParentNode := nd.Parent, LeftHash := lh, RightHash := rh }) <;> rfl

/-- The method `setHash` in terms of the hash function of one slot. -/
theorem setHash_eq (t : RatchetTree) (c : Nat) :
    t.setHash c =
      match t.Nodes[c]?, t.childHashes c with
      | some s, some (lh, rh) =>
        match nodeHash t.Suite c s.Node lh rh with
        | none => .panic
        | some (.ok h) => .done (t.setSlot c { s with Hash := h }, none)
        | some (.error e) => .done (t, some e)
      | _, _ => .panic := by
  unfold setHash childHashes
  by_cases hl : level c = 0
  · simp only [hl, if_true]
    cases hs : t.Nodes[c]? with
    | none => rfl
    | some s =>
      simp only [toLeafIndex_of_level hl]
      rw [SetLeafHash_eq s t.Suite c (c / 2) hl (toLeafIndex_of_level hl)]
      cases hh : nodeHash t.Suite c s.Node [] [] with
      | none => rfl
      | some r =>
        cases r with
        | ok h => rfl
        | error e => simp only [setSlot_self hs]
  · simp only [hl, if_false]
    cases hlft : t.Nodes[left c]? with
    | none => simp
    | some l =>
      cases hrgt : t.Nodes[right c t.size]? with
      | none => simp
      | some r =>
        cases hs : t.Nodes[c]? with
        | none => rfl
        | some s =>
          simp only
          rw [SetParentHash_eq s t.Suite c l.Hash r.Hash hl]
          cases hh : nodeHash t.Suite c s.Node l.Hash r.Hash with
          | none => rfl
          | some r =>
            cases r with
            | ok h => rfl
            | error e => simp only [setSlot_self hs]

end RatchetTree
end MLS

namespace MLS
namespace RatchetTree

theorem Node.Type_pub (nd : Node) : nd.pub.Type = nd.Type := by
  unfold Node.pub Node.Type
  cases nd.Leaf <;> cases nd.Parent <;> rfl

theorem Node.Type_eq_of_pub {a b : Node} (h : a.pub = b.pub) : a.Type = b.Type := by
  rw [← Node.Type_pub a, ← Node.Type_pub b, h]

theorem nodeHash_pub {suite : CipherSuite} (homit : suite.omitsPrivateKeys) (c : Nat)
    {a b : Option Node} (h : a.map Node.pub = b.map Node.pub) (lh rh : Bytes) :
    nodeHash suite c a lh rh = nodeHash suite c b lh rh := by
  cases a with
  | none =>
    cases b with
    | none => rfl
    | some nb => simp at h
  | some na =>
    cases b with
    | none => simp at h
    | some nb =>
      simp only [Option.map_some', Option.some.injEq] at h
      have hty := Node.Type_eq_of_pub h
      have hleaf : na.Leaf.map KeyPackage.pub = nb.Leaf.map KeyPackage.pub := by
        have := congrArg Node.Leaf h; simpa [Node.pub] using this
      have hpar : na.Parent.map ParentNode.pub = nb.Parent.map ParentNode.pub := by
        have := congrArg Node.Parent h; simpa [Node.pub] using this
      unfold nodeHash
      simp only [hty]
      have e1 : ∀ l, marshalDigest suite (.leaf { LeafIndex := l, KeyPackage := na.Leaf }) =
          marshalDigest suite (.leaf { LeafIndex := l, KeyPackage := nb.Leaf }) := by
        intro l
        unfold marshalDigest
        rw [homit (.leaf { LeafIndex := l, KeyPackage := na.Leaf })
          (.leaf { LeafIndex := l, KeyPackage := nb.Leaf }) (by simp [HashInput.pub, hleaf])]
      have e2 : marshalDigest suite (.parent { NodeIndex := c, ParentNode := na.Parent, LeftHash := lh, RightHash := rh }) =
          marshalDigest suite (.parent { NodeIndex := c, ParentNode := nb.Parent, LeftHash := lh, RightHash := rh }) := by
        unfold marshalDigest
        rw [homit (.parent { NodeIndex := c, ParentNode := na.Parent, LeftHash := lh, RightHash := rh })
          (.parent { NodeIndex := c, ParentNode := nb.Parent, LeftHash := lh, RightHash := rh })
          (by simp [HashInput.pub, hpar])]
      simp only [e1, e2]

theorem hashAgree_mono {t u : RatchetTree} {P Q : Nat → Prop} (h : hashAgree t u P)
    (hq : ∀ i, Q i → P i) : hashAgree t u Q :=
  ⟨h.1, h.2.1, h.2.2.1, fun i hi => h.2.2.2 i (hq i hi)⟩

theorem sameOutcome_mono {P Q : Nat → Prop} (hq : ∀ i, Q i → P i)
    {o1 o2 : Run (RatchetTree × Option Err)} (h : sameOutcome P o1 o2) : sameOutcome Q o1 o2 := by
  cases o1 with
  | panic => cases o2 <;> simp_all [sameOutcome]
  | hang => cases o2 <;> simp_all [sameOutcome]
  | done p =>
    obtain ⟨t, e⟩ := p
    cases o2 with
    | panic => cases e <;> simp_all [sameOutcome]
    | hang => cases e <;> simp_all [sameOutcome]
    | done q =>
      obtain ⟨u, e'⟩ := q
      cases e <;> cases e' <;> simp_all [sameOutcome]
      exact hashAgree_mono h hq

theorem hashAgree_get {t u : RatchetTree} {P : Nat → Prop} (h : hashAgree t u P) (i : Nat) :
    (t.Nodes[i]? = none ∧ u.Nodes[i]? = none) ∨
      ∃ s s', t.Nodes[i]? = some s ∧ u.Nodes[i]? = some s' ∧
        s'.Node.map Node.pub = s.Node.map Node.pub ∧ (P i → s'.Hash = s.Hash) := by
  obtain ⟨_, hlen, hpub, hhash⟩ := h
  have h1 := hpub i
  have h2 := hhash i
  unfold publicAt contentAt at h1
  unfold hashAt at h2
  cases ht : t.Nodes[i]? with
  | none =>
    left
    refine ⟨rfl, ?_⟩
    rw [List.getElem?_eq_none_iff] at ht ⊢
    omega
  | some s =>
    right
    cases hu : u.Nodes[i]? with
    | none =>
      exfalso
      rw [List.getElem?_eq_none_iff] at hu
      have : i < t.Nodes.length := (List.getElem?_eq_some.mp ht).1
      omega
    | some s' =>
      rw [ht, hu] at h1 h2
      simp only [Option.map_some', Option.some.injEq] at h1 h2
      exact ⟨s, s', rfl, rfl, h1, h2⟩

theorem hashAgree_childHashes {t u : RatchetTree} {P : Nat → Prop} (h : hashAgree t u P) (c : Nat)
    (hp : level c ≠ 0 → P (left c) ∧ P (right c t.size)) :
    u.childHashes c = t.childHashes c := by
  unfold childHashes
  by_cases hl : level c = 0
  · simp [hl]
  · simp only [hl, if_false]
    obtain ⟨pl, pr⟩ := hp hl
    have hsz : u.size = t.size := size_eq_of_length h.2.1
    rw [hsz]
    rcases hashAgree_get h (left c) with ⟨a, b⟩ | ⟨s, s', a, b, _, d⟩
    · rw [a, b]
    · rcases hashAgree_get h (right c t.size) with ⟨a', b'⟩ | ⟨r, r', a', b', _, d'⟩
      · rw [a, b, a', b']
      · rw [a, b, a', b']; simp only [d pl, d' pr]

theorem hashAgree_setSlot {t u : RatchetTree} {P : Nat → Prop} (h : hashAgree t u P) {c : Nat}
    {s s' : OptionalNode} (hs : t.Nodes[c]? = some s) (hs' : u.Nodes[c]? = some s') (hh : Bytes) :
    hashAgree (t.setSlot c { s with Hash := hh }) (u.setSlot c { s' with Hash := hh })
      (fun i => P i ∨ i = c) := by
  obtain ⟨h1, h2, h3, h4⟩ := h
  have hc : c < t.Nodes.length := (List.getElem?_eq_some.mp hs).1
  have hc' : c < u.Nodes.length := (List.getElem?_eq_some.mp hs').1
  refine ⟨h1, by simp [h2], ?_, ?_⟩
  · intro i
    unfold publicAt
    rw [contentAt_setSlot_hash hh hs, contentAt_setSlot_hash hh hs']
    exact h3 i
  · intro i hi
    unfold hashAt
    by_cases hic : c = i
    · subst hic
      rw [setSlot_get_self _ hc, setSlot_get_self _ hc']; rfl
    · rw [setSlot_get_ne _ hic, setSlot_get_ne _ hic]
      rcases hi with hi | hi
      · exact h4 i hi
      · exact absurd hi.symm hic

/-- Hashing one slot in two trees that agree on its children ends the same way. -/
theorem setHash_sim {t u : RatchetTree} {P : Nat → Prop} (homit : t.Suite.omitsPrivateKeys)
    (h : hashAgree t u P) (c : Nat) (hp : level c ≠ 0 → P (left c) ∧ P (right c t.size)) :
    sameOutcome (fun i => P i ∨ i = c) (t.setHash c) (u.setHash c) := by
  rw [setHash_eq t c, setHash_eq u c, hashAgree_childHashes h c hp]
  rcases hashAgree_get h c with ⟨a, b⟩ | ⟨s, s', a, b, hpub, _⟩
  · rw [a, b]; simp [sameOutcome]
  · rw [a, b]
    cases hch : t.childHashes c with
    | none => simp [sameOutcome]
    | some p =>
      obtain ⟨lh, rh⟩ := p
      simp only
      rw [h.1, nodeHash_pub homit c hpub lh rh]
      cases hn : nodeHash t.Suite c s.Node lh rh with
      | none => simp [sameOutcome]
      | some r =>
        cases r with
        | error e => simp [sameOutcome]
        | ok hh =>
          simp only [sameOutcome]
          exact hashAgree_setSlot h a b hh

theorem setHashSubtreeAux_frame : ∀ (f : Nat) (t t' : RatchetTree) (c : Nat) (e : Option Err),
    setHashSubtreeAux f t c = .done (t', e) →
    t'.Suite = t.Suite ∧ t'.Nodes.length = t.Nodes.length ∧ ∀ i, t'.contentAt i = t.contentAt i := by
  intro f
  induction f with
  | zero => intro t t' c e h; simp [setHashSubtreeAux] at h
  | succ f ih =>
    intro t t' c e h
    simp only [setHashSubtreeAux] at h
    split at h
    · simp only [Run.done.injEq, Prod.mk.injEq] at h; rw [← h.1]; exact ⟨rfl, rfl, fun _ => rfl⟩
    · split at h
      · have := setHash_frame h; exact ⟨this.1, this.2.1, this.2.2.1⟩
      · split at h
        · rename_i t1 h1
          have f1 := ih _ _ _ _ h1
          split at h
          · rename_i t2 h2
            have f2 := ih _ _ _ _ h2
            have f3 := setHash_frame h
            exact ⟨f3.1.trans (f2.1.trans f1.1), f3.2.1.trans (f2.2.1.trans f1.2.1),
              fun i => (f3.2.2.1 i).trans ((f2.2.2 i).trans (f1.2.2 i))⟩
          · rename_i other hother
            cases hr : setHashSubtreeAux f t1 (right c t1.size) with
            | panic => rw [hr] at h; simp at h
            | hang => rw [hr] at h; simp at h
            | done p =>
              rw [hr] at h
              simp only [Run.done.injEq] at h
              subst h
              have f2 := ih _ _ _ _ hr
              exact ⟨f2.1.trans f1.1, f2.2.1.trans f1.2.1, fun i => (f2.2.2 i).trans (f1.2.2 i)⟩
        · rename_i other hother
          exact ih _ _ _ _ h

theorem sameOutcome_cases {P : Nat → Prop} {o1 o2 : Run (RatchetTree × Option Err)}
    (h : sameOutcome P o1 o2) :
    (∃ t u, o1 = .done (t, none) ∧ o2 = .done (u, none) ∧ hashAgree t u P) ∨
    (∃ t u e, o1 = .done (t, some e) ∧ o2 = .done (u, some e)) ∨
    (o1 = .panic ∧ o2 = .panic) ∨ (o1 = .hang ∧ o2 = .hang) := by
  cases o1 with
  | panic => cases o2 <;> simp_all [sameOutcome]
  | hang => cases o2 <;> simp_all [sameOutcome]
  | done p =>
    obtain ⟨t, e⟩ := p
    cases o2 with
    | panic => cases e <;> simp_all [sameOutcome]
    | hang => cases e <;> simp_all [sameOutcome]
    | done q =>
      obtain ⟨u, e'⟩ := q
      cases e <;> cases e' <;> simp_all [sameOutcome]

theorem setHashSubtreeAux_sim : ∀ (f : Nat) (t u : RatchetTree) (P : Nat → Prop) (c : Nat),
    t.Suite.omitsPrivateKeys → hashAgree t u P →
    sameOutcome (fun i => P i ∨ i = c) (setHashSubtreeAux f t c) (setHashSubtreeAux f u c) := by
  intro f
  induction f with
  | zero => intro t u P c _ _; simp [setHashSubtreeAux, sameOutcome]
  | succ f ih =>
    intro t u P c homit h
    simp only [setHashSubtreeAux]
    have hlen := h.2.1
    by_cases h0 : t.Nodes.length = 0
    · have h0' : u.Nodes.length = 0 := by omega
      simp only [h0, h0', if_true, sameOutcome]
      refine ⟨h.1, h.2.1, h.2.2.1, ?_⟩
      intro i _
      unfold hashAt
      rw [List.getElem?_eq_none (by omega), List.getElem?_eq_none (by omega)]
    · have h0' : ¬ u.Nodes.length = 0 := by omega
      simp only [h0, h0', if_false]
      by_cases hl : level c = 0
      · simp only [hl, if_true]
        exact setHash_sim homit h c (fun hc => absurd hl hc)
      · simp only [hl, if_false]
        have s1 := ih t u P (left c) homit h
        rcases sameOutcome_cases s1 with ⟨t1, u1, a1, b1, ag1⟩ | ⟨t1, u1, e, a1, b1⟩ | ⟨a1, b1⟩ | ⟨a1, b1⟩
        · rw [a1, b1]
          simp only
          have hsz : u1.size = t1.size := size_eq_of_length ag1.2.1
          have f1 := setHashSubtreeAux_frame _ _ _ _ _ a1
          have homit1 : t1.Suite.omitsPrivateKeys := by rw [f1.1]; exact homit
          rw [hsz]
          have s2 := ih t1 u1 _ (right c t1.size) homit1 ag1
          rcases sameOutcome_cases s2 with ⟨t2, u2, a2, b2, ag2⟩ | ⟨t2, u2, e, a2, b2⟩ | ⟨a2, b2⟩ | ⟨a2, b2⟩
          · rw [a2, b2]
            simp only
            have f2 := setHashSubtreeAux_frame _ _ _ _ _ a2
            have homit2 : t2.Suite.omitsPrivateKeys := by rw [f2.1]; exact homit1
            have hsz2 : t2.size = t1.size := size_eq_of_length f2.2.1
            have s3 := setHash_sim homit2 ag2 c
              (fun _ => ⟨Or.inl (Or.inr rfl), Or.inr (by rw [hsz2])⟩)
            apply sameOutcome_mono _ s3
            intro i hi
            rcases hi with hi | hi
            · exact Or.inl (Or.inl (Or.inl hi))
            · exact Or.inr hi
          · rw [a2, b2]; simp [sameOutcome]
          · rw [a2, b2]; simp [sameOutcome]
          · rw [a2, b2]; simp [sameOutcome]
        · rw [a1, b1]; simp [sameOutcome]
        · rw [a1, b1]; simp [sameOutcome]
        · rw [a1, b1]; simp [sameOutcome]

theorem RootHash_eq_hashAt (t : RatchetTree) : t.RootHash = t.hashAt (root t.size) := by
  unfold RootHash hashAt
  cases t.Nodes[root t.size]? <;> rfl

/-- A full re-hash of two trees with the same public content ends the same way. -/
theorem SetHashAll_sim (t u : RatchetTree) (hsuite : u.Suite = t.Suite)
    (homit : t.Suite.omitsPrivateKeys) (hwidth : u.Nodes.length = t.Nodes.length)
    (hcontent : ∀ i, u.publicAt i = t.publicAt i) :
    (t.SetHashAll = .panic ∧ u.SetHashAll = .panic) ∨
    (t.SetHashAll = .hang ∧ u.SetHashAll = .hang) ∨
    (∃ t' u' e, t.SetHashAll = .done (t', some e) ∧ u.SetHashAll = .done (u', some e)) ∨
    (∃ t' u', t.SetHashAll = .done (t', none) ∧ u.SetHashAll = .done (u', none) ∧
      t'.RootHash = u'.RootHash ∧ (∀ i, t'.contentAt i = t.contentAt i) ∧
      (∀ i, u'.contentAt i = u.contentAt i)) := by
  have hag : hashAgree t u (fun _ => False) :=
    ⟨hsuite, hwidth, hcontent, fun i hi => absurd hi id⟩
  have hsz : u.size = t.size := size_eq_of_length hwidth
  have hsim := setHashSubtreeAux_sim (level (root t.size) + 1) t u _ (root t.size) homit hag
  unfold SetHashAll setHashSubtree
  rw [hsz]
  rcases sameOutcome_cases hsim with ⟨t1, u1, a1, b1, ag1⟩ | ⟨t1, u1, e, a1, b1⟩ | ⟨a1, b1⟩ | ⟨a1, b1⟩
  · right; right; right
    refine ⟨t1, u1, a1, b1, ?_, (setHashSubtreeAux_frame _ _ _ _ _ a1).2.2,
      (setHashSubtreeAux_frame _ _ _ _ _ b1).2.2⟩
    rw [RootHash_eq_hashAt, RootHash_eq_hashAt, size_eq_of_length ag1.2.1,
      size_eq_of_length (setHashSubtreeAux_frame _ _ _ _ _ a1).2.1]
    exact (ag1.2.2.2 _ (Or.inr rfl)).symm
  · right; right; left; exact ⟨t1, u1, e, a1, b1⟩
  · left; exact ⟨a1, b1⟩
  · right; left; exact ⟨a1, b1⟩

end RatchetTree
end MLS

namespace MLS
namespace RatchetTree

/-! ## AddLeaf -/

@[simp] theorem grow_Suite (t : RatchetTree) (k : Nat) : (t.grow k).Suite = t.Suite := rfl

theorem grow_length (t : RatchetTree) (k : Nat) :
    (t.grow k).Nodes.length = max t.Nodes.length k := by
  simp [grow]; omega

theorem grow_get_old {t : RatchetTree} {k i : Nat} (h : i < t.Nodes.length) :
    (t.grow k).Nodes[i]? = t.Nodes[i]? := by
  simp [grow, List.getElem?_append_left h]

theorem grow_get_new {t : RatchetTree} {k i : Nat} (h : t.Nodes.length ≤ i) (hk : i < k) :
    (t.grow k).Nodes[i]? = some { Node := none, Hash := [] } := by
  simp only [grow]
  rw [List.getElem?_append_right h, List.getElem?_replicate]
  have : i - t.Nodes.length < k - t.Nodes.length := by omega
  simp [this]

theorem addUnmergedStep_spec {l : Nat} {t t' : RatchetTree} {v : Nat} (hv : v ≠ toNodeIndex l)
    (h : addUnmergedStep l t v = some t') :
    ∃ s, t.Nodes[v]? = some s ∧ t' = t.setSlot v (unmergedAdded l s) := by
  unfold addUnmergedStep at h
  simp only [hv, if_false] at h
  split at h
  · simp at h
  · rename_i slot hs
    refine ⟨slot, hs, ?_⟩
    unfold unmergedAdded
    split at h
    · rename_i hn
      simp only [Option.some.injEq] at h
      rw [setSlot_self hs, h]
    · rename_i nd hn
      split at h
      · simp at h
      · rename_i p hp
        simp only [Option.some.injEq] at h
        exact h.symm

theorem addUnmergedLoop_spec (l : Nat) : ∀ (dp : List Nat) (t t' : RatchetTree), dp.Nodup →
    (∀ v ∈ dp, v ≠ toNodeIndex l) → addUnmergedLoop l dp t = some t' →
    t'.Suite = t.Suite ∧ t'.Nodes.length = t.Nodes.length ∧
      (∀ i, i ∉ dp → t'.Nodes[i]? = t.Nodes[i]?) ∧
      (∀ v ∈ dp, ∃ s, t.Nodes[v]? = some s ∧ t'.Nodes[v]? = some (unmergedAdded l s)) := by
  intro dp
  induction dp with
  | nil =>
    intro t t' _ _ h
    simp only [addUnmergedLoop, Option.some.injEq] at h
    subst h
    exact ⟨rfl, rfl, fun _ _ => rfl, by intro v hv; simp at hv⟩
  | cons v vs ih =>
    intro t t' hnd hne h
    simp only [addUnmergedLoop] at h
    split at h
    · simp at h
    · rename_i t1 h1
      obtain ⟨s, hs, ht1⟩ := addUnmergedStep_spec (hne v (List.mem_cons_self _ _)) h1
      have hvlt : v < t.Nodes.length := (List.getElem?_eq_some.mp hs).1
      obtain ⟨hnot, hnd'⟩ := List.nodup_cons.mp hnd
      obtain ⟨a, b, c, d⟩ := ih t1 t' hnd' (fun w hw => hne w (List.mem_cons_of_mem _ hw)) h
      subst ht1
      refine ⟨a, by rw [b]; simp, ?_, ?_⟩
      · intro i hi
        simp only [List.mem_cons, not_or] at hi
        rw [c i hi.2, setSlot_get_ne _ (Ne.symm hi.1)]
      · intro w hw
        rcases List.mem_cons.mp hw with e | hw'
        · subst e
          refine ⟨s, hs, ?_⟩
          rw [c w hnot, setSlot_get_self _ hvlt]
        · obtain ⟨s', a', b'⟩ := d w hw'
          have hwv : v ≠ w := by intro e; subst e; exact hnot hw'
          rw [setSlot_get_ne _ hwv] at a'
          exact ⟨s', a', b'⟩

theorem addUnmergedLoop_done (l : Nat) : ∀ (dp : List Nat) (t : RatchetTree),
    (∀ v ∈ dp, v ≠ toNodeIndex l) → dp.Nodup →
    (∀ v ∈ dp, ∃ s, t.Nodes[v]? = some s ∧ ∀ nd, s.Node = some nd → nd.Parent ≠ none) →
    ∃ t', addUnmergedLoop l dp t = some t' := by
  intro dp
  induction dp with
  | nil => intro t _ _ _; exact ⟨t, rfl⟩
  | cons v vs ih =>
    intro t hne hnd h
    obtain ⟨s, hs, hp⟩ := h v (List.mem_cons_self _ _)
    obtain ⟨hnot, hnd'⟩ := List.nodup_cons.mp hnd
    have hstep : ∃ t1, addUnmergedStep l t v = some t1 := by
      unfold addUnmergedStep
      simp only [hne v (List.mem_cons_self _ _), if_false, hs]
      cases hn : s.Node with
      | none => exact ⟨_, rfl⟩
      | some nd =>
        simp only
        cases hpar : nd.Parent with
        | none => exact absurd hpar (hp nd hn)
        | some p => exact ⟨_, rfl⟩
    obtain ⟨t1, h1⟩ := hstep
    simp only [addUnmergedLoop, h1]
    obtain ⟨s0, hs0, ht1⟩ := addUnmergedStep_spec (hne v (List.mem_cons_self _ _)) h1
    apply ih t1 (fun w hw => hne w (List.mem_cons_of_mem _ hw)) hnd'
    intro w hw
    have hwv : v ≠ w := by intro e; subst e; exact hnot hw
    obtain ⟨s', a', b'⟩ := h w (List.mem_cons_of_mem _ hw)
    refine ⟨s', ?_, b'⟩
    rw [ht1, setSlot_get_ne _ hwv]; exact a'

theorem size_of_length_odd {t : RatchetTree} {l : Nat} (h : t.Nodes.length = 2 * l + 1) :
    t.size = l + 1 := by
  unfold size leafWidth; omega

theorem length_le_of_size {t : RatchetTree} : t.Nodes.length ≤ 2 * t.size := by
  unfold size leafWidth; omega

theorem nodeWidth_succ (l : Nat) : nodeWidth (l + 1) = 2 * l + 1 := by
  unfold nodeWidth; omega

theorem setHashPath_frame {t t' : RatchetTree} {l : Nat} {e : Option Err} (hl : l < t.size)
    (h : t.setHashPath l = .done (t', e)) :
    t'.Suite = t.Suite ∧ t'.Nodes.length = t.Nodes.length ∧
      (∀ i, t'.contentAt i = t.contentAt i) ∧
      (∀ i, i ≠ toNodeIndex l → i ∉ dirpath (toNodeIndex l) t.size → t'.Nodes[i]? = t.Nodes[i]?) ∧
      (∀ err, e = some err → (∃ k, err = .marshal k) ∨
        ∃ i, (i = toNodeIndex l ∨ i ∈ dirpath (toNodeIndex l) t.size) ∧ kindClash t i) :=
  setHashPathLoop_frame _ (toNodeIndex_lt hl) _ _ _ _ h

theorem setHashPath_done {t : RatchetTree} {l : Nat} (hl : l < t.size)
    (hty : ∀ i, (i = toNodeIndex l ∨ i ∈ dirpath (toNodeIndex l) t.size) → typedAt t i) :
    ∃ t' e, t.setHashPath l = .done (t', e) := by
  apply setHashPathLoop_done _ (toNodeIndex_lt hl) _ _ _ rfl hty
  have h1 : 1 ≤ t.size := by omega
  have := rootLevel_lt_nodeWidth t.size h1
  have := nodeWidth_size_le t
  omega

end RatchetTree
end MLS

namespace MLS
namespace RatchetTree

theorem contentAt_eq_of_get {t u : RatchetTree} {i j : Nat} (h : t.Nodes[i]? = u.Nodes[j]?) :
    t.contentAt i = u.contentAt j := by
  unfold contentAt; rw [h]

theorem contentAt_of_get {t : RatchetTree} {i : Nat} {s : OptionalNode} (h : t.Nodes[i]? = some s) :
    t.contentAt i = some s.Node := by
  unfold contentAt; rw [h]; rfl

theorem KeyPackage_of_content {t : RatchetTree} {l : Nat} {nd : Node} {kp : MLS.KeyPackage}
    (h : t.contentAt (2 * l) = some (some nd)) (hk : nd.Leaf = some kp) :
    t.KeyPackage l = some (some kp, true) := by
  unfold contentAt at h
  unfold RatchetTree.KeyPackage toNodeIndex
  cases hs : t.Nodes[2 * l]? with
  | none => rw [hs] at h; simp at h
  | some s =>
    rw [hs] at h
    simp only [Option.map_some', Option.some.injEq] at h
    simp only [h, hk]

/-- The pieces of a run of `AddLeaf` at the leaf index `l = size`. -/
theorem AddLeaf_unfold (t : RatchetTree) (kp : MLS.KeyPackage) :
    let l := t.size
    let t1 := (t.grow (2 * l + 1)).setSlot (2 * l) (newLeafNode kp)
    t1.Nodes.length = 2 * l + 1 ∧ t1.size = l + 1 ∧ t1.Suite = t.Suite ∧
      t1.Nodes[2 * l]? = some (newLeafNode kp) ∧
      (∀ i, i < t.Nodes.length → t1.Nodes[i]? = t.Nodes[i]?) ∧
      (∀ i, t.Nodes.length ≤ i → i < 2 * l → t1.Nodes[i]? = some { Node := none, Hash := [] }) ∧
      t.AddLeaf l kp =
        match addUnmergedLoop l (dirpath (2 * l) (l + 1)) t1 with
        | none => .panic
        | some t2 => t2.setHashPath l := by
  intro l t1
  have hlen : t.Nodes.length ≤ 2 * l := length_le_of_size
  have h0 : (t.grow (2 * l + 1)).Nodes.length = 2 * l + 1 := by rw [grow_length]; omega
  have h1 : t1.Nodes.length = 2 * l + 1 := by simp [t1, h0]
  have h2 : t1.size = l + 1 := size_of_length_odd h1
  refine ⟨h1, h2, rfl, ?_, ?_, ?_, ?_⟩
  · exact setSlot_get_self _ (by omega)
  · intro i hi
    have : 2 * l ≠ i := by omega
    simp only [t1]
    rw [setSlot_get_ne _ this, grow_get_old hi]
  · intro i hi hi2
    have : 2 * l ≠ i := by omega
    simp only [t1]
    rw [setSlot_get_ne _ this, grow_get_new hi (by omega)]
  · simp only [AddLeaf, toNodeIndex]
    have : ((t.grow (2 * t.size + 1)).setSlot (2 * t.size) (newLeafNode kp)).size = l + 1 := h2
    rw [this] <;> rfl

theorem dirpath_leaf_facts (l : Nat) :
    (dirpath (2 * l) (l + 1)).Nodup ∧
      ∀ v ∈ dirpath (2 * l) (l + 1), v < 2 * l + 1 ∧ v ≠ toNodeIndex l ∧ v % 2 = 1 := by
  have hlt : 2 * l < nodeWidth (l + 1) := by rw [nodeWidth_succ]; omega
  refine ⟨dirpath_nodup _ hlt, ?_⟩
  intro v hv
  have h1 := dirpath_mem_lt _ hlt v hv
  have h2 := dirpath_level_gt _ hlt v hv
  rw [nodeWidth_succ] at h1
  have h3 : level v ≠ 0 := by omega
  have h4 : v % 2 = 1 := by
    rcases Nat.mod_two_eq_zero_or_one v with h | h
    · exact absurd (level_eq_zero_iff.mpr h) h3
    · exact h
  refine ⟨h1, ?_, h4⟩
  unfold toNodeIndex; omega

/-- The state after `AddLeaf(l, kp)` on a tree of size `l`. -/
theorem AddLeaf_spec (t : RatchetTree) (kp : MLS.KeyPackage) (l : Nat) (hsize : t.size = l) :
    (∀ t' e, t.AddLeaf l kp = .done (t', e) →
      t'.Nodes.length = 2 * l + 1 ∧
      t'.contentAt (2 * l) = some (some { Leaf := some kp, Parent := none, Hash := none }) ∧
      t'.KeyPackage l = some (some kp, true) ∧
      (∀ v ∈ dirpath (2 * l) (l + 1),
        ((t.contentAt v = none ∨ t.contentAt v = some none) → t'.contentAt v = some none) ∧
        (∀ nd p, t.contentAt v = some (some nd) → nd.Parent = some p →
          t'.contentAt v = some (some { nd with
            Parent := some { p with UnmergedLeaves := p.UnmergedLeaves ++ [l] } }))) ∧
      (∀ i, i < t.Nodes.length → i ∉ dirpath (2 * l) (l + 1) → t'.contentAt i = t.contentAt i)) ∧
    ((∀ i nd, i % 2 = 1 → t.contentAt i = some (some nd) → nd.Parent ≠ none) →
      ∃ t' e, t.AddLeaf l kp = .done (t', e)) := by
  subst hsize
  obtain ⟨h1, h2, h3, h4, h5, h6, h7⟩ := AddLeaf_unfold t kp
  obtain ⟨hnd, hdp⟩ := dirpath_leaf_facts t.size
  have hlen : t.Nodes.length ≤ 2 * t.size := length_le_of_size
  constructor
  · intro t' e h
    rw [h7] at h
    split at h
    · simp at h
    · rename_i t2 hloop
      obtain ⟨a, b, c, d⟩ := addUnmergedLoop_spec t.size _ _ _ hnd (fun v hv => (hdp v hv).2.1) hloop
      have hsz2 : t2.size = t.size + 1 := by rw [size_eq_of_length b]; exact h2
      obtain ⟨a', b', c', _, _⟩ := setHashPath_frame (by omega) h
      have hleafnot : 2 * t.size ∉ dirpath (2 * t.size) (t.size + 1) := by
        intro hm; have := (hdp _ hm).2.1; exact this rfl
      have hleaf : t'.contentAt (2 * t.size) =
          some (some { Leaf := some kp, Parent := none, Hash := none }) := by
        rw [c', contentAt_eq_of_get (c _ hleafnot), contentAt_of_get h4]; rfl
      refine ⟨by rw [b', b, h1], hleaf, KeyPackage_of_content hleaf rfl, ?_, ?_⟩
      · intro v hv
        obtain ⟨s, hs, hs'⟩ := d v hv
        have hv2 := hdp v hv
        have hvne : v ≠ 2 * t.size := by
          have := hv2.2.1; unfold toNodeIndex at this; exact this
        have hcont : t'.contentAt v = some (unmergedAdded t.size s).Node := by
          rw [c', contentAt_of_get hs']
        constructor
        · intro hb
          have hsn : s.Node = none := by
            by_cases hvl : v < t.Nodes.length
            · rw [h5 v hvl] at hs
              rcases hb with hb | hb
              · rw [contentAt_of_get hs] at hb; simp at hb
              · rw [contentAt_of_get hs] at hb; simpa using hb
            · rw [h6 v (by omega) (by omega)] at hs
              simp only [Option.some.injEq] at hs
              rw [← hs]
          rw [hcont]; unfold unmergedAdded; simp [hsn]
        · intro nd p hc hp
          have hvl : v < t.Nodes.length := by
            by_contra hge
            unfold contentAt at hc
            rw [List.getElem?_eq_none (by omega)] at hc
            simp at hc
          rw [h5 v hvl] at hs
          rw [contentAt_of_get hs] at hc
          simp only [Option.some.injEq] at hc
          rw [hcont]; unfold unmergedAdded; simp only [hc, hp]; rfl
      · intro i hi hnot
        have hne : i ≠ 2 * t.size := by omega
        rw [c', contentAt_eq_of_get (c i hnot), contentAt_eq_of_get (h5 i hi)]
  · intro hkind
    rw [h7]
    have hex : ∃ t2, addUnmergedLoop t.size (dirpath (2 * t.size) (t.size + 1))
        ((t.grow (2 * t.size + 1)).setSlot (2 * t.size) (newLeafNode kp)) = some t2 := by
      apply addUnmergedLoop_done _ _ _ (fun v hv => (hdp v hv).2.1) hnd
      intro v hv
      have hv2 := hdp v hv
      have hvne : v ≠ 2 * t.size := by
        have := hv2.2.1; unfold toNodeIndex at this; exact this
      by_cases hvl : v < t.Nodes.length
      · obtain ⟨s, hs⟩ : ∃ s, t.Nodes[v]? = some s := ⟨t.Nodes[v], by simp [hvl]⟩
        refine ⟨s, by rw [h5 v hvl]; exact hs, ?_⟩
        intro nd hn
        exact hkind v nd hv2.2.2 (by rw [contentAt_of_get hs, hn])
      · exact ⟨_, h6 v (by omega) (by omega), by intro nd hn; simp at hn⟩
    obtain ⟨t2, hloop⟩ := hex
    simp only [hloop]
    obtain ⟨a, b, c, d⟩ := addUnmergedLoop_spec t.size _ _ _ hnd (fun v hv => (hdp v hv).2.1) hloop
    have hsz2 : t2.size = t.size + 1 := by rw [size_eq_of_length b]; exact h2
    apply setHashPath_done (by omega)
    intro i hi s nd hs hn
    rw [hsz2] at hi
    unfold toNodeIndex at hi
    rcases hi with hi | hi
    · subst hi
      have hleafnot : 2 * t.size ∉ dirpath (2 * t.size) (t.size + 1) := by
        intro hm; have := (hdp _ hm).2.1; exact this rfl
      rw [c _ hleafnot, h4] at hs
      simp only [Option.some.injEq] at hs
      subst hs
      simp only [newLeafNode, Option.some.injEq] at hn
      subst hn
      simp [Node.Type]
    · obtain ⟨s0, hs0, hs0'⟩ := d i hi
      rw [hs0'] at hs
      simp only [Option.some.injEq] at hs
      have hv2 := hdp i hi
      have hpar : ∀ nd0, s0.Node = some nd0 → nd0.Parent ≠ none := by
        intro nd0 hn0
        by_cases hvl : i < t.Nodes.length
        · rw [h5 i hvl] at hs0
          exact hkind i nd0 hv2.2.2 (by rw [contentAt_of_get hs0, hn0])
        · have hine : i ≠ 2 * t.size := by
            have := hv2.2.1; unfold toNodeIndex at this; exact this
          rw [h6 i (by omega) (by omega)] at hs0
          simp only [Option.some.injEq] at hs0
          rw [← hs0] at hn0; simp at hn0
      subst hs
      unfold unmergedAdded at hn
      cases hn0 : s0.Node with
      | none => rw [hn0] at hn; simp only at hn; rw [hn0] at hn; simp at hn
      | some nd0 =>
        rw [hn0] at hn
        simp only at hn
        cases hp0 : nd0.Parent with
        | none => exact absurd hp0 (hpar nd0 hn0)
        | some p0 =>
          rw [hp0] at hn
          simp only [Option.some.injEq] at hn
          subst hn
          unfold Node.Type
          cases nd0.Leaf <;> simp

end RatchetTree
end MLS

namespace MLS
namespace RatchetTree

theorem get_of_contentAt {t : RatchetTree} {i : Nat} {c : Option Node} (h : t.contentAt i = some c) :
    ∃ s, t.Nodes[i]? = some s ∧ s.Node = c := by
  unfold contentAt at h
  cases hs : t.Nodes[i]? with
  | none => rw [hs] at h; simp at h
  | some s =>
    rw [hs] at h
    simp only [Option.map_some', Option.some.injEq] at h
    exact ⟨s, rfl, h⟩

theorem KeyPackage.Equals_self (kp : MLS.KeyPackage) : kp.Equals kp = true := by
  simp [MLS.KeyPackage.Equals]

theorem findFrom_skip (t : RatchetTree) (kp : MLS.KeyPackage) : ∀ (k i fuel : Nat),
    (∀ j, i ≤ j → j < i + k → t.contentAt (2 * j) = some none ∨
      ∃ nd q, t.contentAt (2 * j) = some (some nd) ∧ nd.Leaf = some q ∧ q.Equals kp = false) →
    findFrom t kp (k + fuel) i = findFrom t kp fuel (i + k) := by
  intro k
  induction k with
  | zero => intro i fuel _; simp
  | succ k ih =>
    intro i fuel h
    have e : k + 1 + fuel = (k + fuel) + 1 := by omega
    rw [e]
    simp only [findFrom, toNodeIndex]
    have hrest := ih (i + 1) fuel (fun j h1 h2 => h j (by omega) (by omega))
    have e2 : i + 1 + k = i + (k + 1) := by omega
    rw [e2] at hrest
    rcases h i (Nat.le_refl _) (by omega) with hb | ⟨nd, q, hc, hq, hne⟩
    · obtain ⟨s, hs, hn⟩ := get_of_contentAt hb
      simp only [hs, hn]; exact hrest
    · obtain ⟨s, hs, hn⟩ := get_of_contentAt hc
      simp only [hs, hn, hq, hne]; exact hrest

theorem even_not_mem_dirpath_leaf {l i : Nat} (h : i % 2 = 0) : i ∉ dirpath (2 * l) (l + 1) := by
  intro hm
  have := ((dirpath_leaf_facts l).2 i hm).2.2
  omega

/-- C7, as amended: for every tree of size `l` in which every occupied leaf slot below `l`
holds a key package that is not equal to `kp`, after a successful `AddLeaf(l, kp)`,
`Find(kp)` returns `(l, true)`. -/
theorem Find_after_AddLeaf (t : RatchetTree) (kp : MLS.KeyPackage) (l : Nat) (hsize : t.size = l)
    (hothers : ∀ j nd, j < l → t.contentAt (2 * j) = some (some nd) →
      ∃ q, nd.Leaf = some q ∧ q.Equals kp = false)
    (t' : RatchetTree) (hadd : t.AddLeaf l kp = .done (t', none)) :
    t'.Find kp = some (l, true) := by
  obtain ⟨hpost, _⟩ := AddLeaf_spec t kp l hsize
  obtain ⟨h1, h2, _, _, h5⟩ := hpost t' none hadd
  have hsz : t'.size = l + 1 := size_of_length_odd h1
  unfold Find
  rw [hsz]
  have e : l + 1 = l + 1 + 0 := rfl
  have hskip := findFrom_skip t' kp l 0 1 (by
    intro j _ hj
    have hjl : j < l := by omega
    have hlen : 2 * j < t.Nodes.length := by
      subst hsize; unfold size leafWidth at hjl; omega
    have hc := h5 (2 * j) hlen (even_not_mem_dirpath_leaf (by omega))
    rw [hc]
    obtain ⟨s, hs⟩ : ∃ s, t.Nodes[2 * j]? = some s := ⟨t.Nodes[2 * j], by simp [hlen]⟩
    rw [contentAt_of_get hs]
    cases hn : s.Node with
    | none => left; rfl
    | some nd =>
      right
      obtain ⟨q, hq1, hq2⟩ := hothers j nd hjl (by rw [contentAt_of_get hs, hn])
      exact ⟨nd, q, rfl, hq1, hq2⟩)
  rw [hskip]
  obtain ⟨s, hs, hn⟩ := get_of_contentAt h2
  simp only [findFrom, toNodeIndex, Nat.zero_add, hs, hn, KeyPackage.Equals_self, if_true]

theorem leftmostFreeFrom_skip (t : RatchetTree) : ∀ (k i fuel : Nat),
    (∀ j, i ≤ j → j < i + k → ∃ nd, t.contentAt (2 * j) = some (some nd)) →
    leftmostFreeFrom t (k + fuel) i = leftmostFreeFrom t fuel (i + k) := by
  intro k
  induction k with
  | zero => intro i fuel _; simp
  | succ k ih =>
    intro i fuel h
    have e : k + 1 + fuel = (k + fuel) + 1 := by omega
    rw [e]
    simp only [leftmostFreeFrom, toNodeIndex]
    have hrest := ih (i + 1) fuel (fun j h1 h2 => h j (by omega) (by omega))
    have e2 : i + 1 + k = i + (k + 1) := by omega
    rw [e2] at hrest
    obtain ⟨nd, hc⟩ := h i (Nat.le_refl _) (by omega)
    obtain ⟨s, hs, hn⟩ := get_of_contentAt hc
    simp only [hs, OptionalNode.Blank, hn]
    simpa using hrest

/-- C8, as amended: for every tree of size `l` in which every leaf slot below `l` is
occupied, after a successful `AddLeaf(l, kp)`, `LeftmostFree()` returns `l + 1`. -/
theorem LeftmostFree_after_AddLeaf (t : RatchetTree) (kp : MLS.KeyPackage) (l : Nat)
    (hsize : t.size = l)
    (hfull : ∀ j, j < l → ∃ nd, t.contentAt (2 * j) = some (some nd))
    (t' : RatchetTree) (hadd : t.AddLeaf l kp = .done (t', none)) :
    t'.LeftmostFree = l + 1 := by
  obtain ⟨hpost, _⟩ := AddLeaf_spec t kp l hsize
  obtain ⟨h1, h2, _, _, h5⟩ := hpost t' none hadd
  have hsz : t'.size = l + 1 := size_of_length_odd h1
  unfold LeftmostFree
  rw [hsz]
  have hskip := leftmostFreeFrom_skip t' (l + 1) 0 0 (by
    intro j _ hj
    by_cases hjl : j < l
    · have hlen : 2 * j < t.Nodes.length := by
        subst hsize; unfold size leafWidth at hjl; omega
      have hc := h5 (2 * j) hlen (even_not_mem_dirpath_leaf (by omega))
      rw [hc]
      exact hfull j hjl
    · have : j = l := by omega
      subst this
      exact ⟨_, h2⟩)
  simp only [Nat.add_zero, Nat.zero_add] at hskip
  rw [hskip]
  simp [leftmostFreeFrom]

end RatchetTree
end MLS

namespace MLS
namespace RatchetTree

/-! ## BlankPath -/

theorem blankLoop_spec {n : Nat} : ∀ c, c < nodeWidth n → ∀ (f : Nat) (t : RatchetTree),
    rootLevel n - level c < f → t.size = n →
    ∃ t', blankLoop n (root n) f t c = .done t' ∧ t'.Suite = t.Suite ∧
      t'.Nodes.length = t.Nodes.length ∧
      ∀ i, t'.Nodes[i]? =
        if (i = c ∨ i ∈ dirpath c n) ∧ i ≠ root n then (t.Nodes[i]?).map OptionalNode.SetToBlank
        else t.Nodes[i]? := by
  apply path_induction
  · intro _ f t hf _
    obtain ⟨f, rfl⟩ : ∃ g, f = g + 1 := ⟨f - 1, by omega⟩
    refine ⟨t, by simp [blankLoop], rfl, rfl, ?_⟩
    intro i
    rw [dirpath_root]
    by_cases hi : i = root n <;> simp [hi]
  · intro x hx hr ih f t hf hn
    obtain ⟨f, rfl⟩ : ∃ g, f = g + 1 := ⟨f - 1, by omega⟩
    have hlt : x < nodeWidth t.size := by rw [hn]; exact hx
    obtain ⟨s, hs⟩ := get_of_lt_width hlt
    have hxl : x < t.Nodes.length := lt_length_of_lt_width hlt
    simp only [blankLoop, hr, if_false, hs]
    have h2 := level_parent_gt hx hr
    have h3 := level_lt_rootLevel hx hr
    obtain ⟨t', a, b, c, d⟩ := ih f (t.setSlot x s.SetToBlank) (by omega) (by simp [hn])
    refine ⟨t', a, b, by rw [c]; simp, ?_⟩
    intro i
    rw [d i, dirpath_cons hx hr]
    have hxp : x ≠ parent x n := (parent_ne_self hx hr).symm
    have hxnot : x ∉ dirpath (parent x n) n := by
      intro hm
      have := dirpath_level_gt _ (parent_lt hx) _ hm
      omega
    by_cases hix : i = x
    · subst hix
      have c1 : ¬ (i = parent i n ∨ i ∈ dirpath (parent i n) n) := by
        intro h
        rcases h with h | h
        · exact hxp h
        · exact hxnot h
      simp only [c1, false_and, if_false, true_or, hr, ne_eq, not_false_eq_true, and_self, if_true]
      rw [setSlot_get_self _ hxl, hs]; rfl
    · rw [setSlot_get_ne _ (Ne.symm hix)]
      simp only [hix, false_or, List.mem_cons]

theorem root_onLeafPath {n l : Nat} (hl : l < n) : onLeafPath n l (root n) := by
  unfold onLeafPath
  by_cases h : root n = toNodeIndex l
  · exact Or.inl h
  · exact Or.inr (root_mem_dirpath _ (toNodeIndex_lt hl) (Ne.symm h))

/-- `BlankPath` blanks the slots of the path and then re-hashes the path. -/
theorem BlankPath_eq {t : RatchetTree} {l : Nat} (hl : l < t.size) :
    ∃ tb : RatchetTree, t.BlankPath l = tb.setHashPath l ∧ tb.Suite = t.Suite ∧
      tb.Nodes.length = t.Nodes.length ∧
      ∀ i, tb.Nodes[i]? =
        if onLeafPath t.size l i then (t.Nodes[i]?).map OptionalNode.SetToBlank else t.Nodes[i]? := by
  have hc := toNodeIndex_lt hl
  have hn1 : 1 ≤ t.size := by omega
  have hlen0 : t.Nodes.length ≠ 0 := by
    have := lt_length_of_lt_width hc; omega
  have hfuel : rootLevel t.size - level (toNodeIndex l) < t.Nodes.length + 1 := by
    have := rootLevel_lt_nodeWidth t.size hn1
    have := nodeWidth_size_le t
    omega
  obtain ⟨t1, a, b, c, d⟩ := blankLoop_spec _ hc _ t hfuel rfl
  have hroot : root t.size < nodeWidth t.size := root_lt _ hn1
  have hrl : root t.size < t1.Nodes.length := by rw [c]; exact lt_length_of_lt_width hroot
  obtain ⟨sr, hsr⟩ : ∃ s, t1.Nodes[root t.size]? = some s := ⟨t1.Nodes[root t.size], by simp [hrl]⟩
  refine ⟨t1.setSlot (root t.size) sr.SetToBlank, ?_, b, by simp [c], ?_⟩
  · unfold BlankPath
    simp only [hlen0, if_false, rootIndex, a, hsr]
  · intro i
    by_cases hir : i = root t.size
    · subst hir
      rw [setSlot_get_self _ hrl]
      have := d (root t.size)
      simp only [ne_eq, not_true_eq_false, and_false, if_false] at this
      rw [this] at hsr
      simp only [root_onLeafPath hl, if_true, hsr]; rfl
    · rw [setSlot_get_ne _ (Ne.symm hir), d i]
      simp only [onLeafPath, hir, ne_eq, not_false_eq_true, and_true]

theorem SetToBlank_of_blank {s : OptionalNode} (h : s.Node = none) : s.SetToBlank = s := by
  cases s; simp_all [OptionalNode.SetToBlank]

/-! ## Hashing a path twice -/

theorem setHash_ok_spec {t t' : RatchetTree} {c : Nat} (h : t.setHash c = .done (t', none)) :
    ∃ s lh rh hh, t.Nodes[c]? = some s ∧ t.childHashes c = some (lh, rh) ∧
      nodeHash t.Suite c s.Node lh rh = some (.ok hh) ∧ t' = t.setSlot c { s with Hash := hh } := by
  rw [setHash_eq] at h
  split at h
  · rename_i s lh rh hs hch
    split at h
    · simp at h
    · rename_i hh hn
      simp only [Run.done.injEq, Prod.mk.injEq, and_true] at h
      exact ⟨s, lh, rh, hh, hs, hch, hn, h.symm⟩
    · simp at h
  · simp at h

theorem childHashes_congr {t u : RatchetTree} {c : Nat} (hsz : u.size = t.size)
    (h : level c ≠ 0 → u.Nodes[left c]? = t.Nodes[left c]? ∧
      u.Nodes[right c t.size]? = t.Nodes[right c t.size]?) :
    u.childHashes c = t.childHashes c := by
  unfold childHashes
  by_cases hl : level c = 0
  · simp [hl]
  · simp only [hl, if_false, hsz]
    rw [(h hl).1, (h hl).2]

/-- A slot that was hashed stays as it is when hashed again, as long as its node and the
hashes of its children are the same. -/
theorem setHash_stable {t t' u : RatchetTree} {c : Nat} (h : t.setHash c = .done (t', none))
    (hsuite : u.Suite = t.Suite) (hsz : u.size = t.size) (hc : u.Nodes[c]? = t'.Nodes[c]?)
    (hch : level c ≠ 0 → u.Nodes[left c]? = t.Nodes[left c]? ∧
      u.Nodes[right c t.size]? = t.Nodes[right c t.size]?) :
    u.setHash c = .done (u, none) := by
  obtain ⟨s, lh, rh, hh, h1, h2, h3, h4⟩ := setHash_ok_spec h
  have hcl : c < t.Nodes.length := (List.getElem?_eq_some.mp h1).1
  rw [h4, setSlot_get_self _ hcl] at hc
  rw [setHash_eq, hc, childHashes_congr hsz hch, h2]
  simp only [hsuite, h3]
  rw [setSlot_self hc]

theorem child_ne_path {n c : Nat} (hc : c < nodeWidth n) (hl : level c ≠ 0) :
    (left c ≠ c ∧ right c n ≠ c) ∧
      ∀ i, (i = parent c n ∨ i ∈ dirpath (parent c n) n) → c ≠ root n →
        left c ≠ i ∧ right c n ≠ i := by
  have hpos : 0 < level c := Nat.pos_of_ne_zero hl
  have h1 := level_left hpos
  have h2 := level_right_lt hc hpos
  refine ⟨⟨?_, ?_⟩, ?_⟩
  · intro e; rw [e] at h1; omega
  · intro e; rw [e] at h2; omega
  · intro i hi hr
    have h3 := level_parent_gt hc hr
    have h4 : level c < level i := by
      rcases hi with hi | hi
      · rw [hi]; exact h3
      · have := dirpath_level_gt _ (parent_lt hc) _ hi; omega
    constructor
    · intro e; rw [e] at h1; omega
    · intro e; rw [e] at h2; omega

theorem setHashPathLoop_idem {n : Nat} : ∀ c, c < nodeWidth n → ∀ (f : Nat) (t t1 : RatchetTree)
    (e : Option Err), t.size = n → setHashPathLoop n (root n) f t c = .done (t1, e) →
    setHashPathLoop n (root n) f t1 c = .done (t1, e) := by
  apply path_induction
  · intro hn1 f t t1 e hn h
    cases f with
    | zero => simp [setHashPathLoop] at h
    | succ f =>
      simp only [setHashPathLoop] at h ⊢
      split at h
      · rename_i t' hsh
        simp only [if_true, Run.done.injEq, Prod.mk.injEq] at h
        obtain ⟨rfl, rfl⟩ := h
        obtain ⟨a, b, _, d⟩ := setHash_frame hsh
        have hlt : root n < nodeWidth n := root_lt n hn1
        have hst := setHash_stable hsh a (size_eq_of_length b) rfl (by
          intro hl
          have := (child_ne_path hlt hl).1
          rw [hn]
          exact ⟨d _ this.1, d _ this.2⟩)
        simp [hst]
      · rename_i other hother
        cases e with
        | none => exact absurd h (hother t1)
        | some err =>
          have := setHash_error_eq h
          subst this
          simp [h]
  · intro x hx hr ih f t t1 e hn h
    cases f with
    | zero => simp [setHashPathLoop] at h
    | succ f =>
      simp only [setHashPathLoop] at h ⊢
      split at h
      · rename_i t' hsh
        simp only [hr, if_false] at h
        obtain ⟨a, b, _, d⟩ := setHash_frame hsh
        have hn' : t'.size = n := by rw [size_eq_of_length b, hn]
        obtain ⟨a1, b1, _, d1, _⟩ := setHashPathLoop_frame _ (parent_lt hx) _ _ _ _ h
        have hxp : x ≠ parent x n := (parent_ne_self hx hr).symm
        have hxnot : x ∉ dirpath (parent x n) n := by
          intro hm
          have := dirpath_level_gt _ (parent_lt hx) _ hm
          have := level_parent_gt hx hr
          omega
        have hst := @setHash_stable t t' t1 x hsh (a1.trans a)
          ((size_eq_of_length b1).trans (size_eq_of_length b)) (d1 x hxp hxnot) (by
          intro hl
          obtain ⟨k1, k2⟩ := child_ne_path hx hl
          rw [hn]
          have q1 : left x ≠ parent x n ∧ right x n ≠ parent x n := k2 _ (Or.inl rfl) hr
          have q2 : left x ∉ dirpath (parent x n) n := fun hm => (k2 _ (Or.inr hm) hr).1 rfl
          have q3 : right x n ∉ dirpath (parent x n) n := fun hm => (k2 _ (Or.inr hm) hr).2 rfl
          exact ⟨by rw [d1 _ q1.1 q2, d _ k1.1], by rw [d1 _ q1.2 q3, d _ k1.2]⟩)
        simp only [hst, hr, if_false]
        exact ih f t' t1 e hn' h
      · rename_i other hother
        cases e with
        | none => exact absurd h (hother t1)
        | some err =>
          have := setHash_error_eq h
          subst this
          simp [h]

/-- C10: for every tree and every leaf index `l < size`, and for the empty tree, the
first `BlankPath(l)` returns a tree `t1` (with its error value, if hashing failed), and
`BlankPath(l)` on `t1` returns `t1` itself, the same in every slot's node and stored
hash, with the same error value. -/
theorem BlankPath_idempotent (t : RatchetTree) (l : Nat) (h : l < t.size ∨ t.Nodes = []) :
    ∃ t1 e, t.BlankPath l = .done (t1, e) ∧ t1.BlankPath l = .done (t1, e) := by
  rcases h with hl | hnil
  · obtain ⟨tb, h1, h2, h3, h4⟩ := BlankPath_eq hl
    have hszb : tb.size = t.size := size_eq_of_length h3
    have hdone : ∃ t1 e, tb.setHashPath l = .done (t1, e) := by
      apply setHashPath_done (by omega)
      intro i hi s nd hs hn
      rw [hszb] at hi
      have := h4 i
      simp only [onLeafPath, hi, if_true, hs] at this
      cases ht : t.Nodes[i]? with
      | none => rw [ht] at this; simp at this
      | some s0 =>
        rw [ht] at this
        simp only [Option.map_some', Option.some.injEq] at this
        rw [this] at hn
        simp [OptionalNode.SetToBlank] at hn
    obtain ⟨t1, e, hrun⟩ := hdone
    refine ⟨t1, e, by rw [h1, hrun], ?_⟩
    obtain ⟨a, b, c, _, _⟩ := setHashPath_frame (by omega) hrun
    have hsz1 : t1.size = t.size := by rw [size_eq_of_length b, hszb]
    have hl1 : l < t1.size := by omega
    obtain ⟨tb1, g1, g2, g3, g4⟩ := BlankPath_eq hl1
    have heq : tb1 = t1 := by
      apply ext_tree g2
      intro i
      rw [g4 i, hsz1]
      by_cases hp : onLeafPath t.size l i
      · simp only [hp, if_true]
        cases hs1 : t1.Nodes[i]? with
        | none => rfl
        | some s1 =>
          simp only [Option.map_some', Option.some.injEq]
          apply SetToBlank_of_blank
          have hc := c i
          rw [contentAt_of_get hs1] at hc
          unfold contentAt at hc
          rw [h4 i] at hc
          simp only [hp, if_true] at hc
          cases ht : t.Nodes[i]? with
          | none => rw [ht] at hc; simp at hc
          | some s0 =>
            rw [ht] at hc
            simp only [Option.map_some', Option.some.injEq, OptionalNode.SetToBlank] at hc
            exact hc
      · simp only [hp, if_false]
    rw [g1, heq]
    unfold setHashPath at hrun ⊢
    rw [hszb] at hrun
    rw [hsz1, b]
    exact setHashPathLoop_idem _ (toNodeIndex_lt hl) _ _ _ _ hszb hrun
  · refine ⟨t, none, ?_, ?_⟩ <;> simp [BlankPath, hnil]

end RatchetTree
end MLS

namespace MLS
namespace RatchetTree

theorem onLeafPath_lt {n l i : Nat} (hl : l < n) (h : onLeafPath n l i) : i < nodeWidth n := by
  rcases h with h | h
  · rw [h]; exact toNodeIndex_lt hl
  · exact dirpath_mem_lt _ (toNodeIndex_lt hl) _ h

/-- What `BlankPath` leaves: the slots of the path blank, the others as they were. -/
theorem BlankPath_spec {t : RatchetTree} {l : Nat} (hl : l < t.size) :
    ∃ t1 e, t.BlankPath l = .done (t1, e) ∧ t1.Suite = t.Suite ∧
      t1.Nodes.length = t.Nodes.length ∧
      (∀ i, onLeafPath t.size l i → t1.contentAt i = some none) ∧
      (∀ i, ¬ onLeafPath t.size l i → t1.Nodes[i]? = t.Nodes[i]?) ∧
      (∀ err, e = some err → ∃ k, err = .marshal k) := by
  obtain ⟨tb, h1, h2, h3, h4⟩ := BlankPath_eq hl
  have hszb : tb.size = t.size := size_eq_of_length h3
  have hblank : ∀ i, onLeafPath t.size l i → tb.contentAt i = some none := by
    intro i hi
    obtain ⟨s, hs⟩ := get_of_lt_width (onLeafPath_lt hl hi)
    unfold contentAt
    rw [h4 i]
    simp only [hi, if_true, hs]; rfl
  have hdone : ∃ t1 e, tb.setHashPath l = .done (t1, e) := by
    apply setHashPath_done (by omega)
    intro i hi s nd hs hn
    rw [hszb] at hi
    have := hblank i hi
    rw [contentAt_of_get hs, hn] at this
    simp at this
  obtain ⟨t1, e, hrun⟩ := hdone
  obtain ⟨a, b, c, d, g⟩ := setHashPath_frame (by omega) hrun
  refine ⟨t1, e, by rw [h1, hrun], a.trans h2, b.trans h3, ?_, ?_, ?_⟩
  · intro i hi; rw [c i]; exact hblank i hi
  · intro i hi
    have hi' := hi
    unfold onLeafPath at hi
    simp only [not_or] at hi
    rw [hszb] at d
    rw [d i hi.1 hi.2, h4 i]
    simp only [hi', if_false]
  · intro err he
    rcases g err he with k | ⟨i, hi, s, nd, hs, hn, _⟩
    · exact k
    · exfalso
      rw [hszb] at hi
      have := hblank i hi
      rw [contentAt_of_get hs, hn] at this
      simp at this

theorem mem_dirpath_leaf_ne {n l v : Nat} (hl : l < n) (hv : v ∈ dirpath (toNodeIndex l) n) :
    v ≠ toNodeIndex l := by
  intro e
  have := dirpath_level_gt _ (toNodeIndex_lt hl) _ hv
  rw [e] at this
  omega

/-- C9: for every tree and leaf index `l < size`: if slot `2l` is blank, `UpdateLeaf(l, kp)`
returns the error and the tree unchanged; if it is occupied, the call returns, the only
error it can return is one of the encoder (so it succeeds when hashing does), every
node on `dirpath(2l, size)` is blank afterwards and `KeyPackage(l) = (kp, true)`. -/
theorem UpdateLeaf_post_state (t : RatchetTree) (kp : MLS.KeyPackage) (l : Nat) (hl : l < t.size) :
    (t.contentAt (2 * l) = some none → t.UpdateLeaf l kp = .done (t, some .updateUnoccupied)) ∧
    ((∃ nd, t.contentAt (2 * l) = some (some nd)) →
      ∃ t' e, t.UpdateLeaf l kp = .done (t', e) ∧
        (∀ err, e = some err → ∃ k, err = .marshal k) ∧
        (∀ v ∈ dirpath (2 * l) t.size, t'.contentAt v = some none) ∧
        t'.KeyPackage l = some (some kp, true)) := by
  constructor
  · intro hb
    obtain ⟨s, hs, hn⟩ := get_of_contentAt hb
    unfold UpdateLeaf toNodeIndex
    simp only [hs, OptionalNode.Blank, hn, Option.isNone_none, if_true]
  · intro ⟨nd, hc⟩
    obtain ⟨s, hs, hn⟩ := get_of_contentAt hc
    obtain ⟨t1, e1, h1, a, b, c, d, _⟩ := BlankPath_spec hl
    have hll : 2 * l < t1.Nodes.length := by
      rw [b]; exact (List.getElem?_eq_some.mp hs).1
    have hsz1 : t1.size = t.size := size_eq_of_length b
    have hsz2 : (t1.setSlot (2 * l) (newLeafNode kp)).size = t.size := by simp [hsz1]
    have hcont2 : ∀ i, onLeafPath t.size l i →
        (t1.setSlot (2 * l) (newLeafNode kp)).contentAt i =
          if i = 2 * l then some (newLeafNode kp).Node else some none := by
      intro i hi
      by_cases hil : i = 2 * l
      · subst hil
        simp only [if_true]
        exact contentAt_of_get (setSlot_get_self _ hll)
      · simp only [hil, if_false]
        rw [contentAt_eq_of_get (setSlot_get_ne _ (Ne.symm hil))]
        exact c i hi
    have hdone : ∃ t' e, (t1.setSlot (2 * l) (newLeafNode kp)).setHashPath l = .done (t', e) := by
      apply setHashPath_done (by omega)
      intro i hi s' nd' hs' hn'
      rw [hsz2] at hi
      have := hcont2 i hi
      rw [contentAt_of_get hs', hn'] at this
      by_cases hil : i = 2 * l
      · simp only [hil, if_true, Option.some.injEq, newLeafNode] at this
        rw [this]; simp [Node.Type]
      · simp [hil] at this
    obtain ⟨t', e, hrun⟩ := hdone
    obtain ⟨a', b', c', _, g'⟩ := setHashPath_frame (by omega) hrun
    refine ⟨t', e, ?_, ?_, ?_, ?_⟩
    · unfold UpdateLeaf
      simp only [toNodeIndex, hs, OptionalNode.Blank, hn, Option.isNone_some, h1]
      exact hrun
    · intro err he
      rcases g' err he with k | ⟨i, hi, s', nd', hs', hn', hk⟩
      · exact k
      · exfalso
        rw [hsz2] at hi
        have := hcont2 i hi
        rw [contentAt_of_get hs', hn'] at this
        by_cases hil : i = 2 * l
        · simp only [hil, if_true, Option.some.injEq, newLeafNode] at this
          rw [this] at hk
          have hlev : level i = 0 := by rw [hil]; exact level_toNodeIndex l
          simp [Node.Type, hlev] at hk
        · simp [hil] at this
    · intro v hv
      have hv' : v ∈ dirpath (toNodeIndex l) t.size := hv
      have hne : v ≠ 2 * l := mem_dirpath_leaf_ne hl hv'
      rw [c' v, hcont2 v (Or.inr hv')]
      simp [hne]
    · apply @KeyPackage_of_content t' l { Leaf := some kp, Parent := none, Hash := none } kp _ rfl
      rw [c' (2 * l), hcont2 (2 * l) (Or.inl rfl)]
      simp [newLeafNode]

end RatchetTree
end MLS

namespace MLS

/-! ## Co-path -/

theorem copath_root (n : Nat) : copath (root n) n = [] := by
  unfold copath; rw [dirpath_root]; simp

theorem copath_cons {x n : Nat} (hx : x < nodeWidth n) (hr : x ≠ root n) :
    copath x n = sibling x n :: copath (parent x n) n := by
  unfold copath
  rw [dirpath_cons hx hr]
  simp only [List.length_cons, List.take_succ_cons, List.map_cons]

theorem copath_length {n : Nat} : ∀ x, x < nodeWidth n → (copath x n).length = (dirpath x n).length := by
  apply path_induction
  · intro _; rw [copath_root, dirpath_root]
  · intro x hx hr ih
    rw [copath_cons hx hr, dirpath_cons hx hr]; simp [ih]

theorem level_parent_pos {x n : Nat} (hx : x < nodeWidth n) (hr : x ≠ root n) :
    0 < level (parent x n) := by
  have := level_parent_gt hx hr; omega

theorem sibling_cases {x n : Nat} (hx : x < nodeWidth n) (hr : x ≠ root n) :
    (x < parent x n ∧ sibling x n = right (parent x n) n) ∨
      (parent x n < x ∧ sibling x n = left (parent x n)) := by
  have hne := parent_ne_self hx hr
  unfold sibling
  rcases Nat.lt_trichotomy x (parent x n) with h | h | h
  · left; simp [h]
  · exact absurd h.symm hne
  · right
    have h' : ¬ x < parent x n := by omega
    simp [h, h']

theorem parent_sibling {x n : Nat} (hx : x < nodeWidth n) (hr : x ≠ root n) :
    parent (sibling x n) n = parent x n := by
  have hp := parent_lt hx
  have hl := level_parent_pos hx hr
  rcases sibling_cases hx hr with ⟨_, e⟩ | ⟨_, e⟩
  · rw [e]; exact parent_right hp hl
  · rw [e]; exact parent_left hp hl

theorem sibling_lt {x n : Nat} (hx : x < nodeWidth n) (hr : x ≠ root n) :
    sibling x n < nodeWidth n := by
  have hp := parent_lt hx
  rcases sibling_cases hx hr with ⟨_, e⟩ | ⟨_, e⟩
  · rw [e]; exact right_lt hp
  · rw [e]; exact left_lt_nodeWidth hp

theorem copath_parent_mem {n : Nat} : ∀ x, x < nodeWidth n → ∀ c, c ∈ copath x n →
    c < nodeWidth n ∧ parent c n ∈ dirpath x n := by
  apply path_induction
  · intro _ c hc; rw [copath_root] at hc; simp at hc
  · intro x hx hr ih c hc
    rw [copath_cons hx hr] at hc
    rw [dirpath_cons hx hr]
    rcases List.mem_cons.mp hc with e | h
    · subst e
      exact ⟨sibling_lt hx hr, by rw [parent_sibling hx hr]; exact List.mem_cons_self _ _⟩
    · obtain ⟨a, b⟩ := ih c h
      exact ⟨a, List.mem_cons_of_mem _ b⟩

namespace RatchetTree

/-! ## Frames of the Decap stages -/

theorem mergeLoop_frame : ∀ (dp : List Nat) (nodes : List DirectPathNode) (t t1 : RatchetTree),
    mergeLoop dp nodes t = .done t1 →
    t1.Suite = t.Suite ∧ t1.Nodes.length = t.Nodes.length ∧
      ∀ i, i ∉ dp → t1.Nodes[i]? = t.Nodes[i]? := by
  intro dp
  induction dp with
  | nil =>
    intro nodes t t1 h
    simp only [mergeLoop, Run.done.injEq] at h
    subst h
    exact ⟨rfl, rfl, fun _ _ => rfl⟩
  | cons v vs ih =>
    intro nodes t t1 h
    cases nodes with
    | nil => simp [mergeLoop] at h
    | cons pn pns =>
      simp only [mergeLoop] at h
      split at h
      · simp at h
      · rename_i slot hs
        split at h
        · simp at h
        · rename_i slot' hm
          obtain ⟨a, b, c⟩ := ih pns _ t1 h
          refine ⟨a, by rw [b]; simp, ?_⟩
          intro i hi
          simp only [List.mem_cons, not_or] at hi
          rw [c i hi.2, setSlot_get_ne _ (Ne.symm hi.1)]

theorem implantLoop_frame : ∀ (entries : List (Nat × Bytes)) (t t' : RatchetTree) (e : Option Err),
    implantLoop entries t = .done (t', e) →
    t'.Suite = t.Suite ∧ t'.Nodes.length = t.Nodes.length ∧
      ∀ i, (∀ entry ∈ entries, entry.1 ≠ i) → t'.Nodes[i]? = t.Nodes[i]? := by
  intro entries
  induction entries with
  | nil =>
    intro t t' e h
    simp only [implantLoop, Run.done.injEq, Prod.mk.injEq] at h
    obtain ⟨rfl, _⟩ := h
    exact ⟨rfl, rfl, fun _ _ => rfl⟩
  | cons entry rest ih =>
    intro t t' e h
    obtain ⟨curr, secret⟩ := entry
    simp only [implantLoop] at h
    have triv : ∀ {t'' : RatchetTree} {e' : Option Err},
        (Run.done (t, e') : Run (RatchetTree × Option Err)) = .done (t'', e) →
        t''.Suite = t.Suite ∧ t''.Nodes.length = t.Nodes.length ∧
          ∀ i, (∀ entry ∈ (curr, secret) :: rest, entry.1 ≠ i) → t''.Nodes[i]? = t.Nodes[i]? := by
      intro t'' e' hh
      simp only [Run.done.injEq, Prod.mk.injEq] at hh
      obtain ⟨rfl, _⟩ := hh
      exact ⟨rfl, rfl, fun _ _ => rfl⟩
    split at h
    · exact triv h
    · split at h
      · simp at h
      · split at h
        · exact triv h
        · split at h
          · simp at h
          · exact triv h
          · split at h
            · split at h
              · simp at h
              · split at h
                · split at h
                  · simp at h
                  · obtain ⟨a, b, c⟩ := ih _ t' e h
                    refine ⟨a, by rw [b]; simp, ?_⟩
                    intro i hi
                    have h1 : curr ≠ i := hi (curr, secret) (List.mem_cons_self _ _)
                    rw [c i (fun en hen => hi en (List.mem_cons_of_mem _ hen)), setSlot_get_ne _ h1]
                · exact triv h
            · simp at h

end RatchetTree

/-! ## The keys of the secrets map -/

theorem SecretMap.put_keys : ∀ (m : SecretMap) (k : Nat) (v : Bytes) (x : Nat × Bytes),
    x ∈ SecretMap.put m k v → x.1 = k ∨ ∃ y ∈ m, y.1 = x.1 := by
  intro m
  induction m with
  | nil =>
    intro k v x hx
    simp only [SecretMap.put, List.mem_singleton] at hx
    left; rw [hx]
  | cons hd tl ih =>
    intro k v x hx
    obtain ⟨k', v'⟩ := hd
    simp only [SecretMap.put] at hx
    split at hx
    · rcases List.mem_cons.mp hx with e | h
      · left; rw [e]
      · right; exact ⟨x, List.mem_cons_of_mem _ h, rfl⟩
    · rcases List.mem_cons.mp hx with e | h
      · right; exact ⟨(k', v'), List.mem_cons_self _ _, by rw [e]⟩
      · rcases ih k v x h with e | ⟨y, hy, e⟩
        · left; exact e
        · right; exact ⟨y, List.mem_cons_of_mem _ hy, e⟩

namespace RatchetTree

theorem pathSecretsLoop_keys (t : RatchetTree) : ∀ c, c < nodeWidth t.size →
    ∀ (f : Nat) (secrets m : SecretMap), pathSecretsLoop t f secrets c = .done m →
    ∀ x ∈ m, (∃ y ∈ secrets, y.1 = x.1) ∨ x.1 ∈ dirpath c t.size := by
  apply path_induction
  · intro _ f secrets m h x hx
    cases f with
    | zero => simp [pathSecretsLoop] at h
    | succ f =>
      simp only [pathSecretsLoop, rootIndex, if_true, Run.done.injEq] at h
      subst h
      exact Or.inl ⟨x, hx, rfl⟩
  · intro c hc hr ih f secrets m h x hx
    cases f with
    | zero => simp [pathSecretsLoop] at h
    | succ f =>
      simp only [pathSecretsLoop, rootIndex, hr, if_false] at h
      rw [dirpath_cons hc hr]
      rcases ih f _ m h x hx with ⟨y, hy, e⟩ | h2
      · rcases SecretMap.put_keys _ _ _ y hy with e2 | ⟨z, hz, e2⟩
        · right; rw [← e, e2]; exact List.mem_cons_self _ _
        · left; exact ⟨z, hz, by rw [e2, e]⟩
      · right; exact List.mem_cons_of_mem _ h2

theorem PathSecrets_keys {t : RatchetTree} {start : Nat} {ps : Bytes} {m : SecretMap}
    (hs : start < nodeWidth t.size) (h : t.PathSecrets start ps = .done m) :
    ∀ x ∈ m, x.1 = start ∨ x.1 ∈ dirpath start t.size := by
  intro x hx
  rcases pathSecretsLoop_keys t start hs _ _ m h x hx with ⟨y, hy, e⟩ | h2
  · simp only [SecretMap.put, List.mem_singleton] at hy
    left; rw [← e, hy]
  · right; exact h2

theorem Implant_frame {t t' : RatchetTree} {order : SecretMap → SecretMap} {start : Nat}
    {ps : Bytes} {r : Except Err Bytes} (horder : ∀ m, ∀ x ∈ order m, x ∈ m)
    (hs : start < nodeWidth t.size) (h : t.Implant order start ps = .done (t', r)) :
    t'.Suite = t.Suite ∧ t'.Nodes.length = t.Nodes.length ∧
      ∀ i, i ≠ start → i ∉ dirpath start t.size → t'.Nodes[i]? = t.Nodes[i]? := by
  unfold Implant at h
  split at h
  · simp at h
  · simp at h
  · rename_i secrets hsec
    have hkeys := PathSecrets_keys hs hsec
    have key : ∀ t1 e, implantLoop (order secrets) t = .done (t1, e) →
        t1.Suite = t.Suite ∧ t1.Nodes.length = t.Nodes.length ∧
          ∀ i, i ≠ start → i ∉ dirpath start t.size → t1.Nodes[i]? = t.Nodes[i]? := by
      intro t1 e hl
      obtain ⟨a, b, c⟩ := implantLoop_frame _ _ _ _ hl
      refine ⟨a, b, ?_⟩
      intro i h1 h2
      apply c
      intro entry hen he
      rcases hkeys entry (horder _ entry hen) with k | k
      · exact h1 (by rw [← he, k])
      · exact h2 (by rw [← he]; exact k)
    split at h
    · simp at h
    · simp at h
    · rename_i t1 e hl
      simp only [Run.done.injEq, Prod.mk.injEq] at h
      rw [← h.1]; exact key t1 _ hl
    · rename_i t1 hl
      simp only [Run.done.injEq, Prod.mk.injEq] at h
      rw [← h.1]; exact key t1 _ hl

end RatchetTree
end MLS

namespace MLS
namespace RatchetTree

theorem decryptLoop_overlap (t : RatchetTree) (context : Bytes) :
    ∀ (cp : List Nat) (nodes : List DirectPathNode) (overlap : Nat) (ps : Bytes),
    decryptLoop t context cp nodes = .done (.ok (overlap, ps)) →
    ∃ curr ∈ cp, overlap = parent curr t.size := by
  intro cp
  induction cp with
  | nil => intro nodes overlap ps h; simp [decryptLoop] at h
  | cons curr cp ih =>
    intro nodes overlap ps h
    cases nodes with
    | nil => simp [decryptLoop] at h
    | cons pn pns =>
      simp only [decryptLoop] at h
      split at h
      · simp at h
      · simp at h
      · split at h
        · simp at h
        · split at h
          · simp at h
          · simp at h
          · simp at h
          · rename_i pathSecret hscan
            simp only [Run.done.injEq, Except.ok.injEq, Prod.mk.injEq] at h
            exact ⟨curr, List.mem_cons_self _ _, h.1.symm⟩
          · obtain ⟨c, hc, e⟩ := ih pns overlap ps h
            exact ⟨c, List.mem_cons_of_mem _ hc, e⟩

theorem decryptPathSecret_overlap {t : RatchetTree} {l : Nat} {context : Bytes} {path : DirectPath}
    {overlap : Nat} {ps : Bytes} (hl : l < t.size)
    (h : t.decryptPathSecret l context path = .done (.ok (overlap, ps))) :
    overlap < nodeWidth t.size ∧ overlap ∈ dirpath (toNodeIndex l) t.size := by
  dsimp only [decryptPathSecret] at h
  split at h
  · simp at h
  · obtain ⟨curr, hc, e⟩ := decryptLoop_overlap _ _ _ _ _ _ h
    obtain ⟨a, b⟩ := copath_parent_mem _ (toNodeIndex_lt hl) curr hc
    rw [e]
    exact ⟨parent_lt a, b⟩

/-- What a `Decap` that returns leaves behind. -/
theorem Decap_frame (t : RatchetTree) (order : SecretMap → SecretMap) (l : Nat)
    (context : Bytes) (path : DirectPath) (hl : l < t.size)
    (horder : ∀ m, (order m).Perm m) :
    (path.Nodes.length ≠ (dirpath (toNodeIndex l) t.size).length →
      t.Decap order l context path = .done (t, .error .malformedDirectPath)) ∧
    (∀ t' r, t.Decap order l context path = .done (t', r) →
      t'.Suite = t.Suite ∧ t'.Nodes.length = t.Nodes.length ∧
      (∀ i, ¬ onLeafPath t.size l i → t'.Nodes[i]? = t.Nodes[i]?) ∧
      t'.contentAt (toNodeIndex l) = t.contentAt (toNodeIndex l)) := by
  have hsub : ∀ m, ∀ x ∈ order m, x ∈ m := fun m x hx => (horder m).subset hx
  have hleafnot : toNodeIndex l ∉ dirpath (toNodeIndex l) t.size :=
    not_mem_dirpath_self (toNodeIndex_lt hl)
  constructor
  · intro hne
    unfold Decap
    simp only [hne, ne_eq, not_false_eq_true, if_true]
  · intro t' r h
    dsimp only [Decap] at h
    split at h
    · simp only [Run.done.injEq, Prod.mk.injEq] at h
      rw [← h.1]
      exact ⟨rfl, rfl, fun _ _ => rfl, rfl⟩
    · split at h
      · simp at h
      · simp at h
      · rename_i t1 hmerge
        obtain ⟨a1, b1, c1⟩ := mergeLoop_frame _ _ _ _ hmerge
        have hsz1 : t1.size = t.size := size_eq_of_length b1
        have frame1 : t1.Suite = t.Suite ∧ t1.Nodes.length = t.Nodes.length ∧
            (∀ i, ¬ onLeafPath t.size l i → t1.Nodes[i]? = t.Nodes[i]?) ∧
            t1.contentAt (toNodeIndex l) = t.contentAt (toNodeIndex l) := by
          refine ⟨a1, b1, ?_, contentAt_eq_of_get (c1 _ hleafnot)⟩
          intro i hi
          unfold onLeafPath at hi
          simp only [not_or] at hi
          exact c1 i hi.2
        split at h
        · simp at h
        · simp at h
        · simp only [Run.done.injEq, Prod.mk.injEq] at h
          rw [← h.1]; exact frame1
        · rename_i overlap pathSecret hdec
          obtain ⟨ho1, ho2⟩ := decryptPathSecret_overlap (by omega) hdec
          rw [hsz1] at ho1 ho2
          have hone : overlap ≠ toNodeIndex l := mem_dirpath_leaf_ne hl ho2
          have frame2 : ∀ t2 r2, t1.Implant order overlap pathSecret = .done (t2, r2) →
              t2.Suite = t.Suite ∧ t2.Nodes.length = t.Nodes.length ∧
              (∀ i, ¬ onLeafPath t.size l i → t2.Nodes[i]? = t.Nodes[i]?) ∧
              t2.contentAt (toNodeIndex l) = t.contentAt (toNodeIndex l) := by
            intro t2 r2 himp
            obtain ⟨a2, b2, c2⟩ := Implant_frame hsub (by rw [hsz1]; exact ho1) himp
            rw [hsz1] at c2
            have hnotin : ∀ i, i ∉ dirpath (toNodeIndex l) t.size → i ∉ dirpath overlap t.size :=
              fun i hi hm => hi (mem_dirpath_trans _ (toNodeIndex_lt hl) _ ho2 _ hm)
            refine ⟨a2.trans a1, b2.trans b1, ?_, ?_⟩
            · intro i hi
              have hi' := hi
              unfold onLeafPath at hi
              simp only [not_or] at hi
              rw [c2 i (fun e => hi.2 (by rw [e]; exact ho2)) (hnotin i hi.2)]
              exact frame1.2.2.1 i hi'
            · rw [contentAt_eq_of_get (c2 _ hone.symm (hnotin _ hleafnot))]
              exact frame1.2.2.2
          split at h
          · simp at h
          · simp at h
          · rename_i t2 e himp
            simp only [Run.done.injEq, Prod.mk.injEq] at h
            rw [← h.1]; exact frame2 t2 _ himp
          · rename_i t2 rootSecret himp
            obtain ⟨a2, b2, c2, d2⟩ := frame2 t2 _ himp
            have hsz2 : t2.size = t.size := size_eq_of_length b2
            have frame3 : ∀ t3 e3, t2.setHashPath l = .done (t3, e3) →
                t3.Suite = t.Suite ∧ t3.Nodes.length = t.Nodes.length ∧
                (∀ i, ¬ onLeafPath t.size l i → t3.Nodes[i]? = t.Nodes[i]?) ∧
                t3.contentAt (toNodeIndex l) = t.contentAt (toNodeIndex l) := by
              intro t3 e3 hh
              obtain ⟨a3, b3, c3, d3, _⟩ := setHashPath_frame (by omega) hh
              rw [hsz2] at d3
              refine ⟨a3.trans a2, b3.trans b2, ?_, (c3 _).trans d2⟩
              intro i hi
              have hi' := hi
              unfold onLeafPath at hi
              simp only [not_or] at hi
              rw [d3 i hi.1 hi.2]; exact c2 i hi'
            split at h
            · simp at h
            · simp at h
            · rename_i t3 e hh
              simp only [Run.done.injEq, Prod.mk.injEq] at h
              rw [← h.1]; exact frame3 t3 _ hh
            · rename_i t3 hh
              simp only [Run.done.injEq, Prod.mk.injEq] at h
              rw [← h.1]; exact frame3 t3 _ hh

end RatchetTree
end MLS

namespace MLS

/-! ## Descendants and the path of a leaf -/

theorem Desc_trans {n v d e : Nat} (h1 : Desc n v d) (h2 : Desc n d e) : Desc n v e := by
  induction h2 with
  | refl => exact h1
  | left _ hl ih => exact Desc.left ih hl
  | right _ hl ih => exact Desc.right ih hl

theorem Desc_spec {n v d : Nat} (hv : v < nodeWidth n) (h : Desc n v d) :
    d < nodeWidth n ∧ (d = v ∨ v ∈ dirpath d n) := by
  induction h with
  | refl => exact ⟨hv, Or.inl rfl⟩
  | @left d _ hl ih =>
    obtain ⟨hd, hm⟩ := ih
    have hlt := left_lt_nodeWidth hd
    have hne : left d ≠ root n := root_level_pos_ne hd (by have := level_left hl; omega)
    refine ⟨hlt, Or.inr ?_⟩
    rw [dirpath_cons hlt hne, parent_left hd hl]
    rcases hm with e | m
    · rw [e]; exact List.mem_cons_self _ _
    · exact List.mem_cons_of_mem _ m
  | @right d _ hl ih =>
    obtain ⟨hd, hm⟩ := ih
    have hlt := right_lt hd
    have hne : right d n ≠ root n := root_level_pos_ne hd (level_right_lt hd hl)
    refine ⟨hlt, Or.inr ?_⟩
    rw [dirpath_cons hlt hne, parent_right hd hl]
    rcases hm with e | m
    · rw [e]; exact List.mem_cons_self _ _
    · exact List.mem_cons_of_mem _ m

/-- Two nodes on the path of `c`: the one of higher level is above the other. -/
theorem path_above {n : Nat} : ∀ c, c < nodeWidth n → ∀ y z,
    (y = c ∨ y ∈ dirpath c n) → (z = c ∨ z ∈ dirpath c n) → level y < level z →
    z ∈ dirpath y n := by
  apply path_induction
  · intro _ y z hy hz hlv
    rw [dirpath_root] at hy hz
    simp only [List.not_mem_nil, or_false] at hy hz
    rw [hy, hz] at hlv; omega
  · intro c hc hr ih y z hy hz hlv
    have hpc := parent_lt hc
    have hcons := dirpath_cons hc hr
    have toP : ∀ u, u ∈ dirpath c n → (u = parent c n ∨ u ∈ dirpath (parent c n) n) := by
      intro u hu; rw [hcons] at hu; exact List.mem_cons.mp hu
    rcases hy with hy | hy
    · rcases hz with hz | hz
      · rw [hy, hz] at hlv; omega
      · rw [hy]; exact hz
    · rcases hz with hz | hz
      · have := dirpath_level_gt _ hc _ hy
        rw [hz] at hlv; omega
      · exact ih y z (toP y hy) (toP z hz) hlv

/-- Two nodes of the same level on the path of `c` are the same node. -/
theorem path_same_level {n : Nat} : ∀ c, c < nodeWidth n → ∀ y z,
    (y = c ∨ y ∈ dirpath c n) → (z = c ∨ z ∈ dirpath c n) → level y = level z → y = z := by
  apply path_induction
  · intro _ y z hy hz _
    rw [dirpath_root] at hy hz
    simp only [List.not_mem_nil, or_false] at hy hz
    rw [hy, hz]
  · intro c hc hr ih y z hy hz hlv
    have hcons := dirpath_cons hc hr
    have toP : ∀ u, u ∈ dirpath c n → (u = parent c n ∨ u ∈ dirpath (parent c n) n) := by
      intro u hu; rw [hcons] at hu; exact List.mem_cons.mp hu
    rcases hy with hy | hy
    · rcases hz with hz | hz
      · rw [hy, hz]
      · have := dirpath_level_gt _ hc _ hz
        rw [hy] at hlv; omega
    · rcases hz with hz | hz
      · have := dirpath_level_gt _ hc _ hy
        rw [hz] at hlv; omega
      · exact ih y z (toP y hy) (toP z hz) hlv

theorem sibling_level_lt {x n : Nat} (hx : x < nodeWidth n) (hr : x ≠ root n) :
    level (sibling x n) < level (parent x n) := by
  have hp := parent_lt hx
  have hl := level_parent_pos hx hr
  rcases sibling_cases hx hr with ⟨_, e⟩ | ⟨_, e⟩
  · rw [e]; exact level_right_lt hp hl
  · rw [e]; have := level_left hl; omega

theorem lt_right {x n : Nat} (hx : x < nodeWidth n) (hl : 0 < level x) : x < right x n := by
  obtain ⟨m, k, rfl⟩ := exists_nodeAt x
  rw [level_nodeAt] at hl
  obtain ⟨k', rfl⟩ : ∃ k', k = k' + 1 := ⟨k - 1, by omega⟩
  obtain ⟨i, hi, h2, _, _⟩ := right_spec hx
  rw [h2]
  have hk : k' - i + 1 + i = k' + 1 := by omega
  simp only [nodeAt]
  have e1 : 2 ^ (k' - i + 1) * (2 ^ i * (2 * m + 1)) = 2 ^ (k' + 1) * (2 * m + 1) := by
    rw [← Nat.mul_assoc, ← pow_add, hk]
  have e2 : 2 ^ (k' + 1 + 1) * m = 2 ^ (k' + 1) * (2 * m) := by rw [pow_succ]; ring
  have e3 : 2 ^ (k' + 1) * (2 * m + 1) = 2 ^ (k' + 1) * (2 * m) + 2 ^ (k' + 1) := by ring
  rw [e1, e2, e3]
  have p1 := two_pow_pos' (k' - i)
  have p2 := two_pow_pos' (k' + 1)
  omega

theorem sibling_ne_self {x n : Nat} (hx : x < nodeWidth n) (hr : x ≠ root n) :
    sibling x n ≠ x := by
  have hp := parent_lt hx
  have hl := level_parent_pos hx hr
  rcases sibling_cases hx hr with ⟨h, e⟩ | ⟨h, e⟩
  · rw [e]; have := lt_right hp hl; omega
  · rw [e]; have := left_lt hl; omega

/-- The sibling of a node of the path of a leaf is not on that path. -/
theorem sibling_off_path {n c x : Nat} (hc : c < nodeWidth n) (hx : x = c ∨ x ∈ dirpath c n)
    (hr : x ≠ root n) : sibling x n ≠ c ∧ sibling x n ∉ dirpath c n := by
  have hxlt : x < nodeWidth n := by
    rcases hx with e | m
    · rw [e]; exact hc
    · exact dirpath_mem_lt _ hc _ m
  have hsl := sibling_level_lt hxlt hr
  have hxl := level_parent_gt hxlt hr
  have hps := parent_sibling hxlt hr
  have hslt := sibling_lt hxlt hr
  have key : ¬ (sibling x n = c ∨ sibling x n ∈ dirpath c n) := by
    intro hs
    rcases Nat.lt_trichotomy (level x) (level (sibling x n)) with h | h | h
    · have hm := path_above c hc x (sibling x n) hx hs h
      rw [dirpath_cons hxlt hr] at hm
      rcases List.mem_cons.mp hm with e | m
      · rw [e] at hsl; omega
      · have := dirpath_level_gt _ (parent_lt hxlt) _ m; omega
    · exact sibling_ne_self hxlt hr (path_same_level c hc _ _ hs hx h.symm)
    · have hm := path_above c hc (sibling x n) x hs hx h
      rw [dirpath_cons hslt (root_level_pos_ne hxlt h), hps] at hm
      rcases List.mem_cons.mp hm with e | m
      · exact parent_ne_self hxlt hr e.symm
      · have := dirpath_level_gt _ (parent_lt hxlt) _ m; omega
  exact ⟨fun e => key (Or.inl e), fun m => key (Or.inr m)⟩

/-- No descendant of the sibling of a node of the path of a leaf is on that path. -/
theorem Desc_off_path {n c x d : Nat} (hc : c < nodeWidth n) (hx : x = c ∨ x ∈ dirpath c n)
    (hr : x ≠ root n) (hd : Desc n (sibling x n) d) : d ≠ c ∧ d ∉ dirpath c n := by
  have hxlt : x < nodeWidth n := by
    rcases hx with e | m
    · rw [e]; exact hc
    · exact dirpath_mem_lt _ hc _ m
  obtain ⟨h1, h2⟩ := sibling_off_path hc hx hr
  obtain ⟨_, h3⟩ := Desc_spec (sibling_lt hxlt hr) hd
  constructor
  · intro e
    rcases h3 with e' | m
    · exact h1 (by rw [← e', e])
    · rw [e] at m; exact h2 m
  · intro hm
    rcases h3 with e' | m
    · rw [e'] at hm; exact h2 hm
    · exact h2 (mem_dirpath_trans _ hc _ hm _ m)

end MLS

namespace MLS
namespace RatchetTree

/-! ## The resolution reads public content below the node only -/

theorem publicAt_cases {t u : RatchetTree} {d : Nat} (h : u.publicAt d = t.publicAt d) :
    (u.Nodes[d]? = none ∧ t.Nodes[d]? = none) ∨
      ∃ su st, u.Nodes[d]? = some su ∧ t.Nodes[d]? = some st ∧
        su.Node.map Node.pub = st.Node.map Node.pub := by
  unfold publicAt contentAt at h
  cases hu : u.Nodes[d]? with
  | none =>
    cases ht : t.Nodes[d]? with
    | none => exact Or.inl ⟨rfl, rfl⟩
    | some st => rw [hu, ht] at h; simp at h
  | some su =>
    cases ht : t.Nodes[d]? with
    | none => rw [hu, ht] at h; simp at h
    | some st =>
      rw [hu, ht] at h
      simp only [Option.map_some', Option.some.injEq] at h
      exact Or.inr ⟨su, st, rfl, rfl, h⟩

theorem node_pub_cases {a b : Option Node} (h : a.map Node.pub = b.map Node.pub) :
    (a = none ∧ b = none) ∨ ∃ na nb, a = some na ∧ b = some nb ∧ na.pub = nb.pub := by
  cases a with
  | none =>
    cases b with
    | none => exact Or.inl ⟨rfl, rfl⟩
    | some nb => simp at h
  | some na =>
    cases b with
    | none => simp at h
    | some nb =>
      simp only [Option.map_some', Option.some.injEq] at h
      exact Or.inr ⟨na, nb, rfl, rfl, h⟩

theorem parent_pub_cases {na nb : Node} (h : na.pub = nb.pub) :
    (na.Parent = none ∧ nb.Parent = none) ∨
      ∃ pa pb, na.Parent = some pa ∧ nb.Parent = some pb ∧ pa.PublicKey = pb.PublicKey ∧
        pa.UnmergedLeaves = pb.UnmergedLeaves ∧ pa.ParentHash = pb.ParentHash := by
  have hp : na.Parent.map ParentNode.pub = nb.Parent.map ParentNode.pub := by
    have := congrArg Node.Parent h; simpa [Node.pub] using this
  cases ha : na.Parent with
  | none =>
    cases hb : nb.Parent with
    | none => exact Or.inl ⟨rfl, rfl⟩
    | some pb => rw [ha, hb] at hp; simp at hp
  | some pa =>
    cases hb : nb.Parent with
    | none => rw [ha, hb] at hp; simp at hp
    | some pb =>
      rw [ha, hb] at hp
      simp only [Option.map_some', Option.some.injEq, ParentNode.pub] at hp
      refine Or.inr ⟨pa, pb, rfl, rfl, ?_, ?_, ?_⟩
      · have := congrArg ParentNode.PublicKey hp; simpa using this
      · have := congrArg ParentNode.UnmergedLeaves hp; simpa using this
      · have := congrArg ParentNode.ParentHash hp; simpa using this

theorem resolveAux_congr {t u : RatchetTree} (hsz : u.size = t.size) : ∀ (f v : Nat),
    (∀ d, Desc t.size v d → u.publicAt d = t.publicAt d) →
    resolveAux u f v = resolveAux t f v := by
  intro f
  induction f with
  | zero => intro v _; rfl
  | succ f ih =>
    intro v h
    simp only [resolveAux]
    rcases publicAt_cases (h v Desc.refl) with ⟨a, b⟩ | ⟨su, st, a, b, c⟩
    · rw [a, b]
    · rw [a, b]
      simp only
      rcases node_pub_cases c with ⟨a', b'⟩ | ⟨na, nb, a', b', c'⟩
      · rw [a', b']
        simp only
        by_cases hl : level v = 0
        · simp [hl]
        · simp only [hl, if_false, hsz]
          have hpos : 0 < level v := Nat.pos_of_ne_zero hl
          rw [ih (left v) (fun d hd => h d (Desc_trans (Desc.left Desc.refl hpos) hd)),
            ih (right v t.size) (fun d hd => h d (Desc_trans (Desc.right Desc.refl hpos) hd))]
      · rw [a', b']
        simp only
        by_cases hl : level v > 0
        · simp only [hl, if_true]
          rcases parent_pub_cases c' with ⟨x, y⟩ | ⟨pa, pb, x, y, _, z, _⟩
          · rw [x, y]
          · rw [x, y]; simp only [z]
        · simp [hl]

theorem resolve_congr {t u : RatchetTree} (hsz : u.size = t.size) (v : Nat)
    (h : ∀ d, Desc t.size v d → u.publicAt d = t.publicAt d) : u.resolve v = t.resolve v :=
  resolveAux_congr hsz _ v h

end RatchetTree
end MLS

namespace MLS
namespace RatchetTree

/-! ## Hashing a path in two trees with the same public content -/

end RatchetTree
end MLS

namespace MLS

/-! ## The secrets map -/

theorem SecretMap.get_put_self : ∀ (m : SecretMap) (k : Nat) (v : Bytes),
    SecretMap.get (SecretMap.put m k v) k = v := by
  intro m
  induction m with
  | nil => intro k v; simp [SecretMap.put, SecretMap.get]
  | cons hd tl ih =>
    intro k v
    obtain ⟨k', v'⟩ := hd
    simp only [SecretMap.put]
    split
    · simp [SecretMap.get]
    · rename_i hne
      simp only [SecretMap.get, hne, if_false]
      exact ih k v

theorem SecretMap.get_put_ne : ∀ (m : SecretMap) (k : Nat) (v : Bytes) (j : Nat), j ≠ k →
    SecretMap.get (SecretMap.put m k v) j = SecretMap.get m j := by
  intro m
  induction m with
  | nil =>
    intro k v j hj
    simp [SecretMap.put, SecretMap.get, Ne.symm hj]
  | cons hd tl ih =>
    intro k v j hj
    obtain ⟨k', v'⟩ := hd
    simp only [SecretMap.put]
    split
    · rename_i he
      subst he
      simp [SecretMap.get, Ne.symm hj]
    · simp only [SecretMap.get]
      split
      · rfl
      · exact ih k v j hj

theorem SecretMap.put_nodup : ∀ (m : SecretMap) (k : Nat) (v : Bytes),
    (m.map Prod.fst).Nodup → ((SecretMap.put m k v).map Prod.fst).Nodup := by
  intro m
  induction m with
  | nil => intro k v _; simp [SecretMap.put]
  | cons hd tl ih =>
    intro k v h
    obtain ⟨k', v'⟩ := hd
    simp only [List.map_cons, List.nodup_cons] at h
    simp only [SecretMap.put]
    split
    · rename_i he
      subst he
      simp only [List.map_cons, List.nodup_cons]
      exact h
    · rename_i hne
      simp only [List.map_cons, List.nodup_cons]
      refine ⟨?_, ih k v h.2⟩
      intro hm
      obtain ⟨x, hx, e⟩ := List.mem_map.mp hm
      rcases SecretMap.put_keys tl k v x hx with e2 | ⟨y, hy, e2⟩
      · exact hne (by rw [← e, e2])
      · exact h.1 (List.mem_map.mpr ⟨y, hy, by rw [e2, e]⟩)

theorem SecretMap.get_of_mem : ∀ (m : SecretMap), (m.map Prod.fst).Nodup →
    ∀ x ∈ m, SecretMap.get m x.1 = x.2 := by
  intro m
  induction m with
  | nil => intro _ x hx; simp at hx
  | cons hd tl ih =>
    intro h x hx
    obtain ⟨k', v'⟩ := hd
    simp only [List.map_cons, List.nodup_cons] at h
    rcases List.mem_cons.mp hx with e | hm
    · rw [e]; simp [SecretMap.get]
    · simp only [SecretMap.get]
      split
      · rename_i he
        exact absurd (List.mem_map.mpr ⟨x, hm, he.symm⟩) h.1
      · exact ih h.2 x hm

namespace RatchetTree

theorem pathSecretsLoop_spec (t : RatchetTree) : ∀ c, c < nodeWidth t.size →
    ∀ (f : Nat) (secrets : SecretMap), rootLevel t.size - level c < f →
    (secrets.map Prod.fst).Nodup →
    ∃ m, pathSecretsLoop t f secrets c = .done m ∧ (m.map Prod.fst).Nodup ∧
      (∀ k, k ∉ dirpath c t.size → m.get k = secrets.get k) ∧
      ∀ d, (d = c ∨ d ∈ dirpath c t.size) → d ≠ root t.size →
        m.get (parent d t.size) = t.pathStep (m.get d) := by
  apply path_induction
  · intro _ f secrets hf hnd
    obtain ⟨f, rfl⟩ : ∃ g, f = g + 1 := ⟨f - 1, by omega⟩
    refine ⟨secrets, by simp [pathSecretsLoop, rootIndex], hnd, fun _ _ => rfl, ?_⟩
    intro d hd hdr
    rw [dirpath_root] at hd
    rcases hd with e | e
    · exact absurd e hdr
    · simp at e
  · intro c hc hr ih f secrets hf hnd
    obtain ⟨f, rfl⟩ : ∃ g, f = g + 1 := ⟨f - 1, by omega⟩
    have hlv := level_parent_gt hc hr
    have hlr := level_lt_rootLevel hc hr
    obtain ⟨m, hm, hnd', hget, hchain⟩ :=
      ih f (secrets.put (parent c t.size) (t.pathStep (secrets.get c))) (by omega)
        (SecretMap.put_nodup _ _ _ hnd)
    have hcp : c ≠ parent c t.size := (parent_ne_self hc hr).symm
    have hcn : c ∉ dirpath (parent c t.size) t.size := by
      intro hm'
      have := dirpath_level_gt _ (parent_lt hc) _ hm'
      omega
    have hpn : parent c t.size ∉ dirpath (parent c t.size) t.size :=
      not_mem_dirpath_self (parent_lt hc)
    refine ⟨m, by simp only [pathSecretsLoop, rootIndex, hr, if_false]; exact hm, hnd', ?_, ?_⟩
    · intro k hk
      rw [dirpath_cons hc hr] at hk
      simp only [List.mem_cons, not_or] at hk
      rw [hget k hk.2, SecretMap.get_put_ne _ _ _ _ hk.1]
    · intro d hd hdr
      rcases hd with e | e
      · rw [e, hget _ hpn, SecretMap.get_put_self, hget _ hcn, SecretMap.get_put_ne _ _ _ _ hcp]
      · rw [dirpath_cons hc hr] at e
        apply hchain d _ hdr
        rcases List.mem_cons.mp e with e | e
        · exact Or.inl e
        · exact Or.inr e

/-- The secrets map of a start node inside the tree: the start holds the given secret,
each further node of the path holds the next value of the chain, and no key repeats. -/
theorem PathSecrets_spec (t : RatchetTree) {start : Nat} (ps : Bytes)
    (hs : start < nodeWidth t.size) :
    ∃ m, t.PathSecrets start ps = .done m ∧ (m.map Prod.fst).Nodup ∧ m.get start = ps ∧
      (∀ d, (d = start ∨ d ∈ dirpath start t.size) → d ≠ root t.size →
        m.get (parent d t.size) = t.pathStep (m.get d)) ∧
      ∀ x ∈ m, (x.1 = start ∨ x.1 ∈ dirpath start t.size) ∧ m.get x.1 = x.2 := by
  have h1 : 1 ≤ t.size := nodeWidth_pos_of_lt hs
  have hL := rootLevel_lt_nodeWidth t.size h1
  have hW := nodeWidth_size_le t
  obtain ⟨m, hm, hnd, hget, hchain⟩ :=
    pathSecretsLoop_spec t start hs (t.Nodes.length + 1) (SecretMap.put [] start ps) (by omega)
      (by simp [SecretMap.put])
  refine ⟨m, hm, hnd, ?_, hchain, ?_⟩
  · rw [hget _ (not_mem_dirpath_self hs), SecretMap.get_put_self]
  · intro x hx
    exact ⟨PathSecrets_keys hs hm x hx, SecretMap.get_of_mem m hnd x hx⟩

end RatchetTree
end MLS

namespace MLS
namespace RatchetTree

/-! ## What Encap produces -/

theorem newParentNode_ok {suite : CipherSuite} {s : Bytes} {slot : OptionalNode}
    (h : newParentNode suite s = .ok slot) :
    ∃ priv, suite.Derive s = .ok priv ∧
      slot = { Node := some { Leaf := none, Hash := none,
                              Parent := some { PublicKey := priv.PublicKey, UnmergedLeaves := [],
                                               ParentHash := [], PrivateKey := some priv } },
               Hash := [] } := by
  unfold newParentNode ParentNode.SetSecret at h
  cases hd : suite.Derive s with
  | error e => rw [hd] at h; simp at h
  | ok priv =>
    rw [hd] at h
    simp only [ParentNode.SetPrivateKey, ParentNode.SetPublicKey, Except.ok.injEq] at h
    exact ⟨priv, rfl, h.symm⟩

theorem encryptLoop_spec (t : RatchetTree) (context ps : Bytes) :
    ∀ (res : List Nat) (acc cts : List HPKECiphertext),
    encryptLoop t context ps res acc = .done (.ok cts) →
    ∃ cts', cts = acc ++ cts' ∧ encryptsTo t context ps res cts' := by
  intro res
  induction res with
  | nil =>
    intro acc cts h
    simp only [encryptLoop, Run.done.injEq, Except.ok.injEq] at h
    exact ⟨[], by simp [h], List.Forall₂.nil⟩
  | cons r rest ih =>
    intro acc cts h
    simp only [encryptLoop] at h
    split at h
    · simp at h
    · rename_i slot hs
      split at h
      · simp at h
      · rename_i nd hn
        split at h
        · simp at h
        · rename_i pk hpk
          split at h
          · simp at h
          · rename_i ct hct
            obtain ⟨cts', e, hf⟩ := ih _ _ h
            refine ⟨ct :: cts', by rw [e]; simp, ?_⟩
            exact List.Forall₂.cons
              ⟨nd, pk, by rw [contentAt_of_get hs, hn], hpk, hct⟩ hf

theorem encryptsTo_congr {t u : RatchetTree} {context ps : Bytes} (hs : u.Suite = t.Suite) :
    ∀ {res : List Nat} {cts : List HPKECiphertext},
    (∀ r ∈ res, u.contentAt r = t.contentAt r) →
    encryptsTo t context ps res cts → encryptsTo u context ps res cts := by
  intro res cts hc h
  unfold encryptsTo at h ⊢
  induction h with
  | nil => exact List.Forall₂.nil
  | @cons r ct res cts hd _ ih =>
    obtain ⟨nd, pk, a, b, c⟩ := hd
    refine List.Forall₂.cons ⟨nd, pk, ?_, b, ?_⟩
      (ih (fun r' hr' => hc r' (List.mem_cons_of_mem _ hr')))
    · rw [hc r (List.mem_cons_self _ _)]; exact a
    · rw [hs]; exact c

theorem publicAt_eq_of_get {t u : RatchetTree} {i : Nat} (h : t.Nodes[i]? = u.Nodes[i]?) :
    t.publicAt i = u.publicAt i := by
  unfold publicAt; rw [contentAt_eq_of_get h]

theorem sibling_mem_copath {n : Nat} : ∀ c, c < nodeWidth n → ∀ x,
    (x = c ∨ x ∈ dirpath c n) → x ≠ root n → sibling x n ∈ copath c n := by
  apply path_induction
  · intro _ x hx hr
    rw [dirpath_root] at hx
    simp only [List.not_mem_nil, or_false] at hx
    exact absurd hx hr
  · intro c hc hcr ih x hx hr
    rw [copath_cons hc hcr]
    rcases hx with e | m
    · rw [e]; exact List.mem_cons_self _ _
    · rw [dirpath_cons hc hcr] at m
      apply List.mem_cons_of_mem
      apply ih x _ hr
      rcases List.mem_cons.mp m with e | e
      · exact Or.inl e
      · exact Or.inr e

end RatchetTree
end MLS

namespace MLS
namespace RatchetTree

/-! ## What the merge of Decap leaves -/

theorem newParentNode_of_Derive {suite : CipherSuite} {s : Bytes} {priv : HPKEPrivateKey}
    (h : suite.Derive s = .ok priv) :
    newParentNode suite s =
      .ok { Node := some { Leaf := none, Hash := none,
                           Parent := some { PublicKey := priv.PublicKey, UnmergedLeaves := [],
                                            ParentHash := [], PrivateKey := some priv } },
            Hash := [] } := by
  unfold newParentNode ParentNode.SetSecret
  rw [h]
  rfl

theorem hashAt_setSlot_same {t : RatchetTree} {p : Nat} {s s' : OptionalNode}
    (hs : t.Nodes[p]? = some s) (hh : s'.Hash = s.Hash) (i : Nat) :
    (t.setSlot p s').hashAt i = t.hashAt i := by
  unfold hashAt
  by_cases e : p = i
  · subst e
    rw [setSlot_get_self _ (List.getElem?_eq_some.mp hs).1, hs]
    simp [hh]
  · rw [setSlot_get_ne _ e]

end RatchetTree
end MLS

namespace MLS
namespace RatchetTree

/-! ## The search of decryptPathSecret -/

end RatchetTree
end MLS

namespace MLS
namespace RatchetTree

/-! ## Implanting the secrets of the sender -/

end RatchetTree
end MLS

namespace MLS
namespace RatchetTree

/-! ## Encap on one tree, Decap on another -/

theorem copath_mem_sibling {n : Nat} : ∀ c, c < nodeWidth n → ∀ v, v ∈ copath c n →
    ∃ x, (x = c ∨ x ∈ dirpath c n) ∧ x ≠ root n ∧ v = sibling x n := by
  apply path_induction
  · intro _ v hv; rw [copath_root] at hv; simp at hv
  · intro c hc hr ih v hv
    rw [copath_cons hc hr] at hv
    rcases List.mem_cons.mp hv with e | m
    · exact ⟨c, Or.inl rfl, hr, e⟩
    · obtain ⟨x, hx, hxr, e⟩ := ih v m
      refine ⟨x, Or.inr ?_, hxr, e⟩
      rw [dirpath_cons hc hr]
      rcases hx with e' | m'
      · rw [e']; exact List.mem_cons_self _ _
      · exact List.mem_cons_of_mem _ m'

theorem copath_desc_off_path {n L c d : Nat} (hL : L < nodeWidth n) (hc : c ∈ copath L n)
    (hd : Desc n c d) : d ≠ L ∧ d ∉ dirpath L n := by
  obtain ⟨x, hx, hxr, e⟩ := copath_mem_sibling L hL c hc
  rw [e] at hd
  exact Desc_off_path hL hx hxr hd

theorem pathMatches_length {T : RatchetTree} {context : Bytes} {secrets : SecretMap} :
    ∀ (cp : List Nat) (nodes : List DirectPathNode), pathMatches T context secrets cp nodes →
    nodes.length = cp.length := by
  intro cp
  induction cp with
  | nil =>
    intro nodes h
    cases nodes with
    | nil => rfl
    | cons _ _ => simp [pathMatches] at h
  | cons c cp ih =>
    intro nodes h
    cases nodes with
    | nil => simp [pathMatches] at h
    | cons pn rest =>
      simp only [pathMatches] at h
      simp [ih rest h.2]

/-- The stages of a call of `Encap` that returned a path. -/
theorem Encap_stages {T S : RatchetTree} {a : Nat} {context s : Bytes} {path : DirectPath}
    {rs : Bytes} (h : T.Encap a context s = .done (S, .ok (path, rs))) :
    ∃ secrets S1, T.PathSecrets (toNodeIndex a) s = .done secrets ∧
      encapLoop (toNodeIndex a) context secrets (copath (toNodeIndex a) T.size) T [] =
        .done (S1, .ok path.Nodes) ∧
      S1.setHashPath a = .done (S, none) ∧ rs = secrets.get S.rootIndex := by
  dsimp only [Encap] at h
  cases hps : T.PathSecrets (toNodeIndex a) s with
  | panic => rw [hps] at h; simp at h
  | hang => rw [hps] at h; simp at h
  | done secrets =>
    rw [hps] at h
    simp only at h
    cases hl : encapLoop (toNodeIndex a) context secrets (copath (toNodeIndex a) T.size) T [] with
    | panic => rw [hl] at h; simp at h
    | hang => rw [hl] at h; simp at h
    | done p =>
      obtain ⟨S1, r⟩ := p
      rw [hl] at h
      cases r with
      | error e => simp at h
      | ok nodes =>
        simp only at h
        cases hh : S1.setHashPath a with
        | panic => rw [hh] at h; simp at h
        | hang => rw [hh] at h; simp at h
        | done q =>
          obtain ⟨S2, e⟩ := q
          rw [hh] at h
          cases e with
          | some err => simp at h
          | none =>
            simp only [Run.done.injEq, Prod.mk.injEq, Except.ok.injEq] at h
            obtain ⟨h1, h2, h3⟩ := h
            subst h1
            subst h2
            exact ⟨secrets, S1, rfl, hl, hh, h3.symm⟩

end RatchetTree
end MLS

namespace MLS
namespace RatchetTree

end RatchetTree
end MLS

namespace MLS

/-! ## Tree math: the values of the test tables

The tables of `tree-math_test.go` for the tree on eleven leaves. -/

theorem table_root : (List.range 11).map (fun n => root (n + 1)) =
    [0x00, 0x01, 0x03, 0x03, 0x07, 0x07, 0x07, 0x07, 0x0f, 0x0f, 0x0f] := by decide

theorem table_log2 : (List.range 21).map log2 =
    [0x00, 0x00, 0x01, 0x01, 0x02, 0x02, 0x02, 0x02, 0x03, 0x03, 0x03, 0x03, 0x03, 0x03, 0x03,
      0x03, 0x04, 0x04, 0x04, 0x04, 0x04] := by decide

theorem table_level : (List.range 21).map level =
    [0x00, 0x01, 0x00, 0x02, 0x00, 0x01, 0x00, 0x03, 0x00, 0x01, 0x00, 0x02, 0x00, 0x01, 0x00,
      0x04, 0x00, 0x01, 0x00, 0x02, 0x00] := by decide

theorem table_left : (List.range 21).map left =
    [0x00, 0x00, 0x02, 0x01, 0x04, 0x04, 0x06, 0x03, 0x08, 0x08, 0x0a, 0x09, 0x0c, 0x0c, 0x0e,
      0x07, 0x10, 0x10, 0x12, 0x11, 0x14] := by decide

theorem table_right : (List.range 21).map (fun x => right x 11) =
    [0x00, 0x02, 0x02, 0x05, 0x04, 0x06, 0x06, 0x0b, 0x08, 0x0a, 0x0a, 0x0d, 0x0c, 0x0e, 0x0e,
      0x13, 0x10, 0x12, 0x12, 0x14, 0x14] := by decide

theorem table_parent : (List.range 21).map (fun x => parent x 11) =
    [0x01, 0x03, 0x01, 0x07, 0x05, 0x03, 0x05, 0x0f, 0x09, 0x0b, 0x09, 0x07, 0x0d, 0x0b, 0x0d,
      0x0f, 0x11, 0x13, 0x11, 0x0f, 0x13] := by decide

theorem table_sibling : (List.range 21).map (fun x => sibling x 11) =
    [0x02, 0x05, 0x00, 0x0b, 0x06, 0x01, 0x04, 0x13, 0x0a, 0x0d, 0x08, 0x03, 0x0e, 0x09, 0x0c,
      0x0f, 0x12, 0x14, 0x10, 0x07, 0x11] := by decide

theorem table_dirpath : (List.range 21).map (fun x => dirpath x 11) =
    [[0x01, 0x03, 0x07, 0x0f], [0x03, 0x07, 0x0f], [0x01, 0x03, 0x07, 0x0f], [0x07, 0x0f],
      [0x05, 0x03, 0x07, 0x0f], [0x03, 0x07, 0x0f], [0x05, 0x03, 0x07, 0x0f], [0x0f],
      [0x09, 0x0b, 0x07, 0x0f], [0x0b, 0x07, 0x0f], [0x09, 0x0b, 0x07, 0x0f], [0x07, 0x0f],
      [0x0d, 0x0b, 0x07, 0x0f], [0x0b, 0x07, 0x0f], [0x0d, 0x0b, 0x07, 0x0f], [],
      [0x11, 0x13, 0x0f], [0x13, 0x0f], [0x11, 0x13, 0x0f], [0x0f], [0x13, 0x0f]] := by decide

theorem table_copath : (List.range 21).map (fun x => copath x 11) =
    [[0x02, 0x05, 0x0b, 0x13], [0x05, 0x0b, 0x13], [0x00, 0x05, 0x0b, 0x13], [0x0b, 0x13],
      [0x06, 0x01, 0x0b, 0x13], [0x01, 0x0b, 0x13], [0x04, 0x01, 0x0b, 0x13], [0x13],
      [0x0a, 0x0d, 0x03, 0x13], [0x0d, 0x03, 0x13], [0x08, 0x0d, 0x03, 0x13], [0x03, 0x13],
      [0x0e, 0x09, 0x03, 0x13], [0x09, 0x03, 0x13], [0x0c, 0x09, 0x03, 0x13], [],
      [0x12, 0x14, 0x07], [0x14, 0x07], [0x10, 0x14, 0x07], [0x07], [0x11, 0x07]] := by decide

end MLS

namespace MLS

/-! ## A node is a child of its parent -/

theorem nodeAt_lt_anc (q r k j : Nat) :
    nodeAt (2 ^ (j + 1) * q + r) k < nodeAt q (k + j + 1) ↔ r < 2 ^ j := by
  have ha := two_pow_pos' k
  have hb := two_pow_pos' j
  have e1 : 2 ^ (k + j + 1 + 1) = 4 * (2 ^ k * 2 ^ j) := by
    rw [pow_succ, pow_succ, pow_add]; ring
  have e2 : 2 ^ (k + j + 1) = 2 * (2 ^ k * 2 ^ j) := by
    rw [pow_succ, pow_add]; ring
  have e3 : 2 ^ (k + 1) * (2 ^ (j + 1) * q + r) = 4 * (2 ^ k * 2 ^ j * q) + 2 * (2 ^ k * r) := by
    rw [pow_succ, pow_succ]; ring
  have e4 : 4 * (2 ^ k * 2 ^ j) * q = 4 * (2 ^ k * 2 ^ j * q) := by ring
  simp only [nodeAt, e1, e2, e3, e4]
  have hpos : 0 < 2 ^ k * 2 ^ j := Nat.mul_pos ha hb
  constructor
  · intro h
    by_contra hr
    have : 2 ^ k * 2 ^ j ≤ 2 ^ k * r := Nat.mul_le_mul_left _ (by omega)
    omega
  · intro h
    have : 2 ^ k * (r + 1) ≤ 2 ^ k * 2 ^ j := Nat.mul_le_mul_left _ (by omega)
    rw [Nat.mul_add, Nat.mul_one] at this
    omega

theorem anc_gt_iff (m k j : Nat) :
    nodeAt m k < nodeAt (m / 2 ^ (j + 1)) (k + (j + 1)) ↔ m % 2 ^ (j + 1) < 2 ^ j := by
  have h := nodeAt_lt_anc (m / 2 ^ (j + 1)) (m % 2 ^ (j + 1)) k j
  rw [Nat.div_add_mod] at h
  exact h

theorem low_bits_zero (m : Nat) : ∀ i, (∀ j, j < i → m % 2 ^ (j + 1) < 2 ^ j) → m % 2 ^ i = 0 := by
  intro i
  induction i with
  | zero => intro _; simp [Nat.mod_one]
  | succ i ih =>
    intro h
    have h0 := ih (fun j hj => h j (by omega))
    have h1 := h i (by omega)
    have h2 : m % 2 ^ (i + 1) % 2 ^ i = m % 2 ^ i :=
      Nat.mod_mod_of_dvd m (Dvd.intro _ (pow_succ 2 i).symm)
    rw [Nat.mod_eq_of_lt h1] at h2
    rw [h2, h0]

theorem div_of_mod_zero {m i : Nat} (h : m % 2 ^ i = 0) : m = 2 ^ i * (m / 2 ^ i) := by
  have := Nat.div_add_mod m (2 ^ i)
  omega

theorem child_cases {x n : Nat} (hx : x < nodeWidth n) (hr : x ≠ root n) :
    (x < parent x n ∧ left (parent x n) = x) ∨ (parent x n < x ∧ right (parent x n) n = x) := by
  obtain ⟨m, k, rfl⟩ := exists_nodeAt x
  obtain ⟨i, h1, h2, h3⟩ := parent_spec hx hr
  have hbits : ∀ j, j < i → m % 2 ^ (j + 1) < 2 ^ j := by
    intro j hj
    apply (anc_gt_iff m k j).mp
    have := h3 j hj
    omega
  have hlow := low_bits_zero m i hbits
  by_cases hc : m % 2 ^ (i + 1) < 2 ^ i
  · left
    have hlt : nodeAt m k < nodeAt (m / 2 ^ (i + 1)) (k + (i + 1)) := (anc_gt_iff m k i).mpr hc
    have hlow' := low_bits_zero m (i + 1) (by
      intro j hj
      rcases Nat.lt_or_ge j i with a | a
      · exact hbits j a
      · have : j = i := by omega
        subst this; exact hc)
    have hi : i = 0 := by
      by_contra hne
      obtain ⟨i', rfl⟩ : ∃ i', i = i' + 1 := ⟨i - 1, by omega⟩
      have ha := h3 i' (by omega)
      have e : m / 2 ^ (i' + 1) = 2 * (m / 2 ^ (i' + 1 + 1)) := by
        have := div_of_mod_zero hlow'
        have e2 : m / 2 ^ (i' + 1 + 1) = m / 2 ^ (i' + 1) / 2 := by
          rw [pow_succ, Nat.div_div_eq_div_mul]
        have e3 : m / 2 ^ (i' + 1) % 2 = 0 := by
          have := Nat.mod_pow_succ (x := m) (b := 2) (k := i' + 1)
          rw [hlow', hlow] at this
          have hp := two_pow_pos' (i' + 1)
          rcases Nat.mod_two_eq_zero_or_one (m / 2 ^ (i' + 1)) with z | o
          · exact z
          · rw [o] at this; omega
        omega
      have := nodeAt_left_lt (m / 2 ^ (i' + 1 + 1)) (k + (i' + 1))
      rw [← e] at this
      have e5 : k + (i' + 1) + 1 = k + (i' + 1 + 1) := by omega
      rw [e5] at this
      omega
    subst hi
    rw [h1]
    refine ⟨hlt, ?_⟩
    simp only [zero_add, pow_one] at hlow' ⊢
    rw [left_nodeAt_succ]
    congr 1
    omega
  · right
    have hne : nodeAt m k ≠ nodeAt (m / 2 ^ (i + 1)) (k + (i + 1)) := by
      intro e
      have := (nodeAt_inj e).2
      omega
    have hgt : nodeAt (m / 2 ^ (i + 1)) (k + (i + 1)) < nodeAt m k := by
      have := (anc_gt_iff m k i).not.mpr hc
      omega
    rw [h1]
    refine ⟨hgt, ?_⟩
    have hodd : m / 2 ^ i % 2 = 1 := by
      have := Nat.mod_pow_succ (x := m) (b := 2) (k := i)
      rw [hlow] at this
      rcases Nat.mod_two_eq_zero_or_one (m / 2 ^ i) with z | o
      · rw [z] at this; omega
      · exact o
    have hM : m / 2 ^ i = 2 * (m / 2 ^ (i + 1)) + 1 := by
      have e2 : m / 2 ^ (i + 1) = m / 2 ^ i / 2 := by
        rw [pow_succ, Nat.div_div_eq_div_mul]
      omega
    have hm : m = 2 ^ i * (2 * (m / 2 ^ (i + 1)) + 1) := by
      rw [← hM]; exact div_of_mod_zero hlow
    generalize m / 2 ^ (i + 1) = M at *
    have key : ∀ j, j ≤ i → m / 2 ^ j = 2 ^ (i - j) * (2 * M + 1) := by
      intro j hj
      have e : 2 ^ i = 2 ^ j * 2 ^ (i - j) := by rw [← pow_add]; congr 1; omega
      rw [hm, e, Nat.mul_assoc, Nat.mul_div_cancel_left _ (two_pow_pos' j)]
    have e0 : k + (i + 1) = (k + i) + 1 := by omega
    rw [e0] at h2 ⊢
    obtain ⟨i', g0, g1, g2, g3⟩ := right_spec h2
    have hi' : i' = i := by
      rcases Nat.lt_trichotomy i' i with a | a | a
      · exfalso
        have := h3 (i - i' - 1) (by omega)
        rw [key _ (by omega)] at this
        have e1 : i - (i - i' - 1 + 1) = i' := by omega
        have e2 : k + (i - i' - 1 + 1) = k + i - i' := by omega
        rw [e1, e2] at this
        omega
      · exact a
      · exfalso
        have := g3 i a
        rw [← hm] at this
        have e1 : k + i - i = k := by omega
        rw [e1] at this
        omega
    subst hi'
    rw [g1, ← hm]
    congr 1
    omega

theorem sibling_sibling {x n : Nat} (hx : x < nodeWidth n) (hr : x ≠ root n) :
    sibling (sibling x n) n = x := by
  have hp := parent_lt hx
  have hl := level_parent_pos hx hr
  have hs := sibling_lt hx hr
  have hsr : sibling x n ≠ root n := root_level_pos_ne hp (sibling_level_lt hx hr)
  have hps := parent_sibling hx hr
  rcases child_cases hx hr with ⟨a, b⟩ | ⟨a, b⟩
  · rcases sibling_cases hx hr with ⟨_, e⟩ | ⟨c, _⟩
    · rcases sibling_cases hs hsr with ⟨c', _⟩ | ⟨_, e'⟩
      · rw [hps, e] at c'
        have := lt_right hp hl
        omega
      · rw [e', hps, b]
    · omega
  · rcases sibling_cases hx hr with ⟨c, _⟩ | ⟨_, e⟩
    · omega
    · rcases sibling_cases hs hsr with ⟨_, e'⟩ | ⟨c', _⟩
      · rw [e', hps, b]
      · rw [hps, e] at c'
        have := left_lt hl
        omega

end MLS

namespace MLS
namespace RatchetTree

/-! ## The search for a private key, by what each slot holds -/

theorem heldKey_of_get {t u : RatchetTree} {i : Nat} (h : u.Nodes[i]? = t.Nodes[i]?) :
    u.heldKey i = t.heldKey i := by
  unfold heldKey; rw [h]

theorem holdsKey_iff (t : RatchetTree) (i : Nat) :
    t.holdsKey i ↔ ∃ priv, t.heldKey i = some (some priv) := by
  unfold holdsKey heldKey contentAt
  constructor
  · rintro ⟨nd, priv, h1, h2⟩
    cases hg : t.Nodes[i]? with
    | none => rw [hg] at h1; simp at h1
    | some slot =>
      rw [hg] at h1
      simp only [Option.map_some', Option.some.injEq] at h1
      simp only [h1, h2]
      exact ⟨priv, rfl⟩
  · rintro ⟨priv, h⟩
    cases hg : t.Nodes[i]? with
    | none => rw [hg] at h; simp at h
    | some slot =>
      rw [hg] at h
      simp only at h
      cases hn : slot.Node with
      | none => rw [hn] at h; simp at h
      | some nd =>
        rw [hn] at h
        exact ⟨nd, priv, by simp [hn], h⟩

theorem decryptScan_step (t : RatchetTree) (context : Bytes) (cts : List HPKECiphertext)
    (v : Nat) (rest : List Nat) (idx : Nat) :
    decryptScan t context cts (v :: rest) idx =
      match t.heldKey v with
      | none => .panic
      | some none => decryptScan t context cts rest (idx + 1)
      | some (some priv) =>
        match cts[idx]? with
        | none => .panic
        | some encryptedSecret =>
          match t.Suite.Decrypt priv context encryptedSecret with
          | .error _ => .done (some (.error (.decryptionFailure v)))
          | .ok pathSecret => .done (some (.ok pathSecret)) := by
  cases hg : t.Nodes[v]? with
  | none => simp only [decryptScan, heldKey, hg]
  | some slot =>
    cases hn : slot.Node with
    | none => simp only [decryptScan, heldKey, hg, hn]
    | some nd =>
      cases hp : nd.PrivateKey with
      | none => simp only [decryptScan, heldKey, hg, hn, hp]
      | some o =>
        cases o with
        | none => simp only [decryptScan, heldKey, hg, hn, hp]
        | some priv =>
          first
            | (simp only [decryptScan, heldKey, hg, hn, hp]; done)
            | (simp only [decryptScan, heldKey, hg, hn, hp]; rfl)

theorem decryptScan_none (t : RatchetTree) (context : Bytes) (cts : List HPKECiphertext) :
    ∀ (res : List Nat) (idx : Nat), (∀ r ∈ res, t.heldKey r = some none) →
    decryptScan t context cts res idx = .done none := by
  intro res
  induction res with
  | nil => intro idx _; rfl
  | cons v rest ih =>
    intro idx h
    rw [decryptScan_step, h v (List.mem_cons_self _ _)]
    exact ih (idx + 1) (fun r hr => h r (List.mem_cons_of_mem _ hr))

theorem decryptScan_congr {t u : RatchetTree} (hs : u.Suite = t.Suite) (context : Bytes)
    (cts : List HPKECiphertext) :
    ∀ (res : List Nat) (idx : Nat), (∀ r ∈ res, u.heldKey r = t.heldKey r) →
    decryptScan u context cts res idx = decryptScan t context cts res idx := by
  intro res
  induction res with
  | nil => intro idx _; rfl
  | cons v rest ih =>
    intro idx h
    rw [decryptScan_step, decryptScan_step, h v (List.mem_cons_self _ _), hs,
      ih (idx + 1) (fun r hr => h r (List.mem_cons_of_mem _ hr))]

/-- A search that finds nothing has met no private key; a search that returns a secret
has met one. -/
theorem decryptScan_found (t : RatchetTree) (context : Bytes) (cts : List HPKECiphertext) :
    ∀ (res : List Nat) (idx : Nat),
    (decryptScan t context cts res idx = .done none → ∀ r ∈ res, t.heldKey r = some none) ∧
    (∀ x, decryptScan t context cts res idx = .done (some x) →
      ∃ r ∈ res, ∃ priv, t.heldKey r = some (some priv)) := by
  intro res
  induction res with
  | nil =>
    intro idx
    exact ⟨fun _ r hr => by simp at hr, fun x h => by simp [decryptScan] at h⟩
  | cons v rest ih =>
    intro idx
    rw [decryptScan_step]
    cases hk : t.heldKey v with
    | none => exact ⟨fun h => by simp at h, fun x h => by simp at h⟩
    | some o =>
      cases o with
      | none =>
        simp only
        obtain ⟨a, b⟩ := ih (idx + 1)
        constructor
        · intro h r hr
          rcases List.mem_cons.mp hr with e | m
          · rw [e]; exact hk
          · exact a h r m
        · intro x h
          obtain ⟨r, hr, priv, hp⟩ := b x h
          exact ⟨r, List.mem_cons_of_mem _ hr, priv, hp⟩
      | some priv =>
        simp only
        constructor
        · intro h
          cases hc : cts[idx]? with
          | none => rw [hc] at h; simp at h
          | some ct =>
            rw [hc] at h
            simp only at h
            cases hd : t.Suite.Decrypt priv context ct with
            | error e => rw [hd] at h; simp at h
            | ok s => rw [hd] at h; simp at h
        · intro x _
          exact ⟨v, List.mem_cons_self _ _, priv, hk⟩

/-! ## The merge of Decap on any tree -/

theorem heldKey_MergePublic {s s' : OptionalNode} {pub : HPKEPublicKey}
    (h : s.MergePublic pub = some s') :
    (match s'.Node with | none => some none | some nd => nd.PrivateKey) =
      (match s.Node with | none => some none | some nd => nd.PrivateKey) ∧
    s'.Hash = s.Hash ∧
    ∃ nd p, s'.Node = some nd ∧ nd.Leaf = none ∧ nd.Parent = some p ∧ p.PublicKey = pub := by
  obtain ⟨node, hash⟩ := s
  cases node with
  | none =>
    simp only [OptionalNode.MergePublic, Option.some.injEq] at h
    subst h
    exact ⟨rfl, rfl, _, _, rfl, rfl, rfl, rfl⟩
  | some nd =>
    obtain ⟨leaf, parent, nh⟩ := nd
    cases leaf with
    | some kp => simp [OptionalNode.MergePublic] at h
    | none =>
      cases parent with
      | none => simp [OptionalNode.MergePublic] at h
      | some p =>
        simp only [OptionalNode.MergePublic, Option.some.injEq] at h
        subst h
        exact ⟨rfl, rfl, _, _, rfl, rfl, rfl, rfl⟩

theorem MergePublic_some {s : OptionalNode} (pub : HPKEPublicKey)
    (h : ∀ nd, s.Node = some nd → nd.Leaf = none ∧ ∃ p, nd.Parent = some p) :
    ∃ s', s.MergePublic pub = some s' := by
  obtain ⟨node, hash⟩ := s
  cases node with
  | none => exact ⟨_, rfl⟩
  | some nd =>
    obtain ⟨hl, p, hp⟩ := h nd rfl
    obtain ⟨leaf, parent, nh⟩ := nd
    simp only at hl hp
    subst hl hp
    exact ⟨_, rfl⟩

/-- The merge returns on a tree whose occupied slots of the direct path hold parent
payloads; it keeps what every slot holds of private keys, and the stored hashes. -/
theorem mergeLoop_total : ∀ (dp : List Nat) (nodes : List DirectPathNode) (t : RatchetTree),
    nodes.length = dp.length →
    (∀ v ∈ dp, v < t.Nodes.length ∧ ∀ nd, t.contentAt v = some (some nd) →
      nd.Leaf = none ∧ ∃ p, nd.Parent = some p) →
    ∃ t1, mergeLoop dp nodes t = .done t1 ∧ t1.Suite = t.Suite ∧
      t1.Nodes.length = t.Nodes.length ∧ (∀ i, i ∉ dp → t1.Nodes[i]? = t.Nodes[i]?) ∧
      (∀ i, t1.heldKey i = t.heldKey i) ∧ ∀ i, t1.hashAt i = t.hashAt i := by
  intro dp
  induction dp with
  | nil =>
    intro nodes t _ _
    exact ⟨t, rfl, rfl, rfl, fun _ _ => rfl, fun _ => rfl, fun _ => rfl⟩
  | cons v vs ih =>
    intro nodes t hlen h
    cases nodes with
    | nil => simp at hlen
    | cons pn pns =>
      obtain ⟨hv, hshape⟩ := h v (List.mem_cons_self _ _)
      have hslot : t.Nodes[v]? = some t.Nodes[v] := by simp [hv]
      obtain ⟨s', hm⟩ := @MergePublic_some t.Nodes[v] pn.PublicKey (by
        intro nd hnd
        exact hshape nd (by rw [contentAt_of_get hslot, hnd]))
      obtain ⟨k1, k2, nd', p', k3, k4, k5, _⟩ := heldKey_MergePublic hm
      obtain ⟨t1, a, b, c, d, e, g⟩ := ih pns (t.setSlot v s') (by simpa using hlen) (by
        intro w hw
        obtain ⟨hw1, hw2⟩ := h w (List.mem_cons_of_mem _ hw)
        refine ⟨by simpa using hw1, ?_⟩
        intro nd hnd
        by_cases e : v = w
        · subst e
          rw [contentAt_of_get (setSlot_get_self s' hv), k3] at hnd
          simp only [Option.some.injEq] at hnd
          subst hnd
          exact ⟨k4, p', k5⟩
        · apply hw2 nd
          rw [← hnd]
          exact contentAt_eq_of_get (setSlot_get_ne s' e).symm)
      refine ⟨t1, by simp only [mergeLoop, hslot, hm]; exact a, b, by rw [c]; simp, ?_, ?_, ?_⟩
      · intro i hi
        simp only [List.mem_cons, not_or] at hi
        rw [d i hi.2, setSlot_get_ne _ (Ne.symm hi.1)]
      · intro i
        rw [e i]
        unfold heldKey
        by_cases e' : v = i
        · subst e'
          rw [setSlot_get_self s' hv, hslot]
          exact k1
        · rw [setSlot_get_ne s' e']
      · intro i
        rw [g i]
        exact hashAt_setSlot_same hslot k2 i

end RatchetTree
end MLS

namespace MLS
namespace RatchetTree

/-! ## The loop of decryptPathSecret -/

theorem mem_take_of_getElem? {α : Type} : ∀ (l : List α) (j n : Nat) (a : α),
    l[j]? = some a → j < n → a ∈ l.take n := by
  intro l
  induction l with
  | nil => intro j n a h; simp at h
  | cons x xs ih =>
    intro j n a h hj
    obtain ⟨n', rfl⟩ : ∃ n', n = n' + 1 := ⟨n - 1, by omega⟩
    cases j with
    | zero =>
      simp only [List.getElem?_cons_zero, Option.some.injEq] at h
      simp [h]
    | succ j =>
      simp only [List.getElem?_cons_succ] at h
      simp only [List.take_succ_cons, List.mem_cons]
      exact Or.inr (ih j n' a h (by omega))

theorem decryptLoop_malformed (t : RatchetTree) (context : Bytes) :
    ∀ (i : Nat) (cp : List Nat) (nodes : List DirectPathNode) (c : Nat) (pn : DirectPathNode)
      (res : List Nat),
    cp[i]? = some c → nodes[i]? = some pn → t.resolve c = .done res →
    pn.EncryptedPathSecrets.length ≠ res.length →
    (∀ c' ∈ cp.take i, ∃ res', t.resolve c' = .done res' ∧ ∀ r ∈ res', t.heldKey r = some none) →
    decryptLoop t context cp nodes = .done (.error .malformedRatchetNode) := by
  intro i
  induction i with
  | zero =>
    intro cp nodes c pn res hc hn hr hlen _
    cases cp with
    | nil => simp at hc
    | cons c0 cp' =>
      cases nodes with
      | nil => simp at hn
      | cons pn0 nodes' =>
        simp only [List.getElem?_cons_zero, Option.some.injEq] at hc hn
        subst hc hn
        simp [decryptLoop, hr, hlen]
  | succ i ih =>
    intro cp nodes c pn res hc hn hr hlen hpre
    cases cp with
    | nil => simp at hc
    | cons c0 cp' =>
      cases nodes with
      | nil => simp at hn
      | cons pn0 nodes' =>
        simp only [List.getElem?_cons_succ] at hc hn
        simp only [List.take_succ_cons, List.mem_cons, forall_eq_or_imp] at hpre
        obtain ⟨⟨res0, hr0, hk0⟩, hpre'⟩ := hpre
        simp only [decryptLoop, hr0]
        by_cases hl : pn0.EncryptedPathSecrets.length = res0.length
        · simp only [hl, ne_eq, not_true_eq_false, if_false]
          rw [decryptScan_none t context _ res0 0 hk0]
          exact ih cp' nodes' c pn res hc hn hr hlen hpre'
        · simp [hl]

theorem decryptLoop_noKey (t : RatchetTree) (context : Bytes) :
    ∀ (cp : List Nat) (nodes : List DirectPathNode),
    List.Forall₂ (fun c pn => ∃ res, t.resolve c = .done res ∧
      pn.EncryptedPathSecrets.length = res.length ∧ ∀ r ∈ res, t.heldKey r = some none)
      cp nodes →
    decryptLoop t context cp nodes = .done (.error .noPrivateKey) := by
  intro cp nodes h
  induction h with
  | nil => rfl
  | @cons c pn cp nodes hd _ ih =>
    obtain ⟨res, hr, hl, hk⟩ := hd
    simp only [decryptLoop, hr, hl, ne_eq, not_true_eq_false, if_false]
    rw [decryptScan_none t context _ res 0 hk]
    exact ih

theorem decryptLoop_congr {t u : RatchetTree} (hs : u.Suite = t.Suite) (hsz : u.size = t.size)
    (context : Bytes) (hk : ∀ r, u.heldKey r = t.heldKey r) :
    ∀ (cp : List Nat) (nodes nodes' : List DirectPathNode),
    nodes'.map (fun pn => pn.EncryptedPathSecrets) = nodes.map (fun pn => pn.EncryptedPathSecrets) →
    (∀ c ∈ cp, u.resolve c = t.resolve c) →
    decryptLoop u context cp nodes' = decryptLoop t context cp nodes := by
  intro cp
  induction cp with
  | nil => intro nodes nodes' _ _; rfl
  | cons c cp ih =>
    intro nodes nodes' hm hr
    cases nodes with
    | nil =>
      cases nodes' with
      | nil => rfl
      | cons _ _ => simp at hm
    | cons pn rest =>
      cases nodes' with
      | nil => simp at hm
      | cons pn' rest' =>
        simp only [List.map_cons, List.cons.injEq] at hm
        simp only [decryptLoop, hr c (List.mem_cons_self _ _), hm.1, hsz]
        cases t.resolve c with
        | panic => rfl
        | hang => rfl
        | done res =>
          simp only
          rw [decryptScan_congr hs context _ res 0 (fun r _ => hk r),
            ih rest rest' hm.2 (fun c' hc' => hr c' (List.mem_cons_of_mem _ hc'))]

/-- A search that returns an overlap stopped at the first co-path node whose
resolution holds a private key. -/
theorem decryptLoop_first (t : RatchetTree) (context : Bytes) :
    ∀ (cp : List Nat) (nodes : List DirectPathNode) (o : Nat) (s : Bytes),
    decryptLoop t context cp nodes = .done (.ok (o, s)) →
    ∃ j c, cp[j]? = some c ∧ o = parent c t.size ∧
      ∀ c' ∈ cp.take j, ∀ res, t.resolve c' = .done res → ∀ r ∈ res, t.heldKey r = some none := by
  intro cp
  induction cp with
  | nil => intro nodes o s h; simp [decryptLoop] at h
  | cons c cp ih =>
    intro nodes o s h
    cases nodes with
    | nil => simp [decryptLoop] at h
    | cons pn rest =>
      simp only [decryptLoop] at h
      cases hr : t.resolve c with
      | panic => rw [hr] at h; simp at h
      | hang => rw [hr] at h; simp at h
      | done res =>
        rw [hr] at h
        simp only at h
        split at h
        · simp at h
        · cases hsc : decryptScan t context pn.EncryptedPathSecrets res 0 with
          | panic => rw [hsc] at h; simp at h
          | hang => rw [hsc] at h; simp at h
          | done x =>
            rw [hsc] at h
            cases x with
            | none =>
              simp only at h
              obtain ⟨j, c', a, b, d⟩ := ih rest o s h
              refine ⟨j + 1, c', by simpa using a, b, ?_⟩
              intro c'' hc'' res' hr' r hrm
              simp only [List.take_succ_cons, List.mem_cons] at hc''
              rcases hc'' with e | m
              · subst e
                rw [hr] at hr'
                simp only [Run.done.injEq] at hr'
                subst hr'
                exact (decryptScan_found t context _ res 0).1 hsc r hrm
              · exact d c'' m res' hr' r hrm
            | some y =>
              cases y with
              | error e => simp at h
              | ok ps =>
                simp only [Run.done.injEq, Except.ok.injEq, Prod.mk.injEq] at h
                exact ⟨0, c, by simp, h.1.symm, fun c' hc' => by simp at hc'⟩

/-- The merge leaves the resolutions of the co-path as they were. -/
theorem resolve_off_path {t u : RatchetTree} {L : Nat} (hL : L < nodeWidth t.size)
    (hlen : u.Nodes.length = t.Nodes.length)
    (hoff : ∀ i, i ∉ dirpath L t.size → u.Nodes[i]? = t.Nodes[i]?) :
    ∀ c ∈ copath L t.size, u.resolve c = t.resolve c := by
  intro c hc
  apply resolve_congr (size_eq_of_length hlen)
  intro d hd
  exact publicAt_eq_of_get (hoff d (copath_desc_off_path hL hc hd).2)

end RatchetTree
end MLS

namespace MLS
namespace RatchetTree

/-! ## Decap up to the search for a private key -/

/-- The merge of `Decap` on a tree whose occupied direct-path slots hold parent
payloads. -/
theorem Decap_merge {t : RatchetTree} {a : Nat} (ha : a < t.size) (path : DirectPath)
    (hlen : path.Nodes.length = (dirpath (toNodeIndex a) t.size).length)
    (hshape : ∀ v ∈ dirpath (toNodeIndex a) t.size, ∀ nd, t.contentAt v = some (some nd) →
      nd.Leaf = none ∧ ∃ p, nd.Parent = some p) :
    ∃ t1, mergeLoop (dirpath (toNodeIndex a) t.size) path.Nodes t = .done t1 ∧
      t1.Suite = t.Suite ∧ t1.Nodes.length = t.Nodes.length ∧
      (∀ i, i ∉ dirpath (toNodeIndex a) t.size → t1.Nodes[i]? = t.Nodes[i]?) ∧
      (∀ i, t1.heldKey i = t.heldKey i) ∧ (∀ i, t1.hashAt i = t.hashAt i) ∧
      ∀ c ∈ copath (toNodeIndex a) t.size, t1.resolve c = t.resolve c := by
  have hL := toNodeIndex_lt ha
  obtain ⟨t1, h1, h2, h3, h4, h5, h6⟩ := mergeLoop_total _ path.Nodes t hlen (by
    intro v hv
    exact ⟨lt_length_of_lt_width (dirpath_mem_lt _ hL v hv), hshape v hv⟩)
  exact ⟨t1, h1, h2, h3, h4, h5, h6, resolve_off_path hL h3 h4⟩

/-- An error of the search is the error of `Decap`, and the tree is left as merged. -/
theorem Decap_search_error {t t1 : RatchetTree} (order : SecretMap → SecretMap) {a : Nat}
    (context : Bytes) {path : DirectPath} {e : Err}
    (hlen : path.Nodes.length = (dirpath (toNodeIndex a) t.size).length)
    (ha : a < t.size)
    (hm : mergeLoop (dirpath (toNodeIndex a) t.size) path.Nodes t = .done t1)
    (hl : t1.Nodes.length = t.Nodes.length)
    (hd : decryptLoop t1 context (copath (toNodeIndex a) t.size) path.Nodes = .done (.error e)) :
    t.Decap order a context path = .done (t1, .error e) := by
  have hsz : t1.size = t.size := size_eq_of_length hl
  have hcl : path.Nodes.length = (copath (toNodeIndex a) t.size).length := by
    rw [hlen, copath_length _ (toNodeIndex_lt ha)]
  have hdps : t1.decryptPathSecret a context path = .done (.error e) := by
    dsimp only [decryptPathSecret]
    rw [hsz]
    simp only [hcl, ne_eq, not_true_eq_false, if_false, hd]
  dsimp only [Decap]
  simp only [hlen, ne_eq, not_true_eq_false, if_false, hm, hdps]

end RatchetTree
end MLS

namespace MLS
namespace RatchetTree

/-! ## What a failing Encap leaves -/

theorem encapLoop_frame (L : Nat) (context : Bytes) (secrets : SecretMap) :
    ∀ (cp : List Nat) (t : RatchetTree) (dp : List DirectPathNode) (S1 : RatchetTree)
      (r : Except Err (List DirectPathNode)),
    encapLoop L context secrets cp t dp = .done (S1, r) →
    S1.Suite = t.Suite ∧ S1.Nodes.length = t.Nodes.length ∧
      ∀ i, (∀ v ∈ cp, parent v t.size ≠ i) → S1.Nodes[i]? = t.Nodes[i]? := by
  intro cp
  induction cp with
  | nil =>
    intro t dp S1 r h
    simp only [encapLoop, Run.done.injEq, Prod.mk.injEq] at h
    rw [← h.1]
    exact ⟨rfl, rfl, fun _ _ => rfl⟩
  | cons v vs ih =>
    intro t dp S1 r h
    simp only [encapLoop] at h
    split at h
    · obtain ⟨a, b, c⟩ := ih t dp S1 r h
      exact ⟨a, b, fun i hi => c i (fun w hw => hi w (List.mem_cons_of_mem _ hw))⟩
    · split at h
      · simp only [Run.done.injEq, Prod.mk.injEq] at h
        rw [← h.1]
        exact ⟨rfl, rfl, fun _ _ => rfl⟩
      · rename_i n hn
        split at h
        swap
        · simp at h
        split at h
        · simp at h
        · split at h
          · split at h
            · obtain ⟨a, b, c⟩ := ih _ _ S1 r h
              refine ⟨a, by rw [b]; simp, ?_⟩
              intro i hi
              rw [c i (fun w hw => by simpa using hi w (List.mem_cons_of_mem _ hw))]
              exact setSlot_get_ne _ (hi v (List.mem_cons_self _ _))
            · simp only [Run.done.injEq, Prod.mk.injEq] at h
              rw [← h.1]
              refine ⟨rfl, by simp, ?_⟩
              intro i hi
              exact setSlot_get_ne _ (hi v (List.mem_cons_self _ _))
            · simp at h
            · simp at h
          · simp at h
          · simp at h

end RatchetTree
end MLS

namespace MLS

/-! ## Replacing one public key of a path -/

theorem setPublicKeyAt_length : ∀ (nodes : List DirectPathNode) (i : Nat) (k : HPKEPublicKey),
    (setPublicKeyAt nodes i k).length = nodes.length := by
  intro nodes
  induction nodes with
  | nil => intro i k; rfl
  | cons pn rest ih =>
    intro i k
    cases i with
    | zero => rfl
    | succ i => simp [setPublicKeyAt, ih]

theorem setPublicKeyAt_secrets : ∀ (nodes : List DirectPathNode) (i : Nat) (k : HPKEPublicKey),
    (setPublicKeyAt nodes i k).map (fun pn => pn.EncryptedPathSecrets) =
      nodes.map (fun pn => pn.EncryptedPathSecrets) := by
  intro nodes
  induction nodes with
  | nil => intro i k; rfl
  | cons pn rest ih =>
    intro i k
    cases i with
    | zero => rfl
    | succ i => simp [setPublicKeyAt, ih]

theorem setPublicKeyAt_get_self : ∀ (nodes : List DirectPathNode) (i : Nat) (k : HPKEPublicKey)
    (pn : DirectPathNode), nodes[i]? = some pn →
    (setPublicKeyAt nodes i k)[i]? = some { pn with PublicKey := k } := by
  intro nodes
  induction nodes with
  | nil => intro i k pn h; simp at h
  | cons pn0 rest ih =>
    intro i k pn h
    cases i with
    | zero =>
      simp only [List.getElem?_cons_zero, Option.some.injEq] at h
      subst h
      simp [setPublicKeyAt]
    | succ i =>
      simp only [List.getElem?_cons_succ] at h
      simp [setPublicKeyAt, ih i k pn h]

theorem setPublicKeyAt_get_ne : ∀ (nodes : List DirectPathNode) (i j : Nat) (k : HPKEPublicKey),
    j ≠ i → (setPublicKeyAt nodes i k)[j]? = nodes[j]? := by
  intro nodes
  induction nodes with
  | nil => intro i j k _; rfl
  | cons pn0 rest ih =>
    intro i j k h
    cases i with
    | zero =>
      cases j with
      | zero => exact absurd rfl h
      | succ j => simp [setPublicKeyAt]
    | succ i =>
      cases j with
      | zero => simp [setPublicKeyAt]
      | succ j =>
        simp only [setPublicKeyAt, List.getElem?_cons_succ]
        exact ih i j k (by omega)

/-! ## Positions on the direct path and the co-path -/

theorem copath_get_parent {n : Nat} : ∀ x, x < nodeWidth n → ∀ (j c : Nat),
    (copath x n)[j]? = some c → (dirpath x n)[j]? = some (parent c n) := by
  apply path_induction
  · intro _ j c h; rw [copath_root] at h; simp at h
  · intro x hx hr ih j c h
    rw [copath_cons hx hr] at h
    rw [dirpath_cons hx hr]
    cases j with
    | zero =>
      simp only [List.getElem?_cons_zero, Option.some.injEq] at h ⊢
      rw [← h, parent_sibling hx hr]
    | succ j =>
      simp only [List.getElem?_cons_succ] at h ⊢
      exact ih j c h

theorem mem_of_get? {α : Type} {l : List α} {i : Nat} {a : α} (h : l[i]? = some a) : a ∈ l := by
  obtain ⟨hi, e⟩ := List.getElem?_eq_some.mp h
  rw [← e]
  exact List.getElem_mem hi

theorem dirpath_above {n : Nat} : ∀ x, x < nodeWidth n → ∀ (j i o v : Nat),
    (dirpath x n)[j]? = some o → j ≤ i → (dirpath x n)[i]? = some v →
    v = o ∨ v ∈ dirpath o n := by
  apply path_induction
  · intro _ j i o v h; rw [dirpath_root] at h; simp at h
  · intro x hx hr ih j i o v hj hji hi
    rw [dirpath_cons hx hr] at hj hi
    cases j with
    | zero =>
      simp only [List.getElem?_cons_zero, Option.some.injEq] at hj
      subst hj
      cases i with
      | zero =>
        simp only [List.getElem?_cons_zero, Option.some.injEq] at hi
        exact Or.inl hi.symm
      | succ i =>
        simp only [List.getElem?_cons_succ] at hi
        exact Or.inr (mem_of_get? hi)
    | succ j =>
      obtain ⟨i', rfl⟩ : ∃ i', i = i' + 1 := ⟨i - 1, by omega⟩
      simp only [List.getElem?_cons_succ] at hi hj
      exact ih j i' o v hj (by omega) hi

namespace RatchetTree

/-! ## The merged public keys -/

theorem parentKeyAt_of_get {t u : RatchetTree} {i : Nat} (h : u.Nodes[i]? = t.Nodes[i]?) :
    u.parentKeyAt i = t.parentKeyAt i := by
  unfold parentKeyAt; rw [h]

theorem MergePublic_shape {s s' : OptionalNode} {pub : HPKEPublicKey}
    (h : s.MergePublic pub = some s') :
    ∀ nd, s.Node = some nd → nd.Leaf = none ∧ ∃ p, nd.Parent = some p := by
  intro nd hnd
  obtain ⟨node, hash⟩ := s
  simp only at hnd
  subst hnd
  obtain ⟨leaf, parent, nh⟩ := nd
  cases leaf with
  | some kp => simp [OptionalNode.MergePublic] at h
  | none =>
    cases parent with
    | none => simp [OptionalNode.MergePublic] at h
    | some p => exact ⟨rfl, p, rfl⟩

theorem mergeLoop_get : ∀ (dp : List Nat) (nodes : List DirectPathNode) (t t1 : RatchetTree),
    dp.Nodup → mergeLoop dp nodes t = .done t1 →
    ∀ (j v : Nat) (pn : DirectPathNode), dp[j]? = some v → nodes[j]? = some pn →
    ∃ slot slot', t.Nodes[v]? = some slot ∧ slot.MergePublic pn.PublicKey = some slot' ∧
      t1.Nodes[v]? = some slot' := by
  intro dp
  induction dp with
  | nil => intro nodes t t1 _ _ j v pn h; simp at h
  | cons v0 vs ih =>
    intro nodes t t1 hnd h j v pn hj hn
    cases nodes with
    | nil => simp at hn
    | cons pn0 pns =>
      simp only [List.nodup_cons] at hnd
      simp only [mergeLoop] at h
      split at h
      · simp at h
      · rename_i slot hs
        split at h
        · simp at h
        · rename_i slot' hm
          have hlt : v0 < t.Nodes.length := (List.getElem?_eq_some.mp hs).1
          cases j with
          | zero =>
            simp only [List.getElem?_cons_zero, Option.some.injEq] at hj hn
            subst hj hn
            refine ⟨slot, slot', hs, hm, ?_⟩
            rw [(mergeLoop_frame _ _ _ _ h).2.2 _ hnd.1]
            exact setSlot_get_self _ hlt
          | succ j =>
            simp only [List.getElem?_cons_succ] at hj hn
            obtain ⟨s1, s1', a, b, c⟩ := ih pns _ t1 hnd.2 h j v pn hj hn
            have hne : v0 ≠ v := fun e => hnd.1 (e ▸ mem_of_get? hj)
            rw [setSlot_get_ne _ hne] at a
            exact ⟨s1, s1', a, b, c⟩

theorem mergeLoop_parentKeyAt {dp : List Nat} {nodes : List DirectPathNode} {t t1 : RatchetTree}
    (hnd : dp.Nodup) (h : mergeLoop dp nodes t = .done t1) {j v : Nat} {pn : DirectPathNode}
    (hj : dp[j]? = some v) (hn : nodes[j]? = some pn) :
    t1.parentKeyAt v = some pn.PublicKey := by
  obtain ⟨slot, slot', _, b, c⟩ := mergeLoop_get dp nodes t t1 hnd h j v pn hj hn
  obtain ⟨_, _, nd, p, k3, k4, k5, k6⟩ := heldKey_MergePublic b
  unfold parentKeyAt
  rw [c]
  simp only [k3, k4, k5, k6]

/-! ## The secrets map does not depend on the nodes -/

theorem pathSecretsLoop_congr {t u : RatchetTree} (hs : u.Suite = t.Suite)
    (hl : u.Nodes.length = t.Nodes.length) :
    ∀ (f : Nat) (secrets : SecretMap) (c : Nat),
    pathSecretsLoop u f secrets c = pathSecretsLoop t f secrets c := by
  have hsz : u.size = t.size := size_eq_of_length hl
  intro f
  induction f with
  | zero => intro _ _; rfl
  | succ f ih =>
    intro secrets c
    simp only [pathSecretsLoop, rootIndex, pathStep, hsz, hs, ih]

theorem PathSecrets_congr {t u : RatchetTree} (hs : u.Suite = t.Suite)
    (hl : u.Nodes.length = t.Nodes.length) (start : Nat) (ps : Bytes) :
    u.PathSecrets start ps = t.PathSecrets start ps := by
  unfold PathSecrets
  rw [hl]
  exact pathSecretsLoop_congr hs hl _ _ _

theorem SecretMap_put_mem (m : SecretMap) (k : Nat) (v : Bytes) :
    (∃ y ∈ SecretMap.put m k v, y.1 = k) ∧ ∀ x ∈ m, ∃ y ∈ SecretMap.put m k v, y.1 = x.1 := by
  induction m with
  | nil => exact ⟨⟨(k, v), by simp [SecretMap.put], rfl⟩, fun x hx => by simp at hx⟩
  | cons hd tl ih =>
    obtain ⟨k', v'⟩ := hd
    simp only [SecretMap.put]
    split
    · rename_i he
      refine ⟨⟨(k, v), List.mem_cons_self _ _, rfl⟩, ?_⟩
      intro x hx
      rcases List.mem_cons.mp hx with e | m'
      · exact ⟨(k, v), List.mem_cons_self _ _, by rw [e]; exact he.symm⟩
      · exact ⟨x, List.mem_cons_of_mem _ m', rfl⟩
    · obtain ⟨⟨y, hy, e⟩, b⟩ := ih
      refine ⟨⟨y, List.mem_cons_of_mem _ hy, e⟩, ?_⟩
      intro x hx
      rcases List.mem_cons.mp hx with e' | m'
      · exact ⟨(k', v'), List.mem_cons_self _ _, by rw [e']⟩
      · obtain ⟨y', hy', e''⟩ := b x m'
        exact ⟨y', List.mem_cons_of_mem _ hy', e''⟩

theorem pathSecretsLoop_has_keys (t : RatchetTree) : ∀ c, c < nodeWidth t.size →
    ∀ (f : Nat) (secrets m : SecretMap), pathSecretsLoop t f secrets c = .done m →
    (∀ x ∈ secrets, ∃ y ∈ m, y.1 = x.1) ∧ ∀ d ∈ dirpath c t.size, ∃ y ∈ m, y.1 = d := by
  apply path_induction
  · intro _ f secrets m h
    cases f with
    | zero => simp [pathSecretsLoop] at h
    | succ f =>
      simp only [pathSecretsLoop, rootIndex, if_true, Run.done.injEq] at h
      subst h
      rw [dirpath_root]
      exact ⟨fun x hx => ⟨x, hx, rfl⟩, fun d hd => by simp at hd⟩
  · intro c hc hr ih f secrets m h
    cases f with
    | zero => simp [pathSecretsLoop] at h
    | succ f =>
      simp only [pathSecretsLoop, rootIndex, hr, if_false] at h
      obtain ⟨a, b⟩ := ih f _ m h
      obtain ⟨⟨y, hy, e⟩, p2⟩ := SecretMap_put_mem secrets (parent c t.size)
        (t.pathStep (secrets.get c))
      constructor
      · intro x hx
        obtain ⟨y', hy', e'⟩ := p2 x hx
        obtain ⟨z, hz, e''⟩ := a y' hy'
        exact ⟨z, hz, by rw [e'', e']⟩
      · intro d hd
        rw [dirpath_cons hc hr] at hd
        rcases List.mem_cons.mp hd with e' | m'
        · obtain ⟨z, hz, e''⟩ := a y hy
          exact ⟨z, hz, by rw [e'', e, e']⟩
        · exact b d m'

theorem PathSecrets_has_keys {t : RatchetTree} {start : Nat} {ps : Bytes} {m : SecretMap}
    (hs : start < nodeWidth t.size) (h : t.PathSecrets start ps = .done m) :
    ∀ d, (d = start ∨ d ∈ dirpath start t.size) → ∃ y ∈ m, y.1 = d := by
  obtain ⟨a, b⟩ := pathSecretsLoop_has_keys t start hs _ _ m h
  intro d hd
  rcases hd with e | hm
  · obtain ⟨y, hy, e'⟩ := a (start, ps) (by simp [SecretMap.put])
    exact ⟨y, hy, by rw [e', e]⟩
  · exact b d hm

end RatchetTree
end MLS

namespace MLS
namespace RatchetTree

/-! ## The check of Implant, entry by entry -/

theorem Equals_iff (a b : HPKEPublicKey) : a.Equals b = true ↔ a = b := by
  obtain ⟨x⟩ := a
  obtain ⟨y⟩ := b
  simp [HPKEPublicKey.Equals]

theorem parentKeyAt_some {t : RatchetTree} {i : Nat} {pk : HPKEPublicKey}
    (h : t.parentKeyAt i = some pk) :
    ∃ slot nd p, t.Nodes[i]? = some slot ∧ slot.Node = some nd ∧ nd.Leaf = none ∧
      nd.Parent = some p ∧ p.PublicKey = pk := by
  unfold parentKeyAt at h
  cases hg : t.Nodes[i]? with
  | none => rw [hg] at h; simp at h
  | some slot =>
    rw [hg] at h
    simp only at h
    cases hn : slot.Node with
    | none => rw [hn] at h; simp at h
    | some nd =>
      rw [hn] at h
      simp only at h
      cases hl : nd.Leaf with
      | some kp => rw [hl] at h; simp at h
      | none =>
        cases hp : nd.Parent with
        | none => rw [hl, hp] at h; simp at h
        | some p =>
          rw [hl, hp] at h
          simp only [Option.some.injEq] at h
          exact ⟨slot, nd, p, rfl, hn, hl, hp, h⟩

theorem implantLoop_cons_parent {t : RatchetTree} {curr : Nat} {secret : Bytes}
    (rest : List (Nat × Bytes)) {priv : HPKEPrivateKey} {slot : OptionalNode} {nd : Node}
    {p : ParentNode} (hd : t.Suite.Derive secret = .ok priv) (hs : t.Nodes[curr]? = some slot)
    (hn : slot.Node = some nd) (hl : nd.Leaf = none) (hp : nd.Parent = some p) :
    implantLoop ((curr, secret) :: rest) t =
      if p.PublicKey.Equals priv.PublicKey then
        implantLoop rest
          (t.setSlot curr { slot with Node := some { nd with Parent := some (p.SetPrivateKey priv) } })
      else .done (t, some .incorrectSecret) := by
  simp only [implantLoop, newParentNode_of_Derive hd, hs, hn, Node.Type, hl, hp]

theorem parentKeyAt_implanted {t : RatchetTree} {curr : Nat} {priv : HPKEPrivateKey}
    {slot : OptionalNode} {nd : Node} {p : ParentNode} (hs : t.Nodes[curr]? = some slot)
    (hn : slot.Node = some nd) (hl : nd.Leaf = none) (hp : nd.Parent = some p)
    (he : p.PublicKey = priv.PublicKey) (i : Nat) :
    (t.setSlot curr { slot with Node := some { nd with Parent := some (p.SetPrivateKey priv) } }
      ).parentKeyAt i = t.parentKeyAt i := by
  unfold parentKeyAt
  by_cases e : curr = i
  · subst e
    rw [setSlot_get_self _ (List.getElem?_eq_some.mp hs).1, hs]
    simp only [hn, hl, hp, ParentNode.SetPrivateKey, ParentNode.SetPublicKey, he]
  · rw [setSlot_get_ne _ e]

theorem implantLoop_step_pass {t : RatchetTree} {e : Nat × Bytes} (rest : List (Nat × Bytes))
    (h : passes t e) :
    ∃ t2, implantLoop (e :: rest) t = implantLoop rest t2 ∧ t2.Suite = t.Suite ∧
      t2.Nodes.length = t.Nodes.length ∧ ∀ i, t2.parentKeyAt i = t.parentKeyAt i := by
  obtain ⟨curr, secret⟩ := e
  obtain ⟨priv, hd, hk⟩ := h
  obtain ⟨slot, nd, p, hs, hn, hl, hp, he⟩ := parentKeyAt_some hk
  refine ⟨t.setSlot curr
    { slot with Node := some { nd with Parent := some (p.SetPrivateKey priv) } }, ?_, rfl,
    by simp, parentKeyAt_implanted hs hn hl hp he⟩
  rw [implantLoop_cons_parent rest hd hs hn hl hp, (Equals_iff _ _).mpr he]
  simp

theorem implantLoop_inv {t t' : RatchetTree} {e : Nat × Bytes} {rest : List (Nat × Bytes)}
    (h : implantLoop (e :: rest) t = .done (t', none)) :
    passes t e ∧ ∃ t2, t2.Suite = t.Suite ∧ (∀ i, t2.parentKeyAt i = t.parentKeyAt i) ∧
      implantLoop rest t2 = .done (t', none) := by
  obtain ⟨curr, secret⟩ := e
  cases hd : t.Suite.Derive secret with
  | error c =>
    simp [implantLoop, newParentNode, ParentNode.SetSecret, hd] at h
  | ok priv =>
    cases hs : t.Nodes[curr]? with
    | none => simp [implantLoop, newParentNode_of_Derive hd, hs] at h
    | some slot =>
      cases hn : slot.Node with
      | none => simp [implantLoop, newParentNode_of_Derive hd, hs, hn] at h
      | some nd =>
        cases hl : nd.Leaf with
        | some kp => simp [implantLoop, newParentNode_of_Derive hd, hs, hn, Node.Type, hl] at h
        | none =>
          cases hp : nd.Parent with
          | none => simp [implantLoop, newParentNode_of_Derive hd, hs, hn, Node.Type, hl, hp] at h
          | some p =>
            rw [implantLoop_cons_parent rest hd hs hn hl hp] at h
            by_cases he : p.PublicKey.Equals priv.PublicKey = true
            · simp only [he, if_true] at h
              have he' := (Equals_iff _ _).mp he
              have hk : t.parentKeyAt curr = some priv.PublicKey := by
                unfold parentKeyAt
                simp only [hs, hn, hl, hp, he']
              exact ⟨⟨priv, hd, hk⟩, t.setSlot curr
                { slot with Node := some { nd with Parent := some (p.SetPrivateKey priv) } },
                rfl, parentKeyAt_implanted hs hn hl hp he', h⟩
            · simp [he] at h

theorem passes_congr {t u : RatchetTree} (hs : u.Suite = t.Suite)
    (hk : ∀ i, u.parentKeyAt i = t.parentKeyAt i) (e : Nat × Bytes) : passes u e ↔ passes t e := by
  unfold passes
  rw [hs, hk]

theorem implantLoop_passes : ∀ (es : List (Nat × Bytes)) (t t' : RatchetTree),
    implantLoop es t = .done (t', none) → ∀ e ∈ es, passes t e := by
  intro es
  induction es with
  | nil => intro t t' _ e he; simp at he
  | cons e0 rest ih =>
    intro t t' h e he
    obtain ⟨hp, t2, a, b, c⟩ := implantLoop_inv h
    rcases List.mem_cons.mp he with x | m
    · rw [x]; exact hp
    · exact (passes_congr a b e).mp (ih t2 t' c e m)

/-- The loop of `Implant` stops with "Incorrect secret" at the first entry whose slot
holds a parent with another public key than the derived one. -/
theorem implantLoop_mismatch : ∀ (pre : List (Nat × Bytes)) (t : RatchetTree),
    (∀ e ∈ pre, passes t e) →
    ∀ (v : Nat) (sv : Bytes) (post : List (Nat × Bytes)) (priv : HPKEPrivateKey)
      (pk : HPKEPublicKey),
    t.Suite.Derive sv = .ok priv → t.parentKeyAt v = some pk → pk ≠ priv.PublicKey →
    ∃ t', implantLoop (pre ++ (v, sv) :: post) t = .done (t', some .incorrectSecret) := by
  intro pre
  induction pre with
  | nil =>
    intro t _ v sv post priv pk hd hk hne
    obtain ⟨slot, nd, p, hs, hn, hl, hp, he⟩ := parentKeyAt_some hk
    refine ⟨t, ?_⟩
    have hf : p.PublicKey.Equals priv.PublicKey = false := by
      cases hb : p.PublicKey.Equals priv.PublicKey with
      | false => rfl
      | true => exact absurd ((Equals_iff _ _).mp hb) (by rw [he]; exact hne)
    simp only [List.nil_append]
    rw [implantLoop_cons_parent post hd hs hn hl hp, hf]
    simp
  | cons e0 pre ih =>
    intro t hpass v sv post priv pk hd hk hne
    obtain ⟨t2, a, b, _, c⟩ := implantLoop_step_pass (pre ++ (v, sv) :: post)
      (hpass e0 (List.mem_cons_self _ _))
    obtain ⟨t', h⟩ := ih t2
      (fun e he => (passes_congr b c e).mpr (hpass e (List.mem_cons_of_mem _ he)))
      v sv post priv pk (by rw [b]; exact hd) (by rw [c]; exact hk) hne
    exact ⟨t', by rw [List.cons_append, a]; exact h⟩

/-! ## The stages of a Decap that succeeded -/

theorem Decap_stages {t t' : RatchetTree} {order : SecretMap → SecretMap} {a : Nat}
    {context : Bytes} {path : DirectPath} {rs : Bytes}
    (h : t.Decap order a context path = .done (t', .ok rs)) :
    path.Nodes.length = (dirpath (toNodeIndex a) t.size).length ∧
    ∃ t1 o s m t2, mergeLoop (dirpath (toNodeIndex a) t.size) path.Nodes t = .done t1 ∧
      decryptLoop t1 context (copath (toNodeIndex a) t1.size) path.Nodes = .done (.ok (o, s)) ∧
      t1.PathSecrets o s = .done m ∧ implantLoop (order m) t1 = .done (t2, none) := by
  dsimp only [Decap] at h
  by_cases hlen : path.Nodes.length = (dirpath (toNodeIndex a) t.size).length
  swap
  · simp [hlen] at h
  refine ⟨hlen, ?_⟩
  simp only [hlen, ne_eq, not_true_eq_false, if_false] at h
  cases hm : mergeLoop (dirpath (toNodeIndex a) t.size) path.Nodes t with
  | panic => rw [hm] at h; simp at h
  | hang => rw [hm] at h; simp at h
  | done t1 =>
    rw [hm] at h
    simp only at h
    cases hd : t1.decryptPathSecret a context path with
    | panic => rw [hd] at h; simp at h
    | hang => rw [hd] at h; simp at h
    | done r =>
      rw [hd] at h
      cases r with
      | error e => simp at h
      | ok os =>
        obtain ⟨o, s⟩ := os
        simp only at h
        have hdl : decryptLoop t1 context (copath (toNodeIndex a) t1.size) path.Nodes =
            .done (.ok (o, s)) := by
          dsimp only [decryptPathSecret] at hd
          split at hd
          · simp at hd
          · exact hd
        cases hi : t1.Implant order o s with
        | panic => rw [hi] at h; simp at h
        | hang => rw [hi] at h; simp at h
        | done q =>
          obtain ⟨t2, r2⟩ := q
          rw [hi] at h
          cases r2 with
          | error e => simp at h
          | ok rs2 =>
            dsimp only [Implant] at hi
            cases hps : t1.PathSecrets o s with
            | panic => rw [hps] at hi; simp at hi
            | hang => rw [hps] at hi; simp at hi
            | done m =>
              rw [hps] at hi
              simp only at hi
              cases hil : implantLoop (order m) t1 with
              | panic => rw [hil] at hi; simp at hi
              | hang => rw [hil] at hi; simp at hi
              | done z =>
                obtain ⟨t3, e3⟩ := z
                rw [hil] at hi
                cases e3 with
                | some err => simp at hi
                | none =>
                  simp only [Run.done.injEq, Prod.mk.injEq] at hi
                  rw [hi.1] at hil
                  exact ⟨t1, o, s, m, t2, rfl, hdl, hps, hil⟩

end RatchetTree
end MLS

namespace MLS
namespace RatchetTree

/-! ## The queries -/

theorem size_pos_of_ne_nil {t : RatchetTree} (h : t.Nodes ≠ []) : 1 ≤ t.size := by
  unfold size leafWidth
  have : 0 < t.Nodes.length := List.length_pos.mpr h
  omega

theorem RootHash_some {t : RatchetTree} (h : t.Nodes ≠ []) : ∃ hash, t.RootHash = some hash := by
  have hlt := lt_length_of_lt_width (root_lt t.size (size_pos_of_ne_nil h))
  unfold RootHash
  have : t.Nodes[root t.size]? = some t.Nodes[root t.size] := by simp [hlt]
  rw [this]
  exact ⟨_, rfl⟩

theorem leaf_in_range {t : RatchetTree} {l : Nat} (h : l < t.size) :
    ∃ slot, t.Nodes[toNodeIndex l]? = some slot :=
  get_of_lt_width (toNodeIndex_lt h)

theorem KeyPackage_some {t : RatchetTree} {l : Nat} (h : l < t.size)
    (hleaf : ∀ nd, t.contentAt (toNodeIndex l) = some (some nd) → nd.Leaf ≠ none) :
    ∃ r, t.KeyPackage l = some r := by
  obtain ⟨slot, hs⟩ := leaf_in_range h
  unfold RatchetTree.KeyPackage
  rw [hs]
  simp only
  cases hn : slot.Node with
  | none => exact ⟨_, rfl⟩
  | some nd =>
    simp only
    cases hl : nd.Leaf with
    | none => exact absurd hl (hleaf nd (by rw [contentAt_of_get hs, hn]))
    | some kp => exact ⟨_, rfl⟩

theorem findFrom_some (t : RatchetTree) (kp : MLS.KeyPackage)
    (hleaf : ∀ l nd, l < t.size → t.contentAt (toNodeIndex l) = some (some nd) → nd.Leaf ≠ none) :
    ∀ (fuel i : Nat), i + fuel ≤ t.size → ∃ r, findFrom t kp fuel i = some r := by
  intro fuel
  induction fuel with
  | zero => intro i _; exact ⟨_, rfl⟩
  | succ fuel ih =>
    intro i hi
    obtain ⟨slot, hs⟩ := @leaf_in_range t i (by omega)
    simp only [findFrom, hs]
    cases hn : slot.Node with
    | none => exact ih (i + 1) (by omega)
    | some nd =>
      simp only
      cases hl : nd.Leaf with
      | none => exact absurd hl (hleaf i nd (by omega) (by rw [contentAt_of_get hs, hn]))
      | some leaf =>
        simp only
        split
        · exact ⟨_, rfl⟩
        · exact ih (i + 1) (by omega)

theorem Find_some (t : RatchetTree) (kp : MLS.KeyPackage)
    (hleaf : ∀ l nd, l < t.size → t.contentAt (toNodeIndex l) = some (some nd) → nd.Leaf ≠ none) :
    ∃ r, t.Find kp = some r :=
  findFrom_some t kp hleaf t.size 0 (by omega)

theorem PrivateKey_ne_none_of_Type {nd : Node} (h : nd.Type ≠ none) : nd.PrivateKey ≠ none := by
  unfold Node.Type at h
  unfold Node.PrivateKey
  cases hl : nd.Leaf <;> cases hp : nd.Parent <;> simp_all

/-- What `GetSecrets` collects from the slots `ns`, which start at index `i`: an entry
for each slot that holds a private key, and no index twice. -/
theorem getSecretsFrom_spec : ∀ (ns : List OptionalNode) (i : Nat),
    (∀ slot ∈ ns, ∀ nd, slot.Node = some nd → nd.Type ≠ none) →
    ∃ keys, getSecretsFrom ns i = some keys ∧
      (∀ x ∈ keys, i ≤ x.1) ∧ (keys.map Prod.fst).Nodup ∧
      ∀ j priv, (j, priv) ∈ keys ↔ ∃ idx slot nd, j = i + idx ∧ ns[idx]? = some slot ∧
        slot.Node = some nd ∧ nd.PrivateKey = some (some priv) := by
  intro ns
  induction ns with
  | nil =>
    intro i _
    exact ⟨[], rfl, fun x hx => by simp at hx, List.nodup_nil, fun j priv => by simp⟩
  | cons n ns ih =>
    intro i h
    obtain ⟨keys, hk, hge, hnd, hiff⟩ := ih (i + 1) (fun s hs => h s (List.mem_cons_of_mem _ hs))
    have shift : ∀ j priv, (∃ idx slot nd, j = i + 1 + idx ∧ ns[idx]? = some slot ∧
        slot.Node = some nd ∧ nd.PrivateKey = some (some priv)) ↔
        ∃ idx slot nd, j = i + (idx + 1) ∧ (n :: ns)[idx + 1]? = some slot ∧
          slot.Node = some nd ∧ nd.PrivateKey = some (some priv) := by
      intro j priv
      constructor
      · rintro ⟨idx, slot, nd, a, b, c, d⟩
        exact ⟨idx, slot, nd, by omega, by simpa using b, c, d⟩
      · rintro ⟨idx, slot, nd, a, b, c, d⟩
        exact ⟨idx, slot, nd, by omega, by simpa using b, c, d⟩
    cases hn : n.Node with
    | none =>
      refine ⟨keys, by simp only [getSecretsFrom, hn]; exact hk,
        fun x hx => by have := hge x hx; omega, hnd, ?_⟩
      intro j priv
      rw [hiff j priv, shift j priv]
      constructor
      · rintro ⟨idx, slot, nd, a, b, c, d⟩
        exact ⟨idx + 1, slot, nd, a, b, c, d⟩
      · rintro ⟨idx, slot, nd, a, b, c, d⟩
        cases idx with
        | zero =>
          simp only [List.getElem?_cons_zero, Option.some.injEq] at b
          rw [← b, hn] at c
          simp at c
        | succ idx => exact ⟨idx, slot, nd, a, b, c, d⟩
    | some nd0 =>
      have hty := h n (List.mem_cons_self _ _) nd0 hn
      cases hp : nd0.PrivateKey with
      | none => exact absurd hp (PrivateKey_ne_none_of_Type hty)
      | some o =>
        cases o with
        | none =>
          refine ⟨keys, by simp only [getSecretsFrom, hn, hp]; exact hk,
            fun x hx => by have := hge x hx; omega, hnd, ?_⟩
          intro j priv
          rw [hiff j priv, shift j priv]
          constructor
          · rintro ⟨idx, slot, nd, a, b, c, d⟩
            exact ⟨idx + 1, slot, nd, a, b, c, d⟩
          · rintro ⟨idx, slot, nd, a, b, c, d⟩
            cases idx with
            | zero =>
              simp only [List.getElem?_cons_zero, Option.some.injEq] at b
              rw [← b, hn] at c
              simp only [Option.some.injEq] at c
              rw [← c, hp] at d
              simp at d
            | succ idx => exact ⟨idx, slot, nd, a, b, c, d⟩
        | some priv0 =>
          refine ⟨(i, priv0) :: keys, by simp only [getSecretsFrom, hn, hp, hk], ?_, ?_, ?_⟩
          · intro x hx
            rcases List.mem_cons.mp hx with e | m
            · rw [e]
            · have := hge x m; omega
          · simp only [List.map_cons, List.nodup_cons]
            refine ⟨?_, hnd⟩
            intro hm
            obtain ⟨x, hx, e⟩ := List.mem_map.mp hm
            have := hge x hx
            omega
          · intro j priv
            simp only [List.mem_cons, Prod.mk.injEq]
            rw [hiff j priv, shift j priv]
            constructor
            · rintro (⟨rfl, rfl⟩ | ⟨idx, slot, nd, a, b, c, d⟩)
              · exact ⟨0, n, nd0, rfl, by simp, hn, hp⟩
              · exact ⟨idx + 1, slot, nd, a, b, c, d⟩
            · rintro ⟨idx, slot, nd, a, b, c, d⟩
              cases idx with
              | zero =>
                left
                simp only [List.getElem?_cons_zero, Option.some.injEq] at b
                rw [← b, hn] at c
                simp only [Option.some.injEq] at c
                rw [← c, hp] at d
                simp only [Option.some.injEq] at d
                exact ⟨by omega, d.symm⟩
              | succ idx => exact Or.inr ⟨idx, slot, nd, a, b, c, d⟩

end RatchetTree
end MLS

namespace MLS
namespace RatchetTree

/-! ## Checking a property of the occupied slots slot by slot -/

theorem content_bounded {t : RatchetTree} {P : Nat → Node → Prop}
    (h : ∀ i, i < t.Nodes.length → ∀ c ∈ t.contentAt i, ∀ nd ∈ c, P i nd) :
    ∀ i nd, t.contentAt i = some (some nd) → P i nd := by
  intro i nd hc
  obtain ⟨s, hs, _⟩ := get_of_contentAt hc
  exact h i (List.getElem?_eq_some.mp hs).1 (some nd) hc nd rfl

theorem shape_of_blank {t : RatchetTree} {dp : List Nat}
    (h : ∀ v ∈ dp, t.contentAt v = some none) :
    ∀ v ∈ dp, ∀ nd, t.contentAt v = some (some nd) → nd.Leaf = none ∧ ∃ p, nd.Parent = some p := by
  intro v hv nd hnd
  rw [h v hv] at hnd
  simp at hnd

theorem forall₂_imp_mem {α β : Type} {R S : α → β → Prop} {l1 : List α} {l2 : List β}
    (h : List.Forall₂ R l1 l2) (himp : ∀ a ∈ l1, ∀ b, R a b → S a b) : List.Forall₂ S l1 l2 := by
  induction h with
  | nil => exact List.Forall₂.nil
  | @cons a b l1 l2 hd _ ih =>
    exact List.Forall₂.cons (himp a (List.mem_cons_self _ _) b hd)
      (ih (fun a' ha' => himp a' (List.mem_cons_of_mem _ ha')))

end RatchetTree
end MLS

namespace MLS

/-! ## The direct path in coordinates, and the common ancestor -/

theorem two_mul_div_pow_succ (l j : Nat) : (2 * l) / 2 ^ (j + 1) = l / 2 ^ j := by
  rw [pow_succ, Nat.mul_comm (2 ^ j) 2, ← Nat.div_div_eq_div_mul]
  simp

theorem div_pow_add (m i j : Nat) : m / 2 ^ i / 2 ^ j = m / 2 ^ (i + j) := by
  rw [Nat.div_div_eq_div_mul, pow_add]

theorem diffBits_spec : ∀ (f a b : Nat), a / 2 ^ f = b / 2 ^ f →
    a / 2 ^ diffBits f a b = b / 2 ^ diffBits f a b ∧
      ∀ j, j < diffBits f a b → a / 2 ^ j ≠ b / 2 ^ j := by
  intro f
  induction f with
  | zero =>
    intro a b h
    simp only [diffBits]
    exact ⟨h, fun j hj => absurd hj (Nat.not_lt_zero j)⟩
  | succ f ih =>
    intro a b h
    simp only [diffBits]
    by_cases e : a = b
    · simp [e]
    · simp only [e, if_false]
      have h' : a / 2 / 2 ^ f = b / 2 / 2 ^ f := by
        rw [div_pow_succ, div_pow_succ]; exact h
      obtain ⟨h1, h2⟩ := ih (a / 2) (b / 2) h'
      constructor
      · rw [← div_pow_succ, ← div_pow_succ]; exact h1
      · intro j hj
        cases j with
        | zero => simpa using e
        | succ j =>
          rw [← div_pow_succ, ← div_pow_succ]
          exact h2 j (by omega)

theorem diffBits_comm : ∀ (f a b : Nat), diffBits f a b = diffBits f b a := by
  intro f
  induction f with
  | zero => intro a b; rfl
  | succ f ih =>
    intro a b
    simp only [diffBits]
    by_cases e : a = b
    · simp [e]
    · have e' : ¬ b = a := fun h => e h.symm
      simp only [e, e', if_false]
      rw [ih]

theorem div_pow_sum_left (a b : Nat) : a / 2 ^ (a + b) = 0 := by
  apply Nat.div_eq_of_lt
  calc a < 2 ^ a := Nat.lt_two_pow a
    _ ≤ 2 ^ (a + b) := Nat.pow_le_pow_right (by decide) (Nat.le_add_right a b)

theorem div_pow_sum_right (a b : Nat) : b / 2 ^ (a + b) = 0 := by
  apply Nat.div_eq_of_lt
  calc b < 2 ^ b := Nat.lt_two_pow b
    _ ≤ 2 ^ (a + b) := Nat.pow_le_pow_right (by decide) (Nat.le_add_left b a)

/-- The common ancestor in coordinates: `s` is the least number of bits to drop from the
two leaf indices to make them equal. -/
theorem ancestor_eq {l r : Nat} (h : l ≠ r) :
    ∃ s, l / 2 ^ (s + 1) = r / 2 ^ (s + 1) ∧ l / 2 ^ s ≠ r / 2 ^ s ∧
      ancestor l r = nodeAt (l / 2 ^ (s + 1)) (s + 1) := by
  have hne : toNodeIndex l ≠ toNodeIndex r := by unfold toNodeIndex; omega
  obtain ⟨h1, h2⟩ := diffBits_spec (toNodeIndex l + toNodeIndex r) (toNodeIndex l)
    (toNodeIndex r) (by rw [div_pow_sum_left, div_pow_sum_right])
  generalize hd : diffBits (toNodeIndex l + toNodeIndex r) (toNodeIndex l) (toNodeIndex r) = d
    at h1 h2
  have hd2 : 2 ≤ d := by
    rcases d with _ | _ | d
    · simp at h1; exact absurd h1 hne
    · exfalso
      simp only [toNodeIndex, Nat.zero_add, pow_one] at h1
      omega
    · omega
  obtain ⟨s, rfl⟩ : ∃ s, d = s + 1 + 1 := ⟨d - 2, by omega⟩
  refine ⟨s, ?_, ?_, ?_⟩
  · have := h1
    simp only [toNodeIndex] at this
    rw [two_mul_div_pow_succ, two_mul_div_pow_succ] at this
    exact this
  · have := h2 (s + 1) (by omega)
    simp only [toNodeIndex] at this
    rw [two_mul_div_pow_succ, two_mul_div_pow_succ] at this
    exact this
  · unfold ancestor
    simp only [hne, if_false, hd, Nat.add_sub_cancel, Nat.shiftLeft_eq, Nat.shiftRight_eq_div_pow,
      Nat.one_mul]
    simp only [toNodeIndex]
    rw [two_mul_div_pow_succ]
    unfold nodeAt
    rw [Nat.mul_comm]

theorem ancestor_comm (l r : Nat) : ancestor l r = ancestor r l := by
  by_cases h : l = r
  · rw [h]
  · have hne : toNodeIndex l ≠ toNodeIndex r := by unfold toNodeIndex; omega
    have hne' : toNodeIndex r ≠ toNodeIndex l := fun e => hne e.symm
    obtain ⟨h1, _⟩ := diffBits_spec (toNodeIndex l + toNodeIndex r) (toNodeIndex l)
      (toNodeIndex r) (by rw [div_pow_sum_left, div_pow_sum_right])
    have hd2 : 1 ≤ diffBits (toNodeIndex l + toNodeIndex r) (toNodeIndex l) (toNodeIndex r) := by
      rcases hd : diffBits (toNodeIndex l + toNodeIndex r) (toNodeIndex l) (toNodeIndex r)
        with _ | d
      · rw [hd] at h1; simp at h1; exact absurd h1 hne
      · omega
    unfold ancestor
    simp only [hne, hne', if_false]
    rw [Nat.add_comm (toNodeIndex r) (toNodeIndex l), diffBits_comm _ (toNodeIndex r)]
    have e : diffBits (toNodeIndex l + toNodeIndex r) (toNodeIndex l) (toNodeIndex r) - 1 + 1 =
        diffBits (toNodeIndex l + toNodeIndex r) (toNodeIndex l) (toNodeIndex r) := by omega
    simp only [Nat.shiftRight_eq_div_pow, e, h1]

/-- The direct path of a node, in coordinates: the ancestors in the complete tree that
fall within the node range. -/
theorem mem_dirpath_nodeAt {n : Nat} : ∀ x, x < nodeWidth n → ∀ m k, x = nodeAt m k →
    ∀ v, v ∈ dirpath x n ↔
      v < nodeWidth n ∧ ∃ i, v = nodeAt (m / 2 ^ (i + 1)) (k + (i + 1)) := by
  apply path_induction
  · intro _ m k e v
    rw [dirpath_root]
    constructor
    · intro h; simp at h
    · rintro ⟨hv, i, rfl⟩
      exfalso
      rw [root_eq] at e
      obtain ⟨_, hk⟩ := nodeAt_inj e
      have := (level_le_rootLevel hv).1
      omega
  · intro x hx hr ih m k e v
    subst e
    obtain ⟨i0, hp, hpl, hout⟩ := parent_spec hx hr
    rw [dirpath_cons hx hr, List.mem_cons, ih _ _ hp]
    constructor
    · rintro (h | ⟨hv, i, h⟩)
      · exact ⟨by rw [h]; exact parent_lt hx, i0, by rw [h, hp]⟩
      · refine ⟨hv, i0 + 1 + i, ?_⟩
        rw [h, div_pow_add]
        have e1 : i0 + 1 + (i + 1) = i0 + 1 + i + 1 := by omega
        have e2 : k + (i0 + 1) + (i + 1) = k + (i0 + 1 + i + 1) := by omega
        rw [e1, e2]
    · rintro ⟨hv, i, h⟩
      rcases Nat.lt_trichotomy i i0 with hlt | heq | hgt
      · exfalso
        have := hout i hlt
        rw [← h] at this
        omega
      · left; rw [h, hp, heq]
      · right
        refine ⟨hv, i - i0 - 1, ?_⟩
        rw [h, div_pow_add]
        have e1 : i0 + 1 + (i - i0 - 1 + 1) = i + 1 := by omega
        have e2 : k + (i0 + 1) + (i - i0 - 1 + 1) = k + (i + 1) := by omega
        rw [e1, e2]

theorem mem_dirpath_leaf {n l : Nat} (hl : l < n) (v : Nat) :
    v ∈ dirpath (toNodeIndex l) n ↔
      v < nodeWidth n ∧ ∃ i, v = nodeAt (l / 2 ^ (i + 1)) (i + 1) := by
  have h := mem_dirpath_nodeAt (toNodeIndex l) (toNodeIndex_lt hl) l 0
    (by rw [nodeAt_zero]; rfl) v
  simpa using h

/-- The common ancestor of two different leaves is left of the right one of them. -/
theorem ancestor_lt_right {l r : Nat} (h : l < r) : ancestor l r < toNodeIndex r := by
  obtain ⟨s, h1, h2, h3⟩ := ancestor_eq (Nat.ne_of_lt h)
  rw [h3]
  have ha : l / 2 ^ s / 2 = l / 2 ^ (s + 1) := by rw [Nat.div_div_eq_div_mul, pow_succ]
  have hb : r / 2 ^ s / 2 = r / 2 ^ (s + 1) := by rw [Nat.div_div_eq_div_mul, pow_succ]
  have hle : l / 2 ^ s ≤ r / 2 ^ s := Nat.div_le_div_right (Nat.le_of_lt h)
  have hr := Nat.div_mul_le_self r (2 ^ s)
  have hb' : r / 2 ^ s = 2 * (l / 2 ^ (s + 1)) + 1 := by omega
  rw [hb'] at hr
  have hp := two_pow_pos' s
  unfold nodeAt toNodeIndex
  generalize l / 2 ^ (s + 1) = q at hr ⊢
  have e1 : (2 * q + 1) * 2 ^ s = 2 * (2 ^ s * q) + 2 ^ s := by ring
  have e2 : 2 ^ (s + 1 + 1) * q = 4 * (2 ^ s * q) := by rw [pow_succ, pow_succ]; ring
  have e3 : 2 ^ (s + 1) = 2 * 2 ^ s := by rw [pow_succ]; ring
  rw [e1] at hr
  rw [e2, e3]
  omega

theorem ancestor_lt {n l r : Nat} (hl : l < n) (hr : r < n) (h : l ≠ r) :
    ancestor l r < nodeWidth n := by
  rcases Nat.lt_or_gt_of_ne h with h' | h'
  · have := ancestor_lt_right h'
    unfold toNodeIndex at this
    unfold nodeWidth
    omega
  · have := ancestor_lt_right h'
    rw [ancestor_comm]
    unfold toNodeIndex at this
    unfold nodeWidth
    omega

theorem ancestor_mem_dirpath {n l r : Nat} (hl : l < n) (hr : r < n) (h : l ≠ r) :
    ancestor l r ∈ dirpath (toNodeIndex l) n := by
  rw [mem_dirpath_leaf hl]
  obtain ⟨s, _, _, h3⟩ := ancestor_eq h
  exact ⟨ancestor_lt hl hr h, s, h3⟩

theorem ancestor_lowest {n l r : Nat} (hl : l < n) (hr : r < n) (h : l ≠ r) (v : Nat)
    (hvl : v ∈ dirpath (toNodeIndex l) n) (hvr : v ∈ dirpath (toNodeIndex r) n) :
    level (ancestor l r) ≤ level v := by
  obtain ⟨s, _, h2, h3⟩ := ancestor_eq h
  rw [mem_dirpath_leaf hl] at hvl
  rw [mem_dirpath_leaf hr] at hvr
  obtain ⟨_, i, e1⟩ := hvl
  obtain ⟨_, j, e2⟩ := hvr
  rw [e1] at e2
  obtain ⟨hm, hk⟩ := nodeAt_inj e2
  have hij : i = j := by omega
  subst hij
  rw [h3, e1, level_nodeAt, level_nodeAt]
  by_contra hlt
  have hlt' : i + 1 ≤ s := by omega
  apply h2
  obtain ⟨d, rfl⟩ : ∃ d, s = i + 1 + d := ⟨s - (i + 1), by omega⟩
  rw [← div_pow_add l (i + 1) d, ← div_pow_add r (i + 1) d, hm]

end MLS

namespace MLS

/-! ## The shape of the direct path, and the levels of the children -/

theorem log2_unique {x a : Nat} (h1 : 2 ^ a ≤ x) (h2 : x < 2 ^ (a + 1)) : log2 x = a := by
  have hx : 1 ≤ x := Nat.le_trans (two_pow_pos' a) h1
  obtain ⟨s1, s2⟩ := log2_spec x hx
  rcases Nat.lt_trichotomy (log2 x) a with h | h | h
  · exfalso
    have : 2 ^ (log2 x + 1) ≤ 2 ^ a := Nat.pow_le_pow_right (by decide) h
    omega
  · exact h
  · exfalso
    have : 2 ^ (a + 1) ≤ 2 ^ log2 x := Nat.pow_le_pow_right (by decide) h
    omega

theorem log2_nodeWidth {n : Nat} (h : 1 ≤ n) : log2 (nodeWidth n) = rootLevel n := by
  unfold rootLevel
  by_cases h1 : n ≤ 1
  · have : n = 1 := by omega
    subst this
    decide
  · simp only [h1, if_false]
    obtain ⟨s1, s2⟩ := log2_spec (n - 1) (by omega)
    apply log2_unique
    · rw [pow_succ]; unfold nodeWidth; omega
    · rw [pow_succ] at s2 ⊢; rw [pow_succ]; unfold nodeWidth; omega

theorem dirpath_length_le {n : Nat} : ∀ x, x < nodeWidth n →
    (dirpath x n).length + level x ≤ rootLevel n := by
  apply path_induction
  · intro _
    rw [dirpath_root, level_root]
    simp
  · intro x hx hr ih
    rw [dirpath_cons hx hr]
    have := level_parent_gt hx hr
    simp only [List.length_cons]
    omega

theorem dirpath_getLast {n : Nat} : ∀ x, x < nodeWidth n → x ≠ root n →
    (dirpath x n).getLast? = some (root n) := by
  apply path_induction
  · intro _ h; exact absurd rfl h
  · intro x hx hr ih _
    rw [dirpath_cons hx hr]
    by_cases hp : parent x n = root n
    · rw [hp, dirpath_root]; rfl
    · have := ih hp
      cases hd : dirpath (parent x n) n with
      | nil => rw [hd] at this; simp at this
      | cons a rest =>
        rw [hd] at this
        rw [List.getLast?_cons_cons]
        exact this

theorem dirpath_pairwise {n : Nat} : ∀ x, x < nodeWidth n →
    (dirpath x n).Pairwise (fun a b => level a < level b) := by
  apply path_induction
  · intro _; rw [dirpath_root]; exact List.Pairwise.nil
  · intro x hx hr ih
    rw [dirpath_cons hx hr]
    exact List.Pairwise.cons (fun y hy => dirpath_level_gt _ (parent_lt hx) y hy) ih

theorem rootLevel_pow_le (e : Nat) : rootLevel (2 ^ e) ≤ e := by
  have h1 := root_lt (2 ^ e) (two_pow_pos' e)
  rw [root_eq] at h1
  simp only [nodeAt, nodeWidth, Nat.mul_zero, Nat.zero_add] at h1
  by_contra hgt
  have : 2 ^ (e + 1) ≤ 2 ^ rootLevel (2 ^ e) := Nat.pow_le_pow_right (by decide) (by omega)
  rw [pow_succ] at this
  omega

/-- In the tree on `2 ^ e` leaves the parent is one level up. -/
theorem level_parent_pow {e x : Nat} (hx : x < nodeWidth (2 ^ e)) (hr : x ≠ root (2 ^ e)) :
    level (parent x (2 ^ e)) = level x + 1 := by
  have hlv := level_lt_rootLevel hx hr
  have hle := rootLevel_pow_le e
  obtain ⟨m, k, rfl⟩ := exists_nodeAt x
  rw [level_nodeAt] at hlv ⊢
  obtain ⟨i, hp, _, hout⟩ := parent_spec hx hr
  have hin : nodeAt (m / 2 ^ (0 + 1)) (k + (0 + 1)) < nodeWidth (2 ^ e) := by
    obtain ⟨d, rfl⟩ : ∃ d, e = k + 1 + d := ⟨e - (k + 1), by omega⟩
    have hA := two_pow_pos' k
    have hD := two_pow_pos' d
    simp only [nodeAt, nodeWidth] at hx ⊢
    have e1 : 2 ^ (k + 1 + d) = 2 * (2 ^ k * 2 ^ d) := by rw [pow_add, pow_succ]; ring
    have e2 : 2 ^ (k + 1) = 2 * 2 ^ k := by rw [pow_succ]; ring
    have e3 : 2 ^ (k + (0 + 1) + 1) = 4 * 2 ^ k := by
      rw [Nat.zero_add, pow_succ, pow_succ]; ring
    rw [e1, e2] at hx
    rw [e1, e2, e3, Nat.zero_add, pow_one]
    have hx' : 2 ^ k * (2 * m + 1) < 2 ^ k * (4 * 2 ^ d) := by
      have a1 : 2 ^ k * (2 * m + 1) = 2 * 2 ^ k * m + 2 ^ k := by ring
      have a2 : 2 ^ k * (4 * 2 ^ d) = 2 * (2 * (2 ^ k * 2 ^ d)) := by ring
      rw [a1, a2]; omega
    have hm : 2 * m + 1 < 4 * 2 ^ d := Nat.lt_of_mul_lt_mul_left hx'
    have hq : m / 2 + 1 ≤ 2 ^ d := by omega
    have hmul : 2 ^ k * (m / 2 + 1) ≤ 2 ^ k * 2 ^ d := Nat.mul_le_mul_left _ hq
    have a3 : 2 ^ k * (m / 2 + 1) = 2 ^ k * (m / 2) + 2 ^ k := by ring
    have a4 : 4 * 2 ^ k * (m / 2) = 4 * (2 ^ k * (m / 2)) := by ring
    rw [a3] at hmul
    rw [a4]
    omega
  have hi : i = 0 := by
    by_contra h0
    have := hout 0 (Nat.pos_of_ne_zero h0)
    omega
  subst hi
  rw [hp, level_nodeAt]

theorem dirpath_length_pow {e : Nat} : ∀ x, x < nodeWidth (2 ^ e) →
    (dirpath x (2 ^ e)).length + level x = rootLevel (2 ^ e) := by
  apply path_induction
  · intro _
    rw [dirpath_root, level_root]
    simp
  · intro x hx hr ih
    rw [dirpath_cons hx hr]
    have := level_parent_pow hx hr
    simp only [List.length_cons]
    omega

/-- The right child is one level down exactly when the right child of the complete tree
is in the node range. -/
theorem level_right_eq_iff {x n : Nat} (h : x < nodeWidth n) (hl : 0 < level x) :
    level (right x n) + 1 = level x ↔ x ^^^ (3 <<< (level x - 1)) < nodeWidth n := by
  obtain ⟨m, k, rfl⟩ := exists_nodeAt x
  rw [level_nodeAt] at hl ⊢
  obtain ⟨k, rfl⟩ : ∃ k', k = k' + 1 := ⟨k - 1, by omega⟩
  obtain ⟨i, hi, hr, hin, hout⟩ := right_spec h
  rw [Nat.add_sub_cancel, nright_nodeAt_succ, hr, level_nodeAt]
  constructor
  · intro e
    have hi0 : i = 0 := by omega
    subst hi0
    simpa using hin
  · intro hlt
    have hi0 : i = 0 := by
      by_contra h0
      have := hout 0 (Nat.pos_of_ne_zero h0)
      simp only [pow_zero, Nat.one_mul, Nat.sub_zero] at this
      omega
    subst hi0
    omega

end MLS

namespace MLS
namespace RatchetTree

/-! ## The output of Encap, entry by entry -/

/-- The chain of path secrets along the direct path of `x`, counted from the entry of
the chain that `x` holds. -/
theorem chain_get {t : RatchetTree} {L : Nat} {m : SecretMap} (s : Bytes)
    (hL : L < nodeWidth t.size)
    (hm : ∀ d, (d = L ∨ d ∈ dirpath L t.size) → d ≠ root t.size →
      m.get (parent d t.size) = t.pathStep (m.get d)) :
    ∀ x, x < nodeWidth t.size → (x = L ∨ x ∈ dirpath L t.size) →
      ∀ k, m.get x = t.chainAt s k →
      ∀ i v, (dirpath x t.size)[i]? = some v → m.get v = t.chainAt s (k + i + 1) := by
  apply path_induction
  · intro _ _ k _ i v h
    rw [dirpath_root] at h
    simp at h
  · intro x hx hr ih hxp k hk i v h
    have hpL : parent x t.size ∈ dirpath L t.size := by
      rcases hxp with e | mm
      · rw [e] at hx hr ⊢; exact parent_mem_dirpath hx hr
      · exact mem_dirpath_trans L hL x mm _ (parent_mem_dirpath hx hr)
    have hstep : m.get (parent x t.size) = t.chainAt s (k + 1) := by
      rw [hm x hxp hr, hk]; rfl
    rw [dirpath_cons hx hr] at h
    cases i with
    | zero =>
      simp only [List.getElem?_cons_zero, Option.some.injEq] at h
      rw [← h]; exact hstep
    | succ i =>
      simp only [List.getElem?_cons_succ] at h
      have := ih (Or.inr hpL) (k + 1) hstep i v h
      rw [this]
      congr 1
      omega

theorem pathMatches_get {T : RatchetTree} {context : Bytes} {secrets : SecretMap} :
    ∀ (cp : List Nat) (nodes : List DirectPathNode), pathMatches T context secrets cp nodes →
    ∀ (i c : Nat) (pn : DirectPathNode), cp[i]? = some c → nodes[i]? = some pn →
      ∃ priv res, T.Suite.Derive (secrets.get (parent c T.size)) = .ok priv ∧
        pn.PublicKey = priv.PublicKey ∧ T.resolve c = .done res ∧
        encryptsTo T context (secrets.get (parent c T.size)) res pn.EncryptedPathSecrets := by
  intro cp
  induction cp with
  | nil => intro nodes _ i c pn hc; simp at hc
  | cons v cp ih =>
    intro nodes h i c pn hc hn
    cases nodes with
    | nil => simp at hn
    | cons p nodes =>
      simp only [pathMatches] at h
      cases i with
      | zero =>
        simp only [List.getElem?_cons_zero, Option.some.injEq] at hc hn
        subst hc; subst hn
        exact h.1
      | succ i =>
        simp only [List.getElem?_cons_succ] at hc hn
        exact ih nodes h.2 i c pn hc hn

/-- The loop of `Encap` when no node of a resolution lies on the direct path of the
sender: the path nodes match the secrets and the tree before the call. -/
theorem encapLoop_shape {T : RatchetTree} {L : Nat} (hL : L < nodeWidth T.size)
    (hlv : level L = 0) (context : Bytes) (secrets : SecretMap)
    (hres : ∀ c ∈ copath L T.size, ∀ res, T.resolve c = .done res →
      ∀ r ∈ res, r ∉ dirpath L T.size) :
    ∀ x, x < nodeWidth T.size → (x = L ∨ x ∈ dirpath L T.size) →
    ∀ (t : RatchetTree) (dp : List DirectPathNode) (S1 : RatchetTree)
      (out : List DirectPathNode),
    t.Suite = T.Suite → t.Nodes.length = T.Nodes.length →
    (∀ i, i ∉ dirpath L T.size → t.Nodes[i]? = T.Nodes[i]?) →
    encapLoop L context secrets (copath x T.size) t dp = .done (S1, .ok out) →
    S1.Suite = T.Suite ∧ S1.Nodes.length = T.Nodes.length ∧
      (∀ i, i ∉ dirpath x T.size → S1.Nodes[i]? = t.Nodes[i]?) ∧
      ∃ nodes, out = dp ++ nodes ∧ pathMatches T context secrets (copath x T.size) nodes := by
  apply path_induction
  · intro _ _ t dp S1 out hs hlen _ h
    rw [copath_root] at h ⊢
    simp only [encapLoop, Run.done.injEq, Prod.mk.injEq, Except.ok.injEq] at h
    obtain ⟨rfl, rfl⟩ := h
    exact ⟨hs, hlen, fun _ _ => rfl, [], by simp, trivial⟩
  · intro x hx hr ih hxp t dp S1 out hs hlen hoff h
    have hsz : t.size = T.size := size_eq_of_length hlen
    have hpL : parent x T.size ∈ dirpath L T.size := by
      rcases hxp with e | m
      · rw [e] at hx hr ⊢; exact parent_mem_dirpath hx hr
      · exact mem_dirpath_trans L hL x m _ (parent_mem_dirpath hx hr)
    have hpne : parent x T.size ≠ L := by
      intro e
      have := level_parent_pos hx hr
      rw [e] at this; omega
    rw [copath_cons hx hr] at h ⊢
    simp only [encapLoop, hsz, parent_sibling hx hr, hpne, if_false] at h
    split at h
    · simp at h
    · rename_i n hn
      rw [hs] at hn
      split at h
      swap
      · simp at h
      rename_i hplt
      split at h
      · simp at h
      · rename_i pk hpk
        split at h
        · rename_i res hres1
          split at h
          · rename_i cts hcts
            have hoff1 : ∀ i, i ∉ dirpath L T.size →
                (t.setSlot (parent x T.size) n).Nodes[i]? = T.Nodes[i]? := by
              intro i hi
              rw [setSlot_get_ne _ (fun e => hi (by rw [← e]; exact hpL))]
              exact hoff i hi
            obtain ⟨a, b, c, nodes, e, g⟩ :=
              ih (Or.inr hpL) (t.setSlot (parent x T.size) n) _ S1 out (by simp [hs])
                (by simp [hlen]) hoff1 h
            refine ⟨a, b, ?_, ?_⟩
            · intro i hi
              rw [dirpath_cons hx hr] at hi
              simp only [List.mem_cons, not_or] at hi
              rw [c i hi.2, setSlot_get_ne _ (Ne.symm hi.1)]
            · refine ⟨{ PublicKey := pk, EncryptedPathSecrets := cts } :: nodes, by rw [e]; simp, ?_⟩
              simp only [pathMatches, parent_sibling hx hr]
              refine ⟨?_, g⟩
              obtain ⟨priv, hpriv, hslot⟩ := newParentNode_ok hn
              have hpk' : pk = priv.PublicKey := by
                rw [hslot] at hpk
                simp only [parentPublicKey, Option.some.injEq] at hpk
                exact hpk.symm
              have hdesc : ∀ i, Desc T.size (sibling x T.size) i →
                  (t.setSlot (parent x T.size) n).Nodes[i]? = T.Nodes[i]? := by
                intro i hi
                exact hoff1 i (Desc_off_path hL hxp hr hi).2
              have hres' : T.resolve (sibling x T.size) = .done res := by
                rw [← hres1]
                symm
                apply resolve_congr (by simp [hsz])
                intro i hi
                exact publicAt_eq_of_get (hdesc i hi)
              obtain ⟨cts', e1, hf⟩ := encryptLoop_spec _ _ _ _ _ _ hcts
              simp only [List.nil_append] at e1
              subst e1
              refine ⟨priv, res, hpriv, hpk', hres', ?_⟩
              apply encryptsTo_congr (t := t.setSlot (parent x T.size) n) (by simp [hs]) _ hf
              intro r hr'
              have hm := hres _ (sibling_mem_copath L hL x hxp hr) res hres' r hr'
              exact (contentAt_eq_of_get (hoff1 r hm)).symm
          · simp at h
          · simp at h
          · simp at h
        · simp at h
        · simp at h

/-- What a successful `Encap` returns, when no node of a resolution lies on the direct
path of the sender. -/
theorem Encap_shape {T S : RatchetTree} {a : Nat} {context s : Bytes} {path : DirectPath}
    {rs : Bytes} (ha : a < T.size)
    (hres : ∀ c ∈ copath (toNodeIndex a) T.size, ∀ res, T.resolve c = .done res →
      ∀ r ∈ res, r ∉ dirpath (toNodeIndex a) T.size)
    (h : T.Encap a context s = .done (S, .ok (path, rs))) :
    path.Nodes.length = (dirpath (toNodeIndex a) T.size).length ∧
    (∀ i c pn, (copath (toNodeIndex a) T.size)[i]? = some c → path.Nodes[i]? = some pn →
      ∃ priv res, T.Suite.Derive (T.chainAt s (i + 1)) = .ok priv ∧
        pn.PublicKey = priv.PublicKey ∧ T.resolve c = .done res ∧
        pn.EncryptedPathSecrets.length = res.length ∧
        encryptsTo T context (T.chainAt s (i + 1)) res pn.EncryptedPathSecrets ∧
        ∀ r ∈ res, S.contentAt r = T.contentAt r) ∧
    rs = T.chainAt s (dirpath (toNodeIndex a) T.size).length := by
  have hL := toNodeIndex_lt ha
  obtain ⟨secrets, S1, hps, hloop, hhash, hrs⟩ := Encap_stages h
  obtain ⟨m, hm1, _, hm0, hmstep, _⟩ := PathSecrets_spec T s hL
  rw [hps] at hm1
  simp only [Run.done.injEq] at hm1
  subst hm1
  obtain ⟨a1, a2, a3, nodes, e, g⟩ := encapLoop_shape hL (level_toNodeIndex a) context secrets
    hres (toNodeIndex a) hL (Or.inl rfl) T [] S1 path.Nodes rfl rfl (fun _ _ => rfl) hloop
  simp only [List.nil_append] at e
  have hsz1 : S1.size = T.size := size_eq_of_length a2
  obtain ⟨b1, b2, b3, _⟩ := setHashPath_frame (by rw [hsz1]; exact ha) hhash
  have hchain := chain_get s hL hmstep (toNodeIndex a) hL (Or.inl rfl) 0 hm0
  refine ⟨?_, ?_, ?_⟩
  · rw [e, pathMatches_length _ _ g, copath_length _ hL]
  · intro i c pn hc hn
    rw [e] at hn
    obtain ⟨priv, res, p1, p2, p3, p4⟩ := pathMatches_get _ _ g i c pn hc hn
    have hget := hchain i (parent c T.size) (copath_get_parent _ hL i c hc)
    rw [Nat.zero_add] at hget
    rw [hget] at p1 p4
    refine ⟨priv, res, p1, p2, p3, (List.Forall₂.length_eq p4).symm, p4, ?_⟩
    intro r hr
    rw [b3 r]
    exact contentAt_eq_of_get (a3 r (hres c (mem_of_get? hc) res p3 r hr))
  · rw [hrs]
    have hroot : S.rootIndex = root T.size := by
      unfold rootIndex
      rw [size_eq_of_length (b2.trans a2)]
    rw [hroot]
    by_cases hr : toNodeIndex a = root T.size
    · rw [hr, dirpath_root, ← hr]
      exact hm0
    · have hlast := dirpath_getLast _ hL hr
      rw [List.getLast?_eq_getElem?] at hlast
      have hpos : 0 < (dirpath (toNodeIndex a) T.size).length := by
        rcases hd : dirpath (toNodeIndex a) T.size with _ | ⟨y, ys⟩
        · rw [hd] at hlast; simp at hlast
        · simp
      have := hchain _ _ hlast
      rw [this]
      congr 1
      omega

end RatchetTree
end MLS

namespace MLS
namespace RatchetTree

/-! ## The kinds of the slots under the mutating operations -/

theorem kindOk_setParent {strict : Bool} {i : Nat} {nd : Node} {p p' : ParentNode}
    (h : kindOk strict i nd) (hp : nd.Parent = some p) :
    kindOk strict i { nd with Parent := some p' } := by
  unfold kindOk at h ⊢
  by_cases e : i % 2 = 0
  · simp only [e, if_true] at h ⊢
    refine ⟨h.1, fun hs => ?_⟩
    have := h.2 hs
    rw [hp] at this
    simp at this
  · simp only [e, if_false] at h ⊢
    exact ⟨h.1, by simp⟩

theorem kindOk_leaf (strict : Bool) (l : Nat) (kp : MLS.KeyPackage) (hash : Option Bytes) :
    kindOk strict (toNodeIndex l) { Leaf := some kp, Parent := none, Hash := hash } := by
  have : toNodeIndex l % 2 = 0 := by unfold toNodeIndex; omega
  unfold kindOk
  simp [this]

theorem kindOk_of_parent (strict : Bool) {i : Nat} (hi : i % 2 = 1) {nd : Node} {p : ParentNode}
    (hl : nd.Leaf = none) (hp : nd.Parent = some p) : kindOk strict i nd := by
  have : ¬ i % 2 = 0 := by omega
  unfold kindOk
  simp [this, hl, hp]

theorem kindsOk_setSlot {strict : Bool} {t : RatchetTree} {i : Nat} {n : OptionalNode}
    (h : kindsOk strict t) (hn : ∀ nd, n.Node = some nd → kindOk strict i nd) :
    kindsOk strict (t.setSlot i n) := by
  intro j nd hc
  by_cases e : i = j
  · subst e
    by_cases hl : i < t.Nodes.length
    · rw [contentAt_of_get (setSlot_get_self n hl)] at hc
      simp only [Option.some.injEq] at hc
      exact hn nd hc
    · exfalso
      unfold contentAt at hc
      rw [List.getElem?_eq_none (by rw [setSlot_length]; omega)] at hc
      simp at hc
  · rw [contentAt_eq_of_get (setSlot_get_ne n e)] at hc
    exact h j nd hc

theorem kindsOk_of_content {strict : Bool} {t t' : RatchetTree}
    (hc : ∀ i, t'.contentAt i = t.contentAt i) (h : kindsOk strict t) : kindsOk strict t' :=
  fun i nd h' => h i nd (by rw [← hc i]; exact h')

theorem dirpath_odd {n x v : Nat} (hx : x < nodeWidth n) (hv : v ∈ dirpath x n) : v % 2 = 1 := by
  have := dirpath_level_gt x hx v hv
  by_contra h
  have h0 : level v = 0 := level_eq_zero_iff.mpr (by omega)
  omega

theorem kindsOk_grow {strict : Bool} {t : RatchetTree} (k : Nat) (h : kindsOk strict t) :
    kindsOk strict (t.grow k) := by
  intro i nd hc
  by_cases hi : i < t.Nodes.length
  · rw [contentAt_eq_of_get (grow_get_old hi)] at hc
    exact h i nd hc
  · exfalso
    by_cases hik : i < k
    · rw [contentAt_of_get (grow_get_new (Nat.le_of_not_lt hi) hik)] at hc
      simp at hc
    · unfold contentAt at hc
      rw [List.getElem?_eq_none (by rw [grow_length]; exact Nat.max_le.mpr ⟨by omega, by omega⟩)]
        at hc
      simp at hc

theorem addUnmergedStep_kinds {strict : Bool} {l : Nat} {t t' : RatchetTree} {v : Nat}
    (h : addUnmergedStep l t v = some t') (hk : kindsOk strict t) :
    kindsOk strict t' ∧ t'.Nodes.length = t.Nodes.length := by
  unfold addUnmergedStep at h
  split at h
  · simp only [Option.some.injEq] at h
    subst h
    exact ⟨hk, rfl⟩
  · split at h
    · simp at h
    · rename_i slot hs
      split at h
      · simp only [Option.some.injEq] at h
        subst h
        exact ⟨hk, rfl⟩
      · rename_i nd hnd
        split at h
        · simp at h
        · rename_i p hp
          simp only [Option.some.injEq] at h
          subst h
          refine ⟨kindsOk_setSlot hk ?_, by simp⟩
          intro nd' e
          simp only [Option.some.injEq] at e
          subst e
          exact kindOk_setParent (hk v nd (by rw [contentAt_of_get hs, hnd])) hp

theorem addUnmergedLoop_kinds {strict : Bool} (l : Nat) : ∀ (dp : List Nat) (t t' : RatchetTree),
    addUnmergedLoop l dp t = some t' → kindsOk strict t →
    kindsOk strict t' ∧ t'.Nodes.length = t.Nodes.length := by
  intro dp
  induction dp with
  | nil =>
    intro t t' h hk
    simp only [addUnmergedLoop, Option.some.injEq] at h
    subst h
    exact ⟨hk, rfl⟩
  | cons v vs ih =>
    intro t t' h hk
    simp only [addUnmergedLoop] at h
    split at h
    · simp at h
    · rename_i t1 h1
      obtain ⟨a, b⟩ := addUnmergedStep_kinds h1 hk
      obtain ⟨c, d⟩ := ih t1 t' h a
      exact ⟨c, by rw [d, b]⟩

theorem AddLeaf_kinds {strict : Bool} {t t' : RatchetTree} {l : Nat} {kp : MLS.KeyPackage}
    {e : Option Err} (hk : slotKinds strict t) (h : t.AddLeaf l kp = .done (t', e)) :
    slotKinds strict t' := by
  simp only [AddLeaf] at h
  split at h
  · simp at h
  · rename_i t2 h2
    have hk1 : kindsOk strict
        ((t.grow (toNodeIndex l + 1)).setSlot (toNodeIndex l) (newLeafNode kp)) := by
      apply kindsOk_setSlot (kindsOk_grow _ hk.2)
      intro nd e'
      simp only [newLeafNode, Option.some.injEq] at e'
      subst e'
      exact kindOk_leaf strict l kp none
    obtain ⟨hk2, hlen2⟩ := addUnmergedLoop_kinds l _ _ _ h2 hk1
    have hlen : t2.Nodes.length = max t.Nodes.length (toNodeIndex l + 1) := by
      rw [hlen2, setSlot_length, grow_length]
    have hmax : toNodeIndex l + 1 ≤ t2.Nodes.length := by
      rw [hlen]; exact Nat.le_max_right _ _
    have hl : l < t2.size := by
      unfold size leafWidth
      unfold toNodeIndex at hmax
      omega
    obtain ⟨_, f2, f3, _⟩ := setHashPath_frame hl h
    refine ⟨?_, kindsOk_of_content f3 hk2⟩
    rw [f2, hlen]
    rcases Nat.le_total t.Nodes.length (toNodeIndex l + 1) with hle | hle
    · rw [Nat.max_eq_right hle]
      right; unfold toNodeIndex; omega
    · rw [Nat.max_eq_left hle]
      rcases hk.1 with h0 | h1
      · exfalso; omega
      · right; exact h1

theorem BlankPath_kinds {strict : Bool} {t t' : RatchetTree} {l : Nat} {e : Option Err}
    (hl : l < t.size) (hk : slotKinds strict t) (h : t.BlankPath l = .done (t', e)) :
    slotKinds strict t' ∧ t'.Nodes.length = t.Nodes.length := by
  obtain ⟨t1, e1, hb, _, len1, on1, off1, _⟩ := BlankPath_spec hl
  rw [hb] at h
  simp only [Run.done.injEq, Prod.mk.injEq] at h
  obtain ⟨rfl, _⟩ := h
  refine ⟨⟨by rw [len1]; exact hk.1, ?_⟩, len1⟩
  intro i nd hc
  by_cases hp : onLeafPath t.size l i
  · rw [on1 i hp] at hc
    simp at hc
  · rw [contentAt_eq_of_get (off1 i hp)] at hc
    exact hk.2 i nd hc

theorem UpdateLeaf_kinds {strict : Bool} {t t' : RatchetTree} {l : Nat} {kp : MLS.KeyPackage}
    {e : Option Err} (hl : l < t.size) (hk : slotKinds strict t)
    (h : t.UpdateLeaf l kp = .done (t', e)) : slotKinds strict t' := by
  simp only [UpdateLeaf] at h
  split at h
  · simp at h
  · split at h
    · simp only [Run.done.injEq, Prod.mk.injEq] at h
      rw [← h.1]; exact hk
    · split at h
      · rename_i t1 e1 hb
        obtain ⟨hk1, len1⟩ := BlankPath_kinds hl hk hb
        have hl1 : l < (t1.setSlot (toNodeIndex l) (newLeafNode kp)).size := by
          rw [setSlot_size, size_eq_of_length len1]; exact hl
        obtain ⟨_, f2, f3, _⟩ := setHashPath_frame hl1 h
        refine ⟨by rw [f2, setSlot_length]; exact hk1.1, kindsOk_of_content f3 ?_⟩
        apply kindsOk_setSlot hk1.2
        intro nd e'
        simp only [newLeafNode, Option.some.injEq] at e'
        subst e'
        exact kindOk_leaf strict l kp none
      · simp at h
      · simp at h

theorem encapLoop_kinds {strict : Bool} (L : Nat) (context : Bytes) (secrets : SecretMap) :
    ∀ (cp : List Nat) (t : RatchetTree) (dp : List DirectPathNode) (S1 : RatchetTree)
      (r : Except Err (List DirectPathNode)),
    (∀ v ∈ cp, parent v t.size % 2 = 1) →
    encapLoop L context secrets cp t dp = .done (S1, r) → kindsOk strict t →
    kindsOk strict S1 := by
  intro cp
  induction cp with
  | nil =>
    intro t dp S1 r _ h hk
    simp only [encapLoop, Run.done.injEq, Prod.mk.injEq] at h
    rw [← h.1]; exact hk
  | cons v vs ih =>
    intro t dp S1 r hodd h hk
    have hodd' : ∀ w ∈ vs, parent w t.size % 2 = 1 :=
      fun w hw => hodd w (List.mem_cons_of_mem _ hw)
    simp only [encapLoop] at h
    split at h
    · exact ih t dp S1 r hodd' h hk
    · split at h
      · simp only [Run.done.injEq, Prod.mk.injEq] at h
        rw [← h.1]; exact hk
      · rename_i n hn
        have hk1 : kindsOk strict (t.setSlot (parent v t.size) n) := by
          apply kindsOk_setSlot hk
          intro nd e'
          obtain ⟨priv, _, hslot⟩ := newParentNode_ok hn
          rw [hslot] at e'
          simp only [Option.some.injEq] at e'
          subst e'
          exact kindOk_of_parent strict (hodd v (List.mem_cons_self _ _)) rfl rfl
        split at h
        swap
        · simp at h
        split at h
        · simp at h
        · split at h
          · split at h
            · exact ih _ _ S1 r (fun w hw => by rw [setSlot_size]; exact hodd' w hw) h hk1
            · simp only [Run.done.injEq, Prod.mk.injEq] at h
              rw [← h.1]; exact hk1
            · simp at h
            · simp at h
          · simp at h
          · simp at h

theorem Encap_kinds {strict : Bool} {t t' : RatchetTree} {a : Nat} {context s : Bytes}
    {r : Except Err (DirectPath × Bytes)} (ha : a < t.size) (hk : slotKinds strict t)
    (h : t.Encap a context s = .done (t', r)) : slotKinds strict t' := by
  have hL := toNodeIndex_lt ha
  have hodd : ∀ v ∈ copath (toNodeIndex a) t.size, parent v t.size % 2 = 1 :=
    fun v hv => dirpath_odd hL (copath_parent_mem _ hL v hv).2
  simp only [Encap] at h
  split at h
  · simp at h
  · simp at h
  · rename_i secrets _
    split at h
    · simp at h
    · simp at h
    · rename_i t1 e1 hloop
      simp only [Run.done.injEq, Prod.mk.injEq] at h
      rw [← h.1]
      exact ⟨by rw [(encapLoop_frame _ _ _ _ _ _ _ _ hloop).2.1]; exact hk.1,
        encapLoop_kinds _ _ _ _ _ _ _ _ hodd hloop hk.2⟩
    · rename_i t1 nodes hloop
      have hlen1 := (encapLoop_frame _ _ _ _ _ _ _ _ hloop).2.1
      have hk1 : kindsOk strict t1 := encapLoop_kinds _ _ _ _ _ _ _ _ hodd hloop hk.2
      have hl1 : a < t1.size := by rw [size_eq_of_length hlen1]; exact ha
      split at h
      · simp at h
      · simp at h
      · rename_i t2 e2 hh
        obtain ⟨_, f2, f3, _⟩ := setHashPath_frame hl1 hh
        simp only [Run.done.injEq, Prod.mk.injEq] at h
        rw [← h.1]
        exact ⟨by rw [f2, hlen1]; exact hk.1, kindsOk_of_content f3 hk1⟩
      · rename_i t2 hh
        obtain ⟨_, f2, f3, _⟩ := setHashPath_frame hl1 hh
        simp only [Run.done.injEq, Prod.mk.injEq] at h
        rw [← h.1]
        exact ⟨by rw [f2, hlen1]; exact hk.1, kindsOk_of_content f3 hk1⟩

theorem mergeLoop_kinds {strict : Bool} : ∀ (dp : List Nat) (nodes : List DirectPathNode)
    (t t1 : RatchetTree), (∀ v ∈ dp, v % 2 = 1) → mergeLoop dp nodes t = .done t1 →
    kindsOk strict t → kindsOk strict t1 := by
  intro dp
  induction dp with
  | nil =>
    intro nodes t t1 _ h hk
    simp only [mergeLoop, Run.done.injEq] at h
    subst h
    exact hk
  | cons v vs ih =>
    intro nodes t t1 hodd h hk
    cases nodes with
    | nil => simp [mergeLoop] at h
    | cons pn pns =>
      simp only [mergeLoop] at h
      split at h
      · simp at h
      · rename_i slot hs
        split at h
        · simp at h
        · rename_i slot' hm
          apply ih pns _ t1 (fun w hw => hodd w (List.mem_cons_of_mem _ hw)) h
          apply kindsOk_setSlot hk
          intro nd e'
          obtain ⟨_, _, nd', p, h1, h2, h3, _⟩ := heldKey_MergePublic hm
          rw [h1] at e'
          simp only [Option.some.injEq] at e'
          subst e'
          exact kindOk_of_parent strict (hodd v (List.mem_cons_self _ _)) h2 h3

theorem implantLoop_kinds {strict : Bool} : ∀ (entries : List (Nat × Bytes))
    (t t' : RatchetTree) (e : Option Err),
    implantLoop entries t = .done (t', e) → kindsOk strict t → kindsOk strict t' := by
  intro entries
  induction entries with
  | nil =>
    intro t t' e h hk
    simp only [implantLoop, Run.done.injEq, Prod.mk.injEq] at h
    rw [← h.1]; exact hk
  | cons entry rest ih =>
    intro t t' e h hk
    obtain ⟨curr, secret⟩ := entry
    simp only [implantLoop] at h
    have triv : ∀ {t'' : RatchetTree} {e' : Option Err},
        (Run.done (t, e') : Run (RatchetTree × Option Err)) = .done (t'', e) →
        kindsOk strict t'' := by
      intro t'' e' hh
      simp only [Run.done.injEq, Prod.mk.injEq] at hh
      rw [← hh.1]; exact hk
    split at h
    · exact triv h
    · split at h
      · simp at h
      · rename_i slot hs
        split at h
        · exact triv h
        · rename_i nd hnd
          split at h
          · simp at h
          · exact triv h
          · split at h
            · rename_i p derived hp _
              split at h
              · simp at h
              · split at h
                · split at h
                  · simp at h
                  · apply ih _ t' e h
                    apply kindsOk_setSlot hk
                    intro nd' e'
                    simp only [Option.some.injEq] at e'
                    subst e'
                    exact kindOk_setParent (hk curr nd (by rw [contentAt_of_get hs, hnd])) hp
                · exact triv h
            · simp at h

theorem Implant_kinds {strict : Bool} {t t' : RatchetTree} {order : SecretMap → SecretMap}
    {start : Nat} {ps : Bytes} {r : Except Err Bytes} (hk : slotKinds strict t)
    (h : t.Implant order start ps = .done (t', r)) :
    slotKinds strict t' := by
  simp only [Implant] at h
  split at h
  · simp at h
  · simp at h
  · split at h
    · simp at h
    · simp at h
    · rename_i t1 e1 hloop
      simp only [Run.done.injEq, Prod.mk.injEq] at h
      rw [← h.1]
      exact ⟨by rw [(implantLoop_frame _ _ _ _ hloop).2.1]; exact hk.1,
        implantLoop_kinds _ _ _ _ hloop hk.2⟩
    · rename_i t1 hloop
      simp only [Run.done.injEq, Prod.mk.injEq] at h
      rw [← h.1]
      exact ⟨by rw [(implantLoop_frame _ _ _ _ hloop).2.1]; exact hk.1,
        implantLoop_kinds _ _ _ _ hloop hk.2⟩

theorem Decap_kinds {strict : Bool} {t t' : RatchetTree} {order : SecretMap → SecretMap}
    {a : Nat} {context : Bytes} {path : DirectPath} {r : Except Err Bytes} (ha : a < t.size)
    (hk : slotKinds strict t) (h : t.Decap order a context path = .done (t', r)) :
    slotKinds strict t' := by
  have hL := toNodeIndex_lt ha
  simp only [Decap] at h
  split at h
  · simp only [Run.done.injEq, Prod.mk.injEq] at h
    rw [← h.1]; exact hk
  · split at h
    · simp at h
    · simp at h
    · rename_i t1 hm
      have hk1 : slotKinds strict t1 :=
        ⟨by rw [(mergeLoop_frame _ _ _ _ hm).2.1]; exact hk.1,
          mergeLoop_kinds _ _ _ _ (fun v hv => dirpath_odd hL hv) hm hk.2⟩
      have hlen1 := (mergeLoop_frame _ _ _ _ hm).2.1
      split at h
      · simp at h
      · simp at h
      · simp only [Run.done.injEq, Prod.mk.injEq] at h
        rw [← h.1]; exact hk1
      · split at h
        · simp at h
        · simp at h
        · rename_i t2 e2 hi
          simp only [Run.done.injEq, Prod.mk.injEq] at h
          rw [← h.1]
          exact Implant_kinds hk1 hi
        · rename_i t2 rootSecret hi
          have hk2 := Implant_kinds hk1 hi
          have hlen2 : t2.Nodes.length = t.Nodes.length := by
            simp only [Implant] at hi
            split at hi
            · simp at hi
            · simp at hi
            · split at hi
              · simp at hi
              · simp at hi
              · simp at hi
              · rename_i t3 hloop
                simp only [Run.done.injEq, Prod.mk.injEq] at hi
                rw [← hi.1, (implantLoop_frame _ _ _ _ hloop).2.1, hlen1]
          have hl2 : a < t2.size := by rw [size_eq_of_length hlen2]; exact ha
          split at h
          · simp at h
          · simp at h
          · rename_i t3 e3 hh
            obtain ⟨_, f2, f3, _⟩ := setHashPath_frame hl2 hh
            simp only [Run.done.injEq, Prod.mk.injEq] at h
            rw [← h.1]
            exact ⟨by rw [f2]; exact hk2.1, kindsOk_of_content f3 hk2.2⟩
          · rename_i t3 hh
            obtain ⟨_, f2, f3, _⟩ := setHashPath_frame hl2 hh
            simp only [Run.done.injEq, Prod.mk.injEq] at h
            rw [← h.1]
            exact ⟨by rw [f2]; exact hk2.1, kindsOk_of_content f3 hk2.2⟩

theorem kindsOk_parent_ne {strict : Bool} {t : RatchetTree} (hk : kindsOk strict t) :
    ∀ i nd, i % 2 = 1 → t.contentAt i = some (some nd) → nd.Parent ≠ none := by
  intro i nd hi hc
  have := hk i nd hc
  unfold kindOk at this
  have h0 : ¬ i % 2 = 0 := by omega
  simp only [h0, if_false] at this
  exact this.2

theorem UpdateLeaf_done (t : RatchetTree) (kp : MLS.KeyPackage) {l : Nat} (hl : l < t.size) :
    ∃ t' e, t.UpdateLeaf l kp = .done (t', e) := by
  obtain ⟨s, hs⟩ := get_of_lt_width (toNodeIndex_lt hl)
  cases hn : s.Node with
  | none =>
    refine ⟨t, some .updateUnoccupied, ?_⟩
    unfold UpdateLeaf
    simp only [hs, OptionalNode.Blank, hn, Option.isNone_none, if_true]
  | some nd =>
    obtain ⟨t1, e1, h1, _, b, c, _, _⟩ := BlankPath_spec hl
    have hll : toNodeIndex l < t1.Nodes.length := by
      rw [b]; exact (List.getElem?_eq_some.mp hs).1
    have hsz2 : (t1.setSlot (toNodeIndex l) (newLeafNode kp)).size = t.size := by
      simp [size_eq_of_length b]
    have hdone : ∃ t' e,
        (t1.setSlot (toNodeIndex l) (newLeafNode kp)).setHashPath l = .done (t', e) := by
      apply setHashPath_done (by rw [hsz2]; exact hl)
      intro i hi s' nd' hs' hn'
      rw [hsz2] at hi
      by_cases hil : i = toNodeIndex l
      · subst hil
        rw [setSlot_get_self _ hll] at hs'
        simp only [Option.some.injEq] at hs'
        subst hs'
        simp only [newLeafNode, Option.some.injEq] at hn'
        subst hn'
        simp [Node.Type]
      · exfalso
        have hc := c i hi
        rw [← contentAt_eq_of_get (setSlot_get_ne (newLeafNode kp) (Ne.symm hil)),
          contentAt_of_get hs', hn'] at hc
        simp at hc
    obtain ⟨t', e, hrun⟩ := hdone
    refine ⟨t', e, ?_⟩
    unfold UpdateLeaf
    simp only [hs, OptionalNode.Blank, hn, Option.isNone_some, h1]
    exact hrun

end RatchetTree
end MLS

namespace MLS

/-! ## Stored hashes that are current -/

/-- The last parent slot of a tree grown by one leaf is on the direct path of the new
leaf. -/
theorem last_parent_mem_dirpath {n : Nat} (hn : 1 ≤ n) :
    2 * n - 1 ∈ dirpath (toNodeIndex n) (n + 1) := by
  rw [mem_dirpath_leaf (Nat.lt_succ_self n)]
  refine ⟨by unfold nodeWidth; omega, ?_⟩
  obtain ⟨m, k, e⟩ := exists_nodeAt (2 * n - 1)
  cases k with
  | zero => rw [nodeAt_zero] at e; omega
  | succ j =>
    refine ⟨j, ?_⟩
    rw [e]
    congr 1
    have hp := two_pow_pos' j
    simp only [nodeAt] at e
    have e1 : 2 ^ (j + 1 + 1) * m = 2 * (2 ^ (j + 1) * m) := by rw [pow_succ 2 (j + 1)]; ring
    have e2 : 2 ^ (j + 1) = 2 * 2 ^ j := by rw [pow_succ]; ring
    have hn' : n = 2 ^ (j + 1) * m + 2 ^ j := by
      rw [e1] at e
      have : 2 ^ (j + 1) - 1 = 2 * 2 ^ j - 1 := by rw [e2]
      rw [this] at e
      omega
    symm
    apply Nat.div_eq_of_lt_le
    · rw [hn', Nat.mul_comm]; omega
    · rw [hn', Nat.add_mul, Nat.one_mul, Nat.mul_comm m]; omega

/-- A slot off the path of the new leaf has the same right child before and after the
tree grows by one leaf. -/
theorem right_grow {n i : Nat} (hi : i < nodeWidth n) (hlev : 0 < level i)
    (hoff : ¬ onLeafPath (n + 1) n i) : right i (n + 1) = right i n := by
  have hn : 1 ≤ n := nodeWidth_pos_of_lt hi
  have hi' : i < nodeWidth (n + 1) := by unfold nodeWidth at hi ⊢; omega
  obtain ⟨m, k, rfl⟩ := exists_nodeAt i
  rw [level_nodeAt] at hlev
  obtain ⟨k, rfl⟩ : ∃ k', k = k' + 1 := ⟨k - 1, by omega⟩
  obtain ⟨a, ha, hra, hina, houta⟩ := right_spec hi
  obtain ⟨b, hb, hrb, hinb, houtb⟩ := right_spec hi'
  have hba : b ≤ a := by
    by_contra hlt
    have := houtb a (by omega)
    unfold nodeWidth at this hina
    omega
  have hab : a ≤ b := by
    by_contra hlt
    have hge := houta b (by omega)
    apply hoff
    have hanc : nodeAt m (k + 1) ∈ dirpath (nodeAt (2 ^ b * (2 * m + 1)) (k - b)) (n + 1) := by
      rw [mem_dirpath_nodeAt _ hinb _ _ rfl]
      refine ⟨hi', b, ?_⟩
      have e1 : 2 ^ b * (2 * m + 1) / 2 ^ (b + 1) = m := by
        rw [pow_succ, ← Nat.div_div_eq_div_mul, Nat.mul_div_cancel_left _ (two_pow_pos' b)]
        omega
      have e2 : k - b + (b + 1) = k + 1 := by omega
      rw [e1, e2]
    have hc : nodeAt (2 ^ b * (2 * m + 1)) (k - b) = 2 * n ∨
        nodeAt (2 ^ b * (2 * m + 1)) (k - b) = 2 * n - 1 := by
      unfold nodeWidth at hge hinb
      omega
    rcases hc with hc | hc
    · rw [hc] at hanc
      exact Or.inr hanc
    · rw [hc] at hanc
      exact Or.inr (mem_dirpath_trans _ (toNodeIndex_lt (Nat.lt_succ_self n)) _
        (last_parent_mem_dirpath hn) _ hanc)
  have : a = b := by omega
  rw [hra, hrb, this]

/-- The parent of a node of the path, other than the root, is on the path. -/
theorem onLeafPath_parent {n l x : Nat} (hl : l < n) (hx : onLeafPath n l x) (hr : x ≠ root n) :
    onLeafPath n l (parent x n) := by
  have hL := toNodeIndex_lt hl
  rcases hx with e | m
  · rw [e] at hr ⊢
    exact Or.inr (parent_mem_dirpath hL hr)
  · exact Or.inr (mem_dirpath_trans _ hL x m _
      (parent_mem_dirpath (dirpath_mem_lt _ hL x m) hr))

/-- The children of a slot off the path are off the path. -/
theorem children_off_path {n l i : Nat} (hl : l < n) (hi : i < nodeWidth n)
    (hlev : 0 < level i) (hoff : ¬ onLeafPath n l i) :
    ¬ onLeafPath n l (left i) ∧ ¬ onLeafPath n l (right i n) := by
  constructor
  · intro h
    have hne : left i ≠ root n :=
      root_level_pos_ne hi (by have := level_left hlev; omega)
    have := onLeafPath_parent hl h hne
    rw [parent_left hi hlev] at this
    exact hoff this
  · intro h
    have hne : right i n ≠ root n := root_level_pos_ne hi (level_right_lt hi hlev)
    have := onLeafPath_parent hl h hne
    rw [parent_right hi hlev] at this
    exact hoff this

namespace RatchetTree

/-- A slot whose hash is current stays so in a tree with the same suite, the same slot
and the same child slots. -/
theorem setHash_current_congr {t u : RatchetTree} {c : Nat} (h : t.setHash c = .done (t, none))
    (hsuite : u.Suite = t.Suite) (hc : u.Nodes[c]? = t.Nodes[c]?)
    (hch : level c ≠ 0 → u.Nodes[left c]? = t.Nodes[left c]? ∧
      u.Nodes[right c u.size]? = t.Nodes[right c t.size]?) :
    u.setHash c = .done (u, none) := by
  obtain ⟨s, lh, rh, hh, h1, h2, h3, h4⟩ := setHash_ok_spec h
  have hcl : c < t.Nodes.length := (List.getElem?_eq_some.mp h1).1
  have hs : t.Nodes[c]? = some { s with Hash := hh } := by
    conv_lhs => rw [h4]
    exact setSlot_get_self _ hcl
  have hu : u.Nodes[c]? = some { s with Hash := hh } := by rw [hc, hs]
  have hsame : ({ s with Hash := hh } : OptionalNode).Node = s.Node := rfl
  have hch' : u.childHashes c = some (lh, rh) := by
    rw [← h2]
    unfold childHashes
    by_cases hl : level c = 0
    · simp [hl]
    · simp only [hl, if_false]
      rw [(hch hl).1, (hch hl).2]
  rw [setHash_eq, hu, hch']
  simp only [hsuite, h3]
  rw [setSlot_self hu]

/-- After a hashing walk that succeeds, every slot of the walk is current. -/
theorem setHashPathLoop_current {n : Nat} : ∀ c, c < nodeWidth n → ∀ (f : Nat)
    (t t1 : RatchetTree), t.size = n → setHashPathLoop n (root n) f t c = .done (t1, none) →
    ∀ i, (i = c ∨ i ∈ dirpath c n) → t1.setHash i = .done (t1, none) := by
  apply path_induction
  · intro hn1 f t t1 hn h i hi
    have hi' : i = root n := by
      rcases hi with e | m
      · exact e
      · rw [dirpath_root] at m; simp at m
    subst hi'
    cases f with
    | zero => simp [setHashPathLoop] at h
    | succ f =>
      simp only [setHashPathLoop] at h
      split at h
      · rename_i t' hsh
        simp only [if_true, Run.done.injEq, Prod.mk.injEq, and_true] at h
        subst h
        obtain ⟨a, b, _, d⟩ := setHash_frame hsh
        have hlt : root n < nodeWidth n := root_lt n hn1
        exact setHash_stable hsh a (size_eq_of_length b) rfl (by
          intro hl
          have := (child_ne_path hlt hl).1
          rw [hn]
          exact ⟨d _ this.1, d _ this.2⟩)
      · rename_i other hother
        exact absurd h (hother t1)
  · intro x hx hr ih f t t1 hn h i hi
    cases f with
    | zero => simp [setHashPathLoop] at h
    | succ f =>
      simp only [setHashPathLoop] at h
      split at h
      · rename_i t' hsh
        simp only [hr, if_false] at h
        obtain ⟨a, b, _, d⟩ := setHash_frame hsh
        have hn' : t'.size = n := by rw [size_eq_of_length b, hn]
        obtain ⟨a1, b1, _, d1, _⟩ := setHashPathLoop_frame _ (parent_lt hx) _ _ _ _ h
        have hxp : x ≠ parent x n := (parent_ne_self hx hr).symm
        have hxnot : x ∉ dirpath (parent x n) n := by
          intro hm
          have := dirpath_level_gt _ (parent_lt hx) _ hm
          have := level_parent_gt hx hr
          omega
        have hst := @setHash_stable t t' t1 x hsh (a1.trans a)
          ((size_eq_of_length b1).trans (size_eq_of_length b)) (d1 x hxp hxnot) (by
          intro hl
          obtain ⟨k1, k2⟩ := child_ne_path hx hl
          rw [hn]
          have q1 : left x ≠ parent x n ∧ right x n ≠ parent x n := k2 _ (Or.inl rfl) hr
          have q2 : left x ∉ dirpath (parent x n) n := fun hm => (k2 _ (Or.inr hm) hr).1 rfl
          have q3 : right x n ∉ dirpath (parent x n) n := fun hm => (k2 _ (Or.inr hm) hr).2 rfl
          exact ⟨by rw [d1 _ q1.1 q2, d _ k1.1], by rw [d1 _ q1.2 q3, d _ k1.2]⟩)
        rcases hi with e | m
        · rw [e]; exact hst
        · rw [dirpath_cons hx hr] at m
          rcases List.mem_cons.mp m with e | m'
          · exact ih f t' t1 hn' h i (Or.inl e)
          · exact ih f t' t1 hn' h i (Or.inr m')
      · rename_i other hother
        exact absurd h (hother t1)

/-- The hashes are current after a successful `setHashPath(l)` on a tree that differs
from a tree with current hashes on the path of `l` only; the tree may have grown, when
the new slots are on the path and the right children off the path are the same. -/
theorem current_after_rehash {t t1 t2 : RatchetTree} {l : Nat} (hl : l < t1.size)
    (hc : hashesCurrent t) (hs : t1.Suite = t.Suite)
    (hlen1 : t1.Nodes.length = nodeWidth t1.size)
    (hoff : ∀ i, i < t1.Nodes.length → ¬ onLeafPath t1.size l i →
      i < t.Nodes.length ∧ t1.Nodes[i]? = t.Nodes[i]? ∧
        (0 < level i → right i t1.size = right i t.size))
    (h : t1.setHashPath l = .done (t2, none)) :
    hashesCurrent t2 ∧ t2.Suite = t.Suite ∧ t2.Nodes.length = t1.Nodes.length := by
  obtain ⟨a, b, _, d, _⟩ := setHashPath_frame hl h
  have hsz2 : t2.size = t1.size := size_eq_of_length b
  have hL := toNodeIndex_lt hl
  refine ⟨⟨by rw [b, hsz2]; exact hlen1, ?_⟩, a.trans hs, b⟩
  intro i hi
  rw [b] at hi
  by_cases hp : onLeafPath t1.size l i
  · unfold setHashPath at h
    exact setHashPathLoop_current _ hL _ _ _ rfl h i hp
  · have hget : ∀ j, j < t1.Nodes.length → ¬ onLeafPath t1.size l j →
        t2.Nodes[j]? = t.Nodes[j]? := by
      intro j hj hpj
      have hpj' : j ≠ toNodeIndex l ∧ j ∉ dirpath (toNodeIndex l) t1.size := by
        unfold onLeafPath at hpj
        exact ⟨fun e => hpj (Or.inl e), fun m => hpj (Or.inr m)⟩
      rw [d j hpj'.1 hpj'.2]
      exact (hoff j hj hpj).2.1
    obtain ⟨hit, _, hright⟩ := hoff i hi hp
    have hiw : i < nodeWidth t1.size := by rw [← hlen1]; exact hi
    apply setHash_current_congr (hc.2 i hit) (a.trans hs) (hget i hi hp)
    intro hlev
    have hpos : 0 < level i := Nat.pos_of_ne_zero hlev
    obtain ⟨o1, o2⟩ := children_off_path hl hiw hpos hp
    have l1 : left i < t1.Nodes.length := by rw [hlen1]; exact left_lt_nodeWidth hiw
    have l2 : right i t1.size < t1.Nodes.length := by rw [hlen1]; exact right_lt hiw
    refine ⟨hget _ l1 o1, ?_⟩
    rw [hsz2, hget _ l2 o2, hright hpos]

/-- Hashes that are current stay so in a tree with the same suite, width, public
content and stored hashes, when the encoder leaves the held private keys out. -/
theorem current_of_agree {t u : RatchetTree} (homit : t.Suite.omitsPrivateKeys)
    (hc : hashesCurrent t) (hs : u.Suite = t.Suite) (hlen : u.Nodes.length = t.Nodes.length)
    (hp : ∀ i, u.publicAt i = t.publicAt i) (hh : ∀ i, u.hashAt i = t.hashAt i) :
    hashesCurrent u := by
  refine ⟨by rw [hlen, size_eq_of_length hlen]; exact hc.1, ?_⟩
  intro i hi
  rw [hlen] at hi
  have hag : hashAgree t u (fun _ => True) := ⟨hs, hlen, hp, fun j _ => hh j⟩
  have hsim := setHash_sim homit hag i (fun _ => ⟨trivial, trivial⟩)
  rw [hc.2 i hi] at hsim
  cases hu : u.setHash i with
  | panic => rw [hu] at hsim; exact absurd hsim (by simp [sameOutcome])
  | hang => rw [hu] at hsim; exact absurd hsim (by simp [sameOutcome])
  | done r =>
    obtain ⟨u', e⟩ := r
    rw [hu] at hsim
    cases e with
    | some err => exact absurd hsim (by simp [sameOutcome])
    | none =>
      simp only [sameOutcome] at hsim
      obtain ⟨s, hsh, h1, h2, _⟩ := setHash_spec hu
      have hhi := hsim.2.2.2 i (Or.inl trivial)
      have hil : i < u.Nodes.length := (List.getElem?_eq_some.mp h1).1
      have e1 : u'.hashAt i = some hsh := by
        unfold hashAt
        rw [h2, setSlot_get_self _ hil]
        rfl
      have e2 : u.hashAt i = some s.Hash := by
        unfold hashAt
        rw [h1]
        rfl
      have e3 : hsh = s.Hash := by
        have := e1.symm.trans (hhi.trans ((hh i).symm.trans e2))
        simpa using this
      rw [h2, e3, setSlot_self h1]

/-- `SetHashAll` on a tree with current hashes succeeds and leaves the tree as it is. -/
theorem setHashSubtreeAux_current {t : RatchetTree} (hc : hashesCurrent t) :
    ∀ (f c : Nat), level c < f → c < t.Nodes.length →
      setHashSubtreeAux f t c = .done (t, none) := by
  intro f
  induction f with
  | zero => intro c h; omega
  | succ f ih =>
    intro c hf hcl
    simp only [setHashSubtreeAux]
    have h0 : ¬ t.Nodes.length = 0 := by omega
    simp only [h0, if_false]
    by_cases hl : level c = 0
    · simp only [hl, if_true]
      exact hc.2 c hcl
    · simp only [hl, if_false]
      have hpos : 0 < level c := Nat.pos_of_ne_zero hl
      have hcw : c < nodeWidth t.size := by rw [← hc.1]; exact hcl
      have h1 := level_left hpos
      have h2 := level_right_lt hcw hpos
      rw [ih (left c) (by omega) (by rw [hc.1]; exact left_lt_nodeWidth hcw)]
      simp only
      rw [ih (right c t.size) (by omega) (by rw [hc.1]; exact right_lt hcw)]
      simp only
      exact hc.2 c hcl

theorem SetHashAll_current {t : RatchetTree} (hc : hashesCurrent t) :
    t.SetHashAll = .done (t, none) := by
  unfold SetHashAll setHashSubtree
  by_cases h0 : t.Nodes.length = 0
  · simp [setHashSubtreeAux, h0]
  · apply setHashSubtreeAux_current hc _ _ (Nat.lt_succ_self _)
    rw [hc.1]
    apply root_lt
    unfold size leafWidth
    omega

end RatchetTree
end MLS

namespace MLS
namespace RatchetTree

/-! ## The mutators keep the stored hashes current -/

theorem current_after_rehash_same {t t1 t2 : RatchetTree} {l : Nat} (hl : l < t.size)
    (hc : hashesCurrent t) (hs : t1.Suite = t.Suite) (hlen : t1.Nodes.length = t.Nodes.length)
    (hoff : ∀ i, ¬ onLeafPath t.size l i → t1.Nodes[i]? = t.Nodes[i]?)
    (h : t1.setHashPath l = .done (t2, none)) :
    hashesCurrent t2 ∧ t2.Suite = t.Suite ∧ t2.Nodes.length = t.Nodes.length := by
  have hsz : t1.size = t.size := size_eq_of_length hlen
  obtain ⟨a, b, c⟩ := current_after_rehash (t := t) (by rw [hsz]; exact hl) hc hs
    (by rw [hlen, hsz]; exact hc.1)
    (by
      intro i hi hp
      rw [hsz] at hp
      exact ⟨by rw [← hlen]; exact hi, hoff i hp, fun _ => by rw [hsz]⟩) h
  exact ⟨a, b, c.trans hlen⟩

theorem BlankPath_current {t t' : RatchetTree} {l : Nat} (hl : l < t.size)
    (hc : hashesCurrent t) (h : t.BlankPath l = .done (t', none)) :
    hashesCurrent t' ∧ t'.Suite = t.Suite := by
  obtain ⟨tb, h1, h2, h3, h4⟩ := BlankPath_eq hl
  rw [h1] at h
  obtain ⟨a, b, _⟩ := current_after_rehash_same hl hc h2 h3
    (fun i hp => by rw [h4 i]; simp only [hp, if_false]) h
  exact ⟨a, b⟩

theorem UpdateLeaf_current {t t' : RatchetTree} {l : Nat} {kp : MLS.KeyPackage}
    (hl : l < t.size) (hc : hashesCurrent t) (h : t.UpdateLeaf l kp = .done (t', none)) :
    hashesCurrent t' ∧ t'.Suite = t.Suite := by
  simp only [UpdateLeaf] at h
  split at h
  · simp at h
  · split at h
    · simp at h
    · split at h
      · rename_i t1 e1 hb
        obtain ⟨t0, e0, g1, g2, g3, _, g5, _⟩ := BlankPath_spec hl
        rw [g1] at hb
        simp only [Run.done.injEq, Prod.mk.injEq] at hb
        obtain ⟨rfl, _⟩ := hb
        obtain ⟨a, b, _⟩ := @current_after_rehash_same _
          (t0.setSlot (toNodeIndex l) (newLeafNode kp)) _ _ hl hc (by simp [g2])
          (by simp [g3])
          (fun i hp => by
            have hne : toNodeIndex l ≠ i := fun e => hp (Or.inl e.symm)
            rw [setSlot_get_ne _ hne]
            exact g5 i hp) h
        exact ⟨a, b⟩
      · simp at h
      · simp at h

theorem Encap_current {t t' : RatchetTree} {l : Nat} {context s : Bytes} {path : DirectPath}
    {rs : Bytes} (hl : l < t.size) (hc : hashesCurrent t)
    (h : t.Encap l context s = .done (t', .ok (path, rs))) :
    hashesCurrent t' ∧ t'.Suite = t.Suite := by
  have hL := toNodeIndex_lt hl
  obtain ⟨secrets, S1, _, hloop, hhash, _⟩ := Encap_stages h
  obtain ⟨f1, f2, f3⟩ := encapLoop_frame _ _ _ _ _ _ _ _ hloop
  obtain ⟨a, b, _⟩ := current_after_rehash_same hl hc f1 f2
    (fun i hp => f3 i (fun v hv e => hp (Or.inr (by
      rw [← e]; exact (copath_parent_mem _ hL v hv).2)))) hhash
  exact ⟨a, b⟩

theorem Decap_current {t t' : RatchetTree} {order : SecretMap → SecretMap} {l : Nat}
    {context : Bytes} {path : DirectPath} {rs : Bytes} (horder : ∀ m, (order m).Perm m)
    (hl : l < t.size) (hc : hashesCurrent t)
    (h : t.Decap order l context path = .done (t', .ok rs)) :
    hashesCurrent t' ∧ t'.Suite = t.Suite := by
  have hL := toNodeIndex_lt hl
  simp only [Decap] at h
  split at h
  · simp at h
  · split at h
    · simp at h
    · simp at h
    · rename_i t1 hm
      obtain ⟨m1, m2, m3⟩ := mergeLoop_frame _ _ _ _ hm
      have hsz1 : t1.size = t.size := size_eq_of_length m2
      split at h
      · simp at h
      · simp at h
      · simp at h
      · rename_i overlap ps hd
        obtain ⟨o1, o2⟩ := decryptPathSecret_overlap (by rw [hsz1]; exact hl) hd
        rw [hsz1] at o1 o2
        split at h
        · simp at h
        · simp at h
        · simp at h
        · rename_i t2 rootSecret hi
          obtain ⟨i1, i2, i3⟩ := Implant_frame (fun m x hx => (horder m).subset hx)
            (by rw [hsz1]; exact o1) hi
          rw [hsz1] at i3
          split at h
          · simp at h
          · simp at h
          · simp at h
          · rename_i t3 hh
            simp only [Run.done.injEq, Prod.mk.injEq, Except.ok.injEq] at h
            obtain ⟨rfl, _⟩ := h
            obtain ⟨a, b, _⟩ := current_after_rehash_same hl hc (i1.trans m1) (i2.trans m2)
              (fun i hp => by
                have hnd : i ∉ dirpath (toNodeIndex l) t.size := fun m => hp (Or.inr m)
                rw [i3 i (fun e => hnd (by rw [e]; exact o2))
                  (fun m => hnd (mem_dirpath_trans _ hL _ o2 _ m))]
                exact m3 i hnd) hh
            exact ⟨a, b⟩

theorem AddLeaf_current {t t' : RatchetTree} {l : Nat} {kp : MLS.KeyPackage}
    (hl : l ≤ t.size) (hc : hashesCurrent t) (h : t.AddLeaf l kp = .done (t', none)) :
    hashesCurrent t' ∧ t'.Suite = t.Suite := by
  simp only [AddLeaf] at h
  split at h
  · simp at h
  · rename_i t2 h2
    have hwidth := hc.1
    have hlen1 : ((t.grow (toNodeIndex l + 1)).setSlot (toNodeIndex l) (newLeafNode kp)).Nodes.length
        = max t.Nodes.length (toNodeIndex l + 1) := by
      rw [setSlot_length, grow_length]
    have hsize : t.size = (t.Nodes.length + 1) / 2 := rfl
    have hcases : (l < t.size ∧ max t.Nodes.length (toNodeIndex l + 1) = t.Nodes.length) ∨
        (l = t.size ∧ max t.Nodes.length (toNodeIndex l + 1) = 2 * l + 1) := by
      unfold nodeWidth at hwidth
      unfold toNodeIndex
      rcases Nat.lt_or_ge l t.size with h1 | h1
      · left
        exact ⟨h1, Nat.max_eq_left (by omega)⟩
      · right
        exact ⟨by omega, Nat.max_eq_right (by omega)⟩
    have hsz1 : ((t.grow (toNodeIndex l + 1)).setSlot (toNodeIndex l) (newLeafNode kp)).size =
        (max t.Nodes.length (toNodeIndex l + 1) + 1) / 2 := by
      unfold size leafWidth
      rw [hlen1]
    have hl1 : l < ((t.grow (toNodeIndex l + 1)).setSlot (toNodeIndex l) (newLeafNode kp)).size := by
      rw [hsz1]
      rcases hcases with ⟨c1, c2⟩ | ⟨c1, c2⟩
      · rw [c2, ← hsize]; exact c1
      · rw [c2]; omega
    have hL1 := toNodeIndex_lt hl1
    obtain ⟨u1, u2, u3, _⟩ := addUnmergedLoop_spec l _ _ _ (dirpath_nodup _ hL1)
      (fun v hv => mem_dirpath_leaf_ne hl1 hv) h2
    have hsz2 : t2.size =
        ((t.grow (toNodeIndex l + 1)).setSlot (toNodeIndex l) (newLeafNode kp)).size :=
      size_eq_of_length u2
    have hlen2 : t2.Nodes.length = max t.Nodes.length (toNodeIndex l + 1) := u2.trans hlen1
    obtain ⟨a, b, _⟩ := @current_after_rehash t t2 _ _ (by rw [hsz2]; exact hl1) hc
      (by rw [u1]; simp)
      (by
        rw [hlen2, hsz2, hsz1]
        unfold nodeWidth at hwidth ⊢
        rcases hcases with ⟨c1, c2⟩ | ⟨c1, c2⟩
        · rw [c2]; omega
        · rw [c2]; omega)
      (by
        intro i hi hp
        rw [hsz2] at hp
        rw [hlen2] at hi
        have hne : i ≠ toNodeIndex l := fun e => hp (Or.inl e)
        have hnd : i ∉ dirpath (toNodeIndex l)
            ((t.grow (toNodeIndex l + 1)).setSlot (toNodeIndex l) (newLeafNode kp)).size :=
          fun m => hp (Or.inr m)
        have hit : i < t.Nodes.length := by
          rcases hcases with ⟨c1, c2⟩ | ⟨c1, c2⟩
          · rw [c2] at hi; exact hi
          · rw [c2] at hi
            rw [hsz1, c2] at hnd
            have e2 : (2 * l + 1 + 1) / 2 = l + 1 := by omega
            rw [e2] at hnd
            unfold toNodeIndex at hne
            by_cases h0 : l = 0
            · omega
            · have hmem := last_parent_mem_dirpath (n := l) (by omega)
              have hne2 : i ≠ 2 * l - 1 := fun e => hnd (by rw [e]; exact hmem)
              unfold nodeWidth at hwidth
              omega
        refine ⟨hit, ?_, ?_⟩
        · rw [u3 i hnd, setSlot_get_ne _ (Ne.symm hne), grow_get_old hit]
        · intro hlev
          rw [hsz2, hsz1]
          rcases hcases with ⟨c1, c2⟩ | ⟨c1, c2⟩
          · rw [c2, ← hsize]
          · rw [c2]
            have e2 : (2 * l + 1 + 1) / 2 = l + 1 := by omega
            rw [e2, ← c1]
            rw [hsz1, c2, e2] at hp
            apply right_grow _ hlev hp
            rw [c1, ← hwidth]
            exact hit) h
    exact ⟨a, by rw [b]⟩

theorem SetLeafPrivateKey_current {t t' : RatchetTree} {l : Nat} {priv : HPKEPrivateKey}
    (homit : t.Suite.omitsPrivateKeys) (hc : hashesCurrent t)
    (h : t.SetLeafPrivateKey l priv = .done (t', none)) :
    hashesCurrent t' ∧ t'.Suite = t.Suite := by
  simp only [SetLeafPrivateKey] at h
  split at h
  · simp at h
  · rename_i slot hs
    split at h
    · simp at h
    · rename_i nd hn
      split at h
      · simp at h
      · rename_i kp hk
        simp only [Run.done.injEq, Prod.mk.injEq, and_true] at h
        subst h
        have hil : toNodeIndex l < t.Nodes.length := (List.getElem?_eq_some.mp hs).1
        refine ⟨current_of_agree homit hc (by simp) (by simp) ?_ ?_, by simp⟩
        · intro i
          unfold publicAt
          by_cases e : toNodeIndex l = i
          · subst e
            rw [contentAt_of_get (setSlot_get_self _ hil), contentAt_of_get hs, hn]
            simp only [Option.map_some', Option.some.injEq, Node.pub, hk]
            rfl
          · rw [contentAt_eq_of_get (setSlot_get_ne _ e)]
        · intro i
          unfold hashAt
          by_cases e : toNodeIndex l = i
          · subst e
            rw [setSlot_get_self _ hil, hs]
            rfl
          · rw [setSlot_get_ne _ e]

theorem fresh_current (suite : CipherSuite) : hashesCurrent (NewRatchetTree suite) :=
  ⟨by simp [NewRatchetTree, size, leafWidth, nodeWidth],
    fun i hi => absurd hi (by simp [NewRatchetTree])⟩

/-- The trees built by the mutators that re-hash have current hashes, when the encoder
leaves the held private keys out. -/
theorem Built_current {suite : CipherSuite} (homit : suite.omitsPrivateKeys) {t : RatchetTree}
    (hb : Built suite t) : hashesCurrent t ∧ t.Suite = suite := by
  induction hb with
  | fresh => exact ⟨fresh_current suite, rfl⟩
  | addLeaf l kp _ hl h ih =>
    obtain ⟨a, b⟩ := AddLeaf_current hl ih.1 h
    exact ⟨a, b.trans ih.2⟩
  | updateLeaf l kp _ hl h ih =>
    obtain ⟨a, b⟩ := UpdateLeaf_current hl ih.1 h
    exact ⟨a, b.trans ih.2⟩
  | blankPath l _ hl h ih =>
    obtain ⟨a, b⟩ := BlankPath_current hl ih.1 h
    exact ⟨a, b.trans ih.2⟩
  | setLeafPrivateKey l priv _ h ih =>
    obtain ⟨a, b⟩ := SetLeafPrivateKey_current (by rw [ih.2]; exact homit) ih.1 h
    exact ⟨a, b.trans ih.2⟩
  | encap l context s path rs _ hl h ih =>
    obtain ⟨a, b⟩ := Encap_current hl ih.1 h
    exact ⟨a, b.trans ih.2⟩
  | decap order l context path rs _ horder hl h ih =>
    obtain ⟨a, b⟩ := Decap_current horder hl ih.1 h
    exact ⟨a, b.trans ih.2⟩

/-- Two trees with current hashes, the same suite, width and public content have the
same root hash, and `SetHashAll` leaves each as it is. -/
theorem RootHash_of_current {t u : RatchetTree} (hsuite : u.Suite = t.Suite)
    (homit : t.Suite.omitsPrivateKeys) (hwidth : u.Nodes.length = t.Nodes.length)
    (hcontent : ∀ i, u.publicAt i = t.publicAt i) (ht : hashesCurrent t)
    (hu : hashesCurrent u) :
    t.RootHash = u.RootHash ∧ t.SetHashAll = .done (t, none) ∧
      u.SetHashAll = .done (u, none) := by
  have h1 := SetHashAll_current ht
  have h2 := SetHashAll_current hu
  refine ⟨?_, h1, h2⟩
  rcases SetHashAll_sim t u hsuite homit hwidth hcontent with h | h | h | h
  · rw [h1] at h; simp at h
  · rw [h1] at h; simp at h
  · obtain ⟨t', u', e, a, _⟩ := h
    rw [h1] at a; simp at a
  · obtain ⟨t', u', a, b, c, _⟩ := h
    rw [h1] at a
    rw [h2] at b
    simp only [Run.done.injEq, Prod.mk.injEq, and_true] at a b
    rw [a, b]
    exact c

end RatchetTree
end MLS

namespace MLS
namespace RatchetTree

/-! ## The claims -/

theorem demoSuite_omitsPrivateKeys : demoSuite.omitsPrivateKeys := by
  intro a b h
  cases a with
  | leaf i =>
    cases b with
    | leaf j =>
      obtain ⟨li, ki⟩ := i
      obtain ⟨lj, kj⟩ := j
      simp only [HashInput.pub, HashInput.leaf.injEq, LeafNodeHashInput.mk.injEq] at h
      obtain ⟨rfl, hk⟩ := h
      cases ki with
      | none =>
        cases kj with
        | none => rfl
        | some q => simp at hk
      | some p =>
        cases kj with
        | none => simp at hk
        | some q =>
          simp only [Option.map_some', Option.some.injEq, KeyPackage.pub] at hk
          have h1 : p.InitKey = q.InitKey := by
            have := congrArg MLS.KeyPackage.InitKey hk; simpa using this
          have h2 : p.Credential = q.Credential := by
            have := congrArg MLS.KeyPackage.Credential hk; simpa using this
          simp [demoSuite, demoMarshal, h1, h2]
    | parent j => simp [HashInput.pub] at h
  | parent i =>
    cases b with
    | leaf j => simp [HashInput.pub] at h
    | parent j =>
      obtain ⟨ni, pi, lhi, rhi⟩ := i
      obtain ⟨nj, pj, lhj, rhj⟩ := j
      simp only [HashInput.pub, HashInput.parent.injEq, ParentNodeHashInput.mk.injEq] at h
      obtain ⟨rfl, hp, rfl, rfl⟩ := h
      cases pi with
      | none =>
        cases pj with
        | none => rfl
        | some q => simp at hp
      | some p =>
        cases pj with
        | none => simp at hp
        | some q =>
          simp only [Option.map_some', Option.some.injEq, ParentNode.pub] at hp
          have h1 : p.PublicKey = q.PublicKey := by
            have := congrArg ParentNode.PublicKey hp; simpa using this
          have h2 : p.UnmergedLeaves = q.UnmergedLeaves := by
            have := congrArg ParentNode.UnmergedLeaves hp; simpa using this
          have h3 : p.ParentHash = q.ParentHash := by
            have := congrArg ParentNode.ParentHash hp; simpa using this
          simp [demoSuite, demoMarshal, h1, h2, h3]

/-- C2, the code at the failing input: in the tree of two leaves whose parent (slot 1,
occupied) has the unmerged list `[1]`, `resolve(1)` is `[1, 1]`: the unmerged leaf 1 is
listed as node 1, the parent itself, where the claim has `toNodeIndex(1) = 2`. -/
theorem resolve_lists_unmerged_leaf_unconverted :
    demoTree3.resolve 1 = .done [1, 1] ∧ [1, 1] ≠ 1 :: [1].map toNodeIndex := by
  decide

/-- C5, the code at the failing input: three members join, member 0 sends a path, a
fourth member joins in the leftmost free leaf; every call returns without an error, and
in the tree so reached `resolve(3)` lists node 3 twice. -/
theorem resolve_duplicate_in_reachable_tree :
    demoFresh.AddLeaf 0 (demoKeyPackage 0) =
        .done (Run.tree demoFresh (demoFresh.AddLeaf 0 (demoKeyPackage 0)), none) ∧
      (Run.tree demoFresh (demoFresh.AddLeaf 0 (demoKeyPackage 0))).AddLeaf 1 (demoKeyPackage 1) =
        .done (Run.tree (Run.tree demoFresh (demoFresh.AddLeaf 0 (demoKeyPackage 0)))
          ((Run.tree demoFresh (demoFresh.AddLeaf 0 (demoKeyPackage 0))).AddLeaf 1
            (demoKeyPackage 1)), none) ∧
      (Run.tree (Run.tree demoFresh (demoFresh.AddLeaf 0 (demoKeyPackage 0)))
          ((Run.tree demoFresh (demoFresh.AddLeaf 0 (demoKeyPackage 0))).AddLeaf 1
            (demoKeyPackage 1))).AddLeaf 2 (demoKeyPackage 2) = .done (demoJoined3, none) ∧
      (∃ out, demoJoined3.Encap 0 [] [1, 1] = .done (demoSent, .ok out)) ∧
      demoSent.LeftmostFree = 3 ∧
      demoSent.AddLeaf 3 (demoKeyPackage 3) = .done (demoGrown, none) ∧
      demoGrown.resolve 3 = .done [3, 3] ∧ ¬ [3, 3].Nodup :=
  ⟨rfl, rfl, rfl, ⟨_, rfl⟩, by decide, rfl, by decide, by decide⟩

/-! ### C4 -/

theorem setHash_ne_hang (t : RatchetTree) (c : Nat) : t.setHash c ≠ .hang := by
  rw [setHash_eq]
  split
  · split <;> simp
  · simp

theorem setHashSubtreeAux_ne_hang : ∀ (f : Nat) (t : RatchetTree) (c : Nat),
    c < nodeWidth t.size → level c < f → setHashSubtreeAux f t c ≠ .hang := by
  intro f
  induction f with
  | zero => intro t c _ h; omega
  | succ f ih =>
    intro t c hc hf
    simp only [setHashSubtreeAux]
    split
    · simp
    · split
      · exact setHash_ne_hang t c
      · rename_i hl
        have hpos : 0 < level c := Nat.pos_of_ne_zero hl
        have h1 := level_left hpos
        have h2 := level_right_lt hc hpos
        split
        · rename_i t1 hleft
          have hsz : t1.size = t.size := size_eq_of_length (setHashSubtreeAux_frame _ _ _ _ _ hleft).2.1
          split
          · rename_i t2 hright
            exact setHash_ne_hang t2 c
          · rename_i other hother
            rw [hsz]
            exact ih t1 (right c t.size) (by rw [hsz]; exact right_lt hc) (by omega)
        · rename_i other hother
          exact ih t (left c) (left_lt_nodeWidth hc) (by omega)

theorem SetHashAll_ne_hang (t : RatchetTree) : t.SetHashAll ≠ .hang := by
  unfold SetHashAll setHashSubtree
  by_cases h0 : t.Nodes.length = 0
  · simp [setHashSubtreeAux, h0]
  · apply setHashSubtreeAux_ne_hang _ _ _ _ (Nat.lt_succ_self _)
    apply root_lt
    unfold size leafWidth; omega

/-! ### C6, C7, C8 -/

/-- C6: for every tree of size `l` and every key package `kp`, whenever `AddLeaf(l, kp)`
returns (with or without a hashing error), the node vector has width `2l + 1`, slot `2l`
is an occupied leaf holding `kp` and `KeyPackage(l) = (kp, true)`, every blank node on
`dirpath(2l, l+1)` is still blank, every node on it that was occupied has its previous
unmerged list with `l` appended, and every other slot that existed has its node
unchanged; and the call does return when every occupied odd slot holds a parent
payload. -/
theorem AddLeaf_post_state (t : RatchetTree) (kp : MLS.KeyPackage) (l : Nat) (hsize : t.size = l) :
    (∀ t' e, t.AddLeaf l kp = .done (t', e) →
      t'.Nodes.length = 2 * l + 1 ∧
      t'.contentAt (2 * l) = some (some { Leaf := some kp, Parent := none, Hash := none }) ∧
      t'.KeyPackage l = some (some kp, true) ∧
      (∀ v ∈ dirpath (2 * l) (l + 1),
        ((t.contentAt v = none ∨ t.contentAt v = some none) → t'.contentAt v = some none) ∧
        (∀ nd p, t.contentAt v = some (some nd) → nd.Parent = some p →
          t'.contentAt v = some (some { nd with
            Parent := some { p with UnmergedLeaves := p.UnmergedLeaves ++ [l] } }))) ∧
      (∀ i, i < t.Nodes.length → i ∉ dirpath (2 * l) (l + 1) → t'.contentAt i = t.contentAt i)) ∧
    ((∀ i nd, i % 2 = 1 → t.contentAt i = some (some nd) → nd.Parent ≠ none) →
      ∃ t' e, t.AddLeaf l kp = .done (t', e)) :=
  AddLeaf_spec t kp l hsize

theorem demoTree3_kinds (i : Nat) (nd : Node) (hodd : i % 2 = 1)
    (h : demoTree3.contentAt i = some (some nd)) : nd.Parent ≠ none := by
  match i with
  | 0 => omega
  | 1 =>
    simp only [contentAt, demoTree3, demoParent, List.getElem?_cons_succ, List.getElem?_cons_zero,
      Option.map_some', Option.some.injEq] at h
    rw [← h]; simp
  | 2 => omega
  | (n + 3) => simp [contentAt, demoTree3] at h

/-- C6, a witness: a third leaf is added to the tree of two leaves. -/
theorem AddLeaf_post_state_witness :
    demoTree3.size = 2 ∧
      ∃ t' e, demoTree3.AddLeaf 2 (demoKeyPackage 2) = .done (t', e) ∧
        t'.Nodes.length = 5 ∧ t'.KeyPackage 2 = some (some (demoKeyPackage 2), true) := by
  refine ⟨by decide, ?_⟩
  have h := AddLeaf_post_state demoTree3 (demoKeyPackage 2) 2 (by decide)
  obtain ⟨t', e, hrun⟩ := h.2 demoTree3_kinds
  obtain ⟨a, _, c, _⟩ := h.1 t' e hrun
  exact ⟨t', e, hrun, a, c⟩

/-- C7, the claim fails: in the tree of one leaf that holds key package 0, `AddLeaf(1, kp)`
with the same key package succeeds, and `Find(kp)` then returns `(0, true)`, the first
slot that holds it. -/
theorem Find_returns_first_equal :
    demoWritten.size = 1 ∧
      demoWritten.AddLeaf 1 (demoKeyPackage 0) =
        .done (Run.tree demoWritten (demoWritten.AddLeaf 1 (demoKeyPackage 0)), none) ∧
      (Run.tree demoWritten (demoWritten.AddLeaf 1 (demoKeyPackage 0))).Find (demoKeyPackage 0) =
        some (0, true) :=
  ⟨by decide, rfl, by decide⟩

theorem demoWritten_others (j : Nat) (nd : Node) (hj : j < 1)
    (h : demoWritten.contentAt (2 * j) = some (some nd)) :
    ∃ q, nd.Leaf = some q ∧ q.Equals (demoKeyPackage 1) = false := by
  have : j = 0 := by omega
  subst this
  have e : demoWritten.contentAt (2 * 0) =
      some (some { Leaf := some (demoKeyPackage 0), Parent := none, Hash := none }) := by decide
  rw [e] at h
  simp only [Option.some.injEq] at h
  rw [← h]
  exact ⟨demoKeyPackage 0, rfl, by decide⟩

/-- C7, a witness: a second member with another key package joins the one-leaf tree. -/
theorem Find_after_AddLeaf_witness :
    demoWritten.size = 1 ∧
      (∀ j nd, j < 1 → demoWritten.contentAt (2 * j) = some (some nd) →
        ∃ q, nd.Leaf = some q ∧ q.Equals (demoKeyPackage 1) = false) ∧
      demoWritten.AddLeaf 1 (demoKeyPackage 1) =
        .done (Run.tree demoWritten (demoWritten.AddLeaf 1 (demoKeyPackage 1)), none) ∧
      (Run.tree demoWritten (demoWritten.AddLeaf 1 (demoKeyPackage 1))).Find (demoKeyPackage 1) =
        some (1, true) :=
  ⟨by decide, demoWritten_others, rfl,
    Find_after_AddLeaf demoWritten (demoKeyPackage 1) 1 (by decide) demoWritten_others _ rfl⟩

/-- C8, the claim fails: in the tree of width 3 whose leaf 0 is blank, `AddLeaf(2, kp)`
succeeds, and `LeftmostFree()` then returns 0, not 3. -/
theorem LeftmostFree_returns_blank_leaf :
    demoGap.size = 2 ∧
      demoGap.AddLeaf 2 (demoKeyPackage 2) =
        .done (Run.tree demoGap (demoGap.AddLeaf 2 (demoKeyPackage 2)), none) ∧
      (Run.tree demoGap (demoGap.AddLeaf 2 (demoKeyPackage 2))).LeftmostFree = 0 :=
  ⟨by decide, rfl, by decide⟩

theorem demoWritten_full (j : Nat) (hj : j < 1) :
    ∃ nd, demoWritten.contentAt (2 * j) = some (some nd) := by
  have : j = 0 := by omega
  subst this
  exact ⟨_, rfl⟩

/-- C8, a witness: a second member joins the one-leaf tree. -/
theorem LeftmostFree_after_AddLeaf_witness :
    demoWritten.size = 1 ∧
      (∀ j, j < 1 → ∃ nd, demoWritten.contentAt (2 * j) = some (some nd)) ∧
      demoWritten.AddLeaf 1 (demoKeyPackage 1) =
        .done (Run.tree demoWritten (demoWritten.AddLeaf 1 (demoKeyPackage 1)), none) ∧
      (Run.tree demoWritten (demoWritten.AddLeaf 1 (demoKeyPackage 1))).LeftmostFree = 1 + 1 :=
  ⟨by decide, demoWritten_full, rfl,
    LeftmostFree_after_AddLeaf demoWritten (demoKeyPackage 1) 1 (by decide) demoWritten_full _ rfl⟩

/-! ### C9, C10 -/

/-- C9, a witness: leaf 1 of the tree of two leaves is updated. -/
theorem UpdateLeaf_post_state_witness :
    1 < demoTree3.size ∧
      ∃ t' e, demoTree3.UpdateLeaf 1 (demoKeyPackage 7) = .done (t', e) ∧
        t'.contentAt 1 = some none ∧ t'.KeyPackage 1 = some (some (demoKeyPackage 7), true) := by
  refine ⟨by decide, ?_⟩
  obtain ⟨t', e, h1, _, h3, h4⟩ :=
    (UpdateLeaf_post_state demoTree3 (demoKeyPackage 7) 1 (by decide)).2 ⟨_, rfl⟩
  exact ⟨t', e, h1, h3 1 (by decide), h4⟩

/-- C10, a witness: the path of leaf 0 of the tree of two leaves is blanked twice. -/
theorem BlankPath_idempotent_witness :
    (0 < demoTree3.size ∨ demoTree3.Nodes = []) ∧
      ∃ t1 e, demoTree3.BlankPath 0 = .done (t1, e) ∧ t1.BlankPath 0 = .done (t1, e) :=
  ⟨Or.inl (by decide), BlankPath_idempotent demoTree3 0 (Or.inl (by decide))⟩

/-! ### C3 -/

/-- C3, the claim fails: `Decap` from sender 0 on a tree that holds no private key
returns the error "No private key available for decrypt", and the tree it leaves is not
the tree it was given: the public key of the path is merged into slot 1. -/
theorem Decap_error_leaves_merged_keys :
    demoTree3.Decap id 0 [] demoPath =
        .done (Run.tree demoTree3 (demoTree3.Decap id 0 [] demoPath), .error .noPrivateKey) ∧
      (Run.tree demoTree3 (demoTree3.Decap id 0 [] demoPath)).Nodes ≠ demoTree3.Nodes :=
  ⟨rfl, by decide⟩

/-- C3, as amended: for every tree, every sender `l < size`, context and path, with the
secrets map of `Implant` ranged over in any order: if the path has not the length of
`dirpath(toNodeIndex(l), size)`, `Decap` returns the malformed-path error and the tree
exactly as it was; and if `Decap` returns any other error, the width is unchanged, every
slot off the path from the sender's leaf to the root is exactly as it was, node and
stored hash, and the sender's leaf holds the same node (what was merged into or implanted
on the direct path is not rolled back). -/
theorem Decap_error_frame (t : RatchetTree) (order : SecretMap → SecretMap) (l : Nat)
    (context : Bytes) (path : DirectPath) (hl : l < t.size) (horder : ∀ m, (order m).Perm m) :
    (path.Nodes.length ≠ (dirpath (toNodeIndex l) t.size).length →
      t.Decap order l context path = .done (t, .error .malformedDirectPath)) ∧
    (∀ t' err, t.Decap order l context path = .done (t', .error err) →
      t'.Suite = t.Suite ∧ t'.Nodes.length = t.Nodes.length ∧
      (∀ i, ¬ onLeafPath t.size l i → t'.Nodes[i]? = t.Nodes[i]?) ∧
      t'.contentAt (toNodeIndex l) = t.contentAt (toNodeIndex l)) :=
  ⟨(Decap_frame t order l context path hl horder).1,
    fun t' _ h => (Decap_frame t order l context path hl horder).2 t' _ h⟩

/-- C3, a witness: the failing `Decap` above leaves the two leaves as they were. -/
theorem Decap_error_frame_witness :
    0 < demoTree3.size ∧ (∀ m : SecretMap, (id m).Perm m) ∧
      (Run.tree demoTree3 (demoTree3.Decap id 0 [] demoPath)).Nodes[2]? = demoTree3.Nodes[2]? ∧
      (Run.tree demoTree3 (demoTree3.Decap id 0 [] demoPath)).contentAt (toNodeIndex 0) =
        demoTree3.contentAt (toNodeIndex 0) := by
  have h := (Decap_error_frame demoTree3 id 0 [] demoPath (by decide)
    (fun m => List.Perm.refl m)).2 _ .noPrivateKey rfl
  exact ⟨by decide, fun m => List.Perm.refl m, h.2.2.1 2 (by decide), h.2.2.2⟩

end RatchetTree
end MLS

namespace MLS
namespace RatchetTree

/-! ### C1 -/

end RatchetTree
end MLS

namespace MLS

/-! ## The claims on the tree math -/

/-- C19: for every size and every internal node `n` (`level n > 0`) below
`nodeWidth size` (there is one only when the size is at least 1), both children point
back to it: `parent (left n) size = n` and `parent (right n size) size = n`. -/
theorem children_point_back (size n : Nat) (hn : n < nodeWidth size) (hlevel : 0 < level n) :
    parent (left n) size = n ∧ parent (right n size) size = n :=
  ⟨parent_left hn hlevel, parent_right hn hlevel⟩

/-- C19, a witness: node 11 of the tree on eleven leaves, whose children are 9 and 13. -/
theorem children_point_back_witness :
    11 < nodeWidth 11 ∧ 0 < level 11 ∧ left 11 = 9 ∧ right 11 11 = 13 ∧
      parent (left 11) 11 = 11 ∧ parent (right 11 11) 11 = 11 :=
  ⟨by decide, by decide, by decide, by decide,
    children_point_back 11 11 (by decide) (by decide)⟩

/-- C20: for every size and every node `n` below `nodeWidth size` (there is one only
when the size is at least 1) other than the root, the sibling of `n` is in range,
differs from `n`, and has `n` as its own sibling. -/
theorem sibling_involution (size n : Nat) (hn : n < nodeWidth size) (hroot : n ≠ root size) :
    sibling n size < nodeWidth size ∧ sibling n size ≠ n ∧
      sibling (sibling n size) size = n :=
  ⟨sibling_lt hn hroot, sibling_ne_self hn hroot, sibling_sibling hn hroot⟩

/-- C20, a witness: node 7 of the tree on eleven leaves, whose sibling is 19. -/
theorem sibling_involution_witness :
    7 < nodeWidth 11 ∧ 7 ≠ root 11 ∧ sibling 7 11 = 19 ∧
      sibling 7 11 < nodeWidth 11 ∧ sibling 7 11 ≠ 7 ∧ sibling (sibling 7 11) 11 = 7 :=
  ⟨by decide, by decide, by decide, sibling_involution 11 7 (by decide) (by decide)⟩

namespace RatchetTree

/-! ## The claims on the queries and the exported secrets -/

/-- C15, as claimed, fails: on the fresh, empty tree `RootHash()` indexes slot 0 of an
empty node vector and `KeyPackage(0)` does the same, and `KeyPackage(5)` is out of range
on a tree of two leaves; each panics.  The other queries return on the empty tree. -/
theorem queries_panic_out_of_range :
    demoFresh.Nodes = [] ∧ demoFresh.RootHash = none ∧ demoFresh.KeyPackage 0 = none ∧
      demoTree3.KeyPackage 5 = none ∧ demoFresh.Find (demoKeyPackage 0) = some (0, false) ∧
      demoFresh.LeftmostFree = 0 ∧ demoFresh.GetSecrets = some { PrivateKeys := [] } := by
  decide

/-- C15, amended: on a tree that is not empty, whose occupied leaf slots hold key
packages and whose occupied slots all hold a payload, `RootHash()`, `Find(kp)` and
`GetSecrets()` return, `KeyPackage(l)` returns for every `l` below the size, and every
leaf slot that `LeftmostFree()` and `Find` read is in range. -/
theorem queries_return (t : RatchetTree) (kp : MLS.KeyPackage) (l : Nat)
    (hne : t.Nodes ≠ []) (hl : l < t.size)
    (hleaf : ∀ i nd, i < t.size → t.contentAt (toNodeIndex i) = some (some nd) → nd.Leaf ≠ none)
    (hkind : ∀ i nd, t.contentAt i = some (some nd) → nd.Type ≠ none) :
    (∃ h, t.RootHash = some h) ∧ (∃ r, t.KeyPackage l = some r) ∧ (∃ r, t.Find kp = some r) ∧
      (∃ ts, t.GetSecrets = some ts) ∧
      ∀ i, i < t.size → ∃ slot, t.Nodes[toNodeIndex i]? = some slot := by
  refine ⟨RootHash_some hne, KeyPackage_some hl (fun nd h => hleaf l nd hl h),
    Find_some t kp hleaf, ?_, fun i hi => leaf_in_range hi⟩
  obtain ⟨keys, hk, _⟩ := getSecretsFrom_spec t.Nodes 0 (by
    intro slot hs nd hn
    obtain ⟨i, hi, e⟩ := List.getElem_of_mem hs
    apply hkind i nd
    have hg : t.Nodes[i]? = some slot := by simp [hi, e]
    rw [contentAt_of_get hg, hn])
  exact ⟨{ PrivateKeys := keys }, by unfold GetSecrets; rw [hk]⟩

/-- C15, a witness: the four-leaf tree reached by three joins, a path sent by member 0
and a fourth join. -/
theorem queries_return_witness :
    demoGrown.Nodes ≠ [] ∧ 3 < demoGrown.size ∧
      (∃ h, demoGrown.RootHash = some h) ∧ (∃ r, demoGrown.KeyPackage 3 = some r) ∧
      (∃ r, demoGrown.Find (demoKeyPackage 3) = some r) ∧
      (∃ ts, demoGrown.GetSecrets = some ts) ∧
      ∀ i, i < demoGrown.size → ∃ slot, demoGrown.Nodes[toNodeIndex i]? = some slot :=
  ⟨by decide, by decide,
    queries_return demoGrown (demoKeyPackage 3) 3 (by decide) (by decide)
      (fun i nd _ hc => @content_bounded demoGrown (fun j nd => j % 2 = 0 → nd.Leaf ≠ none)
        (by decide) (toNodeIndex i) nd hc (by unfold toNodeIndex; omega))
      (content_bounded (by decide))⟩

/-- C11, as claimed, fails: over a backend whose `Encrypt` fails, `Encap(0, [], [1, 1])`
on the four-leaf tree (leaf 0 occupied, slot 1 blank) returns the error of the backend,
and slot 1, the parent of the sender's leaf, is left occupied by the new parent node. -/
theorem Encap_error_keeps_new_parent :
    demoFourFailing.KeyPackage 0 = some (some (demoKeyPackage 0), true) ∧
      demoFourFailing.contentAt 1 = some none ∧
      ∃ t' nd, demoFourFailing.Encap 0 [] [1, 1] = .done (t', .error (.backend 3)) ∧
        t'.contentAt 1 = some (some nd) :=
  ⟨rfl, rfl, _, _, rfl, rfl⟩

/-- C11, amended: `Encap` is not rolled back.  For every tree and `from < size`, a
failing `Encap` leaves the suite, the width, every slot off the path from the sender's
leaf to the root (node and stored hash) and the node of the sender's leaf as they were;
the parents of the direct path replaced before the failure stay replaced.  The tree is
exactly as before when the first derivation fails: if the sender's leaf is not the root
and `Derive` fails on the path secret of its parent, `Encap` returns that error and the
tree. -/
theorem Encap_error_frame (t : RatchetTree) (a : Nat) (context s : Bytes) (ha : a < t.size) :
    (∀ t' e, t.Encap a context s = .done (t', .error e) →
      t'.Suite = t.Suite ∧ t'.Nodes.length = t.Nodes.length ∧
      (∀ i, ¬ onLeafPath t.size a i → t'.Nodes[i]? = t.Nodes[i]?) ∧
      t'.contentAt (toNodeIndex a) = t.contentAt (toNodeIndex a)) ∧
    (∀ code, toNodeIndex a ≠ root t.size → t.Suite.Derive (t.pathStep s) = .error code →
      t.Encap a context s = .done (t, .error (.backend code))) := by
  have hL := toNodeIndex_lt ha
  obtain ⟨secrets, hps, _, hget, hchain, _⟩ := PathSecrets_spec t s hL
  constructor
  · intro t' e h
    dsimp only [Encap] at h
    rw [hps] at h
    simp only at h
    cases hl : encapLoop (toNodeIndex a) context secrets (copath (toNodeIndex a) t.size) t [] with
    | panic => rw [hl] at h; simp at h
    | hang => rw [hl] at h; simp at h
    | done p =>
      obtain ⟨S1, r⟩ := p
      rw [hl] at h
      obtain ⟨f1, f2, f3⟩ := encapLoop_frame _ _ _ _ _ _ _ _ hl
      have hoff : ∀ i, i ∉ dirpath (toNodeIndex a) t.size → S1.Nodes[i]? = t.Nodes[i]? := by
        intro i hi
        apply f3 i
        intro v hv e'
        exact hi (e' ▸ (copath_parent_mem _ hL v hv).2)
      have hleaf : toNodeIndex a ∉ dirpath (toNodeIndex a) t.size := not_mem_dirpath_self hL
      cases r with
      | error e1 =>
        simp only [Run.done.injEq, Prod.mk.injEq] at h
        rw [← h.1]
        refine ⟨f1, f2, ?_, contentAt_eq_of_get (hoff _ hleaf)⟩
        intro i hi
        unfold onLeafPath at hi
        simp only [not_or] at hi
        exact hoff i hi.2
      | ok nodes =>
        simp only at h
        have hsz : S1.size = t.size := size_eq_of_length f2
        cases hh : S1.setHashPath a with
        | panic => rw [hh] at h; simp at h
        | hang => rw [hh] at h; simp at h
        | done q =>
          obtain ⟨S2, e2⟩ := q
          rw [hh] at h
          cases e2 with
          | none => simp at h
          | some err =>
            simp only [Run.done.injEq, Prod.mk.injEq] at h
            rw [← h.1]
            obtain ⟨g1, g2, g3, g4, _⟩ := setHashPath_frame (by rw [hsz]; exact ha) hh
            rw [hsz] at g4
            refine ⟨g1.trans f1, g2.trans f2, ?_, ?_⟩
            · intro i hi
              unfold onLeafPath at hi
              simp only [not_or] at hi
              rw [g4 i hi.1 hi.2, hoff i hi.2]
            · rw [g3, contentAt_eq_of_get (hoff _ hleaf)]
  · intro code hr hd
    dsimp only [Encap]
    rw [hps]
    simp only
    rw [copath_cons hL hr]
    have hpne : parent (toNodeIndex a) t.size ≠ toNodeIndex a := parent_ne_self hL hr
    have hsec : secrets.get (parent (toNodeIndex a) t.size) = t.pathStep s := by
      rw [hchain _ (Or.inl rfl) hr, hget]
    simp only [encapLoop, parent_sibling hL hr, hpne, if_false, hsec, newParentNode,
      ParentNode.SetSecret, hd]

/-- C11, a witness: the failing `Encap` above leaves the leaves 0 and 1 as they were. -/
theorem Encap_error_frame_witness :
    0 < demoFourFailing.size ∧
      (Run.tree demoFourFailing (demoFourFailing.Encap 0 [] [1, 1])).Nodes[2]? =
        demoFourFailing.Nodes[2]? ∧
      (Run.tree demoFourFailing (demoFourFailing.Encap 0 [] [1, 1])).contentAt (toNodeIndex 0) =
        demoFourFailing.contentAt (toNodeIndex 0) := by
  have h := (Encap_error_frame demoFourFailing 0 [] [1, 1] (by decide)).1 _ (.backend 3) rfl
  exact ⟨by decide, h.2.2.1 2 (by decide), h.2.2.2⟩

/-- C13, as claimed, fails: member 1 of the four-leaf tree holds the private key of its
leaf, slot 2, which is the first co-path node of leaf 0.  The second node of the path
carries no ciphertext where the resolution of the second co-path node, slot 5, has two
entries, and `Decap` returns the root secret: the length is checked only for the co-path
nodes met before a private key is found. -/
theorem Decap_accepts_unchecked_length :
    copath (toNodeIndex 0) demoFourHeld1.size = [2, 5] ∧
      demoFourHeld1.resolve 5 = .done [4, 6] ∧
      demoShortPath.Nodes.map (fun pn => pn.EncryptedPathSecrets.length) = [1, 0] ∧
      demoFourHeld1.heldKey 2 = some (some demoPrivate1) ∧
      ∃ t', demoFourHeld1.Decap id 0 [] demoShortPath = .done (t', .ok [7, 7, 1, 1]) :=
  ⟨by decide, rfl, rfl, rfl, _, rfl⟩

/-- C13, amended: on a tree whose occupied slots of the sender's direct path hold parent
payloads, `Decap` returns the error "Malformed (dp) DirectPath", the tree untouched, when
`|path.Nodes|` differs from the length of the direct path; and it returns the error
"Malformed Ratchet Node" when, the path having that length, the number of ciphertexts of
entry `i` differs from the length of the resolution of co-path node `i` and no slot in
the resolutions of the co-path nodes before `i` holds a private key. -/
theorem Decap_rejects_malformed (t : RatchetTree) (order : SecretMap → SecretMap) (a : Nat)
    (context : Bytes) (path : DirectPath) (ha : a < t.size)
    (hshape : ∀ v ∈ dirpath (toNodeIndex a) t.size, ∀ nd, t.contentAt v = some (some nd) →
      nd.Leaf = none ∧ ∃ p, nd.Parent = some p) :
    (path.Nodes.length ≠ (dirpath (toNodeIndex a) t.size).length →
      t.Decap order a context path = .done (t, .error .malformedDirectPath)) ∧
    (∀ i c pn res, path.Nodes.length = (dirpath (toNodeIndex a) t.size).length →
      (copath (toNodeIndex a) t.size)[i]? = some c → path.Nodes[i]? = some pn →
      t.resolve c = .done res → pn.EncryptedPathSecrets.length ≠ res.length →
      (∀ c' ∈ (copath (toNodeIndex a) t.size).take i,
        ∃ res', t.resolve c' = .done res' ∧ ∀ r ∈ res', t.heldKey r = some none) →
      ∃ t', t.Decap order a context path = .done (t', .error .malformedRatchetNode)) := by
  constructor
  · intro hne
    unfold Decap
    simp only [hne, ne_eq, not_false_eq_true, if_true]
  · intro i c pn res hlen hc hn hr hl hpre
    obtain ⟨t1, hm, _, h3, _, h5, _, h7⟩ := Decap_merge ha path hlen hshape
    refine ⟨t1, Decap_search_error order context hlen ha hm h3 ?_⟩
    apply decryptLoop_malformed t1 context i _ _ c pn res hc hn
      (by rw [h7 c (mem_of_get? hc)]; exact hr) hl
    intro c' hc'
    obtain ⟨res', a1, a2⟩ := hpre c' hc'
    exact ⟨res', by rw [h7 c' (List.mem_of_mem_take hc')]; exact a1,
      fun r hr' => by rw [h5 r]; exact a2 r hr'⟩

/-- C13, a witness: member 2 of the four-leaf tree holds no key in the resolution of the
first co-path node, and the second node of the path carries no ciphertext. -/
theorem Decap_rejects_malformed_witness :
    0 < demoFourHeld.size ∧
      (copath (toNodeIndex 0) demoFourHeld.size).take 1 = [2] ∧
      demoFourHeld.resolve 2 = .done [2] ∧ demoFourHeld.heldKey 2 = some none ∧
      ∃ t', demoFourHeld.Decap id 0 [] demoShortPath = .done (t', .error .malformedRatchetNode) :=
  ⟨by decide, by decide, rfl, rfl,
    (Decap_rejects_malformed demoFourHeld id 0 [] demoShortPath (by decide)
      (shape_of_blank (by decide))).2 1 5 _ [4, 6] (by decide) (by decide) rfl rfl (by decide)
      (by
        intro c' hc'
        have e : (copath (toNodeIndex 0) demoFourHeld.size).take 1 = [2] := by decide
        rw [e] at hc'
        simp only [List.mem_singleton] at hc'
        subst hc'
        exact ⟨[2], rfl, by decide⟩)⟩

/-- C14: on a tree whose occupied slots of the sender's direct path hold parent
payloads, if every co-path node has a resolution of the length of the ciphertext list of
its path node (so that the path has the length of the direct path) and no slot in these
resolutions holds a private key, then `Decap` returns the error "No private key available
for decrypt", whatever `Decrypt` of the backend is: it is not called. -/
theorem Decap_without_key (t : RatchetTree) (order : SecretMap → SecretMap) (a : Nat)
    (context : Bytes) (path : DirectPath) (ha : a < t.size)
    (hshape : ∀ v ∈ dirpath (toNodeIndex a) t.size, ∀ nd, t.contentAt v = some (some nd) →
      nd.Leaf = none ∧ ∃ p, nd.Parent = some p)
    (hres : List.Forall₂ (fun c pn => ∃ res, t.resolve c = .done res ∧
      pn.EncryptedPathSecrets.length = res.length ∧ ∀ r ∈ res, t.heldKey r = some none)
      (copath (toNodeIndex a) t.size) path.Nodes) :
    ∀ dec, ∃ t', (t.withDecrypt dec).Decap order a context path =
      .done (t', .error .noPrivateKey) := by
  intro dec
  have hlen : path.Nodes.length = (dirpath (toNodeIndex a) t.size).length := by
    rw [← copath_length _ (toNodeIndex_lt ha)]
    exact (List.Forall₂.length_eq hres).symm
  have hu : ∀ c, (t.withDecrypt dec).resolve c = t.resolve c :=
    fun c => @resolve_congr t (t.withDecrypt dec) rfl c (fun _ _ => rfl)
  obtain ⟨t1, hm, _, h3, _, h5, _, h7⟩ :=
    @Decap_merge (t.withDecrypt dec) a ha path hlen hshape
  refine ⟨t1, @Decap_search_error (t.withDecrypt dec) t1 order a context path _ hlen ha hm h3 ?_⟩
  apply decryptLoop_noKey
  apply forall₂_imp_mem hres
  rintro c hc pn ⟨res, a1, a2, a3⟩
  exact ⟨res, by rw [h7 c hc, hu c]; exact a1, a2, fun r hr => by rw [h5 r]; exact a3 r hr⟩

/-- C14, a witness: the four-leaf tree that holds no private key, and the path that
member 0 sent. -/
theorem Decap_without_key_witness :
    0 < demoFour.size ∧ copath (toNodeIndex 0) demoFour.size = [2, 5] ∧
      demoFour.resolve 2 = .done [2] ∧ demoFour.resolve 5 = .done [4, 6] ∧
      ∀ dec, ∃ t', (demoFour.withDecrypt dec).Decap id 0 [] demoFourPath =
        .done (t', .error .noPrivateKey) :=
  ⟨by decide, by decide, rfl, rfl,
    Decap_without_key demoFour id 0 [] demoFourPath (by decide) (shape_of_blank (by decide))
      (List.Forall₂.cons ⟨[2], rfl, rfl, by decide⟩
        (List.Forall₂.cons ⟨[4, 6], rfl, rfl, by decide⟩ List.Forall₂.nil))⟩

/-- C12, as claimed, fails: member 2 of the four-leaf tree finds its private key in the
resolution of the second co-path node of leaf 0, so the overlap is the root, slot 3.  With
the public key of the first path entry, the one of slot 1 below the overlap, replaced,
`Decap` still returns the root secret: `Implant` checks the slots from the overlap up. -/
theorem Decap_accepts_tampered_key_below_overlap :
    (∃ S, demoFour.Encap 0 [] [1, 1] = .done (S, .ok (demoFourPath, [7, 7, 1, 1]))) ∧
      (∃ t', demoFourHeld.Decap id 0 [] demoFourPath = .done (t', .ok [7, 7, 1, 1])) ∧
      demoFourPath.Nodes[0]?.map (fun pn => pn.PublicKey) = some { Data := [9, 7, 1, 1] } ∧
      ∃ t', demoFourHeld.Decap id 0 [] (demoFourPath.withPublicKey 0 { Data := [0] }) =
        .done (t', .ok [7, 7, 1, 1]) :=
  ⟨⟨_, rfl⟩, ⟨_, rfl⟩, rfl, _, rfl⟩

/-- C12, amended: let `Decap(from, context, path)` succeed on a tree, and let the tree
hold a private key in the resolution of a co-path node at a position `j ≤ i`, so that
entry `i` of the path is the overlap or above it.  Then `Decap` of the path with the
public key of entry `i` replaced by another key returns the error "Incorrect secret for
existing public key", the secrets map ranged over in any order. -/
theorem Decap_detects_tampered_key (t t' : RatchetTree) (order order' : SecretMap → SecretMap)
    (a : Nat) (context : Bytes) (path : DirectPath) (rs : Bytes) (i : Nat)
    (pn : DirectPathNode) (k : HPKEPublicKey) (ha : a < t.size)
    (horder : ∀ m, (order m).Perm m) (horder' : ∀ m, (order' m).Perm m)
    (hdec : t.Decap order a context path = .done (t', .ok rs))
    (hi : path.Nodes[i]? = some pn) (hk : k ≠ pn.PublicKey)
    (hheld : ∃ j c res r, j ≤ i ∧ (copath (toNodeIndex a) t.size)[j]? = some c ∧
      t.resolve c = .done res ∧ r ∈ res ∧ t.holdsKey r) :
    ∃ t'', t.Decap order' a context (path.withPublicKey i k) =
      .done (t'', .error .incorrectSecret) := by
  have hL := toNodeIndex_lt ha
  have hnd := dirpath_nodup _ hL
  obtain ⟨hlen, t1, o, s, m, t2, hm, hdl, hps, hil⟩ := Decap_stages hdec
  -- the shape of the direct path, from the merge that succeeded
  have hshape : ∀ v ∈ dirpath (toNodeIndex a) t.size, ∀ nd, t.contentAt v = some (some nd) →
      nd.Leaf = none ∧ ∃ p, nd.Parent = some p := by
    intro v hv nd hnd'
    obtain ⟨j, hj⟩ := List.mem_iff_getElem?.mp hv
    have hjl : j < path.Nodes.length := by
      rw [hlen]; exact (List.getElem?_eq_some.mp hj).1
    obtain ⟨slot, slot', x, y, _⟩ := mergeLoop_get _ _ _ _ hnd hm j v path.Nodes[j] hj
      (by simp [hjl])
    obtain ⟨sl, b, c⟩ := get_of_contentAt hnd'
    rw [x] at b
    simp only [Option.some.injEq] at b
    subst b
    exact MergePublic_shape y nd c
  -- the two merges
  obtain ⟨t1x, hmx, a1, b1, c1, d1, _, f1⟩ := Decap_merge ha path hlen hshape
  rw [hm] at hmx
  simp only [Run.done.injEq] at hmx
  subst hmx
  have hlen' : (path.withPublicKey i k).Nodes.length = (dirpath (toNodeIndex a) t.size).length := by
    simp only [DirectPath.withPublicKey, setPublicKeyAt_length, hlen]
  obtain ⟨u1, hmu, a2, b2, c2, d2, _, f2⟩ :=
    Decap_merge ha (path.withPublicKey i k) hlen' hshape
  have hsz1 : t1.size = t.size := size_eq_of_length b1
  have hszu : u1.size = t.size := size_eq_of_length b2
  rw [hsz1] at hdl
  -- the search gives the same overlap
  have hdl' : decryptLoop u1 context (copath (toNodeIndex a) t.size)
      (path.withPublicKey i k).Nodes = .done (.ok (o, s)) := by
    rw [← hdl]
    exact decryptLoop_congr (a2.trans a1.symm) (hszu.trans hsz1.symm) context
      (fun r => (d2 r).trans (d1 r).symm) _ _ _ (setPublicKeyAt_secrets _ _ _)
      (fun c hc => (f2 c hc).trans (f1 c hc).symm)
  obtain ⟨j0, c0, hc0, ho, hfirst⟩ := decryptLoop_first t1 context _ _ o s hdl
  rw [hsz1] at ho
  have hj0 : j0 ≤ i := by
    obtain ⟨j, c, res, r, hji, hc, hr, hrm, hh⟩ := hheld
    by_contra hlt
    have hcm := mem_take_of_getElem? _ j j0 c hc (by omega)
    have := hfirst c hcm res (by rw [f1 c (mem_of_get? hc)]; exact hr) r hrm
    obtain ⟨priv, hp⟩ := (holdsKey_iff t r).mp hh
    rw [d1 r, hp] at this
    simp at this
  -- the tampered entry is at the overlap or above it
  have hil' : i < (dirpath (toNodeIndex a) t.size).length := by
    rw [← hlen]; exact (List.getElem?_eq_some.mp hi).1
  obtain ⟨v, hv⟩ : ∃ v, (dirpath (toNodeIndex a) t.size)[i]? = some v :=
    ⟨_, List.getElem?_eq_getElem hil'⟩
  have hoj : (dirpath (toNodeIndex a) t.size)[j0]? = some o := by
    rw [ho]; exact copath_get_parent _ hL j0 c0 hc0
  have hon := dirpath_above _ hL j0 i o v hoj hj0 hv
  have holt : o < nodeWidth t.size := dirpath_mem_lt _ hL _ (mem_of_get? hoj)
  -- the secrets map of the receiver
  have hpsu : u1.PathSecrets o s = .done m := by
    rw [PathSecrets_congr (a2.trans a1.symm) (b2.trans b1.symm), hps]
  obtain ⟨m', hps', hmnd, _, _, hent⟩ := PathSecrets_spec t1 s (by rw [hsz1]; exact holt)
  rw [hps] at hps'
  simp only [Run.done.injEq] at hps'
  subst hps'
  obtain ⟨y, hy, hyv⟩ := PathSecrets_has_keys (by rw [hsz1]; exact holt) hps v
    (by rw [hsz1]; exact hon)
  have hy' : y ∈ order' m := (horder' m).mem_iff.mpr hy
  obtain ⟨pre, post, hsplit⟩ := List.append_of_mem hy'
  have hnd' : ((order' m).map Prod.fst).Nodup := ((horder' m).map Prod.fst).nodup_iff.mpr hmnd
  have hpre : ∀ e ∈ pre, e.1 ≠ v := by
    intro e he hev
    rw [hsplit, List.map_append, List.map_cons] at hnd'
    have := (List.nodup_append.mp hnd').2.2
    exact this (List.mem_map.mpr ⟨e, he, rfl⟩) (by rw [hev, ← hyv]; exact List.mem_cons_self _ _)
  -- every entry passed the check in the run that succeeded
  have hpass : ∀ e ∈ m, passes t1 e := fun e he =>
    implantLoop_passes _ _ _ hil e ((horder m).mem_iff.mpr he)
  -- the public keys after the two merges
  have hkey1 : t1.parentKeyAt v = some pn.PublicKey := mergeLoop_parentKeyAt hnd hm hv hi
  have hkeyu : u1.parentKeyAt v = some k :=
    mergeLoop_parentKeyAt hnd hmu hv (setPublicKeyAt_get_self _ i k pn hi)
  have hother : ∀ r, r ≠ v → u1.parentKeyAt r = t1.parentKeyAt r := by
    intro r hr
    by_cases hrm : r ∈ dirpath (toNodeIndex a) t.size
    · obtain ⟨j, hj⟩ := List.mem_iff_getElem?.mp hrm
      have hji : j ≠ i := by
        intro e
        rw [e, hv] at hj
        simp only [Option.some.injEq] at hj
        exact hr hj.symm
      have hjl : j < path.Nodes.length := by
        rw [hlen]; exact (List.getElem?_eq_some.mp hj).1
      have hg : path.Nodes[j]? = some path.Nodes[j] := by simp [hjl]
      rw [mergeLoop_parentKeyAt hnd hm hj hg,
        mergeLoop_parentKeyAt hnd hmu hj
          (by rw [DirectPath.withPublicKey, setPublicKeyAt_get_ne _ _ _ _ hji]; exact hg)]
    · rw [parentKeyAt_of_get (c2 r hrm), parentKeyAt_of_get (c1 r hrm)]
  obtain ⟨priv, hder, hpk⟩ := hpass y hy
  rw [hyv, hkey1] at hpk
  simp only [Option.some.injEq] at hpk
  obtain ⟨t'', hfail⟩ := implantLoop_mismatch pre u1
    (by
      intro e he
      obtain ⟨pr, x1, x2⟩ := hpass e ((horder' m).mem_iff.mp (by rw [hsplit]; simp [he]))
      exact ⟨pr, by rw [a2, ← a1]; exact x1, by rw [hother _ (hpre e he)]; exact x2⟩)
    v y.2 post priv k (by rw [a2, ← a1]; exact hder) hkeyu (by rw [← hpk]; exact hk)
  have hyeq : (v, y.2) = y := by rw [← hyv]
  rw [hyeq, ← hsplit] at hfail
  -- the run on the tampered path
  refine ⟨t'', ?_⟩
  have hcl : (path.withPublicKey i k).Nodes.length = (copath (toNodeIndex a) t.size).length := by
    rw [hlen', copath_length _ hL]
  have hdps : u1.decryptPathSecret a context (path.withPublicKey i k) = .done (.ok (o, s)) := by
    dsimp only [decryptPathSecret]
    rw [hszu]
    simp only [hcl, ne_eq, not_true_eq_false, if_false, hdl']
  have himpl : u1.Implant order' o s = .done (t'', .error .incorrectSecret) := by
    dsimp only [Implant]
    rw [hpsu]
    simp only [hfail]
  dsimp only [Decap]
  simp only [hlen', ne_eq, not_true_eq_false, if_false, hmu, hdps, himpl]

/-- C12, a witness: member 2 of the four-leaf tree, whose overlap with member 0 is the
root, and the path with the public key of the root, entry 1, replaced. -/
theorem Decap_detects_tampered_key_witness :
    0 < demoFourHeld.size ∧
      (∃ t', demoFourHeld.Decap id 0 [] demoFourPath = .done (t', .ok [7, 7, 1, 1])) ∧
      demoFourHeld.resolve 5 = .done [4, 6] ∧ demoFourHeld.holdsKey 4 ∧
      ∃ t'', demoFourHeld.Decap id 0 [] (demoFourPath.withPublicKey 1 { Data := [0] }) =
        .done (t'', .error .incorrectSecret) :=
  ⟨by decide, ⟨_, rfl⟩, rfl, ⟨_, _, rfl, rfl⟩,
    Decap_detects_tampered_key demoFourHeld
      (Run.tree demoFourHeld (demoFourHeld.Decap id 0 [] demoFourPath)) id id 0 [] demoFourPath
      [7, 7, 1, 1] 1 { PublicKey := { Data := [9, 7, 7, 1, 1] },
                       EncryptedPathSecrets := [[1, 102, 7, 7, 1, 1], [1, 103, 7, 7, 1, 1]] }
      { Data := [0] } (by decide) (fun m => List.Perm.refl m) (fun m => List.Perm.refl m) rfl rfl
      (by decide) ⟨1, 5, [4, 6], 4, by decide, by decide, rfl, by decide, ⟨_, _, rfl, rfl⟩⟩⟩

end RatchetTree

/-! ## The claims on the encoding of a node -/

theorem demoCodec_leaf_canonical (bs : Bytes) (kp : KeyPackage) (k : Nat)
    (h : demoCodec.decodeLeaf bs = .ok (kp, k)) : demoCodec.encodeLeaf kp = .ok (bs.take k) := by
  cases bs with
  | nil => simp [demoCodec] at h
  | cons n rest =>
    simp only [demoCodec] at h
    split at h
    · rename_i hn
      simp only [Except.ok.injEq, Prod.mk.injEq] at h
      obtain ⟨rfl, rfl⟩ := h
      simp [demoCodec, Nat.min_eq_left hn]
    · simp at h

theorem demoCodec_parent_canonical (bs : Bytes) (p : ParentNode) (k : Nat)
    (h : demoCodec.decodeParent bs = .ok (p, k)) :
    demoCodec.encodeParent p = .ok (bs.take k) := by
  cases bs with
  | nil => simp [demoCodec] at h
  | cons n rest =>
    simp only [demoCodec] at h
    split at h
    · rename_i hn
      simp only [Except.ok.injEq, Prod.mk.injEq] at h
      obtain ⟨rfl, rfl⟩ := h
      simp [demoCodec, Nat.min_eq_left hn]
    · simp at h

/-- C17: with payload codecs that re-encode what they decode, for every byte string `b`
that `UnmarshalTLS` accepts into a fresh node, reading `k` bytes, `MarshalTLS` of the
decoded node returns the first `k` bytes of `b`; the first byte of `b` is `0x00` and the
node a leaf, or `0x01` and the node a parent; and `UnmarshalTLS` fails with "Invalid node
type" on any other first byte. -/
theorem Node_encoding_canonical (c : PayloadCodec)
    (hleaf : ∀ bs kp k, c.decodeLeaf bs = .ok (kp, k) → c.encodeLeaf kp = .ok (bs.take k))
    (hparent : ∀ bs p k, c.decodeParent bs = .ok (p, k) → c.encodeParent p = .ok (bs.take k)) :
    (∀ b n k, Node.UnmarshalTLS c Node.fresh b = .ok (n, k) →
      n.MarshalTLS c = some (.ok (b.take k)) ∧
      (b.head? = some 0x00 ∧ n.Type = some .NodeTypeLeaf ∨
        b.head? = some 0x01 ∧ n.Type = some .NodeTypeParent)) ∧
    ∀ tag rest, tag ≠ 0x00 → tag ≠ 0x01 →
      Node.UnmarshalTLS c Node.fresh (tag :: rest) = .error .invalidNodeType := by
  constructor
  · intro b n k h
    cases b with
    | nil => simp [Node.UnmarshalTLS] at h
    | cons tag rest =>
      simp only [Node.UnmarshalTLS, NodeType.byte] at h
      split at h
      · rename_i htag
        subst htag
        cases hd : c.decodeLeaf rest with
        | error e => rw [hd] at h; simp at h
        | ok r =>
          obtain ⟨kp, k'⟩ := r
          rw [hd] at h
          simp only [Except.ok.injEq, Prod.mk.injEq] at h
          obtain ⟨rfl, rfl⟩ := h
          refine ⟨?_, Or.inl ⟨rfl, rfl⟩⟩
          simp only [Node.MarshalTLS, Node.fresh, Node.Type, hleaf rest kp k' hd, NodeType.byte]
          rw [Nat.add_comm, List.take_succ_cons]
      · split at h
        · rename_i htag
          subst htag
          cases hd : c.decodeParent rest with
          | error e => rw [hd] at h; simp at h
          | ok r =>
            obtain ⟨p, k'⟩ := r
            rw [hd] at h
            simp only [Except.ok.injEq, Prod.mk.injEq] at h
            obtain ⟨rfl, rfl⟩ := h
            refine ⟨?_, Or.inr ⟨rfl, rfl⟩⟩
            simp only [Node.MarshalTLS, Node.fresh, Node.Type, hparent rest p k' hd,
              NodeType.byte]
            rw [Nat.add_comm, List.take_succ_cons]
        · simp at h
  · intro tag rest h0 h1
    simp [Node.UnmarshalTLS, NodeType.byte, h0, h1]

/-- C17, a witness: the length-prefixed codec, the bytes of a parent node followed by
two more bytes, and a byte string with the first byte 2. -/
theorem Node_encoding_canonical_witness :
    (∃ n, Node.UnmarshalTLS demoCodec Node.fresh [1, 2, 8, 9, 7, 7] = .ok (n, 4) ∧
      n.MarshalTLS demoCodec = some (.ok [1, 2, 8, 9]) ∧ n.Type = some .NodeTypeParent) ∧
    Node.UnmarshalTLS demoCodec Node.fresh [2, 1, 0] = .error .invalidNodeType := by
  have h := Node_encoding_canonical demoCodec demoCodec_leaf_canonical
    demoCodec_parent_canonical
  exact ⟨⟨_, rfl, (h.1 [1, 2, 8, 9, 7, 7] _ 4 rfl).1, rfl⟩, h.2 2 [1, 0] (by decide) (by decide)⟩

/-- C18, as claimed, fails: the node's own `Hash` field is not encoded.  A leaf node with
the hash `[1]` is encoded as the bytes `[0, 1, 0]` by the length-prefixed codec, which
round-trips its key package; decoding these bytes into a fresh node reads every byte and
gives the same key package, but a `nil` `Hash`. -/
theorem Node_decode_drops_Hash :
    demoCodec.encodeLeaf (demoKeyPackage 0) = .ok [1, 0] ∧
      demoCodec.decodeLeaf [1, 0] = .ok (demoKeyPackage 0, 2) ∧
      demoHashedNode.MarshalTLS demoCodec = some (.ok [0, 1, 0]) ∧
      Node.UnmarshalTLS demoCodec Node.fresh [0, 1, 0] = .ok (demoPlainNode, 3) ∧
      demoPlainNode ≠ demoHashedNode :=
  ⟨rfl, rfl, rfl, rfl, by decide⟩

/-- C18, amended: for every node that holds exactly one of `Leaf` and `Parent`, whose
payload the codec round-trips (it encodes the payload, and decodes the encoding to the
payload, reading every byte), `MarshalTLS` succeeds, and `UnmarshalTLS` of the result
into a fresh node succeeds, reads every byte and gives the node with the same kind and
payload and a `nil` `Hash`; the decoded node is the node encoded exactly when the `Hash`
field of that node is `nil` (an empty slice that is not `nil` is not). -/
theorem Node_decode_encode (c : PayloadCodec) (n : Node)
    (hone : (n.Leaf = none ∧ n.Parent ≠ none) ∨ (n.Leaf ≠ none ∧ n.Parent = none))
    (hleaf : ∀ kp, n.Leaf = some kp →
      ∃ bs, c.encodeLeaf kp = .ok bs ∧ c.decodeLeaf bs = .ok (kp, bs.length))
    (hparent : ∀ p, n.Parent = some p →
      ∃ bs, c.encodeParent p = .ok bs ∧ c.decodeParent bs = .ok (p, bs.length)) :
    ∃ bs, n.MarshalTLS c = some (.ok bs) ∧
      Node.UnmarshalTLS c Node.fresh bs = .ok ({ n with Hash := none }, bs.length) ∧
      (Node.UnmarshalTLS c Node.fresh bs = .ok (n, bs.length) ↔ n.Hash = none) := by
  have key : ∀ bs, Node.UnmarshalTLS c Node.fresh bs = .ok ({ n with Hash := none }, bs.length) →
      (Node.UnmarshalTLS c Node.fresh bs = .ok (n, bs.length) ↔ n.Hash = none) := by
    intro bs h
    rw [h]
    constructor
    · intro e
      simp only [Except.ok.injEq, Prod.mk.injEq, and_true] at e
      rw [← e]
    · intro e
      obtain ⟨leaf, parent, hash⟩ := n
      simp only at e
      subst e
      rfl
  have main : ∃ bs, n.MarshalTLS c = some (.ok bs) ∧
      Node.UnmarshalTLS c Node.fresh bs = .ok ({ n with Hash := none }, bs.length) := by
    obtain ⟨leaf, parent, hash⟩ := n
    rcases hone with ⟨h1, h2⟩ | ⟨h1, h2⟩
    · simp only at h1 h2
      subst h1
      cases parent with
      | none => exact absurd rfl h2
      | some p =>
        obtain ⟨bs, he, hd⟩ := hparent p rfl
        exact ⟨1 :: bs, by simp [Node.MarshalTLS, Node.Type, he, NodeType.byte],
          by simp [Node.UnmarshalTLS, NodeType.byte, hd, Node.fresh, Nat.add_comm]⟩
    · simp only at h1 h2
      subst h2
      cases leaf with
      | none => exact absurd rfl h1
      | some kp =>
        obtain ⟨bs, he, hd⟩ := hleaf kp rfl
        exact ⟨0 :: bs, by simp [Node.MarshalTLS, Node.Type, he, NodeType.byte],
          by simp [Node.UnmarshalTLS, NodeType.byte, hd, Node.fresh, Nat.add_comm]⟩
  obtain ⟨bs, h1, h2⟩ := main
  exact ⟨bs, h1, h2, key bs h2⟩

theorem demoCodec_round_trip (kp : KeyPackage) (h : kp = demoKeyPackage 0) :
    ∃ bs, demoCodec.encodeLeaf kp = .ok bs ∧ demoCodec.decodeLeaf bs = .ok (kp, bs.length) := by
  subst h
  exact ⟨[1, 0], rfl, rfl⟩

/-- C18, a witness: with the length-prefixed codec, the leaf node with a `nil` `Hash`
is decoded to itself, and the leaf node with the empty `Hash` `[]byte{}` is not. -/
theorem Node_decode_encode_witness :
    demoPlainNode.MarshalTLS demoCodec = some (.ok [0, 1, 0]) ∧
    demoEmptyHashNode.MarshalTLS demoCodec = some (.ok [0, 1, 0]) ∧
    (∃ bs, demoPlainNode.MarshalTLS demoCodec = some (.ok bs) ∧
      Node.UnmarshalTLS demoCodec Node.fresh bs =
        .ok ({ demoPlainNode with Hash := none }, bs.length) ∧
      (Node.UnmarshalTLS demoCodec Node.fresh bs = .ok (demoPlainNode, bs.length) ↔
        demoPlainNode.Hash = none)) ∧
    ∃ bs, demoEmptyHashNode.MarshalTLS demoCodec = some (.ok bs) ∧
      Node.UnmarshalTLS demoCodec Node.fresh bs =
        .ok ({ demoEmptyHashNode with Hash := none }, bs.length) ∧
      (Node.UnmarshalTLS demoCodec Node.fresh bs = .ok (demoEmptyHashNode, bs.length) ↔
        demoEmptyHashNode.Hash = none) :=
  ⟨rfl, rfl,
    Node_decode_encode demoCodec demoPlainNode (Or.inr ⟨by decide, rfl⟩)
      (fun kp h => demoCodec_round_trip kp (by
        simp only [demoPlainNode, Option.some.injEq] at h
        exact h.symm))
      (fun p h => by simp [demoPlainNode] at h),
    Node_decode_encode demoCodec demoEmptyHashNode (Or.inr ⟨by decide, rfl⟩)
      (fun kp h => demoCodec_round_trip kp (by
        simp only [demoEmptyHashNode, Option.some.injEq] at h
        exact h.symm))
      (fun p h => by simp [demoEmptyHashNode] at h)⟩

end MLS

namespace MLS

/-! ## The claims on the common ancestor, the direct path and the children -/

/-- The model of `ancestor` gives the table `aAncestor` of the tests, the tree on eleven
leaves. -/
theorem table_ancestor :
    (List.range 10).map (fun l => (List.range (10 - l)).map (fun d => ancestor l (l + d + 1))) =
      [[0x01, 0x03, 0x03, 0x07, 0x07, 0x07, 0x07, 0x0f, 0x0f, 0x0f],
       [0x03, 0x03, 0x07, 0x07, 0x07, 0x07, 0x0f, 0x0f, 0x0f],
       [0x05, 0x07, 0x07, 0x07, 0x07, 0x0f, 0x0f, 0x0f],
       [0x07, 0x07, 0x07, 0x07, 0x0f, 0x0f, 0x0f],
       [0x09, 0x0b, 0x0b, 0x0f, 0x0f, 0x0f],
       [0x0b, 0x0b, 0x0f, 0x0f, 0x0f],
       [0x0d, 0x0f, 0x0f, 0x0f],
       [0x0f, 0x0f, 0x0f],
       [0x11, 0x13],
       [0x13]] := by
  decide

/-- C21: `ancestor l r = ancestor r l` for all leaf indices; and for every size and every
two different leaves `l`, `r` below it, `ancestor l r` is on the direct path of both
leaves, and every node on both direct paths has at least its level. -/
theorem ancestor_is_lowest_common :
    (∀ l r, ancestor l r = ancestor r l) ∧
    ∀ size l r, l < size → r < size → l ≠ r →
      ancestor l r ∈ dirpath (toNodeIndex l) size ∧
      ancestor l r ∈ dirpath (toNodeIndex r) size ∧
      ∀ v, v ∈ dirpath (toNodeIndex l) size → v ∈ dirpath (toNodeIndex r) size →
        level (ancestor l r) ≤ level v :=
  ⟨ancestor_comm, fun _ l r hl hr hne =>
    ⟨ancestor_mem_dirpath hl hr hne,
      by rw [ancestor_comm]; exact ancestor_mem_dirpath hr hl (Ne.symm hne),
      ancestor_lowest hl hr hne⟩⟩

/-- C21, a witness: the leaves 8 and 10 of the tree on eleven leaves, with the common
ancestor 19. -/
theorem ancestor_is_lowest_common_witness :
    ancestor 8 10 = 19 ∧ dirpath (toNodeIndex 8) 11 = [17, 19, 15] ∧
      dirpath (toNodeIndex 10) 11 = [19, 15] ∧
      ancestor 8 10 ∈ dirpath (toNodeIndex 8) 11 ∧
      ancestor 8 10 ∈ dirpath (toNodeIndex 10) 11 ∧
      ∀ v, v ∈ dirpath (toNodeIndex 8) 11 → v ∈ dirpath (toNodeIndex 10) 11 →
        level (ancestor 8 10) ≤ level v :=
  ⟨by decide, by decide, by decide,
    ancestor_is_lowest_common.2 11 8 10 (by decide) (by decide) (by decide)⟩

/-- C22, as claimed, fails: in the tree on eleven leaves the direct path of node 20, the
last leaf, is `[19, 15]`, of length 2, where `log2 (nodeWidth 11) - level 20` is 4. -/
theorem dirpath_shorter_than_log2 :
    20 < nodeWidth 11 ∧ dirpath 20 11 = [19, 15] ∧ log2 (nodeWidth 11) = 4 ∧ level 20 = 0 ∧
      (dirpath 20 11).length ≠ log2 (nodeWidth 11) - level 20 := by
  decide

/-- C22, amended: for every size and every node `n` below `nodeWidth size`, the direct
path of `n` has at most `log2 (nodeWidth size) - level n` nodes, and exactly that many
when the size is a power of two; its last node is the root when `n` is not the root; and
the levels along it are strictly increasing, from above the level of `n`. -/
theorem dirpath_shape (size n : Nat) (hn : n < nodeWidth size) :
    (dirpath n size).length ≤ log2 (nodeWidth size) - level n ∧
    (∀ e, size = 2 ^ e → (dirpath n size).length = log2 (nodeWidth size) - level n) ∧
    (n ≠ root size → (dirpath n size).getLast? = some (root size)) ∧
    (∀ v ∈ dirpath n size, level n < level v) ∧
    (dirpath n size).Pairwise (fun a b => level a < level b) := by
  have hlog := log2_nodeWidth (nodeWidth_pos_of_lt hn)
  refine ⟨?_, ?_, dirpath_getLast n hn, dirpath_level_gt n hn, dirpath_pairwise n hn⟩
  · have := dirpath_length_le n hn
    omega
  · intro e he
    subst he
    have := dirpath_length_pow n hn
    omega

/-- C22, a witness: node 4 of the tree on eight leaves, with the direct path
`[5, 3, 7]`. -/
theorem dirpath_shape_witness :
    4 < nodeWidth 8 ∧ dirpath 4 8 = [5, 3, 7] ∧ log2 (nodeWidth 8) - level 4 = 3 ∧
      (dirpath 4 8).length = log2 (nodeWidth 8) - level 4 ∧
      (dirpath 4 8).getLast? = some (root 8) := by
  have h := dirpath_shape 8 4 (by decide)
  exact ⟨by decide, by decide, by decide, h.2.1 3 (by decide), h.2.2.1 (by decide)⟩

/-- C23, as claimed, fails: in the tree on eleven leaves node 19 has level 2 and its
right child is node 20, the last leaf, of level 0. -/
theorem right_child_below_next_level :
    19 < nodeWidth 11 ∧ level 19 = 2 ∧ right 19 11 = 20 ∧ level (right 19 11) = 0 ∧
      level (right 19 11) ≠ level 19 - 1 := by
  decide

/-- C23, amended: for every size and every node `n` below `nodeWidth size` with
`level n > 0`, the left child is one level down, the right child is at least one level
down, and exactly one level down when the right child of the complete tree,
`n XOR (3 << (level n - 1))`, is in the node range; both children are in the node
range. -/
theorem children_levels (size n : Nat) (hn : n < nodeWidth size) (hlevel : 0 < level n) :
    level (left n) = level n - 1 ∧ level (right n size) ≤ level n - 1 ∧
    (level (right n size) = level n - 1 ↔ n ^^^ (3 <<< (level n - 1)) < nodeWidth size) ∧
    left n < nodeWidth size ∧ right n size < nodeWidth size := by
  have h1 := level_left hlevel
  have h2 := level_right_lt hn hlevel
  have h3 := level_right_eq_iff hn hlevel
  refine ⟨by omega, by omega, ?_, left_lt_nodeWidth hn, right_lt hn⟩
  rw [← h3]
  omega

/-- C23, a witness: node 11 of the tree on eleven leaves, with the children 9 and 13. -/
theorem children_levels_witness :
    11 < nodeWidth 11 ∧ level 11 = 2 ∧ left 11 = 9 ∧ right 11 11 = 13 ∧
      level (left 11) = level 11 - 1 ∧ level (right 11 11) ≤ level 11 - 1 ∧
      (level (right 11 11) = level 11 - 1 ↔ 11 ^^^ (3 <<< (level 11 - 1)) < nodeWidth 11) ∧
      left 11 < nodeWidth 11 ∧ right 11 11 < nodeWidth 11 :=
  ⟨by decide, by decide, by decide, by decide, children_levels 11 11 (by decide) (by decide)⟩

/-- C24: `toLeafIndex n` fails exactly when `n` is odd and is `n / 2` for an even `n`;
`toLeafIndex (toNodeIndex l) = l` for every leaf index, and `toNodeIndex` of
`toLeafIndex n` is `n` for every even `n`. -/
theorem toLeafIndex_toNodeIndex (n l : Nat) :
    (toLeafIndex n = none ↔ n % 2 = 1) ∧ (n % 2 = 0 → toLeafIndex n = some (n / 2)) ∧
    toLeafIndex (toNodeIndex l) = some l ∧
    (n % 2 = 0 → (toLeafIndex n).map toNodeIndex = some n) := by
  unfold toLeafIndex toNodeIndex
  refine ⟨?_, ?_, ?_, ?_⟩
  · by_cases h : n % 2 = 0
    · simp [h]
    · simp only [h, if_false, true_iff]; omega
  · intro h; simp [h]
  · have h : 2 * l % 2 = 0 := by omega
    simp [h]
  · intro h
    simp only [h, if_true, Option.map_some', Option.some.injEq]
    omega

/-- C24, a witness: the node index 6, the leaf index 3 and the odd node index 3 of the
test. -/
theorem toLeafIndex_toNodeIndex_witness :
    toLeafIndex 0x03 = none ∧ toLeafIndex 6 = some 3 ∧ toLeafIndex (toNodeIndex 3) = some 3 ∧
      (toLeafIndex 6).map toNodeIndex = some 6 := by
  have h := toLeafIndex_toNodeIndex 6 3
  exact ⟨(toLeafIndex_toNodeIndex 3 0).1.mpr (by decide), h.2.1 (by decide), h.2.2.1,
    h.2.2.2 (by decide)⟩

namespace RatchetTree

/-! ## The output of Encap on a tree with an unmerged leaf, and the kinds of the slots -/

/-- C25: the failing input.  In the four-leaf tree where member 3 left, member 2 sent a
path and a new member joined in leaf 3, all four leaves are occupied and slot 5, the
second co-path node of leaf 0, holds the unmerged leaf 3, whose node is slot 6 with the
public key `[103]`.  `resolve(5)` lists the leaf index 3 itself, the slot of the root,
and not node 6: `Encap(0, [], [1, 1])` returns a path whose second node carries, for
the path secret `[7, 7, 1, 1]`, one ciphertext for the key `[9, 7, 2, 2]` of slot 5 and
one for the key `[9, 7, 7, 1, 1]` that the call has just derived for the root, where
the root held `[9, 7, 7, 2, 2]`; none is made for the key `[103]` of the new member. -/
theorem Encap_encrypts_to_replaced_key :
    demoRejoined.KeyPackage 0 = some (some (demoKeyPackage 0), true) ∧
      copath (toNodeIndex 0) demoRejoined.size = [2, 5] ∧
      demoRejoined.resolve 2 = .done [2] ∧ demoRejoined.resolve 5 = .done [5, 3] ∧
      [2, 5, 3, 6].map (fun r => (demoRejoined.contentAt r).map Option.isSome) =
        [some true, some true, some true, some true] ∧
      (∃ nd p, demoRejoined.contentAt 5 = some (some nd) ∧ nd.Parent = some p ∧
        p.UnmergedLeaves = [3] ∧ nd.PublicKey = some { Data := [9, 7, 2, 2] }) ∧
      toNodeIndex 3 = 6 ∧
      (∃ nd, demoRejoined.contentAt 6 = some (some nd) ∧
        nd.PublicKey = some { Data := [103] }) ∧
      (∃ nd, demoRejoined.contentAt 3 = some (some nd) ∧
        nd.PublicKey = some { Data := [9, 7, 7, 2, 2] }) ∧
      (∃ S, demoRejoined.Encap 0 [] [1, 1] = .done (S, .ok (demoRejoinedPath, [7, 7, 1, 1]))) ∧
      demoRejoined.chainAt [1, 1] 2 = [7, 7, 1, 1] ∧
      demoRejoinedPath.Nodes.map (fun pn => pn.EncryptedPathSecrets) =
        [[[1, 101, 7, 1, 1]], [[4, 9, 7, 2, 2, 7, 7, 1, 1], [5, 9, 7, 7, 1, 1, 7, 7, 1, 1]]] ∧
      demoRejoined.Suite.Encrypt { Data := [9, 7, 2, 2] } [] [7, 7, 1, 1] =
        .ok [4, 9, 7, 2, 2, 7, 7, 1, 1] ∧
      demoRejoined.Suite.Encrypt { Data := [9, 7, 7, 1, 1] } [] [7, 7, 1, 1] =
        .ok [5, 9, 7, 7, 1, 1, 7, 7, 1, 1] ∧
      demoRejoined.Suite.Encrypt { Data := [103] } [] [7, 7, 1, 1] =
        .ok [1, 103, 7, 7, 1, 1] ∧
      demoRejoined.Suite.Encrypt { Data := [9, 7, 7, 2, 2] } [] [7, 7, 1, 1] =
        .ok [5, 9, 7, 7, 2, 2, 7, 7, 1, 1] :=
  ⟨rfl, by decide, rfl, rfl, rfl, ⟨_, _, rfl, rfl, rfl, rfl⟩, rfl, ⟨_, rfl, rfl⟩,
    ⟨_, rfl, rfl⟩, ⟨_, rfl⟩, rfl, rfl, rfl, rfl, rfl, rfl⟩

/-- C26: the slot-kind predicate (the node vector is empty or of odd length, every
occupied even slot holds a key package and every occupied odd slot a parent node),
also in its strict form, holds for the fresh tree, and on a tree where it holds it
holds for the tree that `AddLeaf` (any leaf index), `UpdateLeaf`, `BlankPath`, `Encap`,
`Decap` (leaf index below the size) and `Implant` leave when they return, with or
without an error; and `AddLeaf` at the size and `UpdateLeaf` and `BlankPath` below the
size do return. -/
theorem slotKinds_preserved (strict : Bool) :
    (∀ suite, slotKinds strict (NewRatchetTree suite)) ∧
    ∀ t, slotKinds strict t →
      (∀ l kp t' e, t.AddLeaf l kp = .done (t', e) → slotKinds strict t') ∧
      (∀ l kp t' e, l < t.size → t.UpdateLeaf l kp = .done (t', e) → slotKinds strict t') ∧
      (∀ l t' e, l < t.size → t.BlankPath l = .done (t', e) → slotKinds strict t') ∧
      (∀ l context s t' r, l < t.size → t.Encap l context s = .done (t', r) →
        slotKinds strict t') ∧
      (∀ order l context path t' r, l < t.size →
        t.Decap order l context path = .done (t', r) → slotKinds strict t') ∧
      (∀ order start ps t' r, t.Implant order start ps = .done (t', r) →
        slotKinds strict t') ∧
      (∀ kp, ∃ t' e, t.AddLeaf t.size kp = .done (t', e)) ∧
      (∀ l kp, l < t.size → ∃ t' e, t.UpdateLeaf l kp = .done (t', e)) ∧
      (∀ l, l < t.size → ∃ t' e, t.BlankPath l = .done (t', e)) := by
  constructor
  · intro suite
    refine ⟨Or.inl rfl, ?_⟩
    intro i nd hc
    simp [contentAt, NewRatchetTree] at hc
  · intro t hk
    refine ⟨fun _ _ _ _ h => AddLeaf_kinds hk h, fun _ _ _ _ hl h => UpdateLeaf_kinds hl hk h,
      fun _ _ _ hl h => (BlankPath_kinds hl hk h).1, fun _ _ _ _ _ hl h => Encap_kinds hl hk h,
      fun _ _ _ _ _ _ hl h => Decap_kinds hl hk h, fun _ _ _ _ _ h => Implant_kinds hk h,
      fun kp => (AddLeaf_spec t kp t.size rfl).2 (kindsOk_parent_ne hk.2),
      fun _ kp hl => UpdateLeaf_done t kp hl, ?_⟩
    intro l hl
    obtain ⟨t1, e1, h1, _⟩ := BlankPath_spec hl
    exact ⟨t1, e1, h1⟩

/-- C26, a witness: the three-leaf tree after member 0 sent a path; a fourth member
joins, and member 1 sends a path over a backend whose `Encrypt` fails. -/
theorem slotKinds_preserved_witness :
    slotKinds true demoSent ∧
      (∃ t', demoSent.AddLeaf 3 (demoKeyPackage 3) = .done (t', none) ∧ slotKinds true t') ∧
      ∃ t', ({ demoSent with Suite := demoFailSuite } : RatchetTree).Encap 1 [] [1, 1] =
          .done (t', .error (.backend 3)) ∧ slotKinds true t' := by
  have hk : slotKinds true demoSent := ⟨by decide, content_bounded (by decide)⟩
  have hk' : slotKinds true ({ demoSent with Suite := demoFailSuite } : RatchetTree) :=
    ⟨by decide, content_bounded (by decide)⟩
  exact ⟨hk, ⟨_, rfl, ((slotKinds_preserved true).2 demoSent hk).1 3 (demoKeyPackage 3) _ none rfl⟩,
    ⟨_, rfl, ((slotKinds_preserved true).2 _ hk').2.2.2.1 1 [] [1, 1] _ _ (by decide) rfl⟩⟩

end RatchetTree
end MLS

namespace MLS
namespace RatchetTree

/-! ## The claim on the determinism of the root hash -/

/-- C4, the claim fails: leaf 0 written once (`AddLeaf` with key package 0) and leaf 0
written twice (`AddLeaf` with key package 1, then `SetLeaf` with key package 0) give
trees of the same width with the same node in every slot, and different root hashes:
`SetLeaf` does not re-hash.  The stored root hash also differs from the one that
`SetHashAll` computes, with no node changed, after `AddLeaf` at leaf 3 of the tree of one
leaf, which leaves the blank slots in between unhashed; after `SetSecrets` of the
secrets that `GetSecrets` exported, on the tree of four leaves built by `AddLeaf` and
`Encap`, where it empties an unmerged-leaf list; and after an `Encap` that returns the
error of the backend, on the tree of two leaves, where it has replaced the root. -/
theorem RootHash_depends_on_history :
    (demoFresh.AddLeaf 0 (demoKeyPackage 0) = .done (demoWritten, none) ∧
      demoFresh.AddLeaf 0 (demoKeyPackage 1) =
        .done (Run.tree demoFresh (demoFresh.AddLeaf 0 (demoKeyPackage 1)), none) ∧
      (Run.tree demoFresh (demoFresh.AddLeaf 0 (demoKeyPackage 1))).SetLeaf 0 (demoKeyPackage 0) =
        .done demoRewritten ∧
      demoWritten.Nodes.length = demoRewritten.Nodes.length ∧
      demoWritten.Nodes.map (fun s => s.Node) = demoRewritten.Nodes.map (fun s => s.Node) ∧
      demoWritten.RootHash ≠ demoRewritten.RootHash) ∧
    (demoWritten.size = 1 ∧
      demoWritten.AddLeaf 3 (demoKeyPackage 3) = .done (demoSkipped, none) ∧
      ∃ t', demoSkipped.SetHashAll = .done (t', none) ∧
        t'.Nodes.map (fun s => s.Node) = demoSkipped.Nodes.map (fun s => s.Node) ∧
        t'.RootHash ≠ demoSkipped.RootHash) ∧
    (demoGrown.SetHashAll = .done (demoGrown, none) ∧
      ∃ ts t1 t2, demoGrown.GetSecrets = some ts ∧ demoGrown.SetSecrets ts = some t1 ∧
        t1.SetHashAll = .done (t2, none) ∧
        t2.Nodes.map (fun s => s.Node) = t1.Nodes.map (fun s => s.Node) ∧
        t2.RootHash ≠ t1.RootHash) ∧
    (demoJoined2Failing.SetHashAll = .done (demoJoined2Failing, none) ∧
      ∃ t1 t2, demoJoined2Failing.Encap 0 [] [1, 1] = .done (t1, .error (.backend 3)) ∧
        t1.SetHashAll = .done (t2, none) ∧
        t2.Nodes.map (fun s => s.Node) = t1.Nodes.map (fun s => s.Node) ∧
        t2.RootHash ≠ t1.RootHash) :=
  ⟨⟨rfl, rfl, rfl, by decide, by decide, by decide⟩,
    ⟨by decide, rfl, _, rfl, by decide, by decide⟩,
    ⟨rfl, _, _, _, rfl, rfl, rfl, by decide, by decide⟩,
    ⟨rfl, _, _, rfl, rfl, by decide, by decide⟩⟩

/-- C4, as amended: let two trees have the same suite, whose encoder leaves the held
private keys out, the same width and slot by slot the same public content (blank or
occupied, key packages, parent public keys, unmerged lists, parent hashes).  If both
are built from the fresh tree by calls that succeed of `AddLeaf` at a leaf index up to
the size, `UpdateLeaf`, `BlankPath`, `Encap`, `Decap` and `SetLeafPrivateKey`, in any
number and order, then `RootHash()` returns the same bytes on both, and on each
`SetHashAll()` succeeds and leaves the tree, with its root hash, as it is.  However the
two trees were built and whatever their stored hashes, `SetHashAll()` ends the same way
on both: it panics on both, returns the same error on both, or succeeds on both, and
then `RootHash()` returns the same bytes on both and no node has changed. -/
theorem RootHash_deterministic_when_built (t u : RatchetTree) (hsuite : u.Suite = t.Suite)
    (homit : t.Suite.omitsPrivateKeys) (hwidth : u.Nodes.length = t.Nodes.length)
    (hcontent : ∀ i, u.publicAt i = t.publicAt i) :
    (Built t.Suite t → Built t.Suite u →
      t.RootHash = u.RootHash ∧ t.SetHashAll = .done (t, none) ∧
        u.SetHashAll = .done (u, none)) ∧
    ((t.SetHashAll = .panic ∧ u.SetHashAll = .panic) ∨
    (∃ t' u' e, t.SetHashAll = .done (t', some e) ∧ u.SetHashAll = .done (u', some e)) ∨
    (∃ t' u', t.SetHashAll = .done (t', none) ∧ u.SetHashAll = .done (u', none) ∧
      t'.RootHash = u'.RootHash ∧ (∀ i, t'.contentAt i = t.contentAt i) ∧
      (∀ i, u'.contentAt i = u.contentAt i))) := by
  constructor
  · intro ht hu
    exact RootHash_of_current hsuite homit hwidth hcontent (Built_current homit ht).1
      (Built_current homit hu).1
  · rcases SetHashAll_sim t u hsuite homit hwidth hcontent with h | h | h | h
    · exact Or.inl h
    · exact absurd h.1 (SetHashAll_ne_hang t)
    · exact Or.inr (Or.inl h)
    · exact Or.inr (Or.inr h)

theorem demoJoined2_built : Built demoSuite demoJoined2 :=
  @Built.addLeaf demoSuite demoWritten demoJoined2 1 (demoKeyPackage 1)
    (@Built.addLeaf demoSuite demoFresh demoWritten 0 (demoKeyPackage 0) Built.fresh
      (by decide) rfl)
    (by decide) rfl

theorem demoJoined2Held_built : Built demoSuite demoJoined2Held :=
  @Built.setLeafPrivateKey demoSuite
    (Run.tree (Run.tree demoWritten (demoWritten.AddLeaf 1 (demoKeyPackage 5)))
      ((Run.tree demoWritten (demoWritten.AddLeaf 1 (demoKeyPackage 5))).UpdateLeaf 1
        (demoKeyPackage 1)))
    demoJoined2Held 1 demoPrivate1
    (@Built.updateLeaf demoSuite
      (Run.tree demoWritten (demoWritten.AddLeaf 1 (demoKeyPackage 5))) _ 1 (demoKeyPackage 1)
      (@Built.addLeaf demoSuite demoWritten _ 1 (demoKeyPackage 5)
        (@Built.addLeaf demoSuite demoFresh demoWritten 0 (demoKeyPackage 0) Built.fresh
          (by decide) rfl)
        (by decide) rfl)
      (by decide) rfl)
    rfl

theorem demoJoined2_public (i : Nat) : demoJoined2Held.publicAt i = demoJoined2.publicAt i := by
  match i with
  | 0 => rfl
  | 1 => rfl
  | 2 => rfl
  | _ + 3 => rfl

/-- C4, a witness: the tree of two leaves built by two calls of `AddLeaf`, and the tree
with the same public content built by `AddLeaf`, `AddLeaf` with another key package,
`UpdateLeaf` and `SetLeafPrivateKey`, which holds a private key. -/
theorem RootHash_deterministic_when_built_witness :
    demoJoined2Held.Suite = demoJoined2.Suite ∧ demoJoined2.Suite.omitsPrivateKeys ∧
      demoJoined2Held.Nodes.length = demoJoined2.Nodes.length ∧
      demoJoined2Held.Nodes ≠ demoJoined2.Nodes ∧
      demoJoined2.RootHash = demoJoined2Held.RootHash ∧
      demoJoined2.SetHashAll = .done (demoJoined2, none) ∧
      demoJoined2Held.SetHashAll = .done (demoJoined2Held, none) :=
  ⟨rfl, demoSuite_omitsPrivateKeys, rfl, by decide,
    (RootHash_deterministic_when_built demoJoined2 demoJoined2Held rfl
      demoSuite_omitsPrivateKeys rfl demoJoined2_public).1 demoJoined2_built
      demoJoined2Held_built⟩

end RatchetTree
end MLS
